import Mathlib

set_option linter.unusedVariables false

/-! # Shallow embedding of the virtual-memory simulator

A faithful Lean model of `src/VirtualMemory.cpp`: hierarchical page tables
over a word-addressable physical memory with a swap store.  Stateful C++
code becomes explicit state passing; `uint64_t` arithmetic is modelled on
`Nat` (all quantities that matter stay far below `2^64` in any realizable
configuration, and every place where a `word_t`-to-`uint64_t` cast occurs
uses the explicit conversion `toU64`); `word_t` (a 32-bit signed int) is
modelled as `Int` wrapped to 32 bits on every physical store. -/

/-- Configuration constants.  `MemoryConstants.h` is supplied externally and
is not part of the repository sources.  Modelled from the spec: the
branching factor per table (`PAGE_SIZE`) is a power of two `2 ^ offsetWidth`,
the tree has fixed depth `tablesDepth`, physical memory has `numFrames`
frames, and the total virtual page count is `2 ^ (offsetWidth * tablesDepth)`. -/
structure Cfg where
  offsetWidth : Nat
  tablesDepth : Nat
  numFrames : Nat

def Cfg.PAGE_SIZE (c : Cfg) : Nat := 2 ^ c.offsetWidth

def Cfg.NUM_PAGES (c : Cfg) : Nat := 2 ^ (c.offsetWidth * c.tablesDepth)

def Cfg.VIRTUAL_MEMORY_SIZE (c : Cfg) : Nat := c.NUM_PAGES * c.PAGE_SIZE

/-- `word_t` is a 32-bit signed integer; a store of any integer into physical
memory keeps only its low 32 bits (two's complement). -/
def wrapWord (v : Int) : Int := (v + 2 ^ 31) % 2 ^ 32 - 2 ^ 31

/-- The C++ conversion of a `word_t` value to `uint64_t` (reduction mod `2^64`;
nonnegative values below `2^64` are unchanged). -/
def toU64 (v : Int) : Nat := (v % (2 ^ 64 : Int)).toNat

/-- The state of the physical-memory collaborator (`PhysicalMemory`, supplied
externally, modelled from the spec): a word-addressable RAM, a swap store
keyed by virtual page number, and (as observable instrumentation) the list of
`(frame, page)` pairs passed to `evict`, most recent first. -/
structure VMState where
  ram : Nat → Int
  swap : Nat → Nat → Int
  evictions : List (Nat × Nat)

/-- Modelled from the spec: `readWord(physicalAddress) -> word`. -/
def PMread (s : VMState) (a : Nat) : Int := s.ram a

/-- Modelled from the spec: `writeWord(physicalAddress, value)`. -/
def PMwrite (s : VMState) (a : Nat) (v : Int) : VMState :=
  { s with ram := fun x => if x = a then wrapWord v else s.ram x }

/-- Modelled from the spec: `evict(frame, virtualPage)` moves the frame's
current data page to swap storage keyed by `virtualPage`. -/
def PMevict (c : Cfg) (s : VMState) (f p : Nat) : VMState :=
  { s with
    swap := fun q => if q = p then (fun r => s.ram (f * c.PAGE_SIZE + r)) else s.swap q,
    evictions := (f, p) :: s.evictions }

/-- Modelled from the spec: `restore(frame, virtualPage)` loads the page
previously stored under `virtualPage` into `frame` (pages never evicted
read back as all-zero). -/
def PMrestore (c : Cfg) (s : VMState) (f p : Nat) : VMState :=
  { s with ram := fun x =>
      if f * c.PAGE_SIZE ≤ x ∧ x < f * c.PAGE_SIZE + c.PAGE_SIZE then
        s.swap p (x - f * c.PAGE_SIZE)
      else s.ram x }

/-- `phys(frame, row) = frame*PAGE_SIZE + row`. -/
def phys (c : Cfg) (frame row : Nat) : Nat := frame * c.PAGE_SIZE + row

/-- `offsetOf(va) = va & (PAGE_SIZE - 1)`; masking by a power of two minus
one is reduction mod that power of two. -/
def offsetOf (c : Cfg) (va : Nat) : Nat := va % c.PAGE_SIZE

/-- `indexAtLevel(va, level)`: the page-table digit consumed at `level`
(level 0 topmost); the C++ mask `& (PAGE_SIZE - 1)` is `% PAGE_SIZE`. -/
def indexAtLevel (c : Cfg) (va : Nat) (level : Nat) : Nat :=
  (va >>> (c.offsetWidth + c.offsetWidth * (c.tablesDepth - 1 - level))) % c.PAGE_SIZE

/-- `clearFrame(frame, isLeaf)`: zero every word of `frame`, but only when it
is being used as a table (`isLeaf = false`). -/
def clearFrame (c : Cfg) (s : VMState) (frame : Nat) (isLeaf : Bool) : VMState :=
  if isLeaf then s
  else (List.range c.PAGE_SIZE).foldl (fun st i => PMwrite st (phys c frame i) 0) s

/-- `UINT64_MAX`, the "nothing yet" marker of `scanInfo`. -/
def U64MAX : Nat := 2 ^ 64 - 1

/-- The `scanInfo` accumulator, with the C++ default member initializers. -/
structure scanInfo where
  emptyFrame : Nat := U64MAX
  emptyParent : Nat := U64MAX
  emptyRowInParent : Nat := U64MAX
  maxFrame : Nat := 0
  victimFrame : Nat := U64MAX
  victimParent : Nat := U64MAX
  victimRowInParent : Nat := 0
  victimPage : Nat := 0
  victimDistance : Nat := 0
deriving Repr, DecidableEq

/-- `cyclicDistance(a, b) = min(|a-b|, NUM_PAGES - |a-b|)`.  For
`a, b < NUM_PAGES` (and `NUM_PAGES < 2^64`, true of any realizable
configuration) this agrees exactly with the C++ `uint64_t` computation. -/
def cyclicDistance (c : Cfg) (a b : Nat) : Nat :=
  min (if a > b then a - b else b - a) (c.NUM_PAGES - (if a > b then a - b else b - a))

/-- The depth-`TABLES_DEPTH` branch of the `scan` row loop: a data-page
(leaf) entry competes for the eviction-victim slot by strict cyclic-distance
comparison (strictly-greater keeps the first maximum found). -/
def scanLeafChild (c : Cfg) (targetPage frame : Nat) (e preNext row : Nat)
    (i1 : scanInfo) : scanInfo :=
  let dist := cyclicDistance c preNext targetPage
  if dist > i1.victimDistance then
    { i1 with victimDistance := dist, victimFrame := e, victimPage := preNext,
              victimRowInParent := row, victimParent := frame }
  else i1

/-- One iteration of the `scan` row loop, carrying `(info, allZero)`:
skip zero entries; otherwise raise the high-water mark, extend the page
prefix by this row, and hand off to `child` (recursive descent on inner
levels, the leaf victim update on the last level). -/
def scanStep (c : Cfg) (s : VMState) (frame pre : Nat)
    (child : Nat → Nat → Nat → scanInfo → scanInfo)
    (acc : scanInfo × Bool) (row : Nat) : scanInfo × Bool :=
  let entry := PMread s (phys c frame row)
  if entry = 0 then acc
  else
    let i1 := { acc.1 with maxFrame := max acc.1.maxFrame (toU64 entry) }
    (child (toU64 entry) (pre * c.PAGE_SIZE + row) row i1, false)

/-- The code after the `scan` row loop: the early return when the
all-zero frame is the parent being populated, the recording of a first
all-zero non-root frame as the reuse candidate, and the lazy search of the
current frame's rows for the entry pointing at the recorded candidate
(first match wins). -/
def scanRecord (frame : Nat) (allZero : Bool) (info1 : scanInfo) : scanInfo :=
  if allZero ∧ frame ≠ 0 ∧ info1.emptyFrame = U64MAX then
    { info1 with emptyFrame := frame, emptyParent := U64MAX, emptyRowInParent := 0 }
  else info1

def scanFill (c : Cfg) (s : VMState) (frame : Nat) (info2 : scanInfo) : scanInfo :=
  if info2.emptyFrame ≠ U64MAX ∧ info2.emptyParent = U64MAX then
    match (List.range c.PAGE_SIZE).find?
        (fun row => toU64 (PMread s (phys c frame row)) == info2.emptyFrame) with
    | some row => { info2 with emptyParent := frame, emptyRowInParent := row }
    | none => info2
  else info2

def scanEnd (c : Cfg) (s : VMState) (frame parentFrame : Nat)
    (done : scanInfo × Bool) : scanInfo :=
  if done.2 ∧ frame = parentFrame then done.1
  else scanFill c s frame (scanRecord frame done.2 done.1)

/-- The recursive DFS `scan`.  The C++ recursion argument is `depth` with the
tests `depth + 1 < TABLES_DEPTH` (recurse) / otherwise (leaf row); here the
recursion argument is `rem = TABLES_DEPTH - depth` (levels remaining), so
`rem ≥ 2` recurses and `rem ≤ 1` treats the row as a leaf entry — the same
branch for every depth the C++ can reach.  The row loop is
`foldl (scanStep …)` over the rows, followed by `scanEnd`. -/
def scan (c : Cfg) (s : VMState) (targetPage parentFrame : Nat) :
    Nat → Nat → Nat → scanInfo → scanInfo
  | rem, frame, pre, info0 =>
    let child : Nat → Nat → Nat → scanInfo → scanInfo :=
      match rem with
      | r + 2 => fun e preNext _row i => scan c s targetPage parentFrame (r + 1) e preNext i
      | _ => fun e preNext row i => scanLeafChild c targetPage frame e preNext row i
    scanEnd c s frame parentFrame
      ((List.range c.PAGE_SIZE).foldl (scanStep c s frame pre child) (info0, true))

/-- `allocateFrame(parentFrame, ParentRow, targetPage, isLeaf)`: run the scan
from the root, then apply the three-tier priority (reuse an empty table
other than `parentFrame`; else a fresh frame `maxFrame+1` if below
`NUM_FRAMES`; else evict the victim).  Returns the chosen frame and the
resulting state.  (`ParentRow` is unused, exactly as in the C++.) -/
def allocateFrame (c : Cfg) (s : VMState) (parentFrame ParentRow targetPage : Nat)
    (isLeaf : Bool) : Nat × VMState :=
  let info := scan c s targetPage parentFrame c.tablesDepth 0 0 {}
  if info.emptyFrame ≠ U64MAX ∧ info.emptyFrame ≠ parentFrame then
    let s1 := PMwrite s (phys c info.emptyParent info.emptyRowInParent) 0
    (info.emptyFrame, clearFrame c s1 info.emptyFrame isLeaf)
  else if info.maxFrame + 1 < c.numFrames then
    (info.maxFrame + 1, clearFrame c s (info.maxFrame + 1) isLeaf)
  else
    let s1 := PMevict c s info.victimFrame info.victimPage
    let s2 := PMwrite s1 (phys c info.victimParent info.victimRowInParent) 0
    (info.victimFrame, clearFrame c s2 info.victimFrame isLeaf)

/-- The level loop of `walk`: `rem` levels remain, `level` is the current
level (the C++ loop counter), `frame` the current frame.  Returns
`(some leafFrame, s')` on success and `(none, s)` on a miss with creation
disabled. -/
def walkAux (c : Cfg) (va : Nat) (create : Bool) :
    Nat → Nat → Nat → VMState → Option Nat × VMState
  | 0, _level, frame, s => (some frame, s)
  | rem + 1, level, frame, s =>
    let row := indexAtLevel c va level
    let child := PMread s (phys c frame row)
    if child = 0 then
      if create then
        let isLeaf : Bool := level + 1 == c.tablesDepth
        let res := allocateFrame c s frame row (va >>> c.offsetWidth) isLeaf
        let s2 := if isLeaf then PMrestore c res.2 res.1 (va >>> c.offsetWidth)
                  else clearFrame c res.2 res.1 false
        let s3 := PMwrite s2 (phys c frame row) res.1
        walkAux c va create rem (level + 1) res.1 s3
      else (none, s)
    else walkAux c va create rem (level + 1) (toU64 child) s

/-- `walk(va, create)`: start at the root (frame 0, level 0) and resolve all
`TABLES_DEPTH` levels. -/
def walk (c : Cfg) (s : VMState) (va : Nat) (create : Bool) : Option Nat × VMState :=
  walkAux c va create c.tablesDepth 0 0 s

/-- `VMread`: reject out-of-range addresses with return 0 and no state
change; otherwise walk with creation enabled (ignoring the walk's boolean
result, as the C++ does), read the word, return 1.  The out-parameter is
modelled as `Option Int` (`none` = not written). -/
def VMread (c : Cfg) (s : VMState) (va : Nat) : (Nat × Option Int) × VMState :=
  if va ≥ c.VIRTUAL_MEMORY_SIZE then ((0, none), s)
  else
    let w := walk c s va true
    ((1, some (PMread w.2 (phys c (w.1.getD 0) (offsetOf c va)))), w.2)

/-- `VMwrite`: reject out-of-range addresses with return 0 and no state
change; otherwise walk with creation enabled and store the word, return 1. -/
def VMwrite (c : Cfg) (s : VMState) (va : Nat) (v : Int) : Nat × VMState :=
  if va ≥ c.VIRTUAL_MEMORY_SIZE then (0, s)
  else
    let w := walk c s va true
    (1, PMwrite w.2 (phys c (w.1.getD 0) (offsetOf c va)) v)

/-- `VMinitialize`: clear frame 0 as a table. -/
def VMinitialize (c : Cfg) (s : VMState) : VMState := clearFrame c s 0 false

/-- The physical-memory collaborator's storage is statically allocated, hence
zero-initialized before `VMinitialize` runs. -/
def zeroState : VMState := ⟨fun _ => 0, fun _ _ => 0, []⟩

/-- The initialized state: `VMinitialize` applied to the zeroed substrate. -/
def initialState (c : Cfg) : VMState := VMinitialize c zeroState

/-- A public-API operation: `VMread` or `VMwrite` at a virtual address. -/
inductive Op where
  | rd (va : Nat)
  | wr (va : Nat) (v : Int)
deriving Repr, DecidableEq

/-- The state left behind by one public-API operation. -/
def applyOp (c : Cfg) (s : VMState) : Op → VMState
  | .rd va => (VMread c s va).2
  | .wr va v => (VMwrite c s va v).2

/-- Run a sequence of public-API operations, first to last. -/
def runOps (c : Cfg) (s : VMState) (ops : List Op) : VMState := ops.foldl (applyOp c) s

/-- The virtual address an operation touches. -/
def opVA : Op → Nat
  | .rd va => va
  | .wr va _ => va

/-- A reference configuration used for concrete witnesses:
`OFFSET_WIDTH = 1`, `TABLES_DEPTH = 2`, `NUM_FRAMES = 3`; hence
`PAGE_SIZE = 2`, `NUM_PAGES = 4`, `VIRTUAL_MEMORY_SIZE = 8`. -/
def testCfg : Cfg := ⟨1, 2, 3⟩

/-- Every word stored in RAM is a 32-bit signed value. -/
def RamOK (s : VMState) : Prop :=
  ∀ a, -(2 ^ 31 : Int) ≤ s.ram a ∧ s.ram a < 2 ^ 31

/-- Every word in the swap store is a 32-bit signed value. -/
def SwapOK (s : VMState) : Prop :=
  ∀ p r, -(2 ^ 31 : Int) ≤ s.swap p r ∧ s.swap p r < 2 ^ 31

/-- The combined state invariant used for C5: words are in range and no
recorded eviction ever targeted frame 0. -/
def GoodS (s : VMState) : Prop :=
  RamOK s ∧ SwapOK s ∧ ∀ fp ∈ s.evictions, fp.1 ≠ 0

/-! ## Semantic view of the page-table tree

The following definitions are not part of the C++ program: they give names
to the tree structure stored in physical memory, used to state and prove
the structural claims.  `edges` enumerates, in exactly the scan's DFS
order, the nonzero table entries (ownership edges) of the tree. -/

/-- One ownership edge of the page-table tree as the DFS scan traverses it:
the table `parent` holds, at `row`, the nonzero entry whose `uint64_t` image
is `child`; `pre` is the page prefix accumulated through this edge, and
`leaf` marks a depth-`TABLES_DEPTH` (data page) child. -/
structure Edge where
  parent : Nat
  row : Nat
  child : Nat
  pre : Nat
  leaf : Bool
deriving Repr, DecidableEq

/-- DFS (scan-order) enumeration of the edges of the subtree rooted at
`frame`, with `rem` levels remaining and accumulated page prefix `pre`:
exactly the nonzero entries the scan visits, in visiting order. -/
def edges (c : Cfg) (s : VMState) : Nat → Nat → Nat → List Edge
  | rem, frame, pre =>
    let sub : Nat → Nat → List Edge :=
      match rem with
      | r + 2 => fun ch preNext => edges c s (r + 1) ch preNext
      | _ => fun _ _ => []
    let isLast : Bool :=
      match rem with
      | _ + 2 => false
      | _ => true
    (List.range c.PAGE_SIZE).flatMap fun row =>
      if PMread s (phys c frame row) = 0 then []
      else
        ⟨frame, row, toU64 (PMread s (phys c frame row)), pre * c.PAGE_SIZE + row, isLast⟩ ::
          sub (toU64 (PMread s (phys c frame row))) (pre * c.PAGE_SIZE + row)

/-- The frames pointed to by a list of edges. -/
def targetsOf (es : List Edge) : List Nat := es.map Edge.child

/-- The table (non-leaf) frames pointed to by a list of edges. -/
def tableChildren (es : List Edge) : List Nat :=
  (es.filter (fun e => !e.leaf)).map Edge.child

/-- The full edge listing of the live tree, from the root. -/
def rootEdges (c : Cfg) (s : VMState) : List Edge := edges c s c.tablesDepth 0 0

/-- All table frames of the live tree, root first, then in DFS order. -/
def tablesOf (c : Cfg) (s : VMState) : List Nat := 0 :: tableChildren (rootEdges c s)

/-- The data-page (leaf) edges of the live tree, in DFS order. -/
def leafEdges (c : Cfg) (s : VMState) : List Edge := (rootEdges c s).filter Edge.leaf

/-- A frame all of whose words are zero — an empty table. -/
def AllZeroF (c : Cfg) (s : VMState) (f : Nat) : Prop :=
  ∀ row < c.PAGE_SIZE, PMread s (phys c f row) = 0

/-- The reuse candidates of the subtree rooted at `f` (`rem` levels
remaining), in the order the scan records them: every all-zero table frame
the scan visits, excluding the root and the parent being populated. -/
def candsHere (c : Cfg) (s : VMState) (parentFrame f : Nat) (rest : List Nat) :
    List Nat :=
  if ∀ row < c.PAGE_SIZE, PMread s (phys c f row) = 0 then
    if f = 0 ∨ f = parentFrame then [] else [f]
  else rest

def candsIn (c : Cfg) (s : VMState) (parentFrame : Nat) : Nat → Nat → List Nat
  | 0, f => candsHere c s parentFrame f []
  | 1, f => candsHere c s parentFrame f []
  | r + 2, f =>
    candsHere c s parentFrame f
      ((List.range c.PAGE_SIZE).flatMap fun row =>
        if PMread s (phys c f row) = 0 then []
        else candsIn c s parentFrame (r + 1) (toU64 (PMread s (phys c f row))))

/-- The reuse candidates of the whole live tree, in scan order. -/
def cands (c : Cfg) (s : VMState) (parentFrame : Nat) : List Nat :=
  candsIn c s parentFrame c.tablesDepth 0

/-- Every word of every live table frame is a valid entry: zero or a frame
index below `NUM_FRAMES`. -/
def cellsOK (c : Cfg) (s : VMState) : Prop :=
  ∀ f ∈ tablesOf c s, ∀ row < c.PAGE_SIZE,
    0 ≤ PMread s (phys c f row) ∧ PMread s (phys c f row) < (c.numFrames : Int)

/-- Uniqueness: the root and all edge targets are pairwise distinct — no two
table entries reference the same frame, and none references the root. -/
def treeUniq (c : Cfg) (s : VMState) : Prop :=
  (0 :: targetsOf (rootEdges c s)).Nodup

/-- Well-formedness of the live tree. -/
def WF (c : Cfg) (s : VMState) : Prop := cellsOK c s ∧ treeUniq c s

/-- Follow the rows of `q` down the tree from `f`, failing on a zero entry
(the path-resolution semantics of the walker's descent). -/
def pathTo (c : Cfg) (s : VMState) : Nat → List Nat → Option Nat
  | f, [] => some f
  | f, r :: q =>
    if PMread s (phys c f r) = 0 then none
    else pathTo c s (toU64 (PMread s (phys c f r))) q

/-- All rows of a path are legal row indices. -/
def RowsOK (c : Cfg) (q : List Nat) : Prop := ∀ r ∈ q, r < c.PAGE_SIZE

/-- `f` is the frame at tree position `q` (a path from the root of length at
most `TABLES_DEPTH`). -/
def Mapped (c : Cfg) (s : VMState) (q : List Nat) (f : Nat) : Prop :=
  RowsOK c q ∧ q.length ≤ c.tablesDepth ∧ pathTo c s 0 q = some f

/-- `f` is somewhere in the live tree. -/
def InUse (c : Cfg) (s : VMState) (f : Nat) : Prop := ∃ q, Mapped c s q f

/-- Digit-concatenation: extend prefix `pre` by the digits `q`
(most significant first). -/
def digitsVal (c : Cfg) (pre : Nat) (q : List Nat) : Nat :=
  q.foldl (fun a r => a * c.PAGE_SIZE + r) pre

/-- The `TABLES_DEPTH` page-table digits of page `p`, most significant
first. -/
def pageDigits (c : Cfg) (p : Nat) : List Nat :=
  (List.range c.tablesDepth).map fun j =>
    p / c.PAGE_SIZE ^ (c.tablesDepth - 1 - j) % c.PAGE_SIZE

/-- The data frame serving page `p`, when `p` is mapped. -/
def leafOf (c : Cfg) (s : VMState) (p : Nat) : Option Nat :=
  pathTo c s 0 (pageDigits c p)

/-- The logical content of page `p` at offset `r`: the physical word when
the page is mapped, its swap image otherwise. -/
def content (c : Cfg) (s : VMState) (p r : Nat) : Int :=
  match leafOf c s p with
  | some f => s.ram (phys c f r)
  | none => s.swap p r

/-- A realizable configuration: nonzero branching and depth, enough frames
for one full path (root, `TABLES_DEPTH - 1` intermediate tables, one data
page), and a frame count a `word_t` entry can hold. -/
def CfgOK (c : Cfg) : Prop :=
  1 ≤ c.offsetWidth ∧ 1 ≤ c.tablesDepth ∧ c.tablesDepth + 1 ≤ c.numFrames ∧
    c.numFrames ≤ 2 ^ 31

instance (c : Cfg) (s : VMState) (f : Nat) : Decidable (AllZeroF c s f) := by
  unfold AllZeroF
  infer_instance

instance (c : Cfg) (s : VMState) : Decidable (cellsOK c s) := by
  unfold cellsOK
  infer_instance

instance (c : Cfg) (s : VMState) : Decidable (treeUniq c s) := by
  unfold treeUniq
  infer_instance

instance (c : Cfg) (s : VMState) : Decidable (WF c s) := by
  unfold WF
  infer_instance

instance (c : Cfg) (q : List Nat) : Decidable (RowsOK c q) := by
  unfold RowsOK
  infer_instance

instance (c : Cfg) (s : VMState) (q : List Nat) (f : Nat) : Decidable (Mapped c s q f) := by
  unfold Mapped
  infer_instance

instance (c : Cfg) : Decidable (CfgOK c) := by
  unfold CfgOK
  infer_instance

/-- The empty-table (reuse-candidate) fields of a `scanInfo`. -/
def emptyOf (i : scanInfo) : Nat × Nat × Nat :=
  (i.emptyFrame, i.emptyParent, i.emptyRowInParent)

/-- The edge-list contribution of one row of an inner-level table. -/
def edgeComp (c : Cfg) (s : VMState) (r frame pre : Nat) (row : Nat) : List Edge :=
  if PMread s (phys c frame row) = 0 then []
  else
    ⟨frame, row, toU64 (PMread s (phys c frame row)), pre * c.PAGE_SIZE + row, false⟩ ::
      edges c s (r + 1) (toU64 (PMread s (phys c frame row))) (pre * c.PAGE_SIZE + row)

/-- The reuse-candidate contribution of one row of an inner-level table. -/
def candComp (c : Cfg) (s : VMState) (pf r frame : Nat) (row : Nat) : List Nat :=
  if PMread s (phys c frame row) = 0 then []
  else candsIn c s pf (r + 1) (toU64 (PMread s (phys c frame row)))

/-- The victim-selection fields of a `scanInfo`. -/
def victimOf (i : scanInfo) : Nat × Nat × Nat × Nat × Nat :=
  (i.victimFrame, i.victimParent, i.victimRowInParent, i.victimPage, i.victimDistance)

/-- The cyclic distance from an edge's page number to the target page. -/
def distTo (c : Cfg) (tp : Nat) (e : Edge) : Nat := cyclicDistance c e.pre tp

/-- Folding one leaf edge into the victim slot (the leaf branch of the scan
row loop, expressed on `Edge`). -/
def victimCombine (c : Cfg) (tp : Nat) (i : scanInfo) (e : Edge) : scanInfo :=
  scanLeafChild c tp e.parent e.child e.pre e.row i

/-- The scan that `allocateFrame` performs: whole tree, default accumulator. -/
def scanRoot (c : Cfg) (s : VMState) (targetPage parentFrame : Nat) : scanInfo :=
  scan c s targetPage parentFrame c.tablesDepth 0 0 {}

/-- The victim-selection step on bare victim tuples
`(frame, parent, row, page, distance)`: a leaf edge strictly farther from
the target replaces the current victim. -/
def vstep (c : Cfg) (tp : Nat) (v : Nat × Nat × Nat × Nat × Nat) (e : Edge) :
    Nat × Nat × Nat × Nat × Nat :=
  if distTo c tp e > v.2.2.2.2 then (e.child, e.parent, e.row, e.pre, distTo c tp e) else v

/-- A concrete reachable state in the reference configuration (writes to
pages 0, 3, 1 under three physical frames force one eviction per step),
used by several witnesses. -/
def witState : VMState :=
  runOps testCfg (initialState testCfg) [Op.wr 0 41, Op.wr 6 42, Op.wr 2 43]

/-- The full specification of the reuse-candidate fields of one scan call:
with no candidate recorded yet, the scan finds exactly the head of the
DFS candidate list (parent entry resolved unless the candidate is the
subtree root itself); a pending candidate not referenced in this subtree
passes through untouched; a resolved candidate is frozen. -/
def EmptySpec (c : Cfg) (s : VMState) (tp pf rem frame pre : Nat)
    (info : scanInfo) : Prop :=
  (info.emptyFrame = U64MAX →
    (candsIn c s pf rem frame = [] →
      emptyOf (scan c s tp pf rem frame pre info) = emptyOf info) ∧
    (∀ E0 t, candsIn c s pf rem frame = E0 :: t →
      (scan c s tp pf rem frame pre info).emptyFrame = E0 ∧
      ((E0 = frame ∧ (scan c s tp pf rem frame pre info).emptyParent = U64MAX ∧
          (scan c s tp pf rem frame pre info).emptyRowInParent = 0) ∨
        (∃ e ∈ edges c s rem frame pre, e.leaf = false ∧ e.child = E0 ∧
          (scan c s tp pf rem frame pre info).emptyParent = e.parent ∧
          (scan c s tp pf rem frame pre info).emptyRowInParent = e.row)))) ∧
  (info.emptyFrame ≠ U64MAX → info.emptyParent = U64MAX → info.emptyFrame ≠ 0 →
    info.emptyFrame ∉ targetsOf (edges c s rem frame pre) →
    emptyOf (scan c s tp pf rem frame pre info) = emptyOf info) ∧
  (info.emptyFrame ≠ U64MAX → info.emptyParent ≠ U64MAX →
    emptyOf (scan c s tp pf rem frame pre info) = emptyOf info)

/-- The same specification for the partially executed row loop of an
inner-level scan over an arbitrary suffix `l` of the row list. -/
def FoldSpec (c : Cfg) (s : VMState) (tp pf r frame pre : Nat)
    (l : List Nat) (acc : scanInfo × Bool) : Prop :=
  (acc.1.emptyFrame = U64MAX →
    (l.flatMap (candComp c s pf r frame) = [] →
      emptyOf (l.foldl (scanStep c s frame pre
        (fun e preNext _row i => scan c s tp pf (r + 1) e preNext i)) acc).1
        = emptyOf acc.1) ∧
    (∀ E0 t, l.flatMap (candComp c s pf r frame) = E0 :: t →
      (l.foldl (scanStep c s frame pre
        (fun e preNext _row i => scan c s tp pf (r + 1) e preNext i)) acc).1.emptyFrame
        = E0 ∧
      ((∃ row ∈ l, PMread s (phys c frame row) ≠ 0 ∧
          toU64 (PMread s (phys c frame row)) = E0 ∧
          (l.foldl (scanStep c s frame pre
            (fun e preNext _row i => scan c s tp pf (r + 1) e preNext i)) acc).1.emptyParent
            = U64MAX ∧
          (l.foldl (scanStep c s frame pre
            (fun e preNext _row i => scan c s tp pf (r + 1) e preNext i)) acc).1.emptyRowInParent
            = 0) ∨
        (∃ e ∈ l.flatMap (edgeComp c s r frame pre), e.leaf = false ∧ e.child = E0 ∧
          (l.foldl (scanStep c s frame pre
            (fun e preNext _row i => scan c s tp pf (r + 1) e preNext i)) acc).1.emptyParent
            = e.parent ∧
          (l.foldl (scanStep c s frame pre
            (fun e preNext _row i => scan c s tp pf (r + 1) e preNext i)) acc).1.emptyRowInParent
            = e.row)))) ∧
  (acc.1.emptyFrame ≠ U64MAX → acc.1.emptyParent = U64MAX → acc.1.emptyFrame ≠ 0 →
    acc.1.emptyFrame ∉ targetsOf (l.flatMap (edgeComp c s r frame pre)) →
    emptyOf (l.foldl (scanStep c s frame pre
      (fun e preNext _row i => scan c s tp pf (r + 1) e preNext i)) acc).1
      = emptyOf acc.1) ∧
  (acc.1.emptyFrame ≠ U64MAX → acc.1.emptyParent ≠ U64MAX →
    emptyOf (l.foldl (scanStep c s frame pre
      (fun e preNext _row i => scan c s tp pf (r + 1) e preNext i)) acc).1
      = emptyOf acc.1)

/-- The successive child frames visited while resolving a row path
(stopping at a zero entry). -/
def pathNodes (c : Cfg) (s : VMState) : Nat → List Nat → List Nat
  | _, [] => []
  | f, r :: q =>
    if PMread s (phys c f r) = 0 then []
    else toU64 (PMread s (phys c f r)) :: pathNodes c s (toU64 (PMread s (phys c f r))) q

/-- Downward closure of the live frames: whenever frame `t` is in the
tree, every frame `1..t` is too — the shape the allocator's fresh-frame
policy (`maxFrame + 1`) maintains. -/
def CONTIG (c : Cfg) (s : VMState) : Prop :=
  ∀ t ∈ targetsOf (rootEdges c s), ∀ j, 1 ≤ j → j ≤ t →
    j ∈ targetsOf (rootEdges c s)

/-- The state after the allocator detaches edge `e` (writing zero into the
parent entry) and clears the detached frame according to `isLeaf`. -/
def pruneClear (c : Cfg) (s : VMState) (e : Edge) (isLeaf : Bool) : VMState :=
  clearFrame c (PMwrite s (phys c e.parent e.row) 0) e.child isLeaf

/-- The reachable-state invariant: word ranges, valid cells, no duplicate
frame references, and contiguous frame usage. -/
def StateInv (c : Cfg) (s : VMState) : Prop :=
  GoodS s ∧ cellsOK c s ∧ treeUniq c s ∧ CONTIG c s

/-! ## Basic arithmetic facts about words and the configuration -/

/-- A wrapped store always lies in the 32-bit signed range. -/
theorem wrapWord_bounds (v : Int) : -(2 ^ 31) ≤ wrapWord v ∧ wrapWord v < 2 ^ 31 := by
  unfold wrapWord
  have h1 := Int.emod_nonneg (v + 2 ^ 31) (by norm_num : (2 ^ 32 : Int) ≠ 0)
  have h2 := Int.emod_lt_of_pos (v + 2 ^ 31) (by norm_num : (0 : Int) < 2 ^ 32)
  omega

/-- Storing an in-range word is the identity. -/
theorem wrapWord_eq_self {v : Int} (h1 : -(2 ^ 31) ≤ v) (h2 : v < 2 ^ 31) :
    wrapWord v = v := by
  unfold wrapWord
  have : v + 2 ^ 31 < 2 ^ 32 := by omega
  rw [Int.emod_eq_of_lt (by omega) this]
  omega

/-- A nonnegative word converts to `uint64_t` as its own numeral. -/
theorem toU64_of_nonneg {v : Int} (h : 0 ≤ v) (h2 : v < 2 ^ 31) :
    (toU64 v : Int) = v := by
  unfold toU64
  rw [Int.emod_eq_of_lt h (by omega)]
  omega

/-- The `uint64_t` image of a nonzero in-range word is nonzero. -/
theorem toU64_ne_zero {v : Int} (h1 : -(2 ^ 31) ≤ v) (h2 : v < 2 ^ 31) (h0 : v ≠ 0) :
    toU64 v ≠ 0 := by
  unfold toU64
  omega

theorem PAGE_SIZE_pos (c : Cfg) : 0 < c.PAGE_SIZE := Nat.pos_pow_of_pos _ (by norm_num)

/-! ## Claim C9: cyclic distance correctness -/


/-- C9: for all page numbers `a, b < NUM_PAGES`,
`cyclicDistance(a, b) = cyclicDistance(b, a)` and
`cyclicDistance(a, b) ≤ NUM_PAGES / 2`. -/
theorem C9_cyclicDistance_correct (c : Cfg) (a b : Nat)
    (ha : a < c.NUM_PAGES) (hb : b < c.NUM_PAGES) :
    cyclicDistance c a b = cyclicDistance c b a ∧
    cyclicDistance c a b ≤ c.NUM_PAGES / 2 := by
  unfold cyclicDistance
  split <;> split <;> omega

/-- Witness for C9 at `a = 1`, `b = 3` in the reference configuration. -/
theorem C9_cyclicDistance_correct_witness :
    cyclicDistance testCfg 1 3 = cyclicDistance testCfg 3 1 ∧
    cyclicDistance testCfg 1 3 ≤ testCfg.NUM_PAGES / 2 :=
  C9_cyclicDistance_correct testCfg 1 3 (by decide) (by decide)

/-! ## Claim C2: range check and always-succeeding in-range operations -/

/-- C2: an out-of-range virtual address makes both `VMread` and `VMwrite`
return 0 and leave the whole state (physical memory, page tables, swap,
eviction history) unchanged, and `VMread` does not write its out-parameter;
every in-range address makes both return 1 — the walk is invoked with
creation enabled and its outcome is never surfaced. -/
theorem C2_range_error (c : Cfg) (s : VMState) (va : Nat) (v : Int) :
    (c.VIRTUAL_MEMORY_SIZE ≤ va →
      VMread c s va = ((0, none), s) ∧ VMwrite c s va v = (0, s)) ∧
    (va < c.VIRTUAL_MEMORY_SIZE →
      (VMread c s va).1.1 = 1 ∧ (VMwrite c s va v).1 = 1) := by
  constructor
  · intro h
    constructor
    · unfold VMread
      rw [if_pos h]
    · unfold VMwrite
      rw [if_pos h]
  · intro h
    constructor
    · unfold VMread
      rw [if_neg (by omega)]
    · unfold VMwrite
      rw [if_neg (by omega)]

/-- Witness for C2: address 8 is out of range in the reference configuration
(`VIRTUAL_MEMORY_SIZE = 8`) and address 3 is in range. -/
theorem C2_range_error_witness :
    (VMread testCfg (initialState testCfg) 8 = ((0, none), initialState testCfg) ∧
     VMwrite testCfg (initialState testCfg) 8 5 = (0, initialState testCfg)) ∧
    ((VMread testCfg (initialState testCfg) 3).1.1 = 1 ∧
     (VMwrite testCfg (initialState testCfg) 3 5).1 = 1) :=
  ⟨(C2_range_error testCfg (initialState testCfg) 8 5).1 (by decide),
   (C2_range_error testCfg (initialState testCfg) 3 5).2 (by decide)⟩

/-! ## Unfolding lemmas for `scan` -/

/-- Unfold `scan` at an inner level (`rem = r + 2`): the row loop descends
recursively. -/
theorem scan_unfold2 (c : Cfg) (s : VMState) (tp pf r frame pre : Nat) (info : scanInfo) :
    scan c s tp pf (r + 2) frame pre info =
    scanEnd c s frame pf ((List.range c.PAGE_SIZE).foldl
      (scanStep c s frame pre (fun e preNext _row i => scan c s tp pf (r + 1) e preNext i))
      (info, true)) := by
  rw [scan]

/-- Unfold `scan` at the last level (`rem = 1`): rows are leaf entries. -/
theorem scan_unfold1 (c : Cfg) (s : VMState) (tp pf frame pre : Nat) (info : scanInfo) :
    scan c s tp pf 1 frame pre info =
    scanEnd c s frame pf ((List.range c.PAGE_SIZE).foldl
      (scanStep c s frame pre (fun e preNext row i => scanLeafChild c tp frame e preNext row i))
      (info, true)) := by
  rw [scan]
  intros; omega

/-- Unfold `scan` at `rem = 0` (a zero-depth tree; same branch as `rem = 1`). -/
theorem scan_unfold0 (c : Cfg) (s : VMState) (tp pf frame pre : Nat) (info : scanInfo) :
    scan c s tp pf 0 frame pre info =
    scanEnd c s frame pf ((List.range c.PAGE_SIZE).foldl
      (scanStep c s frame pre (fun e preNext row i => scanLeafChild c tp frame e preNext row i))
      (info, true)) := by
  rw [scan]
  intros; omega

/-! ## Well-formed words and the eviction trace: invariants for C5 -/

theorem RamOK_PMwrite {s : VMState} (h : RamOK s) (a : Nat) (v : Int) :
    RamOK (PMwrite s a v) := by
  intro x
  unfold PMwrite
  dsimp only
  split
  · exact wrapWord_bounds v
  · exact h x

theorem GoodS_PMwrite {s : VMState} (h : GoodS s) (a : Nat) (v : Int) :
    GoodS (PMwrite s a v) :=
  ⟨RamOK_PMwrite h.1 a v, h.2.1, h.2.2⟩

theorem GoodS_PMrestore {c : Cfg} {s : VMState} (h : GoodS s) (f p : Nat) :
    GoodS (PMrestore c s f p) := by
  refine ⟨fun x => ?_, h.2.1, h.2.2⟩
  unfold PMrestore
  dsimp only
  split
  · exact h.2.1 p _
  · exact h.1 x

/-- `PMevict` preserves the invariant provided the evicted frame is nonzero. -/
theorem GoodS_PMevict {c : Cfg} {s : VMState} (h : GoodS s) {f : Nat} (p : Nat)
    (hf : f ≠ 0) : GoodS (PMevict c s f p) := by
  refine ⟨h.1, fun q r => ?_, fun fp hfp => ?_⟩
  · unfold PMevict
    dsimp only
    split
    · exact h.1 _
    · exact h.2.1 q r
  · have hm : fp ∈ (f, p) :: s.evictions := hfp
    rcases List.mem_cons.1 hm with h1 | h1
    · rw [h1]
      exact hf
    · exact h.2.2 fp h1

theorem GoodS_clearFrame {c : Cfg} {s : VMState} (h : GoodS s) (f : Nat) (b : Bool) :
    GoodS (clearFrame c s f b) := by
  unfold clearFrame
  split
  · exact h
  · suffices hgen : ∀ (l : List Nat) (t : VMState), GoodS t →
        GoodS (l.foldl (fun st i => PMwrite st (phys c f i) 0) t) from
      hgen _ s h
    intro l
    induction l with
    | nil => intro t ht; exact ht
    | cons i tl ih =>
      intro t ht
      rw [List.foldl_cons]
      exact ih _ (GoodS_PMwrite ht _ _)

theorem clearFrame_evictions (c : Cfg) (s : VMState) (f : Nat) (b : Bool) :
    (clearFrame c s f b).evictions = s.evictions := by
  unfold clearFrame
  split
  · rfl
  · suffices hgen : ∀ (l : List Nat) (t : VMState),
        (l.foldl (fun st i => PMwrite st (phys c f i) 0) t).evictions = t.evictions by
      exact hgen _ s
    intro l
    induction l with
    | nil => intro t; rfl
    | cons i tl ih =>
      intro t
      rw [List.foldl_cons]
      exact ih _

/-- Folding the scan row loop preserves any property of the accumulated
`scanInfo` that ignores `maxFrame` updates and is preserved by `child` on
nonzero frame arguments. -/
theorem foldl_scanStep_pres (c : Cfg) (s : VMState) (frame pre : Nat)
    (child : Nat → Nat → Nat → scanInfo → scanInfo) (P : scanInfo → Prop)
    (hram : RamOK s)
    (hmax : ∀ i m, P i → P { i with maxFrame := m })
    (hchild : ∀ e p r i, e ≠ 0 → P i → P (child e p r i)) :
    ∀ (l : List Nat) (acc : scanInfo × Bool), P acc.1 →
      P ((l.foldl (scanStep c s frame pre child) acc).1) := by
  intro l
  induction l with
  | nil => intro acc h; exact h
  | cons row tl ih =>
    intro acc h
    rw [List.foldl_cons]
    apply ih
    unfold scanStep
    dsimp only
    split
    · exact h
    · next hne =>
      exact hchild _ _ _ _ (toU64_ne_zero (hram _).1 (hram _).2 hne) (hmax _ _ h)

/-- `scanEnd` keeps `emptyFrame` and `victimFrame` nonzero: the recording
branch is guarded by `frame ≠ 0` and the lazy fill touches only the parent
fields. -/
theorem scanRecord_ne_zero (frame : Nat) (az : Bool) (i1 : scanInfo)
    (h : i1.emptyFrame ≠ 0 ∧ i1.victimFrame ≠ 0) :
    (scanRecord frame az i1).emptyFrame ≠ 0 ∧ (scanRecord frame az i1).victimFrame ≠ 0 := by
  unfold scanRecord
  split
  · next hrec => exact ⟨hrec.2.1, h.2⟩
  · exact h

theorem scanFill_ne_zero (c : Cfg) (s : VMState) (frame : Nat) (i2 : scanInfo)
    (h : i2.emptyFrame ≠ 0 ∧ i2.victimFrame ≠ 0) :
    (scanFill c s frame i2).emptyFrame ≠ 0 ∧ (scanFill c s frame i2).victimFrame ≠ 0 := by
  unfold scanFill
  split
  · split
    · exact h
    · exact h
  · exact h

theorem scanEnd_ne_zero (c : Cfg) (s : VMState) (frame pf : Nat) (done : scanInfo × Bool)
    (h : done.1.emptyFrame ≠ 0 ∧ done.1.victimFrame ≠ 0) :
    (scanEnd c s frame pf done).emptyFrame ≠ 0 ∧
    (scanEnd c s frame pf done).victimFrame ≠ 0 := by
  unfold scanEnd
  split
  · exact h
  · exact scanFill_ne_zero c s frame _ (scanRecord_ne_zero frame _ _ h)

/-- Throughout a `scan`, the `emptyFrame` and `victimFrame` slots never hold
frame 0: the reuse candidate is recorded under a `frame ≠ 0` guard and the
victim is always a nonzero table entry. -/
theorem scan_fields_ne_zero (c : Cfg) (s : VMState) (hram : RamOK s) (tp pf : Nat) :
    ∀ rem frame pre info, info.emptyFrame ≠ 0 → info.victimFrame ≠ 0 →
      (scan c s tp pf rem frame pre info).emptyFrame ≠ 0 ∧
      (scan c s tp pf rem frame pre info).victimFrame ≠ 0 := by
  intro rem
  induction rem using Nat.strong_induction_on with
  | _ rem ih =>
    have hleaf : ∀ frame pre info, info.emptyFrame ≠ 0 → info.victimFrame ≠ 0 →
        (scanEnd c s frame pf ((List.range c.PAGE_SIZE).foldl
          (scanStep c s frame pre
            (fun e preNext row i => scanLeafChild c tp frame e preNext row i))
          (info, true))).emptyFrame ≠ 0 ∧
        (scanEnd c s frame pf ((List.range c.PAGE_SIZE).foldl
          (scanStep c s frame pre
            (fun e preNext row i => scanLeafChild c tp frame e preNext row i))
          (info, true))).victimFrame ≠ 0 := by
      intro frame pre info he hv
      apply scanEnd_ne_zero
      apply foldl_scanStep_pres c s frame pre _
        (fun i => i.emptyFrame ≠ 0 ∧ i.victimFrame ≠ 0) hram
      · exact fun i m hi => hi
      · intro e p r i hene hi
        unfold scanLeafChild
        dsimp only
        split
        · exact ⟨hi.1, hene⟩
        · exact hi
      · exact ⟨he, hv⟩
    rcases rem with _ | rem
    · intro frame pre info he hv
      rw [scan_unfold0]
      exact hleaf frame pre info he hv
    rcases rem with _ | r
    · intro frame pre info he hv
      rw [scan_unfold1]
      exact hleaf frame pre info he hv
    · intro frame pre info he hv
      rw [scan_unfold2]
      apply scanEnd_ne_zero
      apply foldl_scanStep_pres c s frame pre _
        (fun i => i.emptyFrame ≠ 0 ∧ i.victimFrame ≠ 0) hram
      · exact fun i m hi => hi
      · intro e p rr i hene hi
        exact ih (r + 1) (by omega) e p i hi.1 hi.2
      · exact ⟨he, hv⟩

/-- The nonzero-fields fact for the root scan made by `allocateFrame`. -/
theorem scan_root_ne_zero (c : Cfg) (s : VMState) (hram : RamOK s) (tp pf : Nat) :
    (scan c s tp pf c.tablesDepth 0 0 {}).emptyFrame ≠ 0 ∧
    (scan c s tp pf c.tablesDepth 0 0 {}).victimFrame ≠ 0 :=
  scan_fields_ne_zero c s hram tp pf c.tablesDepth 0 0 {}
    (by norm_num [U64MAX]) (by norm_num [U64MAX])

/-- On a well-formed state, `allocateFrame` never returns frame 0 (on any of
the three priority paths), preserves well-formedness, and every eviction it
performs targets a nonzero frame. -/
theorem allocateFrame_C5 (c : Cfg) (s : VMState) (hg : GoodS s)
    (pf pr tp : Nat) (leaf : Bool) :
    (allocateFrame c s pf pr tp leaf).1 ≠ 0 ∧
    GoodS (allocateFrame c s pf pr tp leaf).2 := by
  have hscan := scan_root_ne_zero c s hg.1 tp pf
  unfold allocateFrame
  dsimp only
  split
  · exact ⟨hscan.1, GoodS_clearFrame (GoodS_PMwrite hg _ _) _ _⟩
  · split
    · exact ⟨Nat.succ_ne_zero _, GoodS_clearFrame hg _ _⟩
    · exact ⟨hscan.2,
        GoodS_clearFrame (GoodS_PMwrite (GoodS_PMevict hg _ hscan.2) _ _) _ _⟩

/-- The translation walker preserves the C5 state invariant. -/
theorem GoodS_walkAux (c : Cfg) (va : Nat) (create : Bool) :
    ∀ rem level frame (s : VMState), GoodS s →
      GoodS (walkAux c va create rem level frame s).2 := by
  intro rem
  induction rem with
  | zero => intro level frame s h; exact h
  | succ rem ih =>
    intro level frame s h
    rw [walkAux]
    dsimp only
    split
    · split
      · apply ih
        apply GoodS_PMwrite
        split
        · exact GoodS_PMrestore (allocateFrame_C5 c s h _ _ _ _).2 _ _
        · exact GoodS_clearFrame (allocateFrame_C5 c s h _ _ _ _).2 _ _
      · exact h
    · exact ih _ _ _ h

theorem GoodS_VMread (c : Cfg) (s : VMState) (va : Nat) (h : GoodS s) :
    GoodS (VMread c s va).2 := by
  unfold VMread
  dsimp only
  split
  · exact h
  · exact GoodS_walkAux c va true _ _ _ s h

theorem GoodS_VMwrite (c : Cfg) (s : VMState) (va : Nat) (v : Int) (h : GoodS s) :
    GoodS (VMwrite c s va v).2 := by
  unfold VMwrite
  dsimp only
  split
  · exact h
  · exact GoodS_PMwrite (GoodS_walkAux c va true _ _ _ s h) _ _

theorem GoodS_runOps (c : Cfg) (ops : List Op) :
    ∀ s : VMState, GoodS s → GoodS (runOps c s ops) := by
  induction ops with
  | nil => intro s h; exact h
  | cons op tl ih =>
    intro s h
    cases op with
    | rd va =>
      rw [runOps, List.foldl_cons]
      exact ih _ (GoodS_VMread c s va h)
    | wr va v =>
      rw [runOps, List.foldl_cons]
      exact ih _ (GoodS_VMwrite c s va v h)

theorem GoodS_initialState (c : Cfg) : GoodS (initialState c) :=
  GoodS_clearFrame ⟨fun a => by norm_num [zeroState], fun p r => by norm_num [zeroState],
    fun fp hfp => absurd hfp (List.not_mem_nil fp)⟩ _ _

/-! ## Claim C5: root invariance -/

/-- C5: starting from the initialized state, across every sequence of
`VMread`/`VMwrite` operations, `allocateFrame` never returns frame 0 — not
as a reuse candidate, not as a fresh frame, not as an eviction victim — and
frame 0 is never evicted (no entry of the eviction trace, including those
produced during the operations themselves, targets frame 0).  On the reuse
and eviction paths the frame detached from its parent is exactly the frame
returned, so frame 0 is never detached either. -/
theorem C5_root_invariance (c : Cfg) (ops : List Op)
    (parentFrame ParentRow targetPage : Nat) (isLeaf : Bool) :
    (allocateFrame c (runOps c (initialState c) ops)
        parentFrame ParentRow targetPage isLeaf).1 ≠ 0 ∧
    ∀ fp ∈ (allocateFrame c (runOps c (initialState c) ops)
        parentFrame ParentRow targetPage isLeaf).2.evictions, fp.1 ≠ 0 := by
  have hg := GoodS_runOps c ops (initialState c) (GoodS_initialState c)
  have h := allocateFrame_C5 c _ hg parentFrame ParentRow targetPage isLeaf
  exact ⟨h.1, h.2.2.2⟩

/-! ## Unfolding lemmas for `edges` -/

theorem edges_unfold2 (c : Cfg) (s : VMState) (r frame pre : Nat) :
    edges c s (r + 2) frame pre = (List.range c.PAGE_SIZE).flatMap fun row =>
      if PMread s (phys c frame row) = 0 then []
      else
        ⟨frame, row, toU64 (PMread s (phys c frame row)), pre * c.PAGE_SIZE + row, false⟩ ::
          edges c s (r + 1) (toU64 (PMread s (phys c frame row))) (pre * c.PAGE_SIZE + row) := by
  rw [edges]

theorem edges_unfold1 (c : Cfg) (s : VMState) (frame pre : Nat) :
    edges c s 1 frame pre = (List.range c.PAGE_SIZE).flatMap fun row =>
      if PMread s (phys c frame row) = 0 then []
      else [⟨frame, row, toU64 (PMread s (phys c frame row)), pre * c.PAGE_SIZE + row, true⟩] := by
  rw [edges]
  intros; omega

theorem edges_unfold0 (c : Cfg) (s : VMState) (frame pre : Nat) :
    edges c s 0 frame pre = (List.range c.PAGE_SIZE).flatMap fun row =>
      if PMread s (phys c frame row) = 0 then []
      else [⟨frame, row, toU64 (PMread s (phys c frame row)), pre * c.PAGE_SIZE + row, true⟩] := by
  rw [edges]
  intros; omega

/-! ## The scan's high-water mark equals the fold of the edge targets -/

theorem scanLeafChild_maxFrame (c : Cfg) (tp frame e p r : Nat) (i : scanInfo) :
    (scanLeafChild c tp frame e p r i).maxFrame = i.maxFrame := by
  unfold scanLeafChild
  dsimp only
  split <;> rfl

theorem scanRecord_maxFrame (frame : Nat) (az : Bool) (i1 : scanInfo) :
    (scanRecord frame az i1).maxFrame = i1.maxFrame := by
  unfold scanRecord
  split <;> rfl

theorem scanFill_maxFrame (c : Cfg) (s : VMState) (frame : Nat) (i2 : scanInfo) :
    (scanFill c s frame i2).maxFrame = i2.maxFrame := by
  unfold scanFill
  split
  · split <;> rfl
  · rfl

theorem scanEnd_maxFrame (c : Cfg) (s : VMState) (frame pf : Nat) (done : scanInfo × Bool) :
    (scanEnd c s frame pf done).maxFrame = done.1.maxFrame := by
  unfold scanEnd
  split
  · rfl
  · rw [scanFill_maxFrame, scanRecord_maxFrame]

theorem init_le_foldl_max (l : List Nat) : ∀ b, b ≤ l.foldl max b := by
  induction l with
  | nil => intro b; exact Nat.le_refl b
  | cons x t ih =>
    intro b
    rw [List.foldl_cons]
    exact le_trans (Nat.le_max_left b x) (ih _)

theorem mem_le_foldl_max {l : List Nat} {x : Nat} (hx : x ∈ l) : ∀ b, x ≤ l.foldl max b := by
  induction l with
  | nil => cases hx
  | cons y t ih =>
    intro b
    rw [List.foldl_cons]
    rcases List.mem_cons.1 hx with h | h
    · subst h
      exact le_trans (Nat.le_max_right b x) (init_le_foldl_max t _)
    · exact ih h _

theorem foldl_max_le {l : List Nat} {K : Nat} (hl : ∀ x ∈ l, x ≤ K) :
    ∀ b, b ≤ K → l.foldl max b ≤ K := by
  induction l with
  | nil => intro b hb; exact hb
  | cons y t ih =>
    intro b hb
    rw [List.foldl_cons]
    exact ih (fun x hx => hl x (List.mem_cons_of_mem y hx)) _
      (Nat.max_le.2 ⟨hb, hl y (List.mem_cons_self y t)⟩)

/-- Composition of the row loop with per-row target contributions. -/
theorem foldl_scanStep_maxFrame (c : Cfg) (s : VMState) (frame pre : Nat)
    (child : Nat → Nat → Nat → scanInfo → scanInfo) (F : Nat → List Nat)
    (l : List Nat)
    (hstep : ∀ row ∈ l, ∀ acc : scanInfo × Bool,
      (scanStep c s frame pre child acc row).1.maxFrame = (F row).foldl max acc.1.maxFrame) :
    ∀ acc : scanInfo × Bool,
      ((l.foldl (scanStep c s frame pre child) acc).1).maxFrame
        = (l.flatMap F).foldl max acc.1.maxFrame := by
  induction l with
  | nil => intro acc; rfl
  | cons row t ih =>
    intro acc
    rw [List.foldl_cons, List.flatMap_cons, List.foldl_append,
      ← hstep row (List.mem_cons_self row t) acc]
    exact ih (fun r hr => hstep r (List.mem_cons_of_mem row hr)) _

/-- S1: the scan's high-water mark is the running maximum of the input
accumulator and every (`uint64_t`-image of a) nonzero entry in the scanned
subtree. -/
theorem scan_maxFrame (c : Cfg) (s : VMState) (tp pf : Nat) :
    ∀ rem frame pre info,
      (scan c s tp pf rem frame pre info).maxFrame
        = (targetsOf (edges c s rem frame pre)).foldl max info.maxFrame := by
  intro rem
  induction rem using Nat.strong_induction_on with
  | _ rem ih =>
    have hleafstep : ∀ frame pre, ∀ row : Nat, ∀ acc : scanInfo × Bool,
        (scanStep c s frame pre
            (fun e preNext rw i => scanLeafChild c tp frame e preNext rw i) acc row).1.maxFrame
          = ((if PMread s (phys c frame row) = 0 then []
              else [toU64 (PMread s (phys c frame row))]) : List Nat).foldl max acc.1.maxFrame := by
      intro frame pre row acc
      unfold scanStep
      dsimp only
      split
      · rfl
      · rw [scanLeafChild_maxFrame]
        rfl
    rcases rem with _ | rem
    · intro frame pre info
      rw [scan_unfold0, scanEnd_maxFrame, edges_unfold0]
      unfold targetsOf
      rw [List.map_flatMap]
      rw [foldl_scanStep_maxFrame c s frame pre _
        (fun row => if PMread s (phys c frame row) = 0 then []
          else [toU64 (PMread s (phys c frame row))])
        _ (fun row _ acc => hleafstep frame pre row acc)]
      congr 1
      apply List.flatMap_congr
      intro row hrow
      split
      · rfl
      · rfl
    rcases rem with _ | r
    · intro frame pre info
      rw [scan_unfold1, scanEnd_maxFrame, edges_unfold1]
      unfold targetsOf
      rw [List.map_flatMap]
      rw [foldl_scanStep_maxFrame c s frame pre _
        (fun row => if PMread s (phys c frame row) = 0 then []
          else [toU64 (PMread s (phys c frame row))])
        _ (fun row _ acc => hleafstep frame pre row acc)]
      congr 1
      apply List.flatMap_congr
      intro row hrow
      split
      · rfl
      · rfl
    · intro frame pre info
      rw [scan_unfold2, scanEnd_maxFrame, edges_unfold2]
      unfold targetsOf
      rw [List.map_flatMap]
      rw [foldl_scanStep_maxFrame c s frame pre _
        (fun row => if PMread s (phys c frame row) = 0 then []
          else toU64 (PMread s (phys c frame row)) ::
            (edges c s (r + 1) (toU64 (PMread s (phys c frame row)))
              (pre * c.PAGE_SIZE + row)).map Edge.child)]
      · congr 1
        apply List.flatMap_congr
        intro row hrow
        split
        · rfl
        · rfl
      · intro row hrow acc
        unfold scanStep
        dsimp only
        split
        · rfl
        · rw [ih (r + 1) (by omega)]
          unfold targetsOf
          rw [List.foldl_cons]

/-! ## The scan's victim fields equal a fold over the leaf edges -/

theorem scanLeafChild_victimOf (c : Cfg) (tp f e p r : Nat) (i : scanInfo) :
    victimOf (scanLeafChild c tp f e p r i) =
      if cyclicDistance c p tp > i.victimDistance then (e, f, r, p, cyclicDistance c p tp)
      else victimOf i := by
  unfold scanLeafChild victimOf
  dsimp only
  split
  · rfl
  · rfl

theorem victimOf_maxUpd (i : scanInfo) (m : Nat) :
    victimOf { i with maxFrame := m } = victimOf i := rfl

theorem scanRecord_victimOf (frame : Nat) (az : Bool) (i1 : scanInfo) :
    victimOf (scanRecord frame az i1) = victimOf i1 := by
  unfold scanRecord
  split <;> rfl

theorem scanFill_victimOf (c : Cfg) (s : VMState) (frame : Nat) (i2 : scanInfo) :
    victimOf (scanFill c s frame i2) = victimOf i2 := by
  unfold scanFill
  split
  · split <;> rfl
  · rfl

theorem scanEnd_victimOf (c : Cfg) (s : VMState) (frame pf : Nat) (done : scanInfo × Bool) :
    victimOf (scanEnd c s frame pf done) = victimOf done.1 := by
  unfold scanEnd
  split
  · rfl
  · rw [scanFill_victimOf, scanRecord_victimOf]

theorem filter_flatMap {α β : Type} (l : List α) (g : α → List β) (p : β → Bool) :
    ((l.flatMap g).filter p) = l.flatMap fun a => (g a).filter p := by
  induction l with
  | nil => rfl
  | cons x t ih => rw [List.flatMap_cons, List.flatMap_cons, List.filter_append, ih]

/-- Composition of the row loop with per-row leaf-edge contributions. -/
theorem foldl_scanStep_victimOf (c : Cfg) (s : VMState) (frame pre tp : Nat)
    (child : Nat → Nat → Nat → scanInfo → scanInfo) (F : Nat → List Edge)
    (l : List Nat)
    (hstep : ∀ row ∈ l, ∀ acc : scanInfo × Bool,
      victimOf (scanStep c s frame pre child acc row).1
        = (F row).foldl (vstep c tp) (victimOf acc.1)) :
    ∀ acc : scanInfo × Bool,
      victimOf ((l.foldl (scanStep c s frame pre child) acc).1)
        = (l.flatMap F).foldl (vstep c tp) (victimOf acc.1) := by
  induction l with
  | nil => intro acc; rfl
  | cons row t ih =>
    intro acc
    rw [List.foldl_cons, List.flatMap_cons, List.foldl_append,
      ← hstep row (List.mem_cons_self row t) acc]
    exact ih (fun r hr => hstep r (List.mem_cons_of_mem row hr)) _

/-- S2: after a scan, the victim-selection fields are the fold of the
strict-improvement step over the subtree's leaf edges, in DFS order. -/
theorem scan_victimOf (c : Cfg) (s : VMState) (tp pf : Nat) :
    ∀ rem frame pre info,
      victimOf (scan c s tp pf rem frame pre info)
        = ((edges c s rem frame pre).filter Edge.leaf).foldl (vstep c tp) (victimOf info) := by
  intro rem
  induction rem using Nat.strong_induction_on with
  | _ rem ih =>
    have hleafstep : ∀ frame pre, ∀ row : Nat, ∀ acc : scanInfo × Bool,
        victimOf (scanStep c s frame pre
            (fun e preNext rw i => scanLeafChild c tp frame e preNext rw i) acc row).1
          = ((if PMread s (phys c frame row) = 0 then []
              else [Edge.mk frame row (toU64 (PMread s (phys c frame row)))
                (pre * c.PAGE_SIZE + row) true]).foldl (vstep c tp) (victimOf acc.1)) := by
      intro frame pre row acc
      unfold scanStep
      dsimp only
      split
      · rfl
      · rw [scanLeafChild_victimOf]
        rw [List.foldl_cons, List.foldl_nil]
        unfold vstep distTo
        dsimp only
        rfl
    have hleaffilter : ∀ frame pre row,
        ((if PMread s (phys c frame row) = 0 then []
          else [Edge.mk frame row (toU64 (PMread s (phys c frame row)))
            (pre * c.PAGE_SIZE + row) true]) : List Edge)
        = ((if PMread s (phys c frame row) = 0 then []
            else [Edge.mk frame row (toU64 (PMread s (phys c frame row)))
              (pre * c.PAGE_SIZE + row) true]) : List Edge).filter Edge.leaf := by
      intro frame pre row
      split
      · rfl
      · rfl
    rcases rem with _ | rem
    · intro frame pre info
      rw [scan_unfold0, scanEnd_victimOf, edges_unfold0, filter_flatMap]
      rw [foldl_scanStep_victimOf c s frame pre tp _
        (fun row => if PMread s (phys c frame row) = 0 then []
          else [Edge.mk frame row (toU64 (PMread s (phys c frame row)))
            (pre * c.PAGE_SIZE + row) true])
        _ (fun row _ acc => hleafstep frame pre row acc)]
      congr 1
      apply List.flatMap_congr
      intro row hrow
      exact hleaffilter frame pre row
    rcases rem with _ | r
    · intro frame pre info
      rw [scan_unfold1, scanEnd_victimOf, edges_unfold1, filter_flatMap]
      rw [foldl_scanStep_victimOf c s frame pre tp _
        (fun row => if PMread s (phys c frame row) = 0 then []
          else [Edge.mk frame row (toU64 (PMread s (phys c frame row)))
            (pre * c.PAGE_SIZE + row) true])
        _ (fun row _ acc => hleafstep frame pre row acc)]
      congr 1
      apply List.flatMap_congr
      intro row hrow
      exact hleaffilter frame pre row
    · intro frame pre info
      rw [scan_unfold2, scanEnd_victimOf, edges_unfold2, filter_flatMap]
      rw [foldl_scanStep_victimOf c s frame pre tp _
        (fun row => if PMread s (phys c frame row) = 0 then []
          else (edges c s (r + 1) (toU64 (PMread s (phys c frame row)))
            (pre * c.PAGE_SIZE + row)).filter Edge.leaf)]
      · congr 1
        apply List.flatMap_congr
        intro row hrow
        split
        · rfl
        · simp [List.filter_cons]
      · intro row hrow acc
        unfold scanStep
        dsimp only
        split
        · rfl
        · rw [ih (r + 1) (by omega)]
          rfl

/-! ## First-argmax of the victim fold; claim C4 -/

/-- The strict-improvement fold keeps the first maximum: either no edge beats
the incoming distance and the tuple is unchanged, or the result is exactly
the first edge attaining the maximal distance. -/
theorem foldl_vstep_spec (c : Cfg) (tp : Nat) :
    ∀ (l : List Edge) (v : Nat × Nat × Nat × Nat × Nat),
      ((∀ e ∈ l, distTo c tp e ≤ v.2.2.2.2) ∧ l.foldl (vstep c tp) v = v) ∨
      (∃ l₁ e l₂, l = l₁ ++ e :: l₂ ∧ v.2.2.2.2 < distTo c tp e ∧
        (∀ x ∈ l₁, distTo c tp x < distTo c tp e) ∧
        (∀ x ∈ l₂, distTo c tp x ≤ distTo c tp e) ∧
        l.foldl (vstep c tp) v = (e.child, e.parent, e.row, e.pre, distTo c tp e)) := by
  intro l
  induction l with
  | nil =>
    intro v
    left
    exact ⟨fun e he => absurd he (List.not_mem_nil e), rfl⟩
  | cons x t ih =>
    intro v
    rw [List.foldl_cons]
    by_cases hx : v.2.2.2.2 < distTo c tp x
    · have hv : vstep c tp v x = (x.child, x.parent, x.row, x.pre, distTo c tp x) := by
        unfold vstep
        rw [if_pos hx]
      rw [hv]
      rcases ih (x.child, x.parent, x.row, x.pre, distTo c tp x) with
        ⟨hle, heq⟩ | ⟨l₁, e, l₂, hsplit, hlt, hbef, haft, heq⟩
      · right
        refine ⟨[], x, t, rfl, hx, fun y hy => absurd hy (List.not_mem_nil y),
          fun y hy => hle y hy, heq⟩
      · right
        refine ⟨x :: l₁, e, l₂, by rw [hsplit, List.cons_append], lt_trans hx hlt, ?_, haft, heq⟩
        intro y hy
        rcases List.mem_cons.1 hy with h | h
        · subst h
          exact hlt
        · exact hbef y h
    · have hv : vstep c tp v x = v := by
        unfold vstep
        rw [if_neg hx]
      rw [hv]
      rcases ih v with ⟨hle, heq⟩ | ⟨l₁, e, l₂, hsplit, hlt, hbef, haft, heq⟩
      · left
        refine ⟨fun y hy => ?_, heq⟩
        rcases List.mem_cons.1 hy with h | h
        · subst h
          omega
        · exact hle y h
      · right
        refine ⟨x :: l₁, e, l₂, by rw [hsplit, List.cons_append], hlt, ?_, haft, heq⟩
        intro y hy
        rcases List.mem_cons.1 hy with h | h
        · subst h
          omega
        · exact hbef y h

/-- Every edge's accumulated page prefix is bounded by the branching
arithmetic of the subtree it came from. -/
theorem edges_pre_lt (c : Cfg) (s : VMState) :
    ∀ rem frame pre, ∀ e ∈ edges c s rem frame pre,
      e.pre < (pre + 1) * c.PAGE_SIZE ^ (max rem 1) := by
  intro rem
  induction rem using Nat.strong_induction_on with
  | _ rem ih =>
    have hP := PAGE_SIZE_pos c
    have hbase : ∀ (pre row : Nat), row ∈ List.range c.PAGE_SIZE →
        pre * c.PAGE_SIZE + row < (pre + 1) * c.PAGE_SIZE := by
      intro pre row hrow
      have := List.mem_range.1 hrow
      nlinarith
    rcases rem with _ | rem
    · intro frame pre e he
      rw [edges_unfold0] at he
      rcases List.mem_flatMap.1 he with ⟨row, hrow, hmem⟩
      split at hmem
      · cases hmem
      · rcases List.mem_singleton.1 hmem with rfl
        simpa using hbase pre row hrow
    rcases rem with _ | r
    · intro frame pre e he
      rw [edges_unfold1] at he
      rcases List.mem_flatMap.1 he with ⟨row, hrow, hmem⟩
      split at hmem
      · cases hmem
      · rcases List.mem_singleton.1 hmem with rfl
        simpa using hbase pre row hrow
    · intro frame pre e he
      rw [edges_unfold2] at he
      rcases List.mem_flatMap.1 he with ⟨row, hrow, hmem⟩
      split at hmem
      · cases hmem
      · have hrowlt := List.mem_range.1 hrow
        have hstep : pre * c.PAGE_SIZE + row + 1 ≤ (pre + 1) * c.PAGE_SIZE := by nlinarith
        have hmax : max (r + 2) 1 = r + 2 := by omega
        rcases List.mem_cons.1 hmem with rfl | hmem2
        · have h1 : pre * c.PAGE_SIZE + row < (pre + 1) * c.PAGE_SIZE := by nlinarith
          have h2 : (pre + 1) * c.PAGE_SIZE ≤ (pre + 1) * c.PAGE_SIZE ^ (r + 2) := by
            have : c.PAGE_SIZE ^ 1 ≤ c.PAGE_SIZE ^ (r + 2) :=
              Nat.pow_le_pow_right hP (by omega)
            simpa using Nat.mul_le_mul_left (pre + 1) this
          rw [hmax]
          calc (Edge.mk frame row (toU64 (PMread s (phys c frame row)))
                (pre * c.PAGE_SIZE + row) false).pre
              = pre * c.PAGE_SIZE + row := rfl
            _ < (pre + 1) * c.PAGE_SIZE := h1
            _ ≤ (pre + 1) * c.PAGE_SIZE ^ (r + 2) := h2
        · have := ih (r + 1) (by omega) _ (pre * c.PAGE_SIZE + row) _ hmem2
          have hmax1 : max (r + 1) 1 = r + 1 := by omega
          rw [hmax1] at this
          rw [hmax]
          calc _ < (pre * c.PAGE_SIZE + row + 1) * c.PAGE_SIZE ^ (r + 1) := this
            _ ≤ ((pre + 1) * c.PAGE_SIZE) * c.PAGE_SIZE ^ (r + 1) :=
              Nat.mul_le_mul_right _ hstep
            _ = (pre + 1) * c.PAGE_SIZE ^ (r + 2) := by ring

/-- Leaf edges of the live tree carry genuine page numbers. -/
theorem leafEdges_pre_lt (c : Cfg) (s : VMState) (hD : 1 ≤ c.tablesDepth) :
    ∀ e ∈ leafEdges c s, e.pre < c.NUM_PAGES := by
  intro e he
  have hmem : e ∈ rootEdges c s := List.mem_of_mem_filter he
  have := edges_pre_lt c s c.tablesDepth 0 0 e hmem
  have hmax : max c.tablesDepth 1 = c.tablesDepth := by omega
  rw [hmax] at this
  have hpow : c.PAGE_SIZE ^ c.tablesDepth = c.NUM_PAGES := by
    unfold Cfg.PAGE_SIZE Cfg.NUM_PAGES
    rw [← pow_mul]
  omega

/-- Two distinct pages on the ring are at positive cyclic distance. -/
theorem cyclicDistance_pos (c : Cfg) {a b : Nat} (ha : a < c.NUM_PAGES)
    (hb : b < c.NUM_PAGES) (hne : a ≠ b) : 0 < cyclicDistance c a b := by
  unfold cyclicDistance
  split <;> omega

/-! ## The three dispatch cases of `allocateFrame` -/

theorem allocateFrame_reuse_case (c : Cfg) (s : VMState) (pf pr tp : Nat) (isLeaf : Bool)
    (h1 : (scanRoot c s tp pf).emptyFrame ≠ U64MAX ∧ (scanRoot c s tp pf).emptyFrame ≠ pf) :
    allocateFrame c s pf pr tp isLeaf =
      ((scanRoot c s tp pf).emptyFrame,
        clearFrame c (PMwrite s (phys c (scanRoot c s tp pf).emptyParent
            (scanRoot c s tp pf).emptyRowInParent) 0)
          (scanRoot c s tp pf).emptyFrame isLeaf) := by
  unfold scanRoot at h1 ⊢
  simp only [allocateFrame]
  rw [if_pos h1]

theorem allocateFrame_fresh_case (c : Cfg) (s : VMState) (pf pr tp : Nat) (isLeaf : Bool)
    (h1 : ¬((scanRoot c s tp pf).emptyFrame ≠ U64MAX ∧ (scanRoot c s tp pf).emptyFrame ≠ pf))
    (h2 : (scanRoot c s tp pf).maxFrame + 1 < c.numFrames) :
    allocateFrame c s pf pr tp isLeaf =
      ((scanRoot c s tp pf).maxFrame + 1,
        clearFrame c s ((scanRoot c s tp pf).maxFrame + 1) isLeaf) := by
  unfold scanRoot at h1 h2 ⊢
  simp only [allocateFrame]
  rw [if_neg h1, if_pos h2]

theorem allocateFrame_evict_case (c : Cfg) (s : VMState) (pf pr tp : Nat) (isLeaf : Bool)
    (h1 : ¬((scanRoot c s tp pf).emptyFrame ≠ U64MAX ∧ (scanRoot c s tp pf).emptyFrame ≠ pf))
    (h2 : ¬((scanRoot c s tp pf).maxFrame + 1 < c.numFrames)) :
    allocateFrame c s pf pr tp isLeaf =
      ((scanRoot c s tp pf).victimFrame,
        clearFrame c (PMwrite (PMevict c s (scanRoot c s tp pf).victimFrame
            (scanRoot c s tp pf).victimPage)
          (phys c (scanRoot c s tp pf).victimParent (scanRoot c s tp pf).victimRowInParent) 0)
          (scanRoot c s tp pf).victimFrame isLeaf) := by
  unfold scanRoot at h1 h2 ⊢
  simp only [allocateFrame]
  rw [if_neg h1, if_neg h2]

/-! ## Claim C4: eviction-victim selection -/

/-- C4: whenever `allocateFrame` reaches the eviction path for target page
`tp` (no reusable empty table, high-water mark full), the chosen victim is,
among all currently mapped leaf (depth-`TABLES_DEPTH`) entries, the first
one in DFS traversal order whose virtual page number attains the maximal
cyclic distance to `tp` — the strictly-greater comparison keeps the first
maximum found — and `PMevict` is invoked on exactly that frame and page.
Hypotheses: at least one data page is mapped and none of them is `tp`
itself (when a real fault on `tp` triggers the allocation, `tp` is
unmapped). -/
theorem C4_victim_selection (c : Cfg) (s : VMState) (tp pf : Nat)
    (hD : 1 ≤ c.tablesDepth) (htp : tp < c.NUM_PAGES)
    (hne : leafEdges c s ≠ [])
    (hpages : ∀ e ∈ leafEdges c s, e.pre ≠ tp) :
    ∃ l₁ e l₂, leafEdges c s = l₁ ++ e :: l₂ ∧
      (∀ x ∈ leafEdges c s, distTo c tp x ≤ distTo c tp e) ∧
      (∀ x ∈ l₁, distTo c tp x < distTo c tp e) ∧
      (scanRoot c s tp pf).victimFrame = e.child ∧
      (scanRoot c s tp pf).victimParent = e.parent ∧
      (scanRoot c s tp pf).victimRowInParent = e.row ∧
      (scanRoot c s tp pf).victimPage = e.pre ∧
      (scanRoot c s tp pf).victimDistance = distTo c tp e ∧
      ∀ pr isLeaf,
        ¬((scanRoot c s tp pf).emptyFrame ≠ U64MAX ∧ (scanRoot c s tp pf).emptyFrame ≠ pf) →
        ¬((scanRoot c s tp pf).maxFrame + 1 < c.numFrames) →
        (allocateFrame c s pf pr tp isLeaf).1 = e.child ∧
        (allocateFrame c s pf pr tp isLeaf).2.evictions = (e.child, e.pre) :: s.evictions := by
  have hvic : victimOf (scanRoot c s tp pf)
      = (leafEdges c s).foldl (vstep c tp) (victimOf {}) := by
    unfold scanRoot leafEdges rootEdges
    exact scan_victimOf c s tp pf c.tablesDepth 0 0 {}
  rcases foldl_vstep_spec c tp (leafEdges c s) (victimOf {}) with
    ⟨hle, _⟩ | ⟨l₁, e, l₂, hsplit, _, hbef, haft, heq⟩
  · obtain ⟨e0, he0⟩ := List.exists_mem_of_ne_nil (leafEdges c s) hne
    have h0 : 0 < distTo c tp e0 :=
      cyclicDistance_pos c (leafEdges_pre_lt c s hD e0 he0) htp (hpages e0 he0)
    have hcon : distTo c tp e0 ≤ 0 := hle e0 he0
    omega
  · have hv : victimOf (scanRoot c s tp pf)
        = (e.child, e.parent, e.row, e.pre, distTo c tp e) := hvic.trans heq
    have hmax : ∀ x ∈ leafEdges c s, distTo c tp x ≤ distTo c tp e := by
      intro x hx
      rw [hsplit] at hx
      rcases List.mem_append.1 hx with h | h
      · exact le_of_lt (hbef x h)
      · rcases List.mem_cons.1 h with h | h
        · subst h
          exact le_refl _
        · exact haft x h
    refine ⟨l₁, e, l₂, hsplit, hmax, hbef,
      congrArg (fun t => t.1) hv, congrArg (fun t => t.2.1) hv,
      congrArg (fun t => t.2.2.1) hv, congrArg (fun t => t.2.2.2.1) hv,
      congrArg (fun t => t.2.2.2.2) hv, ?_⟩
    intro pr isLeaf h1 h2
    rw [allocateFrame_evict_case c s pf pr tp isLeaf h1 h2]
    have hf : (scanRoot c s tp pf).victimFrame = e.child := congrArg (fun t => t.1) hv
    have hp : (scanRoot c s tp pf).victimPage = e.pre := congrArg (fun t => t.2.2.2.1) hv
    constructor
    · exact hf
    · rw [clearFrame_evictions, hf, hp]
      rfl

/-- Witness for C4 in the reference configuration: in `witState` the only
mapped leaf is page 1 in frame 2 (parent table frame 1, row 1), and the
allocator for target page 0 evicts exactly it. -/
theorem C4_victim_selection_witness :
    ∃ l₁ e l₂, leafEdges testCfg witState = l₁ ++ e :: l₂ ∧
      (∀ x ∈ leafEdges testCfg witState, distTo testCfg 0 x ≤ distTo testCfg 0 e) ∧
      (∀ x ∈ l₁, distTo testCfg 0 x < distTo testCfg 0 e) ∧
      (scanRoot testCfg witState 0 1).victimFrame = e.child ∧
      (scanRoot testCfg witState 0 1).victimParent = e.parent ∧
      (scanRoot testCfg witState 0 1).victimRowInParent = e.row ∧
      (scanRoot testCfg witState 0 1).victimPage = e.pre ∧
      (scanRoot testCfg witState 0 1).victimDistance = distTo testCfg 0 e ∧
      ∀ pr isLeaf,
        ¬((scanRoot testCfg witState 0 1).emptyFrame ≠ U64MAX ∧
          (scanRoot testCfg witState 0 1).emptyFrame ≠ 1) →
        ¬((scanRoot testCfg witState 0 1).maxFrame + 1 < testCfg.numFrames) →
        (allocateFrame testCfg witState 1 pr 0 isLeaf).1 = e.child ∧
        (allocateFrame testCfg witState 1 pr 0 isLeaf).2.evictions
          = (e.child, e.pre) :: witState.evictions :=
  C4_victim_selection testCfg witState 0 1 (by decide) (by decide) (by decide) (by decide)

/-! ## Helpers for the reuse-candidate characterization -/

theorem flatMap_const_nil {α β : Type} (l : List α) :
    (l.flatMap fun _ => ([] : List β)) = [] := by
  induction l with
  | nil => rfl
  | cons x t ih => rw [List.flatMap_cons, List.nil_append, ih]

theorem sublist_flatMap_of_mem {α β : Type} {l : List α} {a : α} (h : a ∈ l)
    (F : α → List β) : (F a).Sublist (l.flatMap F) := by
  obtain ⟨l₁, l₂, rfl⟩ := List.append_of_mem h
  rw [List.flatMap_append, List.flatMap_cons]
  exact List.sublist_append_of_sublist_right
    (List.sublist_append_of_sublist_left (List.Sublist.refl _))

theorem candsIn_unfold2 (c : Cfg) (s : VMState) (pf r f : Nat) :
    candsIn c s pf (r + 2) f =
      if ∀ row < c.PAGE_SIZE, PMread s (phys c f row) = 0 then
        if f = 0 ∨ f = pf then [] else [f]
      else
        (List.range c.PAGE_SIZE).flatMap fun row =>
          if PMread s (phys c f row) = 0 then []
          else candsIn c s pf (r + 1) (toU64 (PMread s (phys c f row))) := by
  rw [candsIn]
  unfold candsHere
  rfl

theorem candsIn_unfold_leaf (c : Cfg) (s : VMState) (pf f : Nat) (rem : Nat)
    (hrem : rem ≤ 1) :
    candsIn c s pf rem f =
      if ∀ row < c.PAGE_SIZE, PMread s (phys c f row) = 0 then
        if f = 0 ∨ f = pf then [] else [f]
      else [] := by
  rcases rem with _ | rem
  · rw [candsIn]
    unfold candsHere
    rfl
  · rcases rem with _ | rem
    · rw [candsIn]
      unfold candsHere
      rfl
    · omega

/-- Membership facts for reuse candidates: every candidate is an all-zero
frame, is neither the root nor the parent being populated, and is the
subtree root or one of its descendants. -/
theorem candsIn_mem (c : Cfg) (s : VMState) (pf : Nat) :
    ∀ rem f E, E ∈ candsIn c s pf rem f →
      AllZeroF c s E ∧ E ≠ 0 ∧ E ≠ pf ∧
        ∀ pre, E = f ∨ E ∈ targetsOf (edges c s rem f pre) := by
  intro rem
  induction rem using Nat.strong_induction_on with
  | _ rem ih =>
    have hallzero : ∀ f E, (∀ row < c.PAGE_SIZE, PMread s (phys c f row) = 0) →
        E ∈ (if f = 0 ∨ f = pf then ([] : List Nat) else [f]) →
        AllZeroF c s E ∧ E ≠ 0 ∧ E ≠ pf ∧
          ∀ pre, E = f ∨ E ∈ targetsOf (edges c s rem f pre) := by
      intro f E hz hmem
      split at hmem
      · cases hmem
      · next hne =>
        rcases List.mem_singleton.1 hmem with rfl
        push_neg at hne
        exact ⟨hz, hne.1, hne.2, fun pre => Or.inl rfl⟩
    rcases Nat.lt_or_ge rem 2 with hrem | hrem
    · intro f E hmem
      rw [candsIn_unfold_leaf c s pf f rem (by omega)] at hmem
      split at hmem
      · exact hallzero f E (by assumption) hmem
      · cases hmem
    · obtain ⟨r, rfl⟩ : ∃ r, rem = r + 2 := ⟨rem - 2, by omega⟩
      intro f E hmem
      rw [candsIn_unfold2] at hmem
      split at hmem
      · exact hallzero f E (by assumption) hmem
      · rcases List.mem_flatMap.1 hmem with ⟨row, hrow, hmem2⟩
        split at hmem2
        · cases hmem2
        · next hcell =>
          obtain ⟨h1, h2, h3, h4⟩ := ih (r + 1) (by omega) _ E hmem2
          refine ⟨h1, h2, h3, fun pre => Or.inr ?_⟩
          rw [edges_unfold2]
          unfold targetsOf
          rw [List.map_flatMap]
          apply List.mem_flatMap.2
          refine ⟨row, hrow, ?_⟩
          rw [if_neg hcell, List.map_cons]
          rcases h4 (pre * c.PAGE_SIZE + row) with h | h
          · rw [h]
            exact List.mem_cons_self _ _
          · exact List.mem_cons_of_mem _ h

theorem scanLeafChild_emptyOf (c : Cfg) (tp f e p r : Nat) (i : scanInfo) :
    emptyOf (scanLeafChild c tp f e p r i) = emptyOf i := by
  unfold scanLeafChild
  dsimp only
  split <;> rfl

/-- The `allZero` flag after the row loop: true iff it started true and every
processed entry was zero. -/
theorem foldl_scanStep_allZero (c : Cfg) (s : VMState) (frame pre : Nat)
    (child : Nat → Nat → Nat → scanInfo → scanInfo) :
    ∀ (l : List Nat) (acc : scanInfo × Bool),
      (l.foldl (scanStep c s frame pre child) acc).2 = true ↔
        (acc.2 = true ∧ ∀ row ∈ l, PMread s (phys c frame row) = 0) := by
  intro l
  induction l with
  | nil =>
    intro acc
    constructor
    · intro h
      exact ⟨h, fun row hrow => absurd hrow (List.not_mem_nil row)⟩
    · intro h
      exact h.1
  | cons row t iht =>
    intro acc
    rw [List.foldl_cons]
    by_cases hz : PMread s (phys c frame row) = 0
    · have hstep : scanStep c s frame pre child acc row = acc := by
        unfold scanStep
        dsimp only
        rw [if_pos hz]
      rw [hstep, iht]
      constructor
      · intro ⟨h1, h2⟩
        refine ⟨h1, fun r hr => ?_⟩
        rcases List.mem_cons.1 hr with h | h
        · subst h
          exact hz
        · exact h2 r h
      · intro ⟨h1, h2⟩
        exact ⟨h1, fun r hr => h2 r (List.mem_cons_of_mem _ hr)⟩
    · have hstep : scanStep c s frame pre child acc row =
          (child (toU64 (PMread s (phys c frame row))) (pre * c.PAGE_SIZE + row) row
            { acc.1 with maxFrame := max acc.1.maxFrame (toU64 (PMread s (phys c frame row))) },
           false) := by
        unfold scanStep
        dsimp only
        rw [if_neg hz]
      rw [hstep, iht]
      constructor
      · intro ⟨h1, h2⟩
        cases h1
      · intro ⟨h1, h2⟩
        exact absurd (h2 row (List.mem_cons_self _ _)) hz

/-- Row-loop preservation without any constraint on the child arguments. -/
theorem foldl_scanStep_pres2 (c : Cfg) (s : VMState) (frame pre : Nat)
    (child : Nat → Nat → Nat → scanInfo → scanInfo) (P : scanInfo → Prop)
    (hmax : ∀ i m, P i → P { i with maxFrame := m })
    (hchild : ∀ e p r i, P i → P (child e p r i)) :
    ∀ (l : List Nat) (acc : scanInfo × Bool), P acc.1 →
      P ((l.foldl (scanStep c s frame pre child) acc).1) := by
  intro l
  induction l with
  | nil => intro acc h; exact h
  | cons row t ih =>
    intro acc h
    rw [List.foldl_cons]
    apply ih
    unfold scanStep
    dsimp only
    split
    · exact h
    · exact hchild _ _ _ _ (hmax _ _ h)

/-- A nonzero entry of the subtree root is an edge target. -/
theorem target_of_cell (c : Cfg) (s : VMState) (rem f pre row : Nat)
    (hrow : row ∈ List.range c.PAGE_SIZE) (hcell : PMread s (phys c f row) ≠ 0) :
    toU64 (PMread s (phys c f row)) ∈ targetsOf (edges c s rem f pre) := by
  have hmk : ∀ (es : List Edge) (b : Bool),
      (⟨f, row, toU64 (PMread s (phys c f row)), pre * c.PAGE_SIZE + row, b⟩ :: es
        : List Edge) ≠ [] := fun _ _ h => List.cons_ne_nil _ _ h
  unfold targetsOf
  rcases Nat.lt_or_ge rem 2 with hrem | hrem
  · have hunf : edges c s rem f pre = (List.range c.PAGE_SIZE).flatMap fun r =>
        if PMread s (phys c f r) = 0 then []
        else [⟨f, r, toU64 (PMread s (phys c f r)), pre * c.PAGE_SIZE + r, true⟩] := by
      rcases rem with _ | rem
      · exact edges_unfold0 c s f pre
      · rcases rem with _ | rem
        · exact edges_unfold1 c s f pre
        · omega
    rw [hunf, List.map_flatMap]
    apply List.mem_flatMap.2
    refine ⟨row, hrow, ?_⟩
    rw [if_neg hcell]
    exact List.mem_singleton.2 rfl
  · obtain ⟨r, rfl⟩ : ∃ r, rem = r + 2 := ⟨rem - 2, by omega⟩
    rw [edges_unfold2, List.map_flatMap]
    apply List.mem_flatMap.2
    refine ⟨row, hrow, ?_⟩
    rw [if_neg hcell, List.map_cons]
    exact List.mem_cons_self _ _

/-- Every edge's parent is the subtree root or itself an edge target. -/
theorem edges_parent_mem (c : Cfg) (s : VMState) :
    ∀ rem f pre, ∀ e ∈ edges c s rem f pre,
      e.parent = f ∨ e.parent ∈ targetsOf (edges c s rem f pre) := by
  intro rem
  induction rem using Nat.strong_induction_on with
  | _ rem ih =>
    rcases Nat.lt_or_ge rem 2 with hrem | hrem
    · intro f pre e he
      have hunf : edges c s rem f pre = (List.range c.PAGE_SIZE).flatMap fun r =>
          if PMread s (phys c f r) = 0 then []
          else [⟨f, r, toU64 (PMread s (phys c f r)), pre * c.PAGE_SIZE + r, true⟩] := by
        rcases rem with _ | rem
        · exact edges_unfold0 c s f pre
        · rcases rem with _ | rem
          · exact edges_unfold1 c s f pre
          · omega
      rw [hunf] at he
      rcases List.mem_flatMap.1 he with ⟨row, hrow, hmem⟩
      split at hmem
      · cases hmem
      · rcases List.mem_singleton.1 hmem with rfl
        exact Or.inl rfl
    · obtain ⟨r, rfl⟩ : ∃ r, rem = r + 2 := ⟨rem - 2, by omega⟩
      intro f pre e he
      rw [edges_unfold2] at he
      rcases List.mem_flatMap.1 he with ⟨row, hrow, hmem⟩
      split at hmem
      · cases hmem
      · next hcell =>
        rcases List.mem_cons.1 hmem with rfl | hmem2
        · exact Or.inl rfl
        · rcases ih (r + 1) (by omega) _ (pre * c.PAGE_SIZE + row) e hmem2 with h | h
          · right
            rw [h]
            exact target_of_cell c s (r + 2) f pre row hrow hcell
          · right
            unfold targetsOf at h ⊢
            rcases List.mem_map.1 h with ⟨e', he', heq⟩
            apply List.mem_map.2
            refine ⟨e', ?_, heq⟩
            rw [edges_unfold2]
            apply List.mem_flatMap.2
            refine ⟨row, hrow, ?_⟩
            rw [if_neg hcell]
            exact List.mem_cons_of_mem _ he'

/-! ## Case lemmas for `scanEnd` -/

theorem find_none_of_not_target (c : Cfg) (s : VMState) (rem frame pre : Nat)
    {E : Nat} (h0 : E ≠ 0) (hnt : E ∉ targetsOf (edges c s rem frame pre)) :
    (List.range c.PAGE_SIZE).find?
      (fun row => toU64 (PMread s (phys c frame row)) == E) = none := by
  rw [List.find?_eq_none]
  intro row hrow
  simp only [beq_iff_eq]
  intro heq
  by_cases hcell : PMread s (phys c frame row) = 0
  · rw [hcell] at heq
    exact h0 (by simpa [toU64] using heq.symm)
  · exact hnt (heq ▸ target_of_cell c s rem frame pre row hrow hcell)

theorem find_none_of_all_zero (c : Cfg) (s : VMState) (frame : Nat)
    {E : Nat} (h0 : E ≠ 0) (hz : ∀ row < c.PAGE_SIZE, PMread s (phys c frame row) = 0) :
    (List.range c.PAGE_SIZE).find?
      (fun row => toU64 (PMread s (phys c frame row)) == E) = none := by
  rw [List.find?_eq_none]
  intro row hrow
  simp only [beq_iff_eq]
  rw [hz row (List.mem_range.1 hrow)]
  intro heq
  exact h0 (by simpa [toU64] using heq.symm)

theorem scanRecord_pos (frame : Nat) (i1 : scanInfo) (h0 : frame ≠ 0)
    (hE : i1.emptyFrame = U64MAX) :
    scanRecord frame true i1 =
      { i1 with emptyFrame := frame, emptyParent := U64MAX, emptyRowInParent := 0 } := by
  unfold scanRecord
  rw [if_pos ⟨rfl, h0, hE⟩]

theorem scanRecord_false (frame : Nat) (i1 : scanInfo) :
    scanRecord frame false i1 = i1 := by
  unfold scanRecord
  rw [if_neg (fun h => Bool.false_ne_true h.1)]

theorem scanRecord_found (frame : Nat) (az : Bool) (i1 : scanInfo)
    (hE : i1.emptyFrame ≠ U64MAX) : scanRecord frame az i1 = i1 := by
  unfold scanRecord
  rw [if_neg (fun h => hE h.2.2)]

theorem scanRecord_root (az : Bool) (i1 : scanInfo) : scanRecord 0 az i1 = i1 := by
  unfold scanRecord
  rw [if_neg (fun h => h.2.1 rfl)]

theorem scanFill_not_pending (c : Cfg) (s : VMState) (frame : Nat) (i2 : scanInfo)
    (hg : ¬(i2.emptyFrame ≠ U64MAX ∧ i2.emptyParent = U64MAX)) :
    scanFill c s frame i2 = i2 := by
  unfold scanFill
  rw [if_neg hg]

theorem scanFill_no_match (c : Cfg) (s : VMState) (frame : Nat) (i2 : scanInfo)
    (hfind : (List.range c.PAGE_SIZE).find?
      (fun row => toU64 (PMread s (phys c frame row)) == i2.emptyFrame) = none) :
    scanFill c s frame i2 = i2 := by
  unfold scanFill
  split
  · rw [hfind]
  · rfl

theorem scanFill_match (c : Cfg) (s : VMState) (frame : Nat) (i2 : scanInfo)
    (hg : i2.emptyFrame ≠ U64MAX) (hp : i2.emptyParent = U64MAX) (r : Nat)
    (hfind : (List.range c.PAGE_SIZE).find?
      (fun row => toU64 (PMread s (phys c frame row)) == i2.emptyFrame) = some r) :
    scanFill c s frame i2 = { i2 with emptyParent := frame, emptyRowInParent := r } := by
  unfold scanFill
  rw [if_pos ⟨hg, hp⟩, hfind]

theorem scanEnd_early (c : Cfg) (s : VMState) (frame pf : Nat) (i1 : scanInfo)
    (hpf : frame = pf) : scanEnd c s frame pf (i1, true) = i1 := by
  unfold scanEnd
  rw [if_pos ⟨rfl, hpf⟩]

theorem scanEnd_notEarly (c : Cfg) (s : VMState) (frame pf : Nat) (i1 : scanInfo)
    (az : Bool) (h : ¬(az = true ∧ frame = pf)) :
    scanEnd c s frame pf (i1, az) = scanFill c s frame (scanRecord frame az i1) := by
  unfold scanEnd
  rw [if_neg h]

/-! ## Component lemmas for the inner-level row contributions -/

theorem edges_eq_comp (c : Cfg) (s : VMState) (r frame pre : Nat) :
    edges c s (r + 2) frame pre
      = (List.range c.PAGE_SIZE).flatMap (edgeComp c s r frame pre) :=
  edges_unfold2 c s r frame pre

theorem candsIn_eq_comp (c : Cfg) (s : VMState) (pf r frame : Nat)
    (h : ¬∀ row < c.PAGE_SIZE, PMread s (phys c frame row) = 0) :
    candsIn c s pf (r + 2) frame
      = (List.range c.PAGE_SIZE).flatMap (candComp c s pf r frame) := by
  rw [candsIn_unfold2, if_neg h]
  rfl

theorem edgeComp_zero (c : Cfg) (s : VMState) (r frame pre row : Nat)
    (h : PMread s (phys c frame row) = 0) : edgeComp c s r frame pre row = [] := by
  unfold edgeComp
  rw [if_pos h]

theorem edgeComp_cons (c : Cfg) (s : VMState) (r frame pre row : Nat)
    (h : PMread s (phys c frame row) ≠ 0) :
    edgeComp c s r frame pre row
      = ⟨frame, row, toU64 (PMread s (phys c frame row)), pre * c.PAGE_SIZE + row, false⟩ ::
        edges c s (r + 1) (toU64 (PMread s (phys c frame row)))
          (pre * c.PAGE_SIZE + row) := by
  unfold edgeComp
  rw [if_neg h]

theorem candComp_zero (c : Cfg) (s : VMState) (pf r frame row : Nat)
    (h : PMread s (phys c frame row) = 0) : candComp c s pf r frame row = [] := by
  unfold candComp
  rw [if_pos h]

theorem candComp_sub (c : Cfg) (s : VMState) (pf r frame row : Nat)
    (h : PMread s (phys c frame row) ≠ 0) :
    candComp c s pf r frame row
      = candsIn c s pf (r + 1) (toU64 (PMread s (phys c frame row))) := by
  unfold candComp
  rw [if_neg h]

theorem all_zero_flatMap_nil_edge (c : Cfg) (s : VMState) (r frame pre : Nat)
    (hz : ∀ row < c.PAGE_SIZE, PMread s (phys c frame row) = 0) :
    (List.range c.PAGE_SIZE).flatMap (edgeComp c s r frame pre) = [] := by
  rw [List.flatMap_congr (fun row hrow =>
    edgeComp_zero c s r frame pre row (hz row (List.mem_range.1 hrow)))]
  exact flatMap_const_nil _

theorem all_zero_flatMap_nil_cand (c : Cfg) (s : VMState) (pf r frame : Nat)
    (hz : ∀ row < c.PAGE_SIZE, PMread s (phys c frame row) = 0) :
    (List.range c.PAGE_SIZE).flatMap (candComp c s pf r frame) = [] := by
  rw [List.flatMap_congr (fun row hrow =>
    candComp_zero c s pf r frame row (hz row (List.mem_range.1 hrow)))]
  exact flatMap_const_nil _

/-! ## The `scanEnd` part of the reuse-candidate specification, all-zero case -/

theorem scanEnd_allzero_empty_spec (c : Cfg) (s : VMState) (pf frame : Nat)
    (i1 info : scanInfo)
    (hEA : info.emptyFrame = U64MAX → emptyOf i1 = emptyOf info)
    (hEB : info.emptyFrame ≠ U64MAX → info.emptyParent = U64MAX →
      info.emptyFrame ≠ 0 → emptyOf i1 = emptyOf info)
    (hEC : info.emptyFrame ≠ U64MAX → info.emptyParent ≠ U64MAX →
      emptyOf i1 = emptyOf info)
    (hz : ∀ row < c.PAGE_SIZE, PMread s (phys c frame row) = 0)
    (hF : frame ≠ U64MAX) :
    (info.emptyFrame = U64MAX →
      ((if frame = 0 ∨ frame = pf then ([] : List Nat) else [frame]) = [] →
        emptyOf (scanEnd c s frame pf (i1, true)) = emptyOf info) ∧
      (∀ E0 t, (if frame = 0 ∨ frame = pf then ([] : List Nat) else [frame]) = E0 :: t →
        (scanEnd c s frame pf (i1, true)).emptyFrame = E0 ∧
        (E0 = frame ∧ (scanEnd c s frame pf (i1, true)).emptyParent = U64MAX ∧
          (scanEnd c s frame pf (i1, true)).emptyRowInParent = 0))) ∧
    (info.emptyFrame ≠ U64MAX → info.emptyParent = U64MAX → info.emptyFrame ≠ 0 →
      emptyOf (scanEnd c s frame pf (i1, true)) = emptyOf info) ∧
    (info.emptyFrame ≠ U64MAX → info.emptyParent ≠ U64MAX →
      emptyOf (scanEnd c s frame pf (i1, true)) = emptyOf info) := by
  by_cases hpf : frame = pf
  · rw [scanEnd_early c s frame pf i1 hpf]
    have hguard : (if frame = 0 ∨ frame = pf then ([] : List Nat) else [frame]) = [] :=
      if_pos (Or.inr hpf)
    refine ⟨fun hA => ⟨fun _ => hEA hA, fun E0 t hcons => ?_⟩,
      fun h1 h2 h3 => hEB h1 h2 h3, fun h1 h2 => hEC h1 h2⟩
    rw [hguard] at hcons
    cases hcons
  · have hout : scanEnd c s frame pf (i1, true)
        = scanFill c s frame (scanRecord frame true i1) :=
      scanEnd_notEarly c s frame pf i1 true (fun h => hpf h.2)
    by_cases h0 : frame = 0
    · have hguard : (if frame = 0 ∨ frame = pf then ([] : List Nat) else [frame]) = [] :=
        if_pos (Or.inl h0)
      refine ⟨fun hA => ⟨fun _ => ?_, fun E0 t hcons => ?_⟩, fun h1 h2 h3 => ?_,
        fun h1 h2 => ?_⟩
      · have hrec : scanRecord frame true i1 = i1 := by
          rw [h0]
          exact scanRecord_root true i1
        have hfe : i1.emptyFrame = U64MAX := by
          have := congrArg (fun t => t.1) (hEA hA)
          simpa [emptyOf] using this.trans hA
        rw [hout, hrec, scanFill_not_pending c s frame i1 (fun h => h.1 hfe)]
        exact hEA hA
      · rw [hguard] at hcons
        cases hcons
      · have hu := hEB h1 h2 h3
        have hfe : i1.emptyFrame = info.emptyFrame := congrArg (fun t => t.1) hu
        have hfp : i1.emptyParent = info.emptyParent := congrArg (fun t => t.2.1) hu
        have hrec : scanRecord frame true i1 = i1 :=
          scanRecord_found frame true i1 (by rw [hfe]; exact h1)
        rw [hout, hrec, scanFill_no_match c s frame i1
          (find_none_of_all_zero c s frame (by rw [hfe]; exact h3) hz)]
        exact hu
      · have hu := hEC h1 h2
        have hfe : i1.emptyFrame = info.emptyFrame := congrArg (fun t => t.1) hu
        have hfp : i1.emptyParent = info.emptyParent := congrArg (fun t => t.2.1) hu
        have hrec : scanRecord frame true i1 = i1 :=
          scanRecord_found frame true i1 (by rw [hfe]; exact h1)
        rw [hout, hrec, scanFill_not_pending c s frame i1 (fun h => h2 (hfp ▸ h.2))]
        exact hu
    · have hguard : (if frame = 0 ∨ frame = pf then ([] : List Nat) else [frame]) = [frame] := by
        rw [if_neg]
        rintro (h | h)
        · exact h0 h
        · exact hpf h
      refine ⟨fun hA => ⟨fun hnil => ?_, fun E0 t hcons => ?_⟩, fun h1 h2 h3 => ?_,
        fun h1 h2 => ?_⟩
      · rw [hguard] at hnil
        cases hnil
      · rw [hguard] at hcons
        have hE0 : E0 = frame := by
          have h := hcons
          rw [List.cons.injEq] at h
          exact h.1.symm
        have hfe : i1.emptyFrame = U64MAX := by
          have := congrArg (fun t => t.1) (hEA hA)
          simpa [emptyOf] using this.trans hA
        have hrec := scanRecord_pos frame i1 h0 hfe
        have hfill : scanFill c s frame
            ({ i1 with emptyFrame := frame, emptyParent := U64MAX, emptyRowInParent := 0 })
            = { i1 with emptyFrame := frame, emptyParent := U64MAX, emptyRowInParent := 0 } :=
          scanFill_no_match c s frame _ (find_none_of_all_zero c s frame h0 hz)
        rw [hout, hrec, hfill]
        exact ⟨hE0.symm ▸ rfl, hE0, rfl, rfl⟩
      · have hu := hEB h1 h2 h3
        have hfe : i1.emptyFrame = info.emptyFrame := congrArg (fun t => t.1) hu
        have hrec : scanRecord frame true i1 = i1 :=
          scanRecord_found frame true i1 (by rw [hfe]; exact h1)
        rw [hout, hrec, scanFill_no_match c s frame i1
          (find_none_of_all_zero c s frame (by rw [hfe]; exact h3) hz)]
        exact hu
      · have hu := hEC h1 h2
        have hfe : i1.emptyFrame = info.emptyFrame := congrArg (fun t => t.1) hu
        have hfp : i1.emptyParent = info.emptyParent := congrArg (fun t => t.2.1) hu
        have hrec : scanRecord frame true i1 = i1 :=
          scanRecord_found frame true i1 (by rw [hfe]; exact h1)
        rw [hout, hrec, scanFill_not_pending c s frame i1 (fun h => h2 (hfp ▸ h.2))]
        exact hu

/-! ## The row-loop part of the reuse-candidate specification (inner levels) -/

theorem scan_empty_fold (c : Cfg) (s : VMState) (tp pf r frame pre : Nat)
    (hsub : ∀ ch pre2 i1,
      (ch :: targetsOf (edges c s (r + 1) ch pre2)).Nodup →
      U64MAX ∉ targetsOf (edges c s (r + 1) ch pre2) →
      ch ≠ U64MAX →
      EmptySpec c s tp pf (r + 1) ch pre2 i1) :
    ∀ (l : List Nat) (acc : scanInfo × Bool),
      (frame :: targetsOf (l.flatMap (edgeComp c s r frame pre))).Nodup →
      U64MAX ∉ targetsOf (l.flatMap (edgeComp c s r frame pre)) →
      FoldSpec c s tp pf r frame pre l acc := by
  intro l
  induction l with
  | nil =>
    intro acc _ _
    unfold FoldSpec
    exact ⟨fun _ => ⟨fun _ => rfl, fun E0 t h => by cases h⟩,
      fun _ _ _ _ => rfl, fun _ _ => rfl⟩
  | cons row t ihl =>
    intro acc hND hNM
    by_cases hcell : PMread s (phys c frame row) = 0
    · have hstep : scanStep c s frame pre (fun e preNext _row i => scan c s tp pf (r + 1) e preNext i) acc row = acc := by
        unfold scanStep
        dsimp only
        rw [if_pos hcell]
      have hFe := edgeComp_zero c s r frame pre row hcell
      have hFc := candComp_zero c s pf r frame row hcell
      have hflatE : (row :: t).flatMap (edgeComp c s r frame pre)
          = t.flatMap (edgeComp c s r frame pre) := by
        rw [List.flatMap_cons, hFe, List.nil_append]
      have hflatC : (row :: t).flatMap (candComp c s pf r frame)
          = t.flatMap (candComp c s pf r frame) := by
        rw [List.flatMap_cons, hFc, List.nil_append]
      rw [hflatE] at hND hNM
      have hIH := ihl acc hND hNM
      unfold FoldSpec at hIH
      obtain ⟨hA, hB, hC⟩ := hIH
      unfold FoldSpec
      simp only [List.foldl_cons, hstep, hflatE, hflatC]
      refine ⟨?_, hB, hC⟩
      intro hAcc
      obtain ⟨hAnil, hAcons⟩ := hA hAcc
      refine ⟨hAnil, ?_⟩
      intro E0 t0 hcons
      obtain ⟨h1, h2⟩ := hAcons E0 t0 hcons
      refine ⟨h1, ?_⟩
      rcases h2 with ⟨row2, hrow2, hp⟩ | h2
      · exact Or.inl ⟨row2, List.mem_cons_of_mem _ hrow2, hp⟩
      · exact Or.inr h2
    · have hstep : scanStep c s frame pre (fun e preNext _row i => scan c s tp pf (r + 1) e preNext i) acc row = (scan c s tp pf (r + 1) (toU64 (PMread s (phys c frame row))) (pre * c.PAGE_SIZE + row) { acc.1 with maxFrame := max acc.1.maxFrame (toU64 (PMread s (phys c frame row))) }, false) := by
        unfold scanStep
        dsimp only
        rw [if_neg hcell]
      have hFe := edgeComp_cons c s r frame pre row hcell
      have hFc := candComp_sub c s pf r frame row hcell
      have hT : targetsOf ((row :: t).flatMap (edgeComp c s r frame pre))
          = (toU64 (PMread s (phys c frame row))) ::
            (targetsOf (edges c s (r + 1) (toU64 (PMread s (phys c frame row))) (pre * c.PAGE_SIZE + row)) ++
              targetsOf (t.flatMap (edgeComp c s r frame pre))) := by
        rw [List.flatMap_cons, hFe]
        unfold targetsOf
        rw [List.map_append, List.map_cons, List.cons_append]
      rw [hT] at hND hNM
      have hfrNot := (List.nodup_cons.1 hND).1
      have hndL := (List.nodup_cons.1 hND).2
      have hchNot := (List.nodup_cons.1 hndL).1
      have hndL2 := (List.nodup_cons.1 hndL).2
      have hsubN := hndL2.of_append_left
      have hrestN := hndL2.of_append_right
      have hdisj := List.disjoint_of_nodup_append hndL2
      have hchMAX : (toU64 (PMread s (phys c frame row))) ≠ U64MAX := fun h => hNM (h ▸ List.mem_cons_self _ _)
      have hsubMAX : U64MAX ∉ targetsOf (edges c s (r + 1) (toU64 (PMread s (phys c frame row)))
          (pre * c.PAGE_SIZE + row)) :=
        fun h => hNM (List.mem_cons_of_mem _ (List.mem_append_left _ h))
      have hrestMAX : U64MAX ∉ targetsOf (t.flatMap (edgeComp c s r frame pre)) :=
        fun h => hNM (List.mem_cons_of_mem _ (List.mem_append_right _ h))
      have hsubND : ((toU64 (PMread s (phys c frame row))) :: targetsOf (edges c s (r + 1) (toU64 (PMread s (phys c frame row)))
          (pre * c.PAGE_SIZE + row))).Nodup :=
        List.nodup_cons.2 ⟨fun h => hchNot (List.mem_append_left _ h), hsubN⟩
      have htND : (frame :: targetsOf (t.flatMap (edgeComp c s r frame pre))).Nodup :=
        List.nodup_cons.2
          ⟨fun h => hfrNot (List.mem_cons_of_mem _ (List.mem_append_right _ h)), hrestN⟩
      have hspec := hsub (toU64 (PMread s (phys c frame row))) (pre * c.PAGE_SIZE + row) ({ acc.1 with maxFrame := max acc.1.maxFrame (toU64 (PMread s (phys c frame row))) }) hsubND hsubMAX hchMAX
      unfold EmptySpec at hspec
      obtain ⟨hIA, hIB, hIC⟩ := hspec
      have hIH := ihl (scan c s tp pf (r + 1) (toU64 (PMread s (phys c frame row))) (pre * c.PAGE_SIZE + row) { acc.1 with maxFrame := max acc.1.maxFrame (toU64 (PMread s (phys c frame row))) }, false) htND hrestMAX
      unfold FoldSpec at hIH
      obtain ⟨hA2, hB2, hC2⟩ := hIH
      have hflatC2 : (row :: t).flatMap (candComp c s pf r frame)
          = candsIn c s pf (r + 1) (toU64 (PMread s (phys c frame row))) ++ t.flatMap (candComp c s pf r frame) := by
        rw [List.flatMap_cons, hFc]
      unfold FoldSpec
      simp only [List.foldl_cons, hstep]
      refine ⟨?_, ?_, ?_⟩
      · intro hAcc
        have hi1 : ({ acc.1 with maxFrame := max acc.1.maxFrame (toU64 (PMread s (phys c frame row))) } : scanInfo).emptyFrame = U64MAX := hAcc
        obtain ⟨hIAnil, hIAcons⟩ := hIA hi1
        rcases hCsub : candsIn c s pf (r + 1) (toU64 (PMread s (phys c frame row))) with _ | ⟨E0, t2⟩
        · have hunch : emptyOf (scan c s tp pf (r + 1) (toU64 (PMread s (phys c frame row))) (pre * c.PAGE_SIZE + row) { acc.1 with maxFrame := max acc.1.maxFrame (toU64 (PMread s (phys c frame row))) }) = emptyOf acc.1 := hIAnil hCsub
          have hI2E : (scan c s tp pf (r + 1) (toU64 (PMread s (phys c frame row))) (pre * c.PAGE_SIZE + row) { acc.1 with maxFrame := max acc.1.maxFrame (toU64 (PMread s (phys c frame row))) }).emptyFrame = U64MAX := by
            have h := congrArg (fun x => x.1) hunch
            simp only [emptyOf] at h
            rw [h]
            exact hAcc
          obtain ⟨hAnil2, hAcons2⟩ := hA2 hI2E
          constructor
          · intro hnil
            rw [hflatC2, hCsub, List.nil_append] at hnil
            exact (hAnil2 hnil).trans hunch
          · intro E0 t0 hcons
            rw [hflatC2, hCsub, List.nil_append] at hcons
            obtain ⟨h1, h2⟩ := hAcons2 E0 t0 hcons
            refine ⟨h1, ?_⟩
            rcases h2 with ⟨row2, hrow2, hp⟩ | ⟨e, he, hp⟩
            · exact Or.inl ⟨row2, List.mem_cons_of_mem _ hrow2, hp⟩
            · refine Or.inr ⟨e, ?_, hp⟩
              rw [List.flatMap_cons]
              exact List.mem_append_right _ he
        · obtain ⟨hEf, hdisj2⟩ := hIAcons E0 t2 hCsub
          have hE0mem : E0 ∈ candsIn c s pf (r + 1) (toU64 (PMread s (phys c frame row))) := by
            rw [hCsub]
            exact List.mem_cons_self _ _
          have hfacts := candsIn_mem c s pf (r + 1) (toU64 (PMread s (phys c frame row))) E0 hE0mem
          have hE0z : E0 ≠ 0 := hfacts.2.1
          have hE0t : E0 = (toU64 (PMread s (phys c frame row))) ∨
              E0 ∈ targetsOf (edges c s (r + 1) (toU64 (PMread s (phys c frame row))) (pre * c.PAGE_SIZE + row)) :=
            hfacts.2.2.2 (pre * c.PAGE_SIZE + row)
          have hE0MAX : E0 ≠ U64MAX := by
            rcases hE0t with h | h
            · rw [h]
              exact hchMAX
            · exact fun hh => hsubMAX (hh ▸ h)
          have hE0notRest : E0 ∉ targetsOf (t.flatMap (edgeComp c s r frame pre)) := by
            rcases hE0t with h | h
            · exact fun hmem => hchNot (h ▸ List.mem_append_right _ hmem)
            · exact fun hmem => hdisj h hmem
          rcases hdisj2 with ⟨hE0ch, hp1, hp2⟩ | ⟨e, he, hleaf, hec, hp1, hp2⟩
          · have hfinal := hB2 (by rw [hEf]; exact hE0MAX) hp1
              (by rw [hEf]; exact hE0z) (by rw [hEf]; exact hE0notRest)
            have hfF := congrArg (fun x => x.1) hfinal
            have hfP := congrArg (fun x => x.2.1) hfinal
            have hfR := congrArg (fun x => x.2.2) hfinal
            simp only [emptyOf] at hfF hfP hfR
            constructor
            · intro hnil
              rw [hflatC2, hCsub, List.cons_append] at hnil
              cases hnil
            · intro E0' t0 hcons
              rw [hflatC2, hCsub, List.cons_append] at hcons
              have hE0' : E0' = E0 := by
                rw [List.cons.injEq] at hcons
                exact hcons.1.symm
              subst hE0'
              refine ⟨by rw [hfF, hEf], Or.inl ⟨row, List.mem_cons_self _ _, hcell,
                hE0ch.symm, by rw [hfP, hp1], by rw [hfR, hp2]⟩⟩
          · have heparent : e.parent ≠ U64MAX := by
              rcases edges_parent_mem c s (r + 1) (toU64 (PMread s (phys c frame row)))
                  (pre * c.PAGE_SIZE + row) e he with h | h
              · rw [h]
                exact hchMAX
              · exact fun hh => hsubMAX (hh ▸ h)
            have hfinal := hC2 (by rw [hEf]; exact hE0MAX) (by rw [hp1]; exact heparent)
            have hfF := congrArg (fun x => x.1) hfinal
            have hfP := congrArg (fun x => x.2.1) hfinal
            have hfR := congrArg (fun x => x.2.2) hfinal
            simp only [emptyOf] at hfF hfP hfR
            constructor
            · intro hnil
              rw [hflatC2, hCsub, List.cons_append] at hnil
              cases hnil
            · intro E0' t0 hcons
              rw [hflatC2, hCsub, List.cons_append] at hcons
              have hE0' : E0' = E0 := by
                rw [List.cons.injEq] at hcons
                exact hcons.1.symm
              subst hE0'
              refine ⟨by rw [hfF, hEf], Or.inr ⟨e, ?_, hleaf, hec,
                by rw [hfP, hp1], by rw [hfR, hp2]⟩⟩
              rw [List.flatMap_cons, hFe]
              exact List.mem_append_left _ (List.mem_cons_of_mem _ he)
      · intro hne hpar h0 hnot
        rw [hT] at hnot
        have hnotsub : acc.1.emptyFrame ∉ targetsOf (edges c s (r + 1) (toU64 (PMread s (phys c frame row)))
            (pre * c.PAGE_SIZE + row)) :=
          fun h => hnot (List.mem_cons_of_mem _ (List.mem_append_left _ h))
        have hnotrest : acc.1.emptyFrame ∉ targetsOf
            (t.flatMap (edgeComp c s r frame pre)) :=
          fun h => hnot (List.mem_cons_of_mem _ (List.mem_append_right _ h))
        have hunch : emptyOf (scan c s tp pf (r + 1) (toU64 (PMread s (phys c frame row))) (pre * c.PAGE_SIZE + row) { acc.1 with maxFrame := max acc.1.maxFrame (toU64 (PMread s (phys c frame row))) }) = emptyOf acc.1 := hIB hne hpar h0 hnotsub
        have huF := congrArg (fun x => x.1) hunch
        have huP := congrArg (fun x => x.2.1) hunch
        simp only [emptyOf] at huF huP
        have hfinal := hB2 (by rw [huF]; exact hne) (by rw [huP]; exact hpar)
          (by rw [huF]; exact h0) (by rw [huF]; exact hnotrest)
        exact hfinal.trans hunch
      · intro hne hpar
        have hunch : emptyOf (scan c s tp pf (r + 1) (toU64 (PMread s (phys c frame row))) (pre * c.PAGE_SIZE + row) { acc.1 with maxFrame := max acc.1.maxFrame (toU64 (PMread s (phys c frame row))) }) = emptyOf acc.1 := hIC hne hpar
        have huF := congrArg (fun x => x.1) hunch
        have huP := congrArg (fun x => x.2.1) hunch
        simp only [emptyOf] at huF huP
        have hfinal := hC2 (by rw [huF]; exact hne) (by rw [huP]; exact hpar)
        exact hfinal.trans hunch

/-! ## Assembling the reuse-candidate specification -/

theorem empty_assemble_allzero (c : Cfg) (s : VMState) (tp pf rem frame pre : Nat)
    (info i1 : scanInfo)
    (hunf : scan c s tp pf rem frame pre info = scanEnd c s frame pf (i1, true))
    (hcands : candsIn c s pf rem frame
      = if frame = 0 ∨ frame = pf then [] else [frame])
    (hEA : info.emptyFrame = U64MAX → emptyOf i1 = emptyOf info)
    (hEB : info.emptyFrame ≠ U64MAX → info.emptyParent = U64MAX →
      info.emptyFrame ≠ 0 → emptyOf i1 = emptyOf info)
    (hEC : info.emptyFrame ≠ U64MAX → info.emptyParent ≠ U64MAX →
      emptyOf i1 = emptyOf info)
    (hz : ∀ row < c.PAGE_SIZE, PMread s (phys c frame row) = 0)
    (hF : frame ≠ U64MAX) :
    EmptySpec c s tp pf rem frame pre info := by
  obtain ⟨hA, hB, hC⟩ := scanEnd_allzero_empty_spec c s pf frame i1 info hEA hEB hEC hz hF
  unfold EmptySpec
  rw [hunf, hcands]
  refine ⟨fun hAcc => ⟨(hA hAcc).1, fun E0 t hcons => ?_⟩,
    fun h1 h2 h3 _ => hB h1 h2 h3, hC⟩
  obtain ⟨h1, h2⟩ := (hA hAcc).2 E0 t hcons
  exact ⟨h1, Or.inl h2⟩

/-- The reuse-candidate fields of a whole scan call satisfy `EmptySpec`
whenever the subtree has no duplicate frames, does not contain the sentinel
as a frame number, and its root is not the sentinel. -/
theorem scan_empty_spec (c : Cfg) (s : VMState) (tp pf : Nat) :
    ∀ rem frame pre info,
      (frame :: targetsOf (edges c s rem frame pre)).Nodup →
      U64MAX ∉ targetsOf (edges c s rem frame pre) →
      frame ≠ U64MAX →
      EmptySpec c s tp pf rem frame pre info := by
  intro rem
  induction rem using Nat.strong_induction_on with
  | _ rem ih =>
    rcases Nat.lt_or_ge rem 2 with hrem | hrem
    · intro frame pre info hND hNM hF
      have hrem2 : rem ≤ 1 := by omega
      have hunf : scan c s tp pf rem frame pre info
          = scanEnd c s frame pf ((List.range c.PAGE_SIZE).foldl (scanStep c s frame pre (fun e preNext row i => scanLeafChild c tp frame e preNext row i)) (info, true)) := by
        rcases rem with _ | rem2
        · exact scan_unfold0 c s tp pf frame pre info
        · rcases rem2 with _ | rem3
          · exact scan_unfold1 c s tp pf frame pre info
          · omega
      have hpres : emptyOf ((List.range c.PAGE_SIZE).foldl (scanStep c s frame pre (fun e preNext row i => scanLeafChild c tp frame e preNext row i)) (info, true)).1 = emptyOf info :=
        foldl_scanStep_pres2 c s frame pre
          (fun e preNext row i => scanLeafChild c tp frame e preNext row i)
          (fun i => emptyOf i = emptyOf info)
          (fun i m h => h)
          (fun e p r2 i h => (scanLeafChild_emptyOf c tp frame e p r2 i).trans h)
          (List.range c.PAGE_SIZE) (info, true) rfl
      have hfe : ((List.range c.PAGE_SIZE).foldl (scanStep c s frame pre (fun e preNext row i => scanLeafChild c tp frame e preNext row i)) (info, true)).1.emptyFrame = info.emptyFrame :=
        congrArg (fun x => x.1) hpres
      have hfp : ((List.range c.PAGE_SIZE).foldl (scanStep c s frame pre (fun e preNext row i => scanLeafChild c tp frame e preNext row i)) (info, true)).1.emptyParent = info.emptyParent :=
        congrArg (fun x => x.2.1) hpres
      by_cases hz : ∀ row < c.PAGE_SIZE, PMread s (phys c frame row) = 0
      · have haz : ((List.range c.PAGE_SIZE).foldl (scanStep c s frame pre (fun e preNext row i => scanLeafChild c tp frame e preNext row i)) (info, true)).2 = true :=
          (foldl_scanStep_allZero c s frame pre
            (fun e preNext row i => scanLeafChild c tp frame e preNext row i)
            (List.range c.PAGE_SIZE) (info, true)).2
            ⟨rfl, fun row hrow => hz row (List.mem_range.1 hrow)⟩
        have hpair : ((List.range c.PAGE_SIZE).foldl (scanStep c s frame pre (fun e preNext row i => scanLeafChild c tp frame e preNext row i)) (info, true)) = (((List.range c.PAGE_SIZE).foldl (scanStep c s frame pre (fun e preNext row i => scanLeafChild c tp frame e preNext row i)) (info, true)).1, true) := by
          have h : ((List.range c.PAGE_SIZE).foldl (scanStep c s frame pre (fun e preNext row i => scanLeafChild c tp frame e preNext row i)) (info, true)) = (((List.range c.PAGE_SIZE).foldl (scanStep c s frame pre (fun e preNext row i => scanLeafChild c tp frame e preNext row i)) (info, true)).1, ((List.range c.PAGE_SIZE).foldl (scanStep c s frame pre (fun e preNext row i => scanLeafChild c tp frame e preNext row i)) (info, true)).2) := rfl
          rw [haz] at h
          exact h
        have hscan : scan c s tp pf rem frame pre info
            = scanEnd c s frame pf (((List.range c.PAGE_SIZE).foldl (scanStep c s frame pre (fun e preNext row i => scanLeafChild c tp frame e preNext row i)) (info, true)).1, true) :=
          hunf.trans (congrArg (scanEnd c s frame pf) hpair)
        have hcands : candsIn c s pf rem frame
            = if frame = 0 ∨ frame = pf then [] else [frame] := by
          rw [candsIn_unfold_leaf c s pf frame rem hrem2, if_pos hz]
        exact empty_assemble_allzero c s tp pf rem frame pre info ((List.range c.PAGE_SIZE).foldl (scanStep c s frame pre (fun e preNext row i => scanLeafChild c tp frame e preNext row i)) (info, true)).1 hscan hcands
          (fun _ => hpres) (fun _ _ _ => hpres) (fun _ _ => hpres) hz hF
      · have haz : ((List.range c.PAGE_SIZE).foldl (scanStep c s frame pre (fun e preNext row i => scanLeafChild c tp frame e preNext row i)) (info, true)).2 = false := by
          have hiff := foldl_scanStep_allZero c s frame pre
            (fun e preNext row i => scanLeafChild c tp frame e preNext row i)
            (List.range c.PAGE_SIZE) (info, true)
          rcases Bool.eq_false_or_eq_true (((List.range c.PAGE_SIZE).foldl (scanStep c s frame pre (fun e preNext row i => scanLeafChild c tp frame e preNext row i)) (info, true)).2) with h | h
          · exact absurd (fun row hrow =>
              (hiff.1 h).2 row (List.mem_range.2 hrow)) hz
          · exact h
        have hpair : ((List.range c.PAGE_SIZE).foldl (scanStep c s frame pre (fun e preNext row i => scanLeafChild c tp frame e preNext row i)) (info, true)) = (((List.range c.PAGE_SIZE).foldl (scanStep c s frame pre (fun e preNext row i => scanLeafChild c tp frame e preNext row i)) (info, true)).1, false) := by
          have h : ((List.range c.PAGE_SIZE).foldl (scanStep c s frame pre (fun e preNext row i => scanLeafChild c tp frame e preNext row i)) (info, true)) = (((List.range c.PAGE_SIZE).foldl (scanStep c s frame pre (fun e preNext row i => scanLeafChild c tp frame e preNext row i)) (info, true)).1, ((List.range c.PAGE_SIZE).foldl (scanStep c s frame pre (fun e preNext row i => scanLeafChild c tp frame e preNext row i)) (info, true)).2) := rfl
          rw [haz] at h
          exact h
        have hscan : scan c s tp pf rem frame pre info
            = scanEnd c s frame pf (((List.range c.PAGE_SIZE).foldl (scanStep c s frame pre (fun e preNext row i => scanLeafChild c tp frame e preNext row i)) (info, true)).1, false) :=
          hunf.trans (congrArg (scanEnd c s frame pf) hpair)
        have hout : scan c s tp pf rem frame pre info
            = scanFill c s frame ((List.range c.PAGE_SIZE).foldl (scanStep c s frame pre (fun e preNext row i => scanLeafChild c tp frame e preNext row i)) (info, true)).1 := by
          rw [hscan, scanEnd_notEarly c s frame pf (((List.range c.PAGE_SIZE).foldl (scanStep c s frame pre (fun e preNext row i => scanLeafChild c tp frame e preNext row i)) (info, true)).1) false
            (fun h => Bool.false_ne_true h.1), scanRecord_false]
        have hcands : candsIn c s pf rem frame = [] := by
          rw [candsIn_unfold_leaf c s pf frame rem hrem2, if_neg hz]
        unfold EmptySpec
        refine ⟨fun hAcc => ⟨fun _ => ?_, fun E0 t hcons => ?_⟩,
          fun h1 h2 h3 h4 => ?_, fun h1 h2 => ?_⟩
        · rw [hout, scanFill_not_pending c s frame _ (fun h => h.1 (hfe.trans hAcc))]
          exact hpres
        · rw [hcands] at hcons
          cases hcons
        · have hne0 : ((List.range c.PAGE_SIZE).foldl (scanStep c s frame pre (fun e preNext row i => scanLeafChild c tp frame e preNext row i)) (info, true)).1.emptyFrame ≠ 0 := fun hh => h3 (hfe.symm.trans hh)
          have hnt : ((List.range c.PAGE_SIZE).foldl (scanStep c s frame pre (fun e preNext row i => scanLeafChild c tp frame e preNext row i)) (info, true)).1.emptyFrame ∉ targetsOf (edges c s rem frame pre) := by
            rw [hfe]
            exact h4
          rw [hout, scanFill_no_match c s frame (((List.range c.PAGE_SIZE).foldl (scanStep c s frame pre (fun e preNext row i => scanLeafChild c tp frame e preNext row i)) (info, true)).1)
            (find_none_of_not_target c s rem frame pre hne0 hnt)]
          exact hpres
        · rw [hout, scanFill_not_pending c s frame _ (fun h => h2 (hfp.symm.trans h.2))]
          exact hpres
    · obtain ⟨r, rfl⟩ : ∃ r, rem = r + 2 := ⟨rem - 2, by omega⟩
      intro frame pre info hND hNM hF
      have hE := edges_eq_comp c s r frame pre
      have hND2 := hND
      have hNM2 := hNM
      rw [hE] at hND2 hNM2
      have hsub : ∀ ch pre2 i1,
          (ch :: targetsOf (edges c s (r + 1) ch pre2)).Nodup →
          U64MAX ∉ targetsOf (edges c s (r + 1) ch pre2) →
          ch ≠ U64MAX →
          EmptySpec c s tp pf (r + 1) ch pre2 i1 :=
        fun ch pre2 i1 hnd hnm hf => ih (r + 1) (by omega) ch pre2 i1 hnd hnm hf
      have hfold := scan_empty_fold c s tp pf r frame pre hsub
        (List.range c.PAGE_SIZE) (info, true) hND2 hNM2
      unfold FoldSpec at hfold
      obtain ⟨fA, fB, fC⟩ := hfold
      by_cases hz : ∀ row < c.PAGE_SIZE, PMread s (phys c frame row) = 0
      · have haz : ((List.range c.PAGE_SIZE).foldl (scanStep c s frame pre (fun e preNext _row i => scan c s tp pf (r + 1) e preNext i)) (info, true)).2 = true :=
          (foldl_scanStep_allZero c s frame pre
            (fun e preNext _row i => scan c s tp pf (r + 1) e preNext i)
            (List.range c.PAGE_SIZE) (info, true)).2
            ⟨rfl, fun row hrow => hz row (List.mem_range.1 hrow)⟩
        have hpair : ((List.range c.PAGE_SIZE).foldl (scanStep c s frame pre (fun e preNext _row i => scan c s tp pf (r + 1) e preNext i)) (info, true)) = (((List.range c.PAGE_SIZE).foldl (scanStep c s frame pre (fun e preNext _row i => scan c s tp pf (r + 1) e preNext i)) (info, true)).1, true) := by
          have h : ((List.range c.PAGE_SIZE).foldl (scanStep c s frame pre (fun e preNext _row i => scan c s tp pf (r + 1) e preNext i)) (info, true)) = (((List.range c.PAGE_SIZE).foldl (scanStep c s frame pre (fun e preNext _row i => scan c s tp pf (r + 1) e preNext i)) (info, true)).1, ((List.range c.PAGE_SIZE).foldl (scanStep c s frame pre (fun e preNext _row i => scan c s tp pf (r + 1) e preNext i)) (info, true)).2) := rfl
          rw [haz] at h
          exact h
        have hscan : scan c s tp pf (r + 2) frame pre info
            = scanEnd c s frame pf (((List.range c.PAGE_SIZE).foldl (scanStep c s frame pre (fun e preNext _row i => scan c s tp pf (r + 1) e preNext i)) (info, true)).1, true) :=
          (scan_unfold2 c s tp pf r frame pre info).trans
            (congrArg (scanEnd c s frame pf) hpair)
        have hcands : candsIn c s pf (r + 2) frame
            = if frame = 0 ∨ frame = pf then [] else [frame] := by
          rw [candsIn_unfold2, if_pos hz]
        have hEnil := all_zero_flatMap_nil_edge c s r frame pre hz
        have hCnil := all_zero_flatMap_nil_cand c s pf r frame hz
        refine empty_assemble_allzero c s tp pf (r + 2) frame pre info (((List.range c.PAGE_SIZE).foldl (scanStep c s frame pre (fun e preNext _row i => scan c s tp pf (r + 1) e preNext i)) (info, true)).1)
          hscan hcands ?_ ?_ ?_ hz hF
        · intro hAcc
          exact (fA hAcc).1 hCnil
        · intro h1 h2 h3
          refine fB h1 h2 h3 ?_
          rw [hEnil]
          simp [targetsOf]
        · exact fC
      · have haz : ((List.range c.PAGE_SIZE).foldl (scanStep c s frame pre (fun e preNext _row i => scan c s tp pf (r + 1) e preNext i)) (info, true)).2 = false := by
          have hiff := foldl_scanStep_allZero c s frame pre
            (fun e preNext _row i => scan c s tp pf (r + 1) e preNext i)
            (List.range c.PAGE_SIZE) (info, true)
          rcases Bool.eq_false_or_eq_true (((List.range c.PAGE_SIZE).foldl (scanStep c s frame pre (fun e preNext _row i => scan c s tp pf (r + 1) e preNext i)) (info, true)).2) with h | h
          · exact absurd (fun row hrow =>
              (hiff.1 h).2 row (List.mem_range.2 hrow)) hz
          · exact h
        have hpair : ((List.range c.PAGE_SIZE).foldl (scanStep c s frame pre (fun e preNext _row i => scan c s tp pf (r + 1) e preNext i)) (info, true)) = (((List.range c.PAGE_SIZE).foldl (scanStep c s frame pre (fun e preNext _row i => scan c s tp pf (r + 1) e preNext i)) (info, true)).1, false) := by
          have h : ((List.range c.PAGE_SIZE).foldl (scanStep c s frame pre (fun e preNext _row i => scan c s tp pf (r + 1) e preNext i)) (info, true)) = (((List.range c.PAGE_SIZE).foldl (scanStep c s frame pre (fun e preNext _row i => scan c s tp pf (r + 1) e preNext i)) (info, true)).1, ((List.range c.PAGE_SIZE).foldl (scanStep c s frame pre (fun e preNext _row i => scan c s tp pf (r + 1) e preNext i)) (info, true)).2) := rfl
          rw [haz] at h
          exact h
        have hscan : scan c s tp pf (r + 2) frame pre info
            = scanEnd c s frame pf (((List.range c.PAGE_SIZE).foldl (scanStep c s frame pre (fun e preNext _row i => scan c s tp pf (r + 1) e preNext i)) (info, true)).1, false) :=
          (scan_unfold2 c s tp pf r frame pre info).trans
            (congrArg (scanEnd c s frame pf) hpair)
        have hout : scan c s tp pf (r + 2) frame pre info
            = scanFill c s frame ((List.range c.PAGE_SIZE).foldl (scanStep c s frame pre (fun e preNext _row i => scan c s tp pf (r + 1) e preNext i)) (info, true)).1 := by
          rw [hscan, scanEnd_notEarly c s frame pf (((List.range c.PAGE_SIZE).foldl (scanStep c s frame pre (fun e preNext _row i => scan c s tp pf (r + 1) e preNext i)) (info, true)).1) false
            (fun h => Bool.false_ne_true h.1), scanRecord_false]
        have hcomp := candsIn_eq_comp c s pf r frame hz
        unfold EmptySpec
        refine ⟨fun hAcc => ⟨fun hnil => ?_, fun E0 t hcons => ?_⟩,
          fun h1 h2 h3 h4 => ?_, fun h1 h2 => ?_⟩
        · obtain ⟨fAnil, fAcons⟩ := fA hAcc
          have hnil2 : (List.range c.PAGE_SIZE).flatMap (candComp c s pf r frame) = [] := by
            rw [← hcomp]
            exact hnil
          have hu := fAnil hnil2
          have hfe : ((List.range c.PAGE_SIZE).foldl (scanStep c s frame pre (fun e preNext _row i => scan c s tp pf (r + 1) e preNext i)) (info, true)).1.emptyFrame = info.emptyFrame :=
            congrArg (fun x => x.1) hu
          rw [hout, scanFill_not_pending c s frame _ (fun h => h.1 (hfe.trans hAcc))]
          exact hu
        · obtain ⟨fAnil, fAcons⟩ := fA hAcc
          have hcons2 : (List.range c.PAGE_SIZE).flatMap (candComp c s pf r frame)
              = E0 :: t := by
            rw [← hcomp]
            exact hcons
          have hE0mem : E0 ∈ candsIn c s pf (r + 2) frame := by
            rw [hcons]
            exact List.mem_cons_self _ _
          have hfacts := candsIn_mem c s pf (r + 2) frame E0 hE0mem
          have hE0z : E0 ≠ 0 := hfacts.2.1
          have hE0MAX : E0 ≠ U64MAX := by
            rcases hfacts.2.2.2 pre with h | h
            · rw [h]
              exact hF
            · exact fun hh => hNM (hh ▸ h)
          obtain ⟨hi1E0, hdisj⟩ := fAcons E0 t hcons2
          rcases hdisj with ⟨row, hrow, hcell, hch, hp1, hp2⟩ |
            ⟨e, he, hleaf, hec, hp1, hp2⟩
          · have hguard : ((List.range c.PAGE_SIZE).foldl (scanStep c s frame pre (fun e preNext _row i => scan c s tp pf (r + 1) e preNext i)) (info, true)).1.emptyFrame ≠ U64MAX := by
              rw [hi1E0]
              exact hE0MAX
            have hsome : ((List.range c.PAGE_SIZE).find?
                (fun row => toU64 (PMread s (phys c frame row))
                  == ((List.range c.PAGE_SIZE).foldl (scanStep c s frame pre (fun e preNext _row i => scan c s tp pf (r + 1) e preNext i)) (info, true)).1.emptyFrame)).isSome := by
              rw [List.find?_isSome]
              refine ⟨row, hrow, ?_⟩
              rw [hi1E0]
              simp only [beq_iff_eq]
              exact hch
            obtain ⟨r2, hfind⟩ := Option.isSome_iff_exists.1 hsome
            have hr2mem : r2 ∈ List.range c.PAGE_SIZE := List.mem_of_find?_eq_some hfind
            have hr2pred := List.find?_some hfind
            rw [hi1E0] at hr2pred
            simp only [beq_iff_eq] at hr2pred
            have hr2cell : PMread s (phys c frame r2) ≠ 0 := by
              intro hzero
              rw [hzero] at hr2pred
              exact hE0z (by simpa [toU64] using hr2pred.symm)
            have hfill := scanFill_match c s frame (((List.range c.PAGE_SIZE).foldl (scanStep c s frame pre (fun e preNext _row i => scan c s tp pf (r + 1) e preNext i)) (info, true)).1) hguard hp1 r2 hfind
            refine ⟨?_, Or.inr ⟨⟨frame, r2, toU64 (PMread s (phys c frame r2)),
              pre * c.PAGE_SIZE + r2, false⟩, ?_, rfl, hr2pred, ?_, ?_⟩⟩
            · rw [hout, hfill]
              exact hi1E0
            · rw [edges_eq_comp]
              apply List.mem_flatMap.2
              refine ⟨r2, hr2mem, ?_⟩
              rw [edgeComp_cons c s r frame pre r2 hr2cell]
              exact List.mem_cons_self _ _
            · rw [hout, hfill]
            · rw [hout, hfill]
          · have hmem : e ∈ edges c s (r + 2) frame pre := by
              rw [edges_eq_comp]
              exact he
            have hparentMAX : e.parent ≠ U64MAX := by
              rcases edges_parent_mem c s (r + 2) frame pre e hmem with h | h
              · rw [h]
                exact hF
              · exact fun hh => hNM (hh ▸ h)
            have hfill := scanFill_not_pending c s frame (((List.range c.PAGE_SIZE).foldl (scanStep c s frame pre (fun e preNext _row i => scan c s tp pf (r + 1) e preNext i)) (info, true)).1)
              (fun h => hparentMAX (hp1.symm.trans h.2))
            refine ⟨?_, Or.inr ⟨e, hmem, hleaf, hec, ?_, ?_⟩⟩
            · rw [hout, hfill]
              exact hi1E0
            · rw [hout, hfill]
              exact hp1
            · rw [hout, hfill]
              exact hp2
        · have h4b : info.emptyFrame ∉ targetsOf
              ((List.range c.PAGE_SIZE).flatMap (edgeComp c s r frame pre)) := by
            rw [← hE]
            exact h4
          have hu := fB h1 h2 h3 h4b
          have hfe : ((List.range c.PAGE_SIZE).foldl (scanStep c s frame pre (fun e preNext _row i => scan c s tp pf (r + 1) e preNext i)) (info, true)).1.emptyFrame = info.emptyFrame :=
            congrArg (fun x => x.1) hu
          have hne0 : ((List.range c.PAGE_SIZE).foldl (scanStep c s frame pre (fun e preNext _row i => scan c s tp pf (r + 1) e preNext i)) (info, true)).1.emptyFrame ≠ 0 := fun hh => h3 (hfe.symm.trans hh)
          have hnt : ((List.range c.PAGE_SIZE).foldl (scanStep c s frame pre (fun e preNext _row i => scan c s tp pf (r + 1) e preNext i)) (info, true)).1.emptyFrame ∉ targetsOf (edges c s (r + 2) frame pre) := by
            rw [hfe]
            exact h4
          rw [hout, scanFill_no_match c s frame (((List.range c.PAGE_SIZE).foldl (scanStep c s frame pre (fun e preNext _row i => scan c s tp pf (r + 1) e preNext i)) (info, true)).1)
            (find_none_of_not_target c s (r + 2) frame pre hne0 hnt)]
          exact hu
        · have hu := fC h1 h2
          have hfp : ((List.range c.PAGE_SIZE).foldl (scanStep c s frame pre (fun e preNext _row i => scan c s tp pf (r + 1) e preNext i)) (info, true)).1.emptyParent = info.emptyParent :=
            congrArg (fun x => x.2.1) hu
          rw [hout, scanFill_not_pending c s frame _ (fun h => h2 (hfp.symm.trans h.2))]
          exact hu

/-! ## Claim C3: strict allocation priority -/

/-- C3: in every call to `allocateFrame` (on a tree without duplicate
frame references and without the sentinel as a frame number), if the tree
contains an empty non-root table frame other than the parent being
populated — i.e. the scan-order candidate list is non-empty — then its
first element is returned, with no eviction, regardless of whether fresh
frames are still available; otherwise, if the high-water mark plus one is
below `NUM_FRAMES`, the fresh frame `maxFrame + 1` is returned, again with
no eviction; and an eviction can occur only when no reusable empty table
exists and the high-water mark plus one has reached the frame count. -/
theorem C3_allocation_priority (c : Cfg) (s : VMState) (tp pf pr : Nat) (isLeaf : Bool)
    (hND : treeUniq c s) (hNM : U64MAX ∉ targetsOf (rootEdges c s)) :
    (∀ E0 t, cands c s pf = E0 :: t →
      (allocateFrame c s pf pr tp isLeaf).1 = E0 ∧
      (allocateFrame c s pf pr tp isLeaf).2.evictions = s.evictions) ∧
    (cands c s pf = [] → (scanRoot c s tp pf).maxFrame + 1 < c.numFrames →
      (allocateFrame c s pf pr tp isLeaf).1 = (scanRoot c s tp pf).maxFrame + 1 ∧
      (allocateFrame c s pf pr tp isLeaf).2.evictions = s.evictions) ∧
    ((allocateFrame c s pf pr tp isLeaf).2.evictions ≠ s.evictions →
      cands c s pf = [] ∧ c.numFrames ≤ (scanRoot c s tp pf).maxFrame + 1) := by
  have hF0 : (0 : Nat) ≠ U64MAX := by decide
  have hspec := scan_empty_spec c s tp pf c.tablesDepth 0 0 {} hND hNM hF0
  unfold EmptySpec at hspec
  obtain ⟨hA, _, _⟩ := hspec
  obtain ⟨hAnil, hAcons⟩ := hA rfl
  have hreuse : ∀ E0 t, cands c s pf = E0 :: t →
      (allocateFrame c s pf pr tp isLeaf).1 = E0 ∧
      (allocateFrame c s pf pr tp isLeaf).2.evictions = s.evictions := by
    intro E0 t hcons
    have hcons2 : candsIn c s pf c.tablesDepth 0 = E0 :: t := hcons
    obtain ⟨hEf, _⟩ := hAcons E0 t hcons2
    have hE0mem : E0 ∈ candsIn c s pf c.tablesDepth 0 := by
      rw [hcons2]
      exact List.mem_cons_self _ _
    have hfacts := candsIn_mem c s pf c.tablesDepth 0 E0 hE0mem
    have hE0z : E0 ≠ 0 := hfacts.2.1
    have hE0pf : E0 ≠ pf := hfacts.2.2.1
    have hE0MAX : E0 ≠ U64MAX := by
      rcases hfacts.2.2.2 0 with h | h
      · exact absurd h hE0z
      · exact fun hh => hNM (hh ▸ h)
    have hsf : (scanRoot c s tp pf).emptyFrame = E0 := hEf
    rw [allocateFrame_reuse_case c s pf pr tp isLeaf
      ⟨by rw [hsf]; exact hE0MAX, by rw [hsf]; exact hE0pf⟩]
    refine ⟨hsf, ?_⟩
    exact clearFrame_evictions c
      (PMwrite s (phys c (scanRoot c s tp pf).emptyParent
        (scanRoot c s tp pf).emptyRowInParent) 0)
      (scanRoot c s tp pf).emptyFrame isLeaf
  have hfresh : cands c s pf = [] →
      (scanRoot c s tp pf).maxFrame + 1 < c.numFrames →
      (allocateFrame c s pf pr tp isLeaf).1 = (scanRoot c s tp pf).maxFrame + 1 ∧
      (allocateFrame c s pf pr tp isLeaf).2.evictions = s.evictions := by
    intro hnil h2
    have hu := hAnil hnil
    have hsf : (scanRoot c s tp pf).emptyFrame = U64MAX :=
      congrArg (fun x => x.1) hu
    have hng : ¬((scanRoot c s tp pf).emptyFrame ≠ U64MAX ∧
        (scanRoot c s tp pf).emptyFrame ≠ pf) := fun h => h.1 hsf
    rw [allocateFrame_fresh_case c s pf pr tp isLeaf hng h2]
    exact ⟨rfl, clearFrame_evictions c s ((scanRoot c s tp pf).maxFrame + 1) isLeaf⟩
  refine ⟨hreuse, hfresh, ?_⟩
  intro hchg
  rcases hc : cands c s pf with _ | ⟨E0, t⟩
  · by_cases h2 : (scanRoot c s tp pf).maxFrame + 1 < c.numFrames
    · exact absurd (hfresh hc h2).2 hchg
    · exact ⟨rfl, by omega⟩
  · exact absurd (hreuse E0 t hc).2 hchg

/-- Witness for C3 at the reference configuration and reachable state
`witState`. -/
theorem C3_allocation_priority_witness :
    treeUniq testCfg witState ∧
    U64MAX ∉ targetsOf (rootEdges testCfg witState) ∧
    ((∀ E0 t, cands testCfg witState 1 = E0 :: t →
      (allocateFrame testCfg witState 1 0 0 false).1 = E0 ∧
      (allocateFrame testCfg witState 1 0 0 false).2.evictions = witState.evictions) ∧
    (cands testCfg witState 1 = [] →
      (scanRoot testCfg witState 0 1).maxFrame + 1 < testCfg.numFrames →
      (allocateFrame testCfg witState 1 0 0 false).1
        = (scanRoot testCfg witState 0 1).maxFrame + 1 ∧
      (allocateFrame testCfg witState 1 0 0 false).2.evictions = witState.evictions) ∧
    ((allocateFrame testCfg witState 1 0 0 false).2.evictions ≠ witState.evictions →
      cands testCfg witState 1 = [] ∧
      testCfg.numFrames ≤ (scanRoot testCfg witState 0 1).maxFrame + 1)) :=
  ⟨by decide, by decide, C3_allocation_priority testCfg witState 0 1 0 false
    (by decide) (by decide)⟩

/-! ## Claim C10: the allocator never returns the parent being populated -/

/-- C10: whenever `parentFrame` is the root or is referenced by a table
(non-leaf) entry of the tree — as in every call the walker makes — the frame
`allocateFrame` returns differs from `parentFrame` on all three priority
paths: the explicitly guarded reuse path, the fresh path (the high-water
mark bounds every referenced frame, so `maxFrame + 1` exceeds
`parentFrame`), and the eviction path (the victim is a leaf, never the
table being populated). -/
theorem C10_result_ne_parent (c : Cfg) (s : VMState) (tp pf pr : Nat) (isLeaf : Bool)
    (hND : treeUniq c s) (hNM : U64MAX ∉ targetsOf (rootEdges c s))
    (hpf : pf = 0 ∨ ∃ e ∈ rootEdges c s, e.leaf = false ∧ e.child = pf) :
    (allocateFrame c s pf pr tp isLeaf).1 ≠ pf := by
  unfold treeUniq at hND
  have hpfMAX : pf ≠ U64MAX := by
    rcases hpf with rfl | ⟨e, he, _, hec⟩
    · decide
    · have hmem : e.child ∈ targetsOf (rootEdges c s) :=
        List.mem_map_of_mem Edge.child he
      exact fun hh => hNM (hh ▸ hec ▸ hmem)
  have hmaxEq : (scanRoot c s tp pf).maxFrame
      = (targetsOf (rootEdges c s)).foldl max 0 := by
    unfold scanRoot rootEdges
    exact scan_maxFrame c s tp pf c.tablesDepth 0 0 {}
  have hpfle : pf ≤ (scanRoot c s tp pf).maxFrame := by
    rcases hpf with rfl | ⟨e, he, _, hec⟩
    · exact Nat.zero_le _
    · have hmem : e.child ∈ targetsOf (rootEdges c s) :=
        List.mem_map_of_mem Edge.child he
      rw [hmaxEq]
      exact mem_le_foldl_max (hec ▸ hmem) 0
  by_cases h1 : (scanRoot c s tp pf).emptyFrame ≠ U64MAX ∧
      (scanRoot c s tp pf).emptyFrame ≠ pf
  · rw [allocateFrame_reuse_case c s pf pr tp isLeaf h1]
    exact h1.2
  · by_cases h2 : (scanRoot c s tp pf).maxFrame + 1 < c.numFrames
    · rw [allocateFrame_fresh_case c s pf pr tp isLeaf h1 h2]
      show (scanRoot c s tp pf).maxFrame + 1 ≠ pf
      omega
    · rw [allocateFrame_evict_case c s pf pr tp isLeaf h1 h2]
      show (scanRoot c s tp pf).victimFrame ≠ pf
      have hvic : victimOf (scanRoot c s tp pf)
          = (leafEdges c s).foldl (vstep c tp) (victimOf {}) := by
        unfold scanRoot leafEdges rootEdges
        exact scan_victimOf c s tp pf c.tablesDepth 0 0 {}
      rcases foldl_vstep_spec c tp (leafEdges c s) (victimOf {}) with
        ⟨_, heq⟩ | ⟨l₁, e, l₂, hsplit, _, _, _, heq⟩
      · have hv : victimOf (scanRoot c s tp pf) = victimOf ({} : scanInfo) :=
          hvic.trans heq
        have hvf : (scanRoot c s tp pf).victimFrame = U64MAX :=
          congrArg (fun t => t.1) hv
        rw [hvf]
        exact fun hh => hpfMAX hh.symm
      · have hv : victimOf (scanRoot c s tp pf)
            = (e.child, e.parent, e.row, e.pre, distTo c tp e) := hvic.trans heq
        have hvf : (scanRoot c s tp pf).victimFrame = e.child :=
          congrArg (fun t => t.1) hv
        rw [hvf]
        have heL : e ∈ leafEdges c s := by
          rw [hsplit]
          exact List.mem_append_right _ (List.mem_cons_self _ _)
        have heR : e ∈ rootEdges c s := List.mem_of_mem_filter heL
        have hleafE : e.leaf = true := List.of_mem_filter heL
        have hmemE : e.child ∈ targetsOf (rootEdges c s) :=
          List.mem_map_of_mem Edge.child heR
        intro hh
        rcases hpf with rfl | ⟨e2, he2, hleaf2, hec2⟩
        · exact (List.nodup_cons.1 hND).1 (hh ▸ hmemE)
        · have hNDt : (targetsOf (rootEdges c s)).Nodup := (List.nodup_cons.1 hND).2
          unfold targetsOf at hNDt
          have heqE : e = e2 :=
            List.inj_on_of_nodup_map hNDt heR he2 (hh.trans hec2.symm)
          have : (false : Bool) = true := hleaf2.symm.trans (heqE ▸ hleafE)
          cases this

/-- Witness for C10 at the reference configuration: the parent `1` is a
table frame of `witState`, and the allocator result differs from it. -/
theorem C10_result_ne_parent_witness :
    treeUniq testCfg witState ∧
    U64MAX ∉ targetsOf (rootEdges testCfg witState) ∧
    ((1 : Nat) = 0 ∨ ∃ e ∈ rootEdges testCfg witState, e.leaf = false ∧ e.child = 1) ∧
    (allocateFrame testCfg witState 1 0 0 false).1 ≠ 1 :=
  ⟨by decide, by decide, by decide,
    C10_result_ne_parent testCfg witState 0 1 0 false (by decide) (by decide) (by decide)⟩

/-! ## Helpers for the clearing policy -/

theorem PMread_PMwrite (s : VMState) (a : Nat) (v : Int) (b : Nat) :
    PMread (PMwrite s a v) b = if b = a then wrapWord v else PMread s b := rfl

theorem wrapWord_zero : wrapWord 0 = 0 := by decide

theorem foldl_write0_read (c : Cfg) (f : Nat) :
    ∀ (l : List Nat) (t : VMState) (a : Nat),
      PMread (l.foldl (fun st i => PMwrite st (phys c f i) 0) t) a
        = if a ∈ l.map (phys c f) then 0 else PMread t a := by
  intro l
  induction l with
  | nil =>
    intro t a
    simp
  | cons i tl ih =>
    intro t a
    rw [List.foldl_cons, ih, List.map_cons]
    by_cases hmem : a ∈ tl.map (phys c f)
    · rw [if_pos hmem, if_pos (List.mem_cons_of_mem _ hmem)]
    · rw [if_neg hmem, PMread_PMwrite]
      by_cases ha : a = phys c f i
      · rw [if_pos ha, if_pos (by rw [ha]; exact List.mem_cons_self _ _), wrapWord_zero]
      · rw [if_neg ha, if_neg (fun h => (List.mem_cons.1 h).elim ha hmem)]

theorem clearFrame_table_zero (c : Cfg) (s : VMState) (f : Nat) :
    ∀ row < c.PAGE_SIZE, PMread (clearFrame c s f false) (phys c f row) = 0 := by
  intro row hrow
  unfold clearFrame
  rw [if_neg Bool.false_ne_true, foldl_write0_read,
    if_pos (List.mem_map_of_mem (phys c f) (List.mem_range.2 hrow))]

theorem clearFrame_leaf (c : Cfg) (s : VMState) (f : Nat) :
    clearFrame c s f true = s := by
  unfold clearFrame
  rw [if_pos rfl]

theorem phys_ne (c : Cfg) {f1 f2 r1 r2 : Nat} (hf : f1 ≠ f2)
    (hr1 : r1 < c.PAGE_SIZE) (hr2 : r2 < c.PAGE_SIZE) :
    phys c f1 r1 ≠ phys c f2 r2 := by
  have hP := PAGE_SIZE_pos c
  intro heq
  apply hf
  have key : ∀ f r, r < c.PAGE_SIZE → (f * c.PAGE_SIZE + r) / c.PAGE_SIZE = f := by
    intro f r hr
    rw [Nat.add_comm, Nat.add_mul_div_right _ _ hP, Nat.div_eq_of_lt hr, Nat.zero_add]
  have h1 := key f1 r1 hr1
  have h2 := key f2 r2 hr2
  unfold phys at heq
  rw [← h1, ← h2, heq]

/-- Every edge's row index is a legal row. -/
theorem edges_row_lt (c : Cfg) (s : VMState) :
    ∀ rem frame pre, ∀ e ∈ edges c s rem frame pre, e.row < c.PAGE_SIZE := by
  intro rem
  induction rem using Nat.strong_induction_on with
  | _ rem ih =>
    rcases rem with _ | rem
    · intro frame pre e he
      rw [edges_unfold0] at he
      rcases List.mem_flatMap.1 he with ⟨row, hrow, hmem⟩
      split at hmem
      · cases hmem
      · rcases List.mem_singleton.1 hmem with rfl
        exact List.mem_range.1 hrow
    rcases rem with _ | r
    · intro frame pre e he
      rw [edges_unfold1] at he
      rcases List.mem_flatMap.1 he with ⟨row, hrow, hmem⟩
      split at hmem
      · cases hmem
      · rcases List.mem_singleton.1 hmem with rfl
        exact List.mem_range.1 hrow
    · intro frame pre e he
      rw [edges_unfold2] at he
      rcases List.mem_flatMap.1 he with ⟨row, hrow, hmem⟩
      split at hmem
      · cases hmem
      · rcases List.mem_cons.1 hmem with rfl | hmem2
        · exact List.mem_range.1 hrow
        · exact ih (r + 1) (by omega) _ _ e hmem2

/-- On a tree without duplicate frame references, no entry points back at
the frame holding it. -/
theorem edges_no_self (c : Cfg) (s : VMState) :
    ∀ rem frame pre, (frame :: targetsOf (edges c s rem frame pre)).Nodup →
      ∀ e ∈ edges c s rem frame pre, e.parent ≠ e.child := by
  intro rem
  induction rem using Nat.strong_induction_on with
  | _ rem ih =>
    rcases Nat.lt_or_ge rem 2 with hrem | hrem
    · intro frame pre hND e he
      have hmemT : e.child ∈ targetsOf (edges c s rem frame pre) :=
        List.mem_map_of_mem Edge.child he
      have hunf : edges c s rem frame pre = (List.range c.PAGE_SIZE).flatMap fun r =>
          if PMread s (phys c frame r) = 0 then []
          else [⟨frame, r, toU64 (PMread s (phys c frame r)), pre * c.PAGE_SIZE + r, true⟩] := by
        rcases rem with _ | rem
        · exact edges_unfold0 c s frame pre
        · rcases rem with _ | rem
          · exact edges_unfold1 c s frame pre
          · omega
      have he2 := he
      rw [hunf] at he2
      rcases List.mem_flatMap.1 he2 with ⟨row, hrow, hmem⟩
      split at hmem
      · cases hmem
      · rcases List.mem_singleton.1 hmem with rfl
        intro hh
        rw [← hh] at hmemT
        exact (List.nodup_cons.1 hND).1 hmemT
    · obtain ⟨r, rfl⟩ : ∃ r, rem = r + 2 := ⟨rem - 2, by omega⟩
      intro frame pre hND e he
      have hmemT : e.child ∈ targetsOf (edges c s (r + 2) frame pre) :=
        List.mem_map_of_mem Edge.child he
      have he2 := he
      rw [edges_unfold2] at he2
      rcases List.mem_flatMap.1 he2 with ⟨row, hrow, hmem⟩
      split at hmem
      · cases hmem
      · next hcell =>
        rcases List.mem_cons.1 hmem with rfl | hmem2
        · intro hh
          rw [← hh] at hmemT
          exact (List.nodup_cons.1 hND).1 hmemT
        · refine ih (r + 1) (by omega) (toU64 (PMread s (phys c frame row)))
            (pre * c.PAGE_SIZE + row) ?_ e hmem2
          have hsubl : (edgeComp c s r frame pre row).Sublist
              ((List.range c.PAGE_SIZE).flatMap (edgeComp c s r frame pre)) :=
            sublist_flatMap_of_mem hrow (edgeComp c s r frame pre)
          have hmap := hsubl.map Edge.child
          rw [edgeComp_cons c s r frame pre row hcell, List.map_cons] at hmap
          have hND2 : (targetsOf (edges c s (r + 2) frame pre)).Nodup :=
            (List.nodup_cons.1 hND).2
          rw [edges_eq_comp] at hND2
          exact hND2.sublist hmap

/-! ## Claim C7: path reconstruction -/

/-- Every edge of a subtree listing is reached by a concrete chain of
entries (a row path), and its DFS page prefix is exactly the digit
concatenation of that chain onto the subtree's prefix; leaf edges sit at
depth exactly `rem`. -/
theorem edge_path (c : Cfg) (s : VMState) :
    ∀ rem f pre0, 1 ≤ rem → ∀ e ∈ edges c s rem f pre0,
      ∃ q, RowsOK c q ∧ pathTo c s f q = some e.child ∧
        e.pre = digitsVal c pre0 q ∧
        (e.leaf = true → q.length = rem) ∧
        (e.leaf = false → 1 ≤ q.length ∧ q.length < rem) := by
  intro rem
  induction rem using Nat.strong_induction_on with
  | _ rem ih =>
    rcases Nat.lt_or_ge rem 2 with hrem | hrem
    · intro f pre0 hrem1 e he
      obtain rfl : rem = 1 := by omega
      rw [edges_unfold1] at he
      rcases List.mem_flatMap.1 he with ⟨row, hrow, hmem⟩
      split at hmem
      · cases hmem
      · next hcell =>
        rcases List.mem_singleton.1 hmem with rfl
        refine ⟨[row], ?_, ?_, rfl, fun _ => rfl,
          fun hfalse => absurd hfalse.symm Bool.false_ne_true⟩
        · intro x hx
          rcases List.mem_singleton.1 hx with rfl
          exact List.mem_range.1 hrow
        · show (if PMread s (phys c f row) = 0 then none
              else pathTo c s (toU64 (PMread s (phys c f row))) []) = some _
          rw [if_neg hcell]
          rfl
    · obtain ⟨r, rfl⟩ : ∃ r, rem = r + 2 := ⟨rem - 2, by omega⟩
      intro f pre0 _ e he
      rw [edges_unfold2] at he
      rcases List.mem_flatMap.1 he with ⟨row, hrow, hmem⟩
      split at hmem
      · cases hmem
      · next hcell =>
        have hrowlt := List.mem_range.1 hrow
        rcases List.mem_cons.1 hmem with rfl | hmem2
        · refine ⟨[row], ?_, ?_, rfl, fun htrue => absurd htrue Bool.false_ne_true,
            fun _ => ⟨by rw [List.length_singleton], by rw [List.length_singleton]; omega⟩⟩
          · intro x hx
            rcases List.mem_singleton.1 hx with rfl
            exact hrowlt
          · show (if PMread s (phys c f row) = 0 then none
                else pathTo c s (toU64 (PMread s (phys c f row))) []) = some _
            rw [if_neg hcell]
            rfl
        · obtain ⟨q, hq1, hq2, hq3, hq4, hq5⟩ := ih (r + 1) (by omega)
            (toU64 (PMread s (phys c f row))) (pre0 * c.PAGE_SIZE + row)
            (by omega) e hmem2
          refine ⟨row :: q, ?_, ?_, ?_, ?_, ?_⟩
          · intro x hx
            rcases List.mem_cons.1 hx with rfl | hx2
            · exact hrowlt
            · exact hq1 x hx2
          · show (if PMread s (phys c f row) = 0 then none
                else pathTo c s (toU64 (PMread s (phys c f row))) q) = some e.child
            rw [if_neg hcell]
            exact hq2
          · unfold digitsVal
            rw [List.foldl_cons]
            exact hq3
          · intro hl
            rw [List.length_cons, hq4 hl]
          · intro hl
            obtain ⟨h1, h2⟩ := hq5 hl
            rw [List.length_cons]
            omega

/-- C7: every mapped data (depth-`TABLES_DEPTH`) frame — every leaf edge
of the live tree — is reached from the root by a chain of ancestor
entries whose `TABLES_DEPTH` per-level row indices, concatenated most
significant digit first, yield exactly the edge's page prefix `e.pre`:
the page number the scanner computes for that frame (the one passed to
`PMevict` on the eviction path) — and that prefix is a valid page
number. -/
theorem C7_path_reconstruction (c : Cfg) (s : VMState) (hD : 1 ≤ c.tablesDepth) :
    ∀ e ∈ leafEdges c s,
      ∃ q, RowsOK c q ∧ q.length = c.tablesDepth ∧
        pathTo c s 0 q = some e.child ∧ digitsVal c 0 q = e.pre ∧
        e.pre < c.NUM_PAGES := by
  intro e he
  have heR : e ∈ rootEdges c s := List.mem_of_mem_filter he
  have hleaf : e.leaf = true := List.of_mem_filter he
  obtain ⟨q, h1, h2, h3, h4, _⟩ := edge_path c s c.tablesDepth 0 0 hD e heR
  refine ⟨q, h1, h4 hleaf, h2, h3.symm, ?_⟩
  have hlt := edges_pre_lt c s c.tablesDepth 0 0 e heR
  have hmax : max c.tablesDepth 1 = c.tablesDepth := by omega
  have hNP : c.NUM_PAGES = c.PAGE_SIZE ^ c.tablesDepth := by
    unfold Cfg.NUM_PAGES Cfg.PAGE_SIZE
    exact pow_mul 2 c.offsetWidth c.tablesDepth
  have hlt2 : e.pre < c.PAGE_SIZE ^ c.tablesDepth := by
    rw [hmax] at hlt
    omega
  rw [hNP]
  exact hlt2

/-- Witness for C7: the single mapped leaf of `witState`. -/
theorem C7_path_reconstruction_witness :
    1 ≤ testCfg.tablesDepth ∧
    ∀ e ∈ leafEdges testCfg witState,
      ∃ q, RowsOK testCfg q ∧ q.length = testCfg.tablesDepth ∧
        pathTo testCfg witState 0 q = some e.child ∧
        digitsVal testCfg 0 q = e.pre ∧ e.pre < testCfg.NUM_PAGES :=
  ⟨by decide, C7_path_reconstruction testCfg witState (by decide)⟩

/-! ## Surgery lemmas: how single writes change the edge listing -/

theorem toU64_wrapWord_nat {n : Nat} (h : n < 2 ^ 31) :
    toU64 (wrapWord (n : Int)) = n := by
  have h2 : (n : Int) < 2 ^ 31 := by exact_mod_cast h
  rw [wrapWord_eq_self (by omega) h2]
  unfold toU64
  omega

theorem wrapWord_nat_ne_zero {n : Nat} (h : n < 2 ^ 31) (h0 : n ≠ 0) :
    wrapWord (n : Int) ≠ 0 := by
  have h2 : (n : Int) < 2 ^ 31 := by exact_mod_cast h
  rw [wrapWord_eq_self (by omega) h2]
  exact_mod_cast h0

theorem flatMap_sublist_of_forall {α β : Type} {l : List α} {f g : α → List β}
    (h : ∀ a ∈ l, (f a).Sublist (g a)) : (l.flatMap f).Sublist (l.flatMap g) := by
  induction l with
  | nil => exact List.Sublist.refl _
  | cons x t ih =>
    rw [List.flatMap_cons, List.flatMap_cons]
    exact List.Sublist.append (h x (List.mem_cons_self _ _))
      (ih fun a ha => h a (List.mem_cons_of_mem _ ha))

/-- An all-zero frame roots an empty subtree. -/
theorem edges_allzero (c : Cfg) (s : VMState) (f : Nat)
    (hz : ∀ i < c.PAGE_SIZE, PMread s (phys c f i) = 0) :
    ∀ rem pre, edges c s rem f pre = [] := by
  intro rem pre
  rcases rem with _ | rem
  · rw [edges_unfold0]
    rw [List.flatMap_congr (fun row hrow => by
      rw [if_pos (hz row (List.mem_range.1 hrow))])]
    exact flatMap_const_nil _
  · rcases rem with _ | r
    · rw [edges_unfold1]
      rw [List.flatMap_congr (fun row hrow => by
        rw [if_pos (hz row (List.mem_range.1 hrow))])]
      exact flatMap_const_nil _
    · rw [edges_eq_comp]
      exact all_zero_flatMap_nil_edge c s r f pre hz

theorem mem_tableChildren {l : List Edge} {t : Nat} :
    t ∈ tableChildren l ↔ ∃ e ∈ l, e.leaf = false ∧ e.child = t := by
  constructor
  · intro h
    rcases List.mem_map.1 h with ⟨e, he, rfl⟩
    rcases List.mem_filter.1 he with ⟨he2, hb⟩
    rw [Bool.not_eq_true'] at hb
    exact ⟨e, he2, hb, rfl⟩
  · rintro ⟨e, he, hleaf, rfl⟩
    exact List.mem_map.2 ⟨e, List.mem_filter.2 ⟨he, by
      rw [Bool.not_eq_true']; exact hleaf⟩, rfl⟩

theorem tableChildren_sublist {l1 l2 : List Edge} (h : l1.Sublist l2) :
    (tableChildren l1).Sublist (tableChildren l2) := (h.filter _).map _

theorem tableChildren_sub_targets {l : List Edge} :
    (tableChildren l).Sublist (targetsOf l) := (List.filter_sublist l).map Edge.child

/-- The listing only reads the cells of the subtree root and of the table
children: two states agreeing outside one frame `W` not among them list the
same edges. -/
theorem edges_congr_frame (c : Cfg) (s s2 : VMState) (W : Nat)
    (hagree : ∀ a, (∀ i < c.PAGE_SIZE, a ≠ phys c W i) → PMread s2 a = PMread s a) :
    ∀ rem f pre, f ≠ W →
      (∀ g ∈ tableChildren (edges c s rem f pre), g ≠ W) →
      edges c s2 rem f pre = edges c s rem f pre := by
  intro rem
  induction rem using Nat.strong_induction_on with
  | _ rem ih =>
    rcases Nat.lt_or_ge rem 2 with hrem | hrem
    · intro f pre hf _
      have hcell : ∀ i < c.PAGE_SIZE, PMread s2 (phys c f i) = PMread s (phys c f i) :=
        fun i hi => hagree _ (fun j hj => phys_ne c hf hi hj)
      have hunf : ∀ (t : VMState), edges c t rem f pre
          = (List.range c.PAGE_SIZE).flatMap fun r =>
            if PMread t (phys c f r) = 0 then []
            else [⟨f, r, toU64 (PMread t (phys c f r)), pre * c.PAGE_SIZE + r, true⟩] := by
        intro t
        rcases rem with _ | rem
        · exact edges_unfold0 c t f pre
        · rcases rem with _ | rem
          · exact edges_unfold1 c t f pre
          · omega
      rw [hunf s2, hunf s]
      exact List.flatMap_congr (fun r hr => by rw [hcell r (List.mem_range.1 hr)])
    · obtain ⟨r, rfl⟩ : ∃ r, rem = r + 2 := ⟨rem - 2, by omega⟩
      intro f pre hf htc
      have hcell : ∀ i < c.PAGE_SIZE, PMread s2 (phys c f i) = PMread s (phys c f i) :=
        fun i hi => hagree _ (fun j hj => phys_ne c hf hi hj)
      rw [edges_unfold2, edges_unfold2]
      refine List.flatMap_congr ?_
      intro row hrow
      rw [hcell row (List.mem_range.1 hrow)]
      by_cases hz : PMread s (phys c f row) = 0
      · simp only [if_pos hz]
      · simp only [if_neg hz]
        have hheadmem : (⟨f, row, toU64 (PMread s (phys c f row)),
            pre * c.PAGE_SIZE + row, false⟩ : Edge) ∈ edges c s (r + 2) f pre := by
          rw [edges_unfold2]
          apply List.mem_flatMap.2
          exact ⟨row, hrow, by rw [if_neg hz]; exact List.mem_cons_self _ _⟩
        have hch : toU64 (PMread s (phys c f row)) ≠ W :=
          htc _ (mem_tableChildren.2 ⟨_, hheadmem, rfl, rfl⟩)
        have hsub : (edges c s (r + 1) (toU64 (PMread s (phys c f row)))
            (pre * c.PAGE_SIZE + row)).Sublist (edges c s (r + 2) f pre) := by
          rw [edges_eq_comp]
          refine List.Sublist.trans ?_ (sublist_flatMap_of_mem hrow (edgeComp c s r f pre))
          rw [edgeComp_cons c s r f pre row hz]
          exact List.sublist_cons_self _ _
        have htc2 : ∀ g ∈ tableChildren (edges c s (r + 1)
            (toU64 (PMread s (phys c f row))) (pre * c.PAGE_SIZE + row)), g ≠ W :=
          fun g hg => htc g ((tableChildren_sublist hsub).subset hg)
        rw [ih (r + 1) (by omega) (toU64 (PMread s (phys c f row)))
          (pre * c.PAGE_SIZE + row) hch htc2]

/-- Writing zero into one cell prunes the listing: the new listing is a
sublist of the old one. -/
theorem prune_sublist (c : Cfg) (s : VMState) (g0 r0 : Nat) (hr0 : r0 < c.PAGE_SIZE) :
    ∀ rem f pre,
      (edges c (PMwrite s (phys c g0 r0) 0) rem f pre).Sublist (edges c s rem f pre) := by
  have hcell : ∀ f i, i < c.PAGE_SIZE →
      PMread (PMwrite s (phys c g0 r0) 0) (phys c f i) = PMread s (phys c f i) ∨
      PMread (PMwrite s (phys c g0 r0) 0) (phys c f i) = 0 := by
    intro f i hi
    rw [PMread_PMwrite]
    by_cases hab : phys c f i = phys c g0 r0
    · rw [if_pos hab, wrapWord_zero]
      exact Or.inr rfl
    · rw [if_neg hab]
      exact Or.inl rfl
  intro rem
  induction rem using Nat.strong_induction_on with
  | _ rem ih =>
    rcases Nat.lt_or_ge rem 2 with hrem | hrem
    · intro f pre
      have hunf : ∀ (t : VMState), edges c t rem f pre
          = (List.range c.PAGE_SIZE).flatMap fun r =>
            if PMread t (phys c f r) = 0 then []
            else [⟨f, r, toU64 (PMread t (phys c f r)), pre * c.PAGE_SIZE + r, true⟩] := by
        intro t
        rcases rem with _ | rem
        · exact edges_unfold0 c t f pre
        · rcases rem with _ | rem
          · exact edges_unfold1 c t f pre
          · omega
      rw [hunf (PMwrite s (phys c g0 r0) 0), hunf s]
      refine flatMap_sublist_of_forall ?_
      intro row hrow
      rcases hcell f row (List.mem_range.1 hrow) with hv | hv
      · rw [hv]
      · rw [hv]
        rw [if_pos rfl]
        exact List.nil_sublist _
    · obtain ⟨r, rfl⟩ : ∃ r, rem = r + 2 := ⟨rem - 2, by omega⟩
      intro f pre
      rw [edges_unfold2, edges_unfold2]
      refine flatMap_sublist_of_forall ?_
      intro row hrow
      rcases hcell f row (List.mem_range.1 hrow) with hv | hv
      · rw [hv]
        by_cases hz : PMread s (phys c f row) = 0
        · simp only [if_pos hz]
          exact List.Sublist.refl _
        · simp only [if_neg hz]
          exact (ih (r + 1) (by omega) (toU64 (PMread s (phys c f row)))
            (pre * c.PAGE_SIZE + row)).cons₂ _
      · rw [hv]
        rw [if_pos rfl]
        exact List.nil_sublist _

/-- Every edge is generated from a nonzero cell of its parent whose
`uint64` image is its child. -/
theorem edges_cell_spec (c : Cfg) (s : VMState) :
    ∀ rem f pre, ∀ e ∈ edges c s rem f pre,
      PMread s (phys c e.parent e.row) ≠ 0 ∧
        toU64 (PMread s (phys c e.parent e.row)) = e.child := by
  intro rem
  induction rem using Nat.strong_induction_on with
  | _ rem ih =>
    rcases Nat.lt_or_ge rem 2 with hrem | hrem
    · intro f pre e he
      have hunf : edges c s rem f pre = (List.range c.PAGE_SIZE).flatMap fun r =>
          if PMread s (phys c f r) = 0 then []
          else [⟨f, r, toU64 (PMread s (phys c f r)), pre * c.PAGE_SIZE + r, true⟩] := by
        rcases rem with _ | rem
        · exact edges_unfold0 c s f pre
        · rcases rem with _ | rem
          · exact edges_unfold1 c s f pre
          · omega
      rw [hunf] at he
      rcases List.mem_flatMap.1 he with ⟨row, hrow, hmem⟩
      split at hmem
      · cases hmem
      · next hz =>
        rcases List.mem_singleton.1 hmem with rfl
        exact ⟨hz, rfl⟩
    · obtain ⟨r, rfl⟩ : ∃ r, rem = r + 2 := ⟨rem - 2, by omega⟩
      intro f pre e he
      rw [edges_unfold2] at he
      rcases List.mem_flatMap.1 he with ⟨row, hrow, hmem⟩
      split at hmem
      · cases hmem
      · next hz =>
        rcases List.mem_cons.1 hmem with rfl | hmem2
        · exact ⟨hz, rfl⟩
        · exact ih (r + 1) (by omega) _ _ e hmem2

/-- Zeroing the unique entry referencing a frame removes it from the
targets entirely. -/
theorem prune_removes_unique (c : Cfg) (s : VMState) {rem f pre : Nat}
    (hND : (targetsOf (edges c s rem f pre)).Nodup)
    {e0 : Edge} (he0 : e0 ∈ edges c s rem f pre) (hr0 : e0.row < c.PAGE_SIZE) :
    e0.child ∉ targetsOf (edges c (PMwrite s (phys c e0.parent e0.row) 0) rem f pre) := by
  intro hmem
  rcases List.mem_map.1 hmem with ⟨e1, he1, heq⟩
  have he1old : e1 ∈ edges c s rem f pre :=
    (prune_sublist c s e0.parent e0.row hr0 rem f pre).subset he1
  have he10 : e1 = e0 := List.inj_on_of_nodup_map hND he1old he0 (by rw [heq])
  subst he10
  have hcell := (edges_cell_spec c (PMwrite s (phys c e1.parent e1.row) 0) rem f pre
    e1 he1).1
  apply hcell
  rw [PMread_PMwrite, if_pos rfl]
  exact wrapWord_zero

theorem tableChildren_append (l1 l2 : List Edge) :
    tableChildren (l1 ++ l2) = tableChildren l1 ++ tableChildren l2 := by
  unfold tableChildren
  rw [List.filter_append, List.map_append]

/-- Replacing the middle block of a duplicate-free concatenation by a
duplicate-free block whose elements are old middle elements or one fresh
value keeps it duplicate-free. -/
theorem nodup_middle_replace {xs m0 m ys : List Nat} (X : Nat)
    (h : (xs ++ (m0 ++ ys)).Nodup) (hm : m.Nodup)
    (hsub : ∀ t ∈ m, t = X ∨ t ∈ m0)
    (hXxs : X ∉ xs) (hXm0 : X ∉ m0) (hXys : X ∉ ys) :
    (xs ++ (m ++ ys)).Nodup := by
  rw [List.nodup_append] at h
  obtain ⟨hxs, hmy, hdisj1⟩ := h
  rw [List.nodup_append] at hmy
  obtain ⟨hm0, hys, hdisj2⟩ := hmy
  rw [List.nodup_append]
  refine ⟨hxs, ?_, ?_⟩
  · rw [List.nodup_append]
    refine ⟨hm, hys, ?_⟩
    intro a ha
    rcases hsub a ha with rfl | ha0
    · exact hXys
    · exact hdisj2 ha0
  · intro a ha
    rw [List.mem_append]
    rintro (ham | hay)
    · rcases hsub a ham with rfl | ha0
      · exact hXxs ha
      · exact hdisj1 ha (List.mem_append_left _ ha0)
    · exact hdisj1 ha (List.mem_append_right _ hay)

/-- Converse bridge: a successful nonempty path from a subtree root yields
an edge of its listing, a leaf exactly when the path fills the depth. -/
theorem path_to_edge (c : Cfg) (s : VMState) :
    ∀ (q : List Nat), ∀ f pre rem, RowsOK c q → 1 ≤ q.length → q.length ≤ rem →
      ∀ F, pathTo c s f q = some F →
      ∃ e ∈ edges c s rem f pre, e.child = F ∧ e.pre = digitsVal c pre q ∧
        (q.length = rem → e.leaf = true) ∧ (q.length < rem → e.leaf = false) := by
  intro q
  induction q with
  | nil =>
    intro f pre rem _ h1
    simp at h1
  | cons r0 q2 ih =>
    intro f pre rem hrows h1 h2 F hpath
    have hr0 : r0 < c.PAGE_SIZE := hrows r0 (List.mem_cons_self _ _)
    have hpath0 : (if PMread s (phys c f r0) = 0 then none
        else pathTo c s (toU64 (PMread s (phys c f r0))) q2) = some F := hpath
    by_cases hz : PMread s (phys c f r0) = 0
    · rw [if_pos hz] at hpath0
      cases hpath0
    · rw [if_neg hz] at hpath0
      rcases q2 with _ | ⟨r1, q3⟩
      · have hF : toU64 (PMread s (phys c f r0)) = F := Option.some.inj hpath0
        rcases Nat.lt_or_ge rem 2 with hrem | hrem
        · obtain rfl : rem = 1 := by
            have := h2
            rw [List.length_singleton] at this
            omega
          refine ⟨⟨f, r0, toU64 (PMread s (phys c f r0)),
            pre * c.PAGE_SIZE + r0, true⟩, ?_, hF, rfl, fun _ => rfl,
            fun hlt => by rw [List.length_singleton] at hlt; omega⟩
          rw [edges_unfold1]
          apply List.mem_flatMap.2
          refine ⟨r0, List.mem_range.2 hr0, ?_⟩
          rw [if_neg hz]
          exact List.mem_singleton.2 rfl
        · obtain ⟨r, rfl⟩ : ∃ r, rem = r + 2 := ⟨rem - 2, by omega⟩
          refine ⟨⟨f, r0, toU64 (PMread s (phys c f r0)),
            pre * c.PAGE_SIZE + r0, false⟩, ?_, hF, rfl,
            fun heq => by rw [List.length_singleton] at heq; omega, fun _ => rfl⟩
          rw [edges_unfold2]
          apply List.mem_flatMap.2
          refine ⟨r0, List.mem_range.2 hr0, ?_⟩
          rw [if_neg hz]
          exact List.mem_cons_self _ _
      · have hlen2 : 2 ≤ (r0 :: r1 :: q3).length := by
          rw [List.length_cons, List.length_cons]
          omega
        obtain ⟨r, rfl⟩ : ∃ r, rem = r + 2 := ⟨rem - 2, by omega⟩
        obtain ⟨e, he, hec, hpre, hl1, hl2⟩ := ih (toU64 (PMread s (phys c f r0)))
          (pre * c.PAGE_SIZE + r0) (r + 1)
          (fun x hx => hrows x (List.mem_cons_of_mem _ hx))
          (by rw [List.length_cons]; omega)
          (by
            simp only [List.length_cons] at h2 ⊢
            omega)
          F hpath0
        refine ⟨e, ?_, hec, ?_, ?_, ?_⟩
        · rw [edges_unfold2]
          apply List.mem_flatMap.2
          refine ⟨r0, List.mem_range.2 hr0, ?_⟩
          rw [if_neg hz]
          exact List.mem_cons_of_mem _ he
        · unfold digitsVal
          rw [List.foldl_cons]
          exact hpre
        · intro heq
          apply hl1
          rw [List.length_cons] at heq
          omega
        · intro hlt
          apply hl2
          rw [List.length_cons] at hlt
          omega

theorem targetsOf_append (l1 l2 : List Edge) :
    targetsOf (l1 ++ l2) = targetsOf l1 ++ targetsOf l2 := by
  unfold targetsOf
  rw [List.map_append]

/-- A successful nonempty path lands on a target of the listing. -/
theorem pathTo_mem_targets (c : Cfg) (s : VMState) {q : List Nat} {f pre rem F : Nat}
    (hrows : RowsOK c q) (h1 : 1 ≤ q.length) (h2 : q.length ≤ rem)
    (hpath : pathTo c s f q = some F) : F ∈ targetsOf (edges c s rem f pre) := by
  obtain ⟨e, he, hec, _⟩ := path_to_edge c s q f pre rem hrows h1 h2 F hpath
  exact List.mem_map.2 ⟨e, he, hec⟩

/-- Grafting a fresh child under the root frame `F` of a subtree: the new
listing has exactly the new target added, keeps uniqueness, and adds a
table child only at inner levels. -/
theorem graft_spec_base (c : Cfg) (s s2 : VMState) (F row X : Nat)
    (hrow : row < c.PAGE_SIZE)
    (hold : PMread s (phys c F row) = 0)
    (hagree : ∀ a, a ≠ phys c F row → PMread s2 a = PMread s a)
    (hnz : PMread s2 (phys c F row) ≠ 0)
    (hXeq : toU64 (PMread s2 (phys c F row)) = X) :
    ∀ rem pre, 1 ≤ rem →
      ((∀ i < c.PAGE_SIZE, PMread s2 (phys c X i) = 0) ∨ rem = 1) →
      (F :: targetsOf (edges c s rem F pre)).Nodup →
      X ∉ F :: targetsOf (edges c s rem F pre) →
      (F :: targetsOf (edges c s2 rem F pre)).Nodup ∧
      (∀ t ∈ targetsOf (edges c s2 rem F pre),
        t = X ∨ t ∈ targetsOf (edges c s rem F pre)) ∧
      (∀ t ∈ targetsOf (edges c s rem F pre), t ∈ targetsOf (edges c s2 rem F pre)) ∧
      X ∈ targetsOf (edges c s2 rem F pre) ∧
      (∀ t ∈ tableChildren (edges c s2 rem F pre),
        (t = X ∧ 2 ≤ rem) ∨ t ∈ tableChildren (edges c s rem F pre)) := by
  intro rem pre hrem hXsub hND hXnot
  have haddr : ∀ i, i ≠ row → phys c F i ≠ phys c F row := by
    intro i hi heq
    unfold phys at heq
    exact hi (Nat.add_left_cancel heq)
  have hFcell : ∀ i, i ≠ row → PMread s2 (phys c F i) = PMread s (phys c F i) :=
    fun i hi => hagree _ (haddr i hi)
  have hXneF : X ≠ F := fun h => hXnot (by rw [h]; exact List.mem_cons_self _ _)
  have hXnotT : X ∉ targetsOf (edges c s rem F pre) :=
    fun h => hXnot (List.mem_cons_of_mem _ h)
  have hFnotT : F ∉ targetsOf (edges c s rem F pre) := (List.nodup_cons.1 hND).1
  have hNDT : (targetsOf (edges c s rem F pre)).Nodup := (List.nodup_cons.1 hND).2
  obtain ⟨A, B, hsplit⟩ := List.append_of_mem (List.mem_range.2 hrow)
  have hndR : (List.range c.PAGE_SIZE).Nodup := List.nodup_range _
  rw [hsplit, List.nodup_append] at hndR
  obtain ⟨-, hndRB, hdisjR⟩ := hndR
  have hmemA : ∀ a ∈ A, a ≠ row :=
    fun a ha h => hdisjR ha (by rw [h]; exact List.mem_cons_self _ _)
  have hmemB : ∀ b ∈ B, b ≠ row :=
    fun b hb h => (List.nodup_cons.1 hndRB).1 (h ▸ hb)
  have hAr : ∀ a ∈ A, a ∈ List.range c.PAGE_SIZE := by
    intro a ha
    rw [hsplit]
    exact List.mem_append_left _ ha
  have hBr : ∀ b ∈ B, b ∈ List.range c.PAGE_SIZE := by
    intro b hb
    rw [hsplit]
    exact List.mem_append_right _ (List.mem_cons_of_mem _ hb)
  rcases Nat.lt_or_ge rem 2 with hrem2 | hrem2
  · obtain rfl : rem = 1 := by omega
    have hunf : ∀ (t : VMState), edges c t 1 F pre
        = (A.flatMap fun r2 => if PMread t (phys c F r2) = 0 then []
            else [(⟨F, r2, toU64 (PMread t (phys c F r2)),
              pre * c.PAGE_SIZE + r2, true⟩ : Edge)]) ++
          ((if PMread t (phys c F row) = 0 then []
            else [(⟨F, row, toU64 (PMread t (phys c F row)),
              pre * c.PAGE_SIZE + row, true⟩ : Edge)]) ++
          (B.flatMap fun r2 => if PMread t (phys c F r2) = 0 then []
            else [(⟨F, r2, toU64 (PMread t (phys c F r2)),
              pre * c.PAGE_SIZE + r2, true⟩ : Edge)])) := by
      intro t
      rw [edges_unfold1, hsplit, List.flatMap_append, List.flatMap_cons]
    have hAeq : (A.flatMap (fun r2 => if PMread s2 (phys c F r2) = 0 then [] else [(⟨F, r2, toU64 (PMread s2 (phys c F r2)), pre * c.PAGE_SIZE + r2, true⟩ : Edge)])) = A.flatMap (fun r2 => if PMread s (phys c F r2) = 0 then [] else [(⟨F, r2, toU64 (PMread s (phys c F r2)), pre * c.PAGE_SIZE + r2, true⟩ : Edge)]) :=
      List.flatMap_congr (fun a ha => by rw [hFcell a (hmemA a ha)])
    have hBeq : (B.flatMap (fun r2 => if PMread s2 (phys c F r2) = 0 then [] else [(⟨F, r2, toU64 (PMread s2 (phys c F r2)), pre * c.PAGE_SIZE + r2, true⟩ : Edge)])) = B.flatMap (fun r2 => if PMread s (phys c F r2) = 0 then [] else [(⟨F, r2, toU64 (PMread s (phys c F r2)), pre * c.PAGE_SIZE + r2, true⟩ : Edge)]) :=
      List.flatMap_congr (fun b hb => by rw [hFcell b (hmemB b hb)])
    have hEnew : edges c s2 1 F pre
        = A.flatMap (fun r2 => if PMread s (phys c F r2) = 0 then [] else [(⟨F, r2, toU64 (PMread s (phys c F r2)), pre * c.PAGE_SIZE + r2, true⟩ : Edge)]) ++
          ([(⟨F, row, X, pre * c.PAGE_SIZE + row, true⟩ : Edge)] ++
            B.flatMap (fun r2 => if PMread s (phys c F r2) = 0 then [] else [(⟨F, r2, toU64 (PMread s (phys c F r2)), pre * c.PAGE_SIZE + r2, true⟩ : Edge)])) := by
      rw [hunf s2, hAeq, hBeq, if_neg hnz, hXeq]
    have hEold : edges c s 1 F pre
        = A.flatMap (fun r2 => if PMread s (phys c F r2) = 0 then [] else [(⟨F, r2, toU64 (PMread s (phys c F r2)), pre * c.PAGE_SIZE + r2, true⟩ : Edge)]) ++ ([] ++ B.flatMap (fun r2 => if PMread s (phys c F r2) = 0 then [] else [(⟨F, r2, toU64 (PMread s (phys c F r2)), pre * c.PAGE_SIZE + r2, true⟩ : Edge)])) := by
      rw [hunf s, if_pos hold]
    have hTnew : targetsOf (edges c s2 1 F pre)
        = targetsOf (A.flatMap (fun r2 => if PMread s (phys c F r2) = 0 then [] else [(⟨F, r2, toU64 (PMread s (phys c F r2)), pre * c.PAGE_SIZE + r2, true⟩ : Edge)])) ++
          ([X] ++ targetsOf (B.flatMap (fun r2 => if PMread s (phys c F r2) = 0 then [] else [(⟨F, r2, toU64 (PMread s (phys c F r2)), pre * c.PAGE_SIZE + r2, true⟩ : Edge)]))) := by
      rw [hEnew, targetsOf_append, targetsOf_append]
      rfl
    have hTold : targetsOf (edges c s 1 F pre)
        = targetsOf (A.flatMap (fun r2 => if PMread s (phys c F r2) = 0 then [] else [(⟨F, r2, toU64 (PMread s (phys c F r2)), pre * c.PAGE_SIZE + r2, true⟩ : Edge)])) ++
          ([] ++ targetsOf (B.flatMap (fun r2 => if PMread s (phys c F r2) = 0 then [] else [(⟨F, r2, toU64 (PMread s (phys c F r2)), pre * c.PAGE_SIZE + r2, true⟩ : Edge)]))) := by
      rw [hEold, targetsOf_append, targetsOf_append]
      rfl
    rw [hTold] at hFnotT hXnotT hNDT
    refine ⟨?_, ?_, ?_, ?_, ?_⟩
    · rw [hTnew]
      refine List.nodup_cons.2 ⟨?_, ?_⟩
      · intro h
        rcases List.mem_append.1 h with h | h
        · exact hFnotT (List.mem_append_left _ h)
        · rcases List.mem_append.1 h with h | h
          · exact hXneF ((List.mem_singleton.1 h).symm)
          · exact hFnotT (List.mem_append_right _ (List.mem_append_right _ h))
      · refine nodup_middle_replace X hNDT (List.nodup_singleton X) ?_ ?_ ?_ ?_
        · intro t ht
          exact Or.inl (List.mem_singleton.1 ht)
        · exact fun h => hXnotT (List.mem_append_left _ h)
        · exact List.not_mem_nil X
        · exact fun h => hXnotT (List.mem_append_right _ (List.mem_append_right _ h))
    · intro t ht
      rw [hTnew] at ht
      rw [hTold]
      rcases List.mem_append.1 ht with h | h
      · exact Or.inr (List.mem_append_left _ h)
      · rcases List.mem_append.1 h with h | h
        · exact Or.inl (List.mem_singleton.1 h)
        · exact Or.inr (List.mem_append_right _ (List.mem_append_right _ h))
    · intro t ht
      rw [hTold] at ht
      rw [hTnew]
      rcases List.mem_append.1 ht with h | h
      · exact List.mem_append_left _ h
      · rcases List.mem_append.1 h with h | h
        · cases h
        · exact List.mem_append_right _ (List.mem_append_right _ h)
    · rw [hTnew]
      exact List.mem_append_right _ (List.mem_append_left _ (List.mem_singleton.2 rfl))
    · intro t ht
      have htc : tableChildren (edges c s2 1 F pre) = tableChildren (edges c s 1 F pre) := by
        rw [hEnew, hEold]
        simp only [tableChildren_append]
        rfl
      rw [htc] at ht
      exact Or.inr ht
  · obtain ⟨r, rfl⟩ : ∃ r, rem = r + 2 := ⟨rem - 2, by omega⟩
    have hXz : ∀ i < c.PAGE_SIZE, PMread s2 (phys c X i) = 0 := by
      rcases hXsub with h | h
      · exact h
      · omega
    have hXsubnil : edges c s2 (r + 1) X (pre * c.PAGE_SIZE + row) = [] :=
      edges_allzero c s2 X hXz (r + 1) _
    have hcongr := edges_congr_frame c s s2 F (fun a h => hagree a (h row hrow))
    have hchunk : ∀ a, a ∈ List.range c.PAGE_SIZE → a ≠ row →
        edgeComp c s2 r F pre a = edgeComp c s r F pre a := by
      intro a haR hane
      unfold edgeComp
      rw [hFcell a hane]
      by_cases hza : PMread s (phys c F a) = 0
      · simp only [if_pos hza]
      · simp only [if_neg hza]
        have hne1 : toU64 (PMread s (phys c F a)) ≠ F := by
          intro h
          have hmm := target_of_cell c s (r + 2) F pre a haR hza
          rw [h] at hmm
          exact hFnotT hmm
        have hsubl : (edges c s (r + 1) (toU64 (PMread s (phys c F a)))
            (pre * c.PAGE_SIZE + a)).Sublist (edges c s (r + 2) F pre) := by
          rw [edges_eq_comp]
          refine List.Sublist.trans ?_ (sublist_flatMap_of_mem haR (edgeComp c s r F pre))
          rw [edgeComp_cons c s r F pre a hza]
          exact List.sublist_cons_self _ _
        have hne2 : ∀ g ∈ tableChildren (edges c s (r + 1)
            (toU64 (PMread s (phys c F a))) (pre * c.PAGE_SIZE + a)), g ≠ F := by
          intro g hg hgF
          apply hFnotT
          have h1 : g ∈ targetsOf (edges c s (r + 1)
              (toU64 (PMread s (phys c F a))) (pre * c.PAGE_SIZE + a)) :=
            tableChildren_sub_targets.subset hg
          have h2 : g ∈ targetsOf (edges c s (r + 2) F pre) :=
            (hsubl.map Edge.child).subset h1
          rw [hgF] at h2
          exact h2
        rw [hcongr (r + 1) (toU64 (PMread s (phys c F a))) (pre * c.PAGE_SIZE + a)
          hne1 hne2]
    have hunf : ∀ (t : VMState), edges c t (r + 2) F pre
        = A.flatMap (edgeComp c t r F pre) ++
          (edgeComp c t r F pre row ++ B.flatMap (edgeComp c t r F pre)) := by
      intro t
      rw [edges_eq_comp, hsplit, List.flatMap_append, List.flatMap_cons]
    have hAeq : A.flatMap (edgeComp c s2 r F pre) = A.flatMap (edgeComp c s r F pre) :=
      List.flatMap_congr (fun a ha => hchunk a (hAr a ha) (hmemA a ha))
    have hBeq : B.flatMap (edgeComp c s2 r F pre) = B.flatMap (edgeComp c s r F pre) :=
      List.flatMap_congr (fun b hb => hchunk b (hBr b hb) (hmemB b hb))
    have hmidnew : edgeComp c s2 r F pre row = [(⟨F, row, X, pre * c.PAGE_SIZE + row, false⟩ : Edge)] := by
      unfold edgeComp
      rw [if_neg hnz, hXeq, hXsubnil]
    have hmidold : edgeComp c s r F pre row = [] := edgeComp_zero c s r F pre row hold
    have hEnew : edges c s2 (r + 2) F pre
        = A.flatMap (edgeComp c s r F pre) ++
          ([(⟨F, row, X, pre * c.PAGE_SIZE + row, false⟩ : Edge)] ++
            B.flatMap (edgeComp c s r F pre)) := by
      rw [hunf s2, hAeq, hBeq, hmidnew]
    have hEold : edges c s (r + 2) F pre
        = A.flatMap (edgeComp c s r F pre) ++ ([] ++ B.flatMap (edgeComp c s r F pre)) := by
      rw [hunf s, hmidold]
    have hTnew : targetsOf (edges c s2 (r + 2) F pre)
        = targetsOf (A.flatMap (edgeComp c s r F pre)) ++
          ([X] ++ targetsOf (B.flatMap (edgeComp c s r F pre))) := by
      rw [hEnew, targetsOf_append, targetsOf_append]
      rfl
    have hTold : targetsOf (edges c s (r + 2) F pre)
        = targetsOf (A.flatMap (edgeComp c s r F pre)) ++
          ([] ++ targetsOf (B.flatMap (edgeComp c s r F pre))) := by
      rw [hEold, targetsOf_append, targetsOf_append]
      rfl
    rw [hTold] at hFnotT hXnotT hNDT
    refine ⟨?_, ?_, ?_, ?_, ?_⟩
    · rw [hTnew]
      refine List.nodup_cons.2 ⟨?_, ?_⟩
      · intro h
        rcases List.mem_append.1 h with h | h
        · exact hFnotT (List.mem_append_left _ h)
        · rcases List.mem_append.1 h with h | h
          · exact hXneF ((List.mem_singleton.1 h).symm)
          · exact hFnotT (List.mem_append_right _ (List.mem_append_right _ h))
      · refine nodup_middle_replace X hNDT (List.nodup_singleton X) ?_ ?_ ?_ ?_
        · intro t ht
          exact Or.inl (List.mem_singleton.1 ht)
        · exact fun h => hXnotT (List.mem_append_left _ h)
        · exact List.not_mem_nil X
        · exact fun h => hXnotT (List.mem_append_right _ (List.mem_append_right _ h))
    · intro t ht
      rw [hTnew] at ht
      rw [hTold]
      rcases List.mem_append.1 ht with h | h
      · exact Or.inr (List.mem_append_left _ h)
      · rcases List.mem_append.1 h with h | h
        · exact Or.inl (List.mem_singleton.1 h)
        · exact Or.inr (List.mem_append_right _ (List.mem_append_right _ h))
    · intro t ht
      rw [hTold] at ht
      rw [hTnew]
      rcases List.mem_append.1 ht with h | h
      · exact List.mem_append_left _ h
      · rcases List.mem_append.1 h with h | h
        · cases h
        · exact List.mem_append_right _ (List.mem_append_right _ h)
    · rw [hTnew]
      exact List.mem_append_right _ (List.mem_append_left _ (List.mem_singleton.2 rfl))
    · intro t ht
      rw [hEnew] at ht
      simp only [tableChildren_append] at ht
      rcases List.mem_append.1 ht with h | h
      · refine Or.inr ?_
        rw [hEold]
        simp only [tableChildren_append]
        exact List.mem_append_left _ h
      · rcases List.mem_append.1 h with h | h
        · left
          refine ⟨?_, by omega⟩
          have : tableChildren [(⟨F, row, X, pre * c.PAGE_SIZE + row, false⟩ : Edge)]
              = [X] := rfl
          rw [this] at h
          exact List.mem_singleton.1 h
        · refine Or.inr ?_
          rw [hEold]
          simp only [tableChildren_append]
          exact List.mem_append_right _ (List.mem_append_right _ h)

/-- Grafting a fresh child at the end of an entry chain: `graft_spec_base`
lifted along any path from the subtree root to the frame receiving the new
entry. -/
theorem graft_spec (c : Cfg) (s s2 : VMState) (F row X : Nat)
    (hrow : row < c.PAGE_SIZE)
    (hold : PMread s (phys c F row) = 0)
    (hagree : ∀ a, a ≠ phys c F row → PMread s2 a = PMread s a)
    (hnz : PMread s2 (phys c F row) ≠ 0)
    (hXeq : toU64 (PMread s2 (phys c F row)) = X) :
    ∀ (q : List Nat) (rem f pre remF : Nat),
      RowsOK c q → pathTo c s f q = some F →
      q.length + remF = rem → 1 ≤ remF →
      ((∀ i < c.PAGE_SIZE, PMread s2 (phys c X i) = 0) ∨ remF = 1) →
      (f :: targetsOf (edges c s rem f pre)).Nodup →
      X ∉ f :: targetsOf (edges c s rem f pre) →
      (f :: targetsOf (edges c s2 rem f pre)).Nodup ∧
      (∀ t ∈ targetsOf (edges c s2 rem f pre),
        t = X ∨ t ∈ targetsOf (edges c s rem f pre)) ∧
      (∀ t ∈ targetsOf (edges c s rem f pre), t ∈ targetsOf (edges c s2 rem f pre)) ∧
      X ∈ targetsOf (edges c s2 rem f pre) ∧
      (∀ t ∈ tableChildren (edges c s2 rem f pre),
        (t = X ∧ 2 ≤ remF) ∨ t ∈ tableChildren (edges c s rem f pre)) := by
  intro q
  induction q with
  | nil =>
    intro rem f pre remF hrows hpath hlen hremF hXsub hND hXnot
    obtain rfl : f = F := Option.some.inj hpath
    simp only [List.length_nil, Nat.zero_add] at hlen
    subst hlen
    exact graft_spec_base c s s2 _ row X hrow hold hagree hnz hXeq _ pre hremF
      hXsub hND hXnot
  | cons r0 q2 ih =>
    intro rem f pre remF hrows hpath hlen hremF hXsub hND hXnot
    rw [List.length_cons] at hlen
    obtain ⟨r, rfl⟩ : ∃ r, rem = r + 2 := ⟨rem - 2, by omega⟩
    have hr0 : r0 < c.PAGE_SIZE := hrows r0 (List.mem_cons_self _ _)
    have hr0R : r0 ∈ List.range c.PAGE_SIZE := List.mem_range.2 hr0
    have hpath0 : (if PMread s (phys c f r0) = 0 then none
        else pathTo c s (toU64 (PMread s (phys c f r0))) q2) = some F := hpath
    by_cases hz : PMread s (phys c f r0) = 0
    · rw [if_pos hz] at hpath0
      cases hpath0
    · rw [if_neg hz] at hpath0
      have hFT : F ∈ targetsOf (edges c s (r + 2) f pre) :=
        pathTo_mem_targets c s hrows (by rw [List.length_cons]; omega)
          (by rw [List.length_cons]; omega) hpath
      have hFne : f ≠ F := by
        intro h
        subst h
        exact (List.nodup_cons.1 hND).1 hFT
      have hfcells : ∀ i < c.PAGE_SIZE,
          PMread s2 (phys c f i) = PMread s (phys c f i) :=
        fun i hi => hagree _ (phys_ne c hFne hi hrow)
      have hXnotT : X ∉ targetsOf (edges c s (r + 2) f pre) :=
        fun h => hXnot (List.mem_cons_of_mem _ h)
      have hFnotTf : f ∉ targetsOf (edges c s (r + 2) f pre) := (List.nodup_cons.1 hND).1
      obtain ⟨A, B, hsplit⟩ := List.append_of_mem hr0R
      have hndR : (List.range c.PAGE_SIZE).Nodup := List.nodup_range _
      rw [hsplit, List.nodup_append] at hndR
      obtain ⟨-, hndRB, hdisjR⟩ := hndR
      have hmemA : ∀ a ∈ A, a ≠ r0 :=
        fun a ha h => hdisjR ha (by rw [h]; exact List.mem_cons_self _ _)
      have hmemB : ∀ b ∈ B, b ≠ r0 :=
        fun b hb h => (List.nodup_cons.1 hndRB).1 (h ▸ hb)
      have hAr : ∀ a ∈ A, a ∈ List.range c.PAGE_SIZE := by
        intro a ha
        rw [hsplit]
        exact List.mem_append_left _ ha
      have hBr : ∀ b ∈ B, b ∈ List.range c.PAGE_SIZE := by
        intro b hb
        rw [hsplit]
        exact List.mem_append_right _ (List.mem_cons_of_mem _ hb)
      have hunf : ∀ (t : VMState), edges c t (r + 2) f pre
          = A.flatMap (edgeComp c t r f pre) ++
            (edgeComp c t r f pre r0 ++ B.flatMap (edgeComp c t r f pre)) := by
        intro t
        rw [edges_eq_comp, hsplit, List.flatMap_append, List.flatMap_cons]
      have hEold : edges c s (r + 2) f pre
          = A.flatMap (edgeComp c s r f pre) ++ (((⟨f, r0, toU64 (PMread s (phys c f r0)), pre * c.PAGE_SIZE + r0, false⟩ : Edge) :: edges c s (r + 1) (toU64 (PMread s (phys c f r0))) (pre * c.PAGE_SIZE + r0)) ++ B.flatMap (edgeComp c s r f pre)) := by
        rw [hunf s, edgeComp_cons c s r f pre r0 hz]
      have hTold : targetsOf (edges c s (r + 2) f pre)
          = targetsOf (A.flatMap (edgeComp c s r f pre)) ++ ((toU64 (PMread s (phys c f r0)) :: targetsOf (edges c s (r + 1) (toU64 (PMread s (phys c f r0))) (pre * c.PAGE_SIZE + r0))) ++ targetsOf (B.flatMap (edgeComp c s r f pre))) := by
        rw [hEold, targetsOf_append, targetsOf_append]
        rfl
      have hNDT : (targetsOf (A.flatMap (edgeComp c s r f pre)) ++ ((toU64 (PMread s (phys c f r0)) :: targetsOf (edges c s (r + 1) (toU64 (PMread s (phys c f r0))) (pre * c.PAGE_SIZE + r0))) ++ targetsOf (B.flatMap (edgeComp c s r f pre)))).Nodup := by
        rw [← hTold]
        exact (List.nodup_cons.1 hND).2
      have hNDT2 := hNDT
      rw [List.nodup_append] at hNDT2
      obtain ⟨hNA, hNmB, hdisj1⟩ := hNDT2
      have hNmB2 := hNmB
      rw [List.nodup_append] at hNmB2
      obtain ⟨hNmid, hNB, hdisj2⟩ := hNmB2
      have hFmid : F ∈ toU64 (PMread s (phys c f r0)) :: targetsOf (edges c s (r + 1) (toU64 (PMread s (phys c f r0))) (pre * c.PAGE_SIZE + r0)) := by
        rcases q2 with _ | ⟨r1, q3⟩
        · rw [Option.some.inj hpath0]
          exact List.mem_cons_self _ _
        · exact List.mem_cons_of_mem _
            (pathTo_mem_targets c s
              (fun x hx => hrows x (List.mem_cons_of_mem _ hx))
              (by rw [List.length_cons]; omega)
              (by simp only [List.length_cons] at hlen ⊢; omega) hpath0)
      have hFA : F ∉ targetsOf (A.flatMap (edgeComp c s r f pre)) := fun h => hdisj1 h (List.mem_append_left _ hFmid)
      have hFB : F ∉ targetsOf (B.flatMap (edgeComp c s r f pre)) := fun h => hdisj2 hFmid h
      have hchunk : ∀ a, a ∈ List.range c.PAGE_SIZE → a ≠ r0 → a ∈ A ∨ a ∈ B →
          edgeComp c s2 r f pre a = edgeComp c s r f pre a := by
        intro a haR hane hab
        have hTaNF : ∀ g, g ∈ targetsOf (edgeComp c s r f pre a) → g ≠ F := by
          intro g hg hgF
          subst hgF
          rcases hab with hia | hib
          · exact hFA (((sublist_flatMap_of_mem hia (edgeComp c s r f pre)).map Edge.child).subset hg)
          · exact hFB (((sublist_flatMap_of_mem hib (edgeComp c s r f pre)).map Edge.child).subset hg)
        unfold edgeComp
        rw [hfcells a (List.mem_range.1 haR)]
        by_cases hza : PMread s (phys c f a) = 0
        · simp only [if_pos hza]
        · simp only [if_neg hza]
          have hne1 : toU64 (PMread s (phys c f a)) ≠ F := by
            apply hTaNF
            rw [edgeComp_cons c s r f pre a hza]
            exact List.mem_cons_self _ _
          have hne2 : ∀ g ∈ tableChildren (edges c s (r + 1)
              (toU64 (PMread s (phys c f a))) (pre * c.PAGE_SIZE + a)), g ≠ F := by
            intro g hg
            apply hTaNF
            rw [edgeComp_cons c s r f pre a hza]
            exact List.mem_cons_of_mem _ (tableChildren_sub_targets.subset hg)
          rw [edges_congr_frame c s s2 F (fun a2 h => hagree a2 (h row hrow)) (r + 1)
            (toU64 (PMread s (phys c f a))) (pre * c.PAGE_SIZE + a) hne1 hne2]
      have hAeq : A.flatMap (edgeComp c s2 r f pre) = A.flatMap (edgeComp c s r f pre) :=
        List.flatMap_congr (fun a ha => hchunk a (hAr a ha) (hmemA a ha) (Or.inl ha))
      have hBeq : B.flatMap (edgeComp c s2 r f pre) = B.flatMap (edgeComp c s r f pre) :=
        List.flatMap_congr (fun b hb => hchunk b (hBr b hb) (hmemB b hb) (Or.inr hb))
      have hmid : edgeComp c s2 r f pre r0 = (⟨f, r0, toU64 (PMread s (phys c f r0)), pre * c.PAGE_SIZE + r0, false⟩ : Edge) :: edges c s2 (r + 1) (toU64 (PMread s (phys c f r0))) (pre * c.PAGE_SIZE + r0) := by
        unfold edgeComp
        rw [hfcells r0 hr0, if_neg hz]
      have hEnew : edges c s2 (r + 2) f pre
          = A.flatMap (edgeComp c s r f pre) ++ (((⟨f, r0, toU64 (PMread s (phys c f r0)), pre * c.PAGE_SIZE + r0, false⟩ : Edge) :: edges c s2 (r + 1) (toU64 (PMread s (phys c f r0))) (pre * c.PAGE_SIZE + r0)) ++ B.flatMap (edgeComp c s r f pre)) := by
        rw [hunf s2, hAeq, hBeq, hmid]
      have hTnew : targetsOf (edges c s2 (r + 2) f pre)
          = targetsOf (A.flatMap (edgeComp c s r f pre)) ++ ((toU64 (PMread s (phys c f r0)) :: targetsOf (edges c s2 (r + 1) (toU64 (PMread s (phys c f r0))) (pre * c.PAGE_SIZE + r0))) ++ targetsOf (B.flatMap (edgeComp c s r f pre))) := by
        rw [hEnew, targetsOf_append, targetsOf_append]
        rfl
      have hchold : (toU64 (PMread s (phys c f r0))) ∈ targetsOf (edges c s (r + 2) f pre) := by
        rw [hTold]
        exact List.mem_append_right _ (List.mem_append_left _ (List.mem_cons_self _ _))
      have hsubXold : ∀ t ∈ targetsOf (edges c s (r + 1) (toU64 (PMread s (phys c f r0))) (pre * c.PAGE_SIZE + r0)), t ∈ targetsOf (edges c s (r + 2) f pre) := by
        intro t ht
        rw [hTold]
        exact List.mem_append_right _ (List.mem_append_left _ (List.mem_cons_of_mem _ ht))
      have hXA : X ∉ targetsOf (A.flatMap (edgeComp c s r f pre)) :=
        fun h => hXnotT (by rw [hTold]; exact List.mem_append_left _ h)
      have hXmid : X ∉ toU64 (PMread s (phys c f r0)) :: targetsOf (edges c s (r + 1) (toU64 (PMread s (phys c f r0))) (pre * c.PAGE_SIZE + r0)) :=
        fun h => hXnotT (by
          rw [hTold]
          exact List.mem_append_right _ (List.mem_append_left _ h))
      have hXB : X ∉ targetsOf (B.flatMap (edgeComp c s r f pre)) :=
        fun h => hXnotT (by
          rw [hTold]
          exact List.mem_append_right _ (List.mem_append_right _ h))
      obtain ⟨ihND, ihsub, ihsup, ihX, ihtbl⟩ := ih (r + 1) (toU64 (PMread s (phys c f r0))) (pre * c.PAGE_SIZE + r0) remF
        (fun x hx => hrows x (List.mem_cons_of_mem _ hx)) hpath0 (by omega) hremF hXsub
        hNmid hXmid
      refine ⟨?_, ?_, ?_, ?_, ?_⟩
      · rw [hTnew]
        refine List.nodup_cons.2 ⟨?_, ?_⟩
        · intro h
          rcases List.mem_append.1 h with h | h
          · exact hFnotTf (by rw [hTold]; exact List.mem_append_left _ h)
          · rcases List.mem_append.1 h with h | h
            · rcases List.mem_cons.1 h with h | h
              · rw [← h] at hchold
                exact hFnotTf hchold
              · rcases ihsub f h with h2 | h2
                · exact hXnot (by rw [← h2]; exact List.mem_cons_self _ _)
                · exact hFnotTf (hsubXold f h2)
            · exact hFnotTf (by
                rw [hTold]
                exact List.mem_append_right _ (List.mem_append_right _ h))
        · refine nodup_middle_replace X hNDT ihND ?_ hXA hXmid hXB
          intro t ht
          rcases List.mem_cons.1 ht with h | h
          · exact Or.inr (by rw [h]; exact List.mem_cons_self _ _)
          · rcases ihsub t h with h2 | h2
            · exact Or.inl h2
            · exact Or.inr (List.mem_cons_of_mem _ h2)
      · intro t ht
        rw [hTnew] at ht
        rcases List.mem_append.1 ht with h | h
        · exact Or.inr (by rw [hTold]; exact List.mem_append_left _ h)
        · rcases List.mem_append.1 h with h | h
          · rcases List.mem_cons.1 h with h | h
            · exact Or.inr (by
                rw [hTold, h]
                exact List.mem_append_right _
                  (List.mem_append_left _ (List.mem_cons_self _ _)))
            · rcases ihsub t h with h2 | h2
              · exact Or.inl h2
              · exact Or.inr (hsubXold t h2)
          · exact Or.inr (by
              rw [hTold]
              exact List.mem_append_right _ (List.mem_append_right _ h))
      · intro t ht
        rw [hTold] at ht
        rw [hTnew]
        rcases List.mem_append.1 ht with h | h
        · exact List.mem_append_left _ h
        · rcases List.mem_append.1 h with h | h
          · rcases List.mem_cons.1 h with h | h
            · rw [h]
              exact List.mem_append_right _
                (List.mem_append_left _ (List.mem_cons_self _ _))
            · exact List.mem_append_right _
                (List.mem_append_left _ (List.mem_cons_of_mem _ (ihsup t h)))
          · exact List.mem_append_right _ (List.mem_append_right _ h)
      · rw [hTnew]
        exact List.mem_append_right _
          (List.mem_append_left _ (List.mem_cons_of_mem _ ihX))
      · intro t ht
        rw [hEnew] at ht
        simp only [tableChildren_append] at ht
        have hmidtbl : tableChildren ((⟨f, r0, toU64 (PMread s (phys c f r0)), pre * c.PAGE_SIZE + r0, false⟩ : Edge) :: edges c s2 (r + 1) (toU64 (PMread s (phys c f r0))) (pre * c.PAGE_SIZE + r0))
            = toU64 (PMread s (phys c f r0)) :: tableChildren (edges c s2 (r + 1) (toU64 (PMread s (phys c f r0))) (pre * c.PAGE_SIZE + r0)) := rfl
        rw [hmidtbl] at ht
        have holdtbl : tableChildren (edges c s (r + 2) f pre)
            = tableChildren (A.flatMap (edgeComp c s r f pre)) ++
              ((toU64 (PMread s (phys c f r0)) :: tableChildren (edges c s (r + 1) (toU64 (PMread s (phys c f r0))) (pre * c.PAGE_SIZE + r0))) ++
                tableChildren (B.flatMap (edgeComp c s r f pre))) := by
          rw [hEold]
          simp only [tableChildren_append]
          rfl
        rcases List.mem_append.1 ht with h | h
        · exact Or.inr (by rw [holdtbl]; exact List.mem_append_left _ h)
        · rcases List.mem_append.1 h with h | h
          · rcases List.mem_cons.1 h with h | h
            · exact Or.inr (by
                rw [holdtbl, h]
                exact List.mem_append_right _
                  (List.mem_append_left _ (List.mem_cons_self _ _)))
            · rcases ihtbl t h with ⟨hX2, hge⟩ | hold2
              · exact Or.inl ⟨hX2, hge⟩
              · exact Or.inr (by
                  rw [holdtbl]
                  exact List.mem_append_right _
                    (List.mem_append_left _ (List.mem_cons_of_mem _ hold2)))
          · exact Or.inr (by
              rw [holdtbl]
              exact List.mem_append_right _ (List.mem_append_right _ h))

/-! ## Path preservation under the allocator's writes -/

theorem pathNodes_cons (c : Cfg) (s : VMState) (f r0 : Nat) (q2 : List Nat) :
    pathNodes c s f (r0 :: q2)
      = if PMread s (phys c f r0) = 0 then []
        else toU64 (PMread s (phys c f r0)) ::
          pathNodes c s (toU64 (PMread s (phys c f r0))) q2 := rfl

theorem pathTo_cons (c : Cfg) (s : VMState) (f r0 : Nat) (q2 : List Nat) :
    pathTo c s f (r0 :: q2)
      = if PMread s (phys c f r0) = 0 then none
        else pathTo c s (toU64 (PMread s (phys c f r0))) q2 := rfl

/-- A single write whose cell's current child is not a node of the path
leaves the path intact. -/
theorem pathTo_write_preserved (c : Cfg) (s : VMState) (w wr : Nat) (v : Int) :
    ∀ (q : List Nat) (f F : Nat), pathTo c s f q = some F →
      toU64 (PMread s (phys c w wr)) ∉ pathNodes c s f q →
      pathTo c (PMwrite s (phys c w wr) v) f q = some F ∧
      pathNodes c (PMwrite s (phys c w wr) v) f q = pathNodes c s f q := by
  intro q
  induction q with
  | nil => exact fun f F h _ => ⟨h, rfl⟩
  | cons r0 q2 ih =>
    intro f F hpath hnot
    rw [pathTo_cons] at hpath
    rw [pathNodes_cons] at hnot
    by_cases hz : PMread s (phys c f r0) = 0
    · rw [if_pos hz] at hpath
      cases hpath
    · rw [if_neg hz] at hpath
      rw [if_neg hz] at hnot
      have haddr : phys c f r0 ≠ phys c w wr := by
        intro h
        apply hnot
        have hv : PMread s (phys c w wr) = PMread s (phys c f r0) := by
          rw [← h]
        rw [hv]
        exact List.mem_cons_self _ _
      have hcell : PMread (PMwrite s (phys c w wr) v) (phys c f r0)
          = PMread s (phys c f r0) := by
        rw [PMread_PMwrite, if_neg haddr]
      have hsub := ih (toU64 (PMread s (phys c f r0))) F hpath
        (fun h => hnot (List.mem_cons_of_mem _ h))
      constructor
      · rw [pathTo_cons, hcell, if_neg hz]
        exact hsub.1
      · rw [pathNodes_cons, hcell, if_neg hz, hsub.2, pathNodes_cons, if_neg hz]

/-- Writes confined to one frame that is neither the path's start nor one
of its nodes leave the path intact. -/
theorem pathTo_frame_preserved (c : Cfg) (s s2 : VMState) (W : Nat)
    (hagree : ∀ a, (∀ i < c.PAGE_SIZE, a ≠ phys c W i) → PMread s2 a = PMread s a) :
    ∀ (q : List Nat) (f F : Nat), RowsOK c q → pathTo c s f q = some F → f ≠ W →
      W ∉ pathNodes c s f q →
      pathTo c s2 f q = some F ∧ pathNodes c s2 f q = pathNodes c s f q := by
  intro q
  induction q with
  | nil => exact fun f F _ h _ _ => ⟨h, rfl⟩
  | cons r0 q2 ih =>
    intro f F hrows hpath hfW hnot
    have hr0 : r0 < c.PAGE_SIZE := hrows r0 (List.mem_cons_self _ _)
    rw [pathTo_cons] at hpath
    rw [pathNodes_cons] at hnot
    by_cases hz : PMread s (phys c f r0) = 0
    · rw [if_pos hz] at hpath
      cases hpath
    · rw [if_neg hz] at hpath
      rw [if_neg hz] at hnot
      have hcell : PMread s2 (phys c f r0) = PMread s (phys c f r0) :=
        hagree _ (fun i hi => phys_ne c hfW hr0 hi)
      have hchW : toU64 (PMread s (phys c f r0)) ≠ W :=
        fun h => hnot (h ▸ List.mem_cons_self _ _)
      have hsub := ih (toU64 (PMread s (phys c f r0))) F
        (fun x hx => hrows x (List.mem_cons_of_mem _ hx)) hpath hchW
        (fun h => hnot (List.mem_cons_of_mem _ h))
      constructor
      · rw [pathTo_cons, hcell, if_neg hz]
        exact hsub.1
      · rw [pathNodes_cons, hcell, if_neg hz, hsub.2, pathNodes_cons, if_neg hz]

theorem pathTo_snoc (c : Cfg) (s : VMState) :
    ∀ (q : List Nat) (f g r : Nat), pathTo c s f q = some g →
      PMread s (phys c g r) ≠ 0 →
      pathTo c s f (q ++ [r]) = some (toU64 (PMread s (phys c g r))) := by
  intro q
  induction q with
  | nil =>
    intro f g r hpath hnz
    obtain rfl : f = g := Option.some.inj hpath
    rw [List.nil_append, pathTo_cons, if_neg hnz]
    rfl
  | cons r0 q2 ih =>
    intro f g r hpath hnz
    rw [pathTo_cons] at hpath
    by_cases hz : PMread s (phys c f r0) = 0
    · rw [if_pos hz] at hpath
      cases hpath
    · rw [if_neg hz] at hpath
      rw [List.cons_append, pathTo_cons, if_neg hz]
      exact ih _ g r hpath hnz

theorem pathTo_append_some (c : Cfg) (s : VMState) :
    ∀ (q1 q2 : List Nat) (f g : Nat), pathTo c s f q1 = some g →
      pathTo c s f (q1 ++ q2) = pathTo c s g q2 := by
  intro q1
  induction q1 with
  | nil =>
    intro q2 f g hpath
    obtain rfl : f = g := Option.some.inj hpath
    rw [List.nil_append]
  | cons r0 q3 ih =>
    intro q2 f g hpath
    rw [pathTo_cons] at hpath
    by_cases hz : PMread s (phys c f r0) = 0
    · rw [if_pos hz] at hpath
      cases hpath
    · rw [if_neg hz] at hpath
      rw [List.cons_append, pathTo_cons, if_neg hz]
      exact ih q2 _ g hpath

theorem pathNodes_nonzero (c : Cfg) (s : VMState) (hram : RamOK s) :
    ∀ (q : List Nat) (f : Nat), 0 ∉ pathNodes c s f q := by
  intro q
  induction q with
  | nil => exact fun f h => (List.not_mem_nil 0) h
  | cons r0 q2 ih =>
    intro f h
    rw [pathNodes_cons] at h
    by_cases hz : PMread s (phys c f r0) = 0
    · rw [if_pos hz] at h
      exact (List.not_mem_nil 0) h
    · rw [if_neg hz] at h
      rcases List.mem_cons.1 h with h2 | h2
      · exact toU64_ne_zero (hram (phys c f r0)).1 (hram (phys c f r0)).2 hz h2.symm
      · exact ih _ h2

theorem pathNodes_spec (c : Cfg) (s : VMState) :
    ∀ (q : List Nat) (f F : Nat), RowsOK c q → pathTo c s f q = some F →
      ∀ g ∈ pathNodes c s f q, g = F ∨ ¬AllZeroF c s g := by
  intro q
  induction q with
  | nil => exact fun f F _ _ g hg => absurd hg (List.not_mem_nil g)
  | cons r0 q2 ih =>
    intro f F hrows hpath g hg
    rw [pathTo_cons] at hpath
    rw [pathNodes_cons] at hg
    by_cases hz : PMread s (phys c f r0) = 0
    · rw [if_pos hz] at hpath
      cases hpath
    · rw [if_neg hz] at hpath
      rw [if_neg hz] at hg
      rcases List.mem_cons.1 hg with h2 | h2
      · subst h2
        rcases q2 with _ | ⟨r1, q3⟩
        · exact Or.inl (Option.some.inj hpath)
        · rw [pathTo_cons] at hpath
          by_cases hz1 : PMread s (phys c (toU64 (PMread s (phys c f r0))) r1) = 0
          · rw [if_pos hz1] at hpath
            cases hpath
          · refine Or.inr (fun hAZ => hz1 ?_)
            exact hAZ r1 (hrows r1 (List.mem_cons_of_mem _ (List.mem_cons_self _ _)))
      · exact ih _ F (fun x hx => hrows x (List.mem_cons_of_mem _ hx)) hpath g h2

theorem sub_edge_mem (c : Cfg) (s : VMState) {r f pre row : Nat}
    (hrow : row ∈ List.range c.PAGE_SIZE) (hz : PMread s (phys c f row) ≠ 0)
    {e : Edge} (he : e ∈ edges c s (r + 1) (toU64 (PMread s (phys c f row)))
      (pre * c.PAGE_SIZE + row)) :
    e ∈ edges c s (r + 2) f pre := by
  have hsubl : (edges c s (r + 1) (toU64 (PMread s (phys c f row)))
      (pre * c.PAGE_SIZE + row)).Sublist (edges c s (r + 2) f pre) := by
    rw [edges_eq_comp]
    refine List.Sublist.trans ?_ (sublist_flatMap_of_mem hrow (edgeComp c s r f pre))
    rw [edgeComp_cons c s r f pre row hz]
    exact List.sublist_cons_self _ _
  exact hsubl.subset he

theorem sub_targets_mem (c : Cfg) (s : VMState) {r f pre row : Nat}
    (hrow : row ∈ List.range c.PAGE_SIZE) (hz : PMread s (phys c f row) ≠ 0)
    {g : Nat} (hg : g ∈ targetsOf (edges c s (r + 1)
      (toU64 (PMread s (phys c f row))) (pre * c.PAGE_SIZE + row))) :
    g ∈ targetsOf (edges c s (r + 2) f pre) := by
  rcases List.mem_map.1 hg with ⟨e, he, rfl⟩
  exact List.mem_map.2 ⟨e, sub_edge_mem c s hrow hz he, rfl⟩

theorem pathNodes_sub_targets (c : Cfg) (s : VMState) :
    ∀ (q : List Nat) (f pre rem : Nat), RowsOK c q → q.length ≤ rem →
      ∀ g ∈ pathNodes c s f q, g ∈ targetsOf (edges c s rem f pre) := by
  intro q
  induction q with
  | nil => exact fun f pre rem _ _ g hg => absurd hg (List.not_mem_nil g)
  | cons r0 q2 ih =>
    intro f pre rem hrows hlen g hg
    have hr0 : r0 < c.PAGE_SIZE := hrows r0 (List.mem_cons_self _ _)
    rw [pathNodes_cons] at hg
    by_cases hz : PMread s (phys c f r0) = 0
    · rw [if_pos hz] at hg
      exact absurd hg (List.not_mem_nil g)
    · rw [if_neg hz] at hg
      rcases List.mem_cons.1 hg with h2 | h2
      · rw [h2]
        exact target_of_cell c s rem f pre r0 (List.mem_range.2 hr0) hz
      · rcases rem with _ | r
        · exact False.elim (by simp only [List.length_cons] at hlen; omega)
        · rcases r with _ | r2
          · have hq2 : q2 = [] := List.eq_nil_of_length_eq_zero (by
              simp only [List.length_cons] at hlen
              omega)
            subst hq2
            exact absurd h2 (List.not_mem_nil g)
          · have hsub := ih (toU64 (PMread s (phys c f r0)))
              (pre * c.PAGE_SIZE + r0) (r2 + 1)
              (fun x hx => hrows x (List.mem_cons_of_mem _ hx))
              (by simp only [List.length_cons] at hlen; omega) g h2
            exact sub_targets_mem c s (List.mem_range.2 hr0) hz hsub

theorem pathNodes_nonleaf (c : Cfg) (s : VMState) :
    ∀ (q : List Nat) (f pre rem : Nat), RowsOK c q → q.length < rem →
      ∀ g ∈ pathNodes c s f q,
        ∃ e ∈ edges c s rem f pre, e.leaf = false ∧ e.child = g := by
  intro q
  induction q with
  | nil => exact fun f pre rem _ _ g hg => absurd hg (List.not_mem_nil g)
  | cons r0 q2 ih =>
    intro f pre rem hrows hlen g hg
    have hr0 : r0 < c.PAGE_SIZE := hrows r0 (List.mem_cons_self _ _)
    rw [pathNodes_cons] at hg
    by_cases hz : PMread s (phys c f r0) = 0
    · rw [if_pos hz] at hg
      exact absurd hg (List.not_mem_nil g)
    · rw [if_neg hz] at hg
      obtain ⟨r2, rfl⟩ : ∃ r2, rem = r2 + 2 := ⟨rem - 2, by
        simp only [List.length_cons] at hlen
        omega⟩
      rcases List.mem_cons.1 hg with h2 | h2
      · refine ⟨⟨f, r0, toU64 (PMread s (phys c f r0)),
          pre * c.PAGE_SIZE + r0, false⟩, ?_, rfl, h2.symm⟩
        rw [edges_unfold2]
        apply List.mem_flatMap.2
        refine ⟨r0, List.mem_range.2 hr0, ?_⟩
        rw [if_neg hz]
        exact List.mem_cons_self _ _
      · obtain ⟨e, he, hl, hc⟩ := ih (toU64 (PMread s (phys c f r0)))
          (pre * c.PAGE_SIZE + r0) (r2 + 1)
          (fun x hx => hrows x (List.mem_cons_of_mem _ hx))
          (by simp only [List.length_cons] at hlen; omega) g h2
        exact ⟨e, sub_edge_mem c s (List.mem_range.2 hr0) hz he, hl, hc⟩

/-- Every edge's parent is reached by a row path shorter than the
subtree's depth (of length exactly `rem - 1` for a leaf edge). -/
theorem edge_parent_path (c : Cfg) (s : VMState) :
    ∀ rem f pre0, 1 ≤ rem → ∀ e ∈ edges c s rem f pre0,
      ∃ qp, RowsOK c qp ∧ pathTo c s f qp = some e.parent ∧
        qp.length < rem ∧ (e.leaf = true → qp.length + 1 = rem) := by
  intro rem
  induction rem using Nat.strong_induction_on with
  | _ rem ih =>
    rcases Nat.lt_or_ge rem 2 with hrem | hrem
    · intro f pre0 hrem1 e he
      obtain rfl : rem = 1 := by omega
      rw [edges_unfold1] at he
      rcases List.mem_flatMap.1 he with ⟨row, hrow, hmem⟩
      split at hmem
      · cases hmem
      · rcases List.mem_singleton.1 hmem with rfl
        exact ⟨[], fun x hx => absurd hx (List.not_mem_nil x), rfl, by simp,
          fun _ => rfl⟩
    · obtain ⟨r, rfl⟩ : ∃ r, rem = r + 2 := ⟨rem - 2, by omega⟩
      intro f pre0 _ e he
      rw [edges_unfold2] at he
      rcases List.mem_flatMap.1 he with ⟨row, hrow, hmem⟩
      split at hmem
      · cases hmem
      · next hcell =>
        rcases List.mem_cons.1 hmem with rfl | hmem2
        · exact ⟨[], fun x hx => absurd hx (List.not_mem_nil x), rfl, by simp,
            fun htrue => absurd htrue Bool.false_ne_true⟩
        · obtain ⟨qp, hq1, hq2, hq3, hq4⟩ := ih (r + 1) (by omega)
            (toU64 (PMread s (phys c f row))) (pre0 * c.PAGE_SIZE + row)
            (by omega) e hmem2
          refine ⟨row :: qp, ?_, ?_, ?_, ?_⟩
          · intro x hx
            rcases List.mem_cons.1 hx with rfl | hx2
            · exact List.mem_range.1 hrow
            · exact hq1 x hx2
          · rw [pathTo_cons, if_neg hcell]
            exact hq2
          · rw [List.length_cons]
            omega
          · intro hl
            rw [List.length_cons]
            have := hq4 hl
            omega

/-- Every edge's parent is the subtree root or a table child. -/
theorem edges_parent_tables (c : Cfg) (s : VMState) :
    ∀ rem f pre, ∀ e ∈ edges c s rem f pre,
      e.parent = f ∨ e.parent ∈ tableChildren (edges c s rem f pre) := by
  intro rem
  induction rem using Nat.strong_induction_on with
  | _ rem ih =>
    rcases Nat.lt_or_ge rem 2 with hrem | hrem
    · intro f pre e he
      have hunf : edges c s rem f pre = (List.range c.PAGE_SIZE).flatMap fun r =>
          if PMread s (phys c f r) = 0 then []
          else [⟨f, r, toU64 (PMread s (phys c f r)), pre * c.PAGE_SIZE + r, true⟩] := by
        rcases rem with _ | rem
        · exact edges_unfold0 c s f pre
        · rcases rem with _ | rem
          · exact edges_unfold1 c s f pre
          · omega
      rw [hunf] at he
      rcases List.mem_flatMap.1 he with ⟨row, hrow, hmem⟩
      split at hmem
      · cases hmem
      · rcases List.mem_singleton.1 hmem with rfl
        exact Or.inl rfl
    · obtain ⟨r, rfl⟩ : ∃ r, rem = r + 2 := ⟨rem - 2, by omega⟩
      intro f pre e he
      rw [edges_unfold2] at he
      rcases List.mem_flatMap.1 he with ⟨row, hrow, hmem⟩
      split at hmem
      · cases hmem
      · next hcell =>
        have hheadmem : (⟨f, row, toU64 (PMread s (phys c f row)),
            pre * c.PAGE_SIZE + row, false⟩ : Edge) ∈ edges c s (r + 2) f pre := by
          rw [edges_unfold2]
          apply List.mem_flatMap.2
          exact ⟨row, hrow, by rw [if_neg hcell]; exact List.mem_cons_self _ _⟩
        rcases List.mem_cons.1 hmem with rfl | hmem2
        · exact Or.inl rfl
        · rcases ih (r + 1) (by omega) _ (pre * c.PAGE_SIZE + row) e hmem2 with h | h
          · right
            rw [h]
            exact mem_tableChildren.2 ⟨_, hheadmem, rfl, rfl⟩
          · right
            have hsubl : (edges c s (r + 1) (toU64 (PMread s (phys c f row)))
                (pre * c.PAGE_SIZE + row)).Sublist (edges c s (r + 2) f pre) := by
              rw [edges_eq_comp]
              refine List.Sublist.trans ?_
                (sublist_flatMap_of_mem hrow (edgeComp c s r f pre))
              rw [edgeComp_cons c s r f pre row hcell]
              exact List.sublist_cons_self _ _
            exact (tableChildren_sublist hsubl).subset h

theorem toU64_lt {v : Int} (h0 : 0 ≤ v) {n : Nat} (h : v < (n : Int)) :
    toU64 v < n := by
  unfold toU64
  omega

/-- On a state with well-formed cells, every referenced frame is below the
frame count. -/
theorem child_lt_NF (c : Cfg) (s : VMState) (hcells : cellsOK c s) :
    ∀ e ∈ rootEdges c s, e.child < c.numFrames := by
  intro e he
  have hp : e.parent ∈ tablesOf c s := by
    rcases edges_parent_tables c s c.tablesDepth 0 0 e he with h | h
    · rw [h]
      exact List.mem_cons_self _ _
    · exact List.mem_cons_of_mem _ h
  have hrow : e.row < c.PAGE_SIZE := edges_row_lt c s c.tablesDepth 0 0 e he
  have hcell := edges_cell_spec c s c.tablesDepth 0 0 e he
  have hb := hcells e.parent hp e.row hrow
  rw [← hcell.2]
  exact toU64_lt hb.1 hb.2

theorem target_lt_NF (c : Cfg) (s : VMState) (hcells : cellsOK c s) :
    ∀ t ∈ targetsOf (rootEdges c s), t < c.numFrames := by
  intro t ht
  rcases List.mem_map.1 ht with ⟨e, he, rfl⟩
  exact child_lt_NF c s hcells e he

/-! ## Digit arithmetic: row paths as base-`PAGE_SIZE` numerals -/

theorem digitsVal_linear (c : Cfg) :
    ∀ (q : List Nat) (pre : Nat),
      digitsVal c pre q = pre * c.PAGE_SIZE ^ q.length + digitsVal c 0 q := by
  intro q
  induction q with
  | nil =>
    intro pre
    unfold digitsVal
    simp
  | cons r0 q2 ih =>
    intro pre
    unfold digitsVal
    rw [List.foldl_cons, List.foldl_cons]
    have h1 := ih (pre * c.PAGE_SIZE + r0)
    have h2 := ih (0 * c.PAGE_SIZE + r0)
    unfold digitsVal at h1 h2
    rw [h1, h2, List.length_cons]
    ring

theorem digitsVal_cons (c : Cfg) (r0 : Nat) (q2 : List Nat) :
    digitsVal c 0 (r0 :: q2)
      = r0 * c.PAGE_SIZE ^ q2.length + digitsVal c 0 q2 := by
  unfold digitsVal
  rw [List.foldl_cons]
  have := digitsVal_linear c q2 (0 * c.PAGE_SIZE + r0)
  unfold digitsVal at this
  rw [this]
  ring

theorem digitsVal_lt (c : Cfg) :
    ∀ (q : List Nat), RowsOK c q → digitsVal c 0 q < c.PAGE_SIZE ^ q.length := by
  intro q
  induction q with
  | nil =>
    intro _
    unfold digitsVal
    simp
  | cons r0 q2 ih =>
    intro hrows
    have hr0 : r0 < c.PAGE_SIZE := hrows r0 (List.mem_cons_self _ _)
    have hsub := ih (fun x hx => hrows x (List.mem_cons_of_mem _ hx))
    rw [digitsVal_cons, List.length_cons]
    calc r0 * c.PAGE_SIZE ^ q2.length + digitsVal c 0 q2
        < r0 * c.PAGE_SIZE ^ q2.length + c.PAGE_SIZE ^ q2.length := by omega
      _ = (r0 + 1) * c.PAGE_SIZE ^ q2.length := by ring
      _ ≤ c.PAGE_SIZE * c.PAGE_SIZE ^ q2.length :=
          Nat.mul_le_mul_right _ (by omega)
      _ = c.PAGE_SIZE ^ (q2.length + 1) := by
          rw [pow_succ]
          ring

/-- Digit-shift: the lower digits of `p` agree with those of `p` reduced
modulo a higher power. -/
theorem digit_shift (c : Cfg) {j n : Nat} (hj : j < n) (p : Nat) :
    p % c.PAGE_SIZE ^ n / c.PAGE_SIZE ^ (n - 1 - j) % c.PAGE_SIZE
      = p / c.PAGE_SIZE ^ (n - 1 - j) % c.PAGE_SIZE := by
  have hP := PAGE_SIZE_pos c
  have hd : c.PAGE_SIZE ^ n
      = c.PAGE_SIZE ^ (j + 1) * c.PAGE_SIZE ^ (n - 1 - j) := by
    rw [← pow_add]
    congr 1
    omega
  have hdpos : 0 < c.PAGE_SIZE ^ (n - 1 - j) := Nat.pos_pow_of_pos _ hP
  have hsplit : p = p % c.PAGE_SIZE ^ n
      + p / c.PAGE_SIZE ^ n * c.PAGE_SIZE ^ (j + 1) * c.PAGE_SIZE ^ (n - 1 - j) := by
    rw [mul_assoc, ← hd, Nat.add_comm]
    exact (Nat.div_add_mod' p (c.PAGE_SIZE ^ n)).symm
  conv_rhs => rw [hsplit]
  rw [Nat.add_mul_div_right _ _ hdpos, pow_succ, ← mul_assoc, Nat.add_mul_mod_self_right]

/-- A row path is exactly the base-`PAGE_SIZE` digit string of its value. -/
theorem digits_eq (c : Cfg) :
    ∀ (q : List Nat), RowsOK c q →
      q = (List.range q.length).map
        (fun j => digitsVal c 0 q / c.PAGE_SIZE ^ (q.length - 1 - j) % c.PAGE_SIZE) := by
  intro q
  induction q with
  | nil => intro _; rfl
  | cons r0 q2 ih =>
    intro hrows
    have hP := PAGE_SIZE_pos c
    have hr0 : r0 < c.PAGE_SIZE := hrows r0 (List.mem_cons_self _ _)
    have hrows2 : RowsOK c q2 := fun x hx => hrows x (List.mem_cons_of_mem _ hx)
    have hlt := digitsVal_lt c q2 hrows2
    have hval := digitsVal_cons c r0 q2
    have hdiv : digitsVal c 0 (r0 :: q2) / c.PAGE_SIZE ^ q2.length = r0 := by
      rw [hval, Nat.add_comm, Nat.add_mul_div_right _ _ (Nat.pos_pow_of_pos _ hP),
        Nat.div_eq_of_lt hlt]
      omega
    have hmod : digitsVal c 0 (r0 :: q2) % c.PAGE_SIZE ^ q2.length
        = digitsVal c 0 q2 := by
      rw [hval, Nat.mul_comm r0, Nat.mul_add_mod, Nat.mod_eq_of_lt hlt]
    rw [List.length_cons, List.range_succ_eq_map, List.map_cons, List.map_map]
    congr 1
    · show r0 = digitsVal c 0 (r0 :: q2) / c.PAGE_SIZE ^ q2.length % c.PAGE_SIZE
      rw [hdiv, Nat.mod_eq_of_lt hr0]
    · conv_lhs => rw [ih hrows2]
      refine List.map_congr_left ?_
      intro j hj
      have hjlt : j < q2.length := List.mem_range.1 hj
      show digitsVal c 0 q2 / c.PAGE_SIZE ^ (q2.length - 1 - j) % c.PAGE_SIZE
          = digitsVal c 0 (r0 :: q2)
            / c.PAGE_SIZE ^ (q2.length + 1 - 1 - (j + 1)) % c.PAGE_SIZE
      have hexp : q2.length + 1 - 1 - (j + 1) = q2.length - 1 - j := by omega
      rw [hexp, ← hmod, digit_shift c hjlt]

/-- The walker's per-level digit is the page number's base-`PAGE_SIZE`
digit. -/
theorem indexAtLevel_eq (c : Cfg) (va level : Nat) :
    indexAtLevel c va level
      = (va >>> c.offsetWidth) / c.PAGE_SIZE ^ (c.tablesDepth - 1 - level)
          % c.PAGE_SIZE := by
  unfold indexAtLevel Cfg.PAGE_SIZE
  rw [Nat.shiftRight_eq_div_pow, Nat.shiftRight_eq_div_pow, Nat.div_div_eq_div_mul,
    ← pow_mul, ← pow_add]

/-- If the walker at `level` on page `va`'s path sits at frame `f` and the
next cell is empty, no currently mapped leaf serves page `va >>> offsetWidth`. -/
theorem no_tp_leaf (c : Cfg) (s : VMState) (hD : 1 ≤ c.tablesDepth)
    (va level f : Nat) (hlev : level < c.tablesDepth)
    (hpath : pathTo c s 0 ((List.range level).map (indexAtLevel c va)) = some f)
    (hmiss : PMread s (phys c f (indexAtLevel c va level)) = 0) :
    ∀ e ∈ leafEdges c s, e.pre ≠ va >>> c.offsetWidth := by
  intro e he hpre
  have heR : e ∈ rootEdges c s := List.mem_of_mem_filter he
  have hleaf : e.leaf = true := List.of_mem_filter he
  obtain ⟨q, hrows, hpathe, hpreq, hlenl, _⟩ :=
    edge_path c s c.tablesDepth 0 0 hD e heR
  have hlenq : q.length = c.tablesDepth := hlenl hleaf
  have hval : digitsVal c 0 q = va >>> c.offsetWidth := by
    rw [← hpreq]
    exact hpre
  have hq := digits_eq c q hrows
  rw [hval, hlenq] at hq
  have hqI : q = (List.range c.tablesDepth).map (indexAtLevel c va) := by
    rw [hq]
    exact List.map_congr_left (fun j _ => (indexAtLevel_eq c va j).symm)
  have hqI2 : q = (List.range level).map (indexAtLevel c va)
      ++ indexAtLevel c va level
        :: (List.range (c.tablesDepth - level - 1)).map
             (fun x => indexAtLevel c va (level + 1 + x)) := by
    rw [hqI]
    conv_lhs => rw [show c.tablesDepth
      = level + ((c.tablesDepth - level - 1) + 1) from by omega]
    rw [List.range_add, List.map_append, List.range_succ_eq_map, List.map_map,
      List.map_cons, List.map_map]
    congr 1
    congr 1
    refine List.map_congr_left ?_
    intro x _
    simp only [Function.comp_apply, Nat.succ_eq_add_one]
    congr 1
    omega
  have hnone : pathTo c s 0 q = none := by
    rw [hqI2, pathTo_append_some c s _ _ 0 f hpath, pathTo_cons, if_pos hmiss]
  rw [hnone] at hpathe
  cases hpathe

/-! ## Victim existence: the no-leaf/no-candidate chain bound -/

theorem foldl_max_attained :
    ∀ (l : List Nat) (b : Nat), l.foldl max b = b ∨ l.foldl max b ∈ l := by
  intro l
  induction l with
  | nil => intro b; exact Or.inl rfl
  | cons x t ih =>
    intro b
    rw [List.foldl_cons]
    rcases ih (max b x) with h | h
    · rw [h]
      rcases max_choice b x with h2 | h2
      · exact Or.inl h2
      · rw [h2]
        exact Or.inr (List.mem_cons_self _ _)
    · exact Or.inr (List.mem_cons_of_mem _ h)

/-- A subtree with no edges has an all-zero root table. -/
theorem edges_nil_allzero (c : Cfg) (s : VMState) {rem f pre : Nat}
    (hnil : edges c s rem f pre = []) :
    ∀ i < c.PAGE_SIZE, PMread s (phys c f i) = 0 := by
  intro i hi
  by_contra hz
  have hmem := target_of_cell c s rem f pre i (List.mem_range.2 hi) hz
  rw [hnil] at hmem
  simp [targetsOf] at hmem

/-- If every nonempty block of a concatenation contains `pf` and the
concatenation has no duplicates, it consists of at most one block. -/
theorem flatMap_eq_single {α β : Type} (pf : β) :
    ∀ (l : List α) (g : α → List β),
      (∀ x ∈ l, g x ≠ [] → pf ∈ g x) → (l.flatMap g).Nodup →
      l.flatMap g = [] ∨ ∃ x ∈ l, l.flatMap g = g x := by
  intro l
  induction l with
  | nil => intro g _ _; exact Or.inl rfl
  | cons x t ih =>
    intro g hpf hnd
    rw [List.flatMap_cons] at hnd ⊢
    by_cases hx : g x = []
    · rw [hx, List.nil_append] at hnd ⊢
      rcases ih g (fun y hy => hpf y (List.mem_cons_of_mem _ hy)) hnd with h | ⟨y, hy, h⟩
      · exact Or.inl h
      · exact Or.inr ⟨y, List.mem_cons_of_mem _ hy, h⟩
    · have hpx : pf ∈ g x := hpf x (List.mem_cons_self _ _) hx
      have ht : t.flatMap g = [] := by
        by_contra hne
        obtain ⟨a, ha⟩ := List.exists_mem_of_ne_nil _ hne
        rcases List.mem_flatMap.1 ha with ⟨y, hy, hay⟩
        have hgy : g y ≠ [] := fun h => by rw [h] at hay; cases hay
        have hpy : pf ∈ t.flatMap g :=
          List.mem_flatMap.2 ⟨y, hy, hpf y (List.mem_cons_of_mem _ hy) hgy⟩
        exact (List.disjoint_of_nodup_append hnd) hpx hpy
      rw [ht, List.append_nil]
      exact Or.inr ⟨x, List.mem_cons_self _ _, rfl⟩

/-- With no leaf edges and no reuse candidates in the subtree of `f`, the
subtree's targets form at most a single chain through the parent frame
`pf`: there are fewer targets than levels, and if `pf` is not in the
subtree there are no edges at all. -/
theorem no_cand_no_leaf_bound (c : Cfg) (s : VMState) (pf : Nat) :
    ∀ rem f pre, 1 ≤ rem →
      (∀ e ∈ edges c s rem f pre, e.leaf = false) →
      candsIn c s pf rem f = [] →
      (f :: targetsOf (edges c s rem f pre)).Nodup →
      0 ∉ targetsOf (edges c s rem f pre) →
      (targetsOf (edges c s rem f pre)).length + 1 ≤ rem ∧
        (pf ≠ f → pf ∉ targetsOf (edges c s rem f pre) →
          edges c s rem f pre = []) := by
  intro rem
  induction rem using Nat.strong_induction_on with
  | _ rem ih =>
    intro f pre h1 hleaf hcand hND h0
    have hempty : targetsOf (edges c s rem f pre) = [] →
        (targetsOf (edges c s rem f pre)).length + 1 ≤ rem ∧
          (pf ≠ f → pf ∉ targetsOf (edges c s rem f pre) →
            edges c s rem f pre = []) := by
      intro h
      exact ⟨by rw [h]; simp only [List.length_nil]; omega,
        fun _ _ => List.map_eq_nil_iff.1 h⟩
    rcases Nat.lt_or_ge rem 2 with hrem | hrem
    · obtain rfl : rem = 1 := by omega
      have hnil : edges c s 1 f pre = [] := by
        rcases h : edges c s 1 f pre with _ | ⟨e, t⟩
        · rfl
        · have he : e ∈ edges c s 1 f pre := by
            rw [h]
            exact List.mem_cons_self _ _
          have hf : e.leaf = false := hleaf e he
          have htr : e.leaf = true := by
            rw [edges_unfold1] at he
            rcases List.mem_flatMap.1 he with ⟨row, hrow, hmem⟩
            split at hmem
            · cases hmem
            · rcases List.mem_singleton.1 hmem with rfl
              rfl
          rw [hf] at htr
          cases htr
      exact hempty (by rw [hnil]; rfl)
    · obtain ⟨r, rfl⟩ : ∃ r, rem = r + 2 := ⟨rem - 2, by omega⟩
      by_cases hz : ∀ row < c.PAGE_SIZE, PMread s (phys c f row) = 0
      · exact hempty (by rw [edges_allzero c s f hz (r + 2) pre]; rfl)
      · have hcands : (List.range c.PAGE_SIZE).flatMap (candComp c s pf r f) = [] := by
          rw [← candsIn_eq_comp c s pf r f hz]
          exact hcand
        have htar : targetsOf (edges c s (r + 2) f pre)
            = (List.range c.PAGE_SIZE).flatMap
                (fun row => targetsOf (edgeComp c s r f pre row)) := by
          rw [edges_eq_comp]
          unfold targetsOf
          rw [List.map_flatMap]
        have htailND : (targetsOf (edges c s (r + 2) f pre)).Nodup :=
          (List.nodup_cons.1 hND).2
        have hrowfact : ∀ row ∈ List.range c.PAGE_SIZE,
            targetsOf (edgeComp c s r f pre row) ≠ [] →
            pf ∈ targetsOf (edgeComp c s r f pre row) ∧
              (targetsOf (edgeComp c s r f pre row)).length + 1 ≤ r + 2 := by
          intro row hrowR hne
          by_cases hcell : PMread s (phys c f row) = 0
          · rw [edgeComp_zero c s r f pre row hcell] at hne
            exact absurd rfl hne
          have hcomp := edgeComp_cons c s r f pre row hcell
          have htc : targetsOf (edgeComp c s r f pre row)
              = toU64 (PMread s (phys c f row))
                :: targetsOf (edges c s (r + 1) (toU64 (PMread s (phys c f row)))
                    (pre * c.PAGE_SIZE + row)) := by
            rw [hcomp]
            rfl
          have hsubl : (targetsOf (edgeComp c s r f pre row)).Sublist
              (targetsOf (edges c s (r + 2) f pre)) := by
            rw [htar]
            exact sublist_flatMap_of_mem hrowR
              (fun row => targetsOf (edgeComp c s r f pre row))
          have hndC0 : (targetsOf (edgeComp c s r f pre row)).Nodup :=
            hsubl.nodup htailND
          rw [htc] at hndC0
          have h0C : 0 ∉ targetsOf (edges c s (r + 1) (toU64 (PMread s (phys c f row)))
              (pre * c.PAGE_SIZE + row)) := by
            intro hin
            apply h0
            apply hsubl.subset
            rw [htc]
            exact List.mem_cons_of_mem _ hin
          have hleafC : ∀ e ∈ edges c s (r + 1) (toU64 (PMread s (phys c f row)))
              (pre * c.PAGE_SIZE + row), e.leaf = false :=
            fun e he => hleaf e (sub_edge_mem c s hrowR hcell he)
          have hcandC : candsIn c s pf (r + 1) (toU64 (PMread s (phys c f row))) = [] := by
            have hsublC : (candComp c s pf r f row).Sublist
                ((List.range c.PAGE_SIZE).flatMap (candComp c s pf r f)) :=
              sublist_flatMap_of_mem hrowR _
            rw [hcands] at hsublC
            have hn := List.sublist_nil.1 hsublC
            rw [candComp_sub c s pf r f row hcell] at hn
            exact hn
          have hih := ih (r + 1) (by omega) (toU64 (PMread s (phys c f row)))
            (pre * c.PAGE_SIZE + row) (by omega) hleafC hcandC hndC0 h0C
          by_cases hpf : pf = toU64 (PMread s (phys c f row))
              ∨ pf ∈ targetsOf (edges c s (r + 1) (toU64 (PMread s (phys c f row)))
                  (pre * c.PAGE_SIZE + row))
          · constructor
            · rw [htc]
              rcases hpf with h | h
              · rw [h]
                exact List.mem_cons_self _ _
              · exact List.mem_cons_of_mem _ h
            · rw [htc, List.length_cons]
              have := hih.1
              omega
          · push_neg at hpf
            have hnilT := hih.2 hpf.1 hpf.2
            have hzT := edges_nil_allzero c s hnilT
            have hT0 : toU64 (PMread s (phys c f row)) ≠ 0 := by
              intro h00
              have hTmem := target_of_cell c s (r + 2) f pre row hrowR hcell
              rw [h00] at hTmem
              exact h0 hTmem
            have hneq : ¬(toU64 (PMread s (phys c f row)) = 0
                ∨ toU64 (PMread s (phys c f row)) = pf) := by
              rintro (h | h)
              · exact hT0 h
              · exact hpf.1 h.symm
            have hcT : candsIn c s pf (r + 1) (toU64 (PMread s (phys c f row)))
                = [toU64 (PMread s (phys c f row))] := by
              rcases r with _ | r2
              · rw [candsIn_unfold_leaf c s pf _ 1 (by omega), if_pos hzT, if_neg hneq]
              · rw [show r2 + 1 + 1 = r2 + 2 from rfl, candsIn_unfold2, if_pos hzT,
                  if_neg hneq]
            rw [hcandC] at hcT
            simp at hcT
        have hndF : ((List.range c.PAGE_SIZE).flatMap
            (fun row => targetsOf (edgeComp c s r f pre row))).Nodup := by
          rw [← htar]
          exact htailND
        rcases flatMap_eq_single pf (List.range c.PAGE_SIZE) _
            (fun row hr hne => (hrowfact row hr hne).1) hndF with hAllNil | ⟨row, hrowR, heq⟩
        · exact hempty (by rw [htar]; exact hAllNil)
        · by_cases hne : targetsOf (edgeComp c s r f pre row) = []
          · exact hempty (by rw [htar, heq]; exact hne)
          · have hfact := hrowfact row hrowR hne
            constructor
            · rw [htar, heq]
              exact hfact.2
            · intro _ hnotin
              exact absurd (show pf ∈ targetsOf (edges c s (r + 2) f pre) by
                rw [htar, heq]; exact hfact.1) hnotin

/-- Victim existence: on a well-formed contiguous tree, when no reuse
candidate exists and the high-water mark is at the frame-count ceiling,
some data page is mapped. -/
theorem victim_exists (c : Cfg) (s : VMState) (hOK : CfgOK c) (pf tp : Nat)
    (hND : treeUniq c s) (hcontig : CONTIG c s) (hcells : cellsOK c s)
    (hcand : cands c s pf = [])
    (hfull : ¬((scanRoot c s tp pf).maxFrame + 1 < c.numFrames)) :
    leafEdges c s ≠ [] := by
  intro hleafnil
  obtain ⟨hoW, hD, hNF, hNF2⟩ := hOK
  have hM : (scanRoot c s tp pf).maxFrame
      = (targetsOf (rootEdges c s)).foldl max 0 := by
    unfold scanRoot rootEdges
    exact scan_maxFrame c s tp pf c.tablesDepth 0 0 {}
  have hMle : (targetsOf (rootEdges c s)).foldl max 0 ≤ c.numFrames - 1 := by
    apply foldl_max_le
    · intro x hx
      have := target_lt_NF c s hcells x hx
      omega
    · omega
  have hMeq : (targetsOf (rootEdges c s)).foldl max 0 = c.numFrames - 1 := by
    rw [hM] at hfull
    omega
  have hmem : c.numFrames - 1 ∈ targetsOf (rootEdges c s) := by
    rcases foldl_max_attained (targetsOf (rootEdges c s)) 0 with h | h
    · rw [hMeq] at h
      omega
    · rw [hMeq] at h
      exact h
  have hsubset : ∀ j, 1 ≤ j → j ≤ c.numFrames - 1 →
      j ∈ targetsOf (rootEdges c s) :=
    fun j h1 h2 => hcontig _ hmem j h1 h2
  have hleafall : ∀ e ∈ rootEdges c s, e.leaf = false := by
    intro e he
    have := List.filter_eq_nil_iff.1 hleafnil e he
    rw [Bool.not_eq_true] at this
    exact this
  have h0nt : 0 ∉ targetsOf (rootEdges c s) := (List.nodup_cons.1 hND).1
  have hbound := no_cand_no_leaf_bound c s pf c.tablesDepth 0 0 hD hleafall
    hcand hND h0nt
  have hlow : c.numFrames - 1 ≤ (targetsOf (rootEdges c s)).length := by
    have hndm : ((List.range (c.numFrames - 1)).map (fun i => i + 1)).Nodup :=
      (List.nodup_range _).map (fun a b h => by omega)
    have hsub : (List.range (c.numFrames - 1)).map (fun i => i + 1)
        ⊆ targetsOf (rootEdges c s) := by
      intro x hx
      rcases List.mem_map.1 hx with ⟨i, hi, rfl⟩
      have hi2 := List.mem_range.1 hi
      exact hsubset (i + 1) (by omega) (by omega)
    have := (List.subperm_of_subset hndm hsub).length_le
    rw [List.length_map, List.length_range] at this
    exact this
  have h1bd := hbound.1
  unfold rootEdges at hlow
  omega

/-! ## Reading around a cleared or restored frame -/

theorem clearFrame_agree (c : Cfg) (s : VMState) (f : Nat) (b : Bool) (a : Nat)
    (ha : ∀ i < c.PAGE_SIZE, a ≠ phys c f i) :
    PMread (clearFrame c s f b) a = PMread s a := by
  unfold clearFrame
  split
  · rfl
  · rw [foldl_write0_read, if_neg]
    intro hmem
    rcases List.mem_map.1 hmem with ⟨i, hi, hphys⟩
    exact ha i (List.mem_range.1 hi) hphys.symm

theorem PMrestore_agree (c : Cfg) (s : VMState) (f p : Nat) (a : Nat)
    (ha : ∀ i < c.PAGE_SIZE, a ≠ phys c f i) :
    PMread (PMrestore c s f p) a = PMread s a := by
  unfold PMrestore PMread
  dsimp only
  rw [if_neg]
  rintro ⟨h1, h2⟩
  exact ha (a - f * c.PAGE_SIZE) (by omega) (by unfold phys; omega)

/-- Two states that read equal everywhere list the same edges. -/
theorem edges_ext (c : Cfg) (s s2 : VMState)
    (hagree : ∀ a, PMread s2 a = PMread s a) :
    ∀ rem f pre, edges c s2 rem f pre = edges c s rem f pre := by
  intro rem
  induction rem using Nat.strong_induction_on with
  | _ rem ih =>
    intro f pre
    rcases rem with _ | rem1
    · rw [edges_unfold0, edges_unfold0]
      exact List.flatMap_congr (fun row _ => by rw [hagree])
    · rcases rem1 with _ | r
      · rw [edges_unfold1, edges_unfold1]
        exact List.flatMap_congr (fun row _ => by rw [hagree])
      · rw [edges_unfold2, edges_unfold2]
        exact List.flatMap_congr (fun row _ => by
          rw [hagree, ih (r + 1) (by omega)])

/-- Two states that read equal everywhere resolve the same paths. -/
theorem pathTo_ext (c : Cfg) (s s2 : VMState)
    (hagree : ∀ a, PMread s2 a = PMread s a) :
    ∀ (q : List Nat) (f : Nat), pathTo c s2 f q = pathTo c s f q := by
  intro q
  induction q with
  | nil => intro f; rfl
  | cons r0 q2 ih =>
    intro f
    rw [pathTo_cons, pathTo_cons, hagree, ih]

/-- Detaching a uniquely referenced frame — an all-zero table or a data
leaf — and clearing it per `isLeaf`: the listing loses exactly that frame,
uniqueness and cell bounds survive, and a short path avoiding the frame is
untouched. -/
theorem prune_clear_spec (c : Cfg) (s : VMState)
    (hG : GoodS s) (hcells : cellsOK c s) (hND : treeUniq c s)
    (pf row : Nat) (q : List Nat)
    (hrows : RowsOK c q) (hqlen : q.length < c.tablesDepth)
    (hpath : pathTo c s 0 q = some pf)
    (hrow : row < c.PAGE_SIZE)
    (hmiss : PMread s (phys c pf row) = 0)
    (e : Edge) (he : e ∈ rootEdges c s) (isLeaf : Bool)
    (hcase : AllZeroF c s e.child ∨ e.leaf = true)
    (hXpf : e.child ≠ pf) :
    GoodS (pruneClear c s e isLeaf) ∧
    e.child ≠ 0 ∧
    e.child < c.numFrames ∧
    e.child ∉ 0 :: targetsOf (rootEdges c (pruneClear c s e isLeaf)) ∧
    (0 :: targetsOf (rootEdges c (pruneClear c s e isLeaf))).Nodup ∧
    (∀ t ∈ targetsOf (rootEdges c (pruneClear c s e isLeaf)),
      t ∈ targetsOf (rootEdges c s) ∧ t ≠ e.child) ∧
    (∀ t ∈ targetsOf (rootEdges c s), t ≠ e.child →
      t ∈ targetsOf (rootEdges c (pruneClear c s e isLeaf))) ∧
    e.child ∈ targetsOf (rootEdges c s) ∧
    cellsOK c (pruneClear c s e isLeaf) ∧
    pathTo c (pruneClear c s e isLeaf) 0 q = some pf ∧
    PMread (pruneClear c s e isLeaf) (phys c pf row) = 0 ∧
    (isLeaf = false → ∀ i < c.PAGE_SIZE,
      PMread (pruneClear c s e isLeaf) (phys c e.child i) = 0) := by
  have hND' : (0 :: targetsOf (edges c s c.tablesDepth 0 0)).Nodup := hND
  have hndT : (targetsOf (rootEdges c s)).Nodup := (List.nodup_cons.1 hND).2
  have hndT' : (targetsOf (edges c s c.tablesDepth 0 0)).Nodup := hndT
  have h0nt : 0 ∉ targetsOf (rootEdges c s) := (List.nodup_cons.1 hND).1
  have hrowe : e.row < c.PAGE_SIZE := edges_row_lt c s c.tablesDepth 0 0 e he
  have hXmem : e.child ∈ targetsOf (rootEdges c s) := List.mem_map.2 ⟨e, he, rfl⟩
  have hX0 : e.child ≠ 0 := fun h => h0nt (h ▸ hXmem)
  have hXNF : e.child < c.numFrames := target_lt_NF c s hcells _ hXmem
  have hDpos : 1 ≤ c.tablesDepth := by omega
  have hXpar : e.parent ≠ e.child := edges_no_self c s c.tablesDepth 0 0 hND' e he
  have hXnotpath : ∀ (qq : List Nat) (F : Nat), RowsOK c qq →
      qq.length < c.tablesDepth → pathTo c s 0 qq = some F → e.child ≠ F →
      e.child ∉ pathNodes c s 0 qq := by
    intro qq F hrows2 hlen2 hpath2 hXF hmem
    rcases hcase with hAZ | hleaf
    · rcases pathNodes_spec c s qq 0 F hrows2 hpath2 _ hmem with h | h
      · exact hXF h
      · exact h hAZ
    · obtain ⟨e2, he2, he2l, he2c⟩ := pathNodes_nonleaf c s qq 0 0 c.tablesDepth
        hrows2 hlen2 _ hmem
      have he2e : e2 = e := List.inj_on_of_nodup_map hndT he2 he he2c
      rw [he2e, hleaf] at he2l
      cases he2l
  have hold : PMread (PMwrite s (phys c e.parent e.row) 0) (phys c e.parent e.row)
      = 0 := by
    rw [PMread_PMwrite, if_pos rfl]
    exact wrapWord_zero
  have hagree : ∀ a, a ≠ phys c e.parent e.row →
      PMread s a = PMread (PMwrite s (phys c e.parent e.row) 0) a := by
    intro a ha
    rw [PMread_PMwrite, if_neg ha]
  have hcell := edges_cell_spec c s c.tablesDepth 0 0 e he
  have hnz : PMread s (phys c e.parent e.row) ≠ 0 := hcell.1
  have hXeq : toU64 (PMread s (phys c e.parent e.row)) = e.child := hcell.2
  have hsubl : (edges c (PMwrite s (phys c e.parent e.row) 0) c.tablesDepth 0 0).Sublist
      (edges c s c.tablesDepth 0 0) := prune_sublist c s e.parent e.row hrowe _ 0 0
  have hXout : e.child ∉ targetsOf (edges c (PMwrite s (phys c e.parent e.row) 0)
      c.tablesDepth 0 0) := prune_removes_unique c s hndT' he hrowe
  have hndSP : (0 :: targetsOf (edges c (PMwrite s (phys c e.parent e.row) 0)
      c.tablesDepth 0 0)).Nodup := ((hsubl.map Edge.child).cons₂ _).nodup hND'
  have hXoutc : e.child ∉ 0 :: targetsOf (edges c (PMwrite s (phys c e.parent e.row) 0)
      c.tablesDepth 0 0) := by
    intro h
    rcases List.mem_cons.1 h with h | h
    · exact hX0 h
    · exact hXout h
  obtain ⟨qp, hqprows, hqppath, hqplen, hqpleaf⟩ :=
    edge_parent_path c s c.tablesDepth 0 0 hDpos e he
  have hXnotqp : e.child ∉ pathNodes c s 0 qp :=
    hXnotpath qp e.parent hqprows hqplen hqppath (fun h => hXpar h.symm)
  obtain ⟨hqppathSP, hqpnodesSP⟩ := pathTo_write_preserved c s e.parent e.row 0 qp 0
    e.parent hqppath (by rw [hXeq]; exact hXnotqp)
  have hremF : 1 ≤ c.tablesDepth - qp.length := by omega
  have hXsub2 : (∀ i < c.PAGE_SIZE, PMread s (phys c e.child i) = 0)
      ∨ c.tablesDepth - qp.length = 1 := by
    rcases hcase with hAZ | hleaf
    · exact Or.inl hAZ
    · right
      have := hqpleaf hleaf
      omega
  have hgraft := graft_spec c (PMwrite s (phys c e.parent e.row) 0) s e.parent e.row
    e.child hrowe hold hagree hnz hXeq qp c.tablesDepth 0 0
    (c.tablesDepth - qp.length) hqprows hqppathSP (by omega) hremF hXsub2 hndSP hXoutc
  have hedc : edges c (pruneClear c s e isLeaf) c.tablesDepth 0 0
      = edges c (PMwrite s (phys c e.parent e.row) 0) c.tablesDepth 0 0 := by
    unfold pruneClear
    rcases Bool.eq_false_or_eq_true isLeaf with hb | hb
    · rw [hb, clearFrame_leaf]
    · rw [hb]
      refine edges_congr_frame c (PMwrite s (phys c e.parent e.row) 0) _ e.child
        (fun a ha => clearFrame_agree c _ e.child false a ha) c.tablesDepth 0 0
        (fun h => hX0 h.symm) ?_
      intro g hg hge
      apply hXout
      rw [← hge]
      exact tableChildren_sub_targets.subset hg
  have htargA : targetsOf (rootEdges c (pruneClear c s e isLeaf))
      = targetsOf (edges c (PMwrite s (phys c e.parent e.row) 0) c.tablesDepth 0 0) := by
    unfold rootEdges
    rw [hedc]
  have hXnotq : e.child ∉ pathNodes c s 0 q := hXnotpath q pf hrows hqlen hpath hXpf
  obtain ⟨hpathSP, hnodesSP⟩ := pathTo_write_preserved c s e.parent e.row 0 q 0 pf
    hpath (by rw [hXeq]; exact hXnotq)
  have hpathA : pathTo c (pruneClear c s e isLeaf) 0 q = some pf := by
    unfold pruneClear
    rcases Bool.eq_false_or_eq_true isLeaf with hb | hb
    · rw [hb, clearFrame_leaf]
      exact hpathSP
    · rw [hb]
      exact (pathTo_frame_preserved c _ _ e.child
        (fun a ha => clearFrame_agree c _ e.child false a ha) q 0 pf hrows hpathSP
        (fun h => hX0 h.symm) (by rw [hnodesSP]; exact hXnotq)).1
  have hreadA : ∀ a, (∀ i < c.PAGE_SIZE, a ≠ phys c e.child i) →
      a ≠ phys c e.parent e.row →
      PMread (pruneClear c s e isLeaf) a = PMread s a := by
    intro a hXa hpa
    unfold pruneClear
    have h2 : PMread (PMwrite s (phys c e.parent e.row) 0) a = PMread s a := by
      rw [PMread_PMwrite, if_neg hpa]
    rcases Bool.eq_false_or_eq_true isLeaf with hb | hb
    · rw [hb, clearFrame_leaf]
      exact h2
    · rw [hb, clearFrame_agree c _ e.child false a hXa]
      exact h2
  have hpfX : pf ≠ e.child := fun h => hXpf h.symm
  have hmissA : PMread (pruneClear c s e isLeaf) (phys c pf row) = 0 := by
    have hne2 : phys c pf row ≠ phys c e.parent e.row := by
      intro hppa
      apply hnz
      rw [← hppa]
      exact hmiss
    rw [hreadA _ (fun i hi => phys_ne c hpfX hrow hi) hne2]
    exact hmiss
  have hNFpos : (0 : Int) < (c.numFrames : Int) := by
    have : 0 < c.numFrames := by omega
    exact_mod_cast this
  have hcellsA : cellsOK c (pruneClear c s e isLeaf) := by
    intro tb htb i hi
    by_cases hXa : ∀ j < c.PAGE_SIZE, phys c tb i ≠ phys c e.child j
    · by_cases hpa : phys c tb i = phys c e.parent e.row
      · have hz : PMread (pruneClear c s e isLeaf) (phys c tb i) = 0 := by
          unfold pruneClear
          have h2 : PMread (PMwrite s (phys c e.parent e.row) 0) (phys c tb i) = 0 := by
            rw [PMread_PMwrite, if_pos hpa]
            exact wrapWord_zero
          rcases Bool.eq_false_or_eq_true isLeaf with hb | hb
          · rw [hb, clearFrame_leaf]
            exact h2
          · rw [hb, clearFrame_agree c _ e.child false _ hXa]
            exact h2
        rw [hz]
        exact ⟨le_refl 0, hNFpos⟩
      · have htbs : tb ∈ tablesOf c s := by
          unfold tablesOf rootEdges at htb ⊢
          rcases List.mem_cons.1 htb with h | h
          · rw [h]
            exact List.mem_cons_self _ _
          · refine List.mem_cons_of_mem _ ?_
            rw [hedc] at h
            exact (tableChildren_sublist hsubl).subset h
        rw [hreadA _ hXa hpa]
        exact hcells tb htbs i hi
    · push_neg at hXa
      obtain ⟨j, hj, hja⟩ := hXa
      have htbX : tb = e.child := by
        by_contra hne
        exact phys_ne c hne hi hj hja
      exfalso
      unfold tablesOf rootEdges at htb
      rcases List.mem_cons.1 htb with h | h
      · apply hX0
        rw [← htbX, h]
      · apply hXout
        rw [← htbX]
        rw [hedc] at h
        exact tableChildren_sub_targets.subset h
  have hclearA : isLeaf = false → ∀ i < c.PAGE_SIZE,
      PMread (pruneClear c s e isLeaf) (phys c e.child i) = 0 := by
    intro hb i hi
    unfold pruneClear
    rw [hb]
    exact clearFrame_table_zero c _ e.child i hi
  refine ⟨GoodS_clearFrame (GoodS_PMwrite hG _ _) _ _, hX0, hXNF, ?_, ?_, ?_, ?_,
    hXmem, hcellsA, hpathA, hmissA, hclearA⟩
  · rw [htargA]
    exact hXoutc
  · rw [htargA]
    exact hndSP
  · intro t ht
    rw [htargA] at ht
    exact ⟨hgraft.2.2.1 t ht, fun h => hXout (h ▸ ht)⟩
  · intro t ht htne
    rw [htargA]
    rcases hgraft.2.1 t ht with h | h
    · exact absurd h htne
    · exact h

/-- The allocator's full effect on a well-formed state at a translation
miss: the returned frame is fresh for the resulting tree (nonzero, in
range, unreferenced), uniqueness, cell bounds and the walker's path
survive, the targets change by exactly the returned frame, and a frame
returned as a table is zeroed. -/
theorem alloc_spec (c : Cfg) (s : VMState) (hOK : CfgOK c)
    (tp pf row : Nat) (isLeaf : Bool) (q : List Nat)
    (hG : GoodS s) (hcells : cellsOK c s) (hND : treeUniq c s)
    (hcontig : CONTIG c s)
    (hrows : RowsOK c q) (hqlen : q.length < c.tablesDepth)
    (hpath : pathTo c s 0 q = some pf)
    (hrow : row < c.PAGE_SIZE)
    (hmiss : PMread s (phys c pf row) = 0)
    (htp : tp < c.NUM_PAGES)
    (hpages : ∀ e ∈ leafEdges c s, e.pre ≠ tp)
    (X : Nat) (sA : VMState)
    (hXA : allocateFrame c s pf row tp isLeaf = (X, sA)) :
    GoodS sA ∧ X ≠ 0 ∧ X < c.numFrames ∧
    X ∉ 0 :: targetsOf (rootEdges c sA) ∧
    (0 :: targetsOf (rootEdges c sA)).Nodup ∧
    (∀ t ∈ targetsOf (rootEdges c sA), t ∈ targetsOf (rootEdges c s) ∧ t ≠ X) ∧
    (∀ t ∈ targetsOf (rootEdges c s), t ≠ X → t ∈ targetsOf (rootEdges c sA)) ∧
    (X ∈ targetsOf (rootEdges c s) ∨ X = 1 ∨
      X - 1 ∈ targetsOf (rootEdges c s)) ∧
    cellsOK c sA ∧
    pathTo c sA 0 q = some pf ∧
    PMread sA (phys c pf row) = 0 ∧
    (isLeaf = false → ∀ i < c.PAGE_SIZE, PMread sA (phys c X i) = 0) := by
  have hDpos : 1 ≤ c.tablesDepth := by omega
  have hndT : (targetsOf (rootEdges c s)).Nodup := (List.nodup_cons.1 hND).2
  have h0nt : 0 ∉ targetsOf (rootEdges c s) := (List.nodup_cons.1 hND).1
  have hNM : U64MAX ∉ targetsOf (rootEdges c s) := by
    intro h
    have h1 := target_lt_NF c s hcells _ h
    have h2 := hOK.2.2.2
    unfold U64MAX at h1
    omega
  have hpfmem : pf = 0 ∨ pf ∈ targetsOf (rootEdges c s) := by
    rcases q with _ | ⟨r0, q2⟩
    · exact Or.inl (Option.some.inj hpath).symm
    · right
      exact pathTo_mem_targets c s hrows (by simp) (le_of_lt hqlen) hpath
  have hspec := scan_empty_spec c s tp pf c.tablesDepth 0 0 {} hND hNM (by decide)
  unfold EmptySpec at hspec
  obtain ⟨hA, _, _⟩ := hspec
  obtain ⟨hAnil, hAcons⟩ := hA rfl
  rcases hc : cands c s pf with _ | ⟨E0, tl⟩
  · -- no reuse candidate: fresh or evict
    have hsf : (scanRoot c s tp pf).emptyFrame = U64MAX :=
      congrArg (fun x => x.1) (hAnil hc)
    have hng : ¬((scanRoot c s tp pf).emptyFrame ≠ U64MAX ∧
        (scanRoot c s tp pf).emptyFrame ≠ pf) := fun h => h.1 hsf
    have hM : (scanRoot c s tp pf).maxFrame
        = (targetsOf (rootEdges c s)).foldl max 0 := by
      unfold scanRoot rootEdges
      exact scan_maxFrame c s tp pf c.tablesDepth 0 0 {}
    have htarle : ∀ t ∈ targetsOf (rootEdges c s),
        t ≤ (scanRoot c s tp pf).maxFrame := by
      intro t ht
      rw [hM]
      exact mem_le_foldl_max ht 0
    by_cases h2 : (scanRoot c s tp pf).maxFrame + 1 < c.numFrames
    · -- fresh frame
      have halloc := allocateFrame_fresh_case c s pf row tp isLeaf hng h2
      rw [halloc] at hXA
      injection hXA with hX hsA
      have hXnot : (scanRoot c s tp pf).maxFrame + 1
          ∉ targetsOf (rootEdges c s) := by
        intro h
        have := htarle _ h
        omega
      have hpfX : pf ≠ (scanRoot c s tp pf).maxFrame + 1 := by
        rcases hpfmem with h | h
        · omega
        · have := htarle _ h
          omega
      have hedf : edges c (clearFrame c s ((scanRoot c s tp pf).maxFrame + 1) isLeaf)
          c.tablesDepth 0 0 = edges c s c.tablesDepth 0 0 := by
        rcases Bool.eq_false_or_eq_true isLeaf with hb | hb
        · rw [hb, clearFrame_leaf]
        · rw [hb]
          refine edges_congr_frame c s _ ((scanRoot c s tp pf).maxFrame + 1)
            (fun a ha => clearFrame_agree c _ _ false a ha) c.tablesDepth 0 0
            (by omega) ?_
          intro g hg hge
          exact hXnot (hge ▸ tableChildren_sub_targets.subset hg)
      have htargF : targetsOf (rootEdges c (clearFrame c s
          ((scanRoot c s tp pf).maxFrame + 1) isLeaf))
          = targetsOf (rootEdges c s) := by
        unfold rootEdges
        rw [hedf]
      have hXnp : (scanRoot c s tp pf).maxFrame + 1 ∉ pathNodes c s 0 q := by
        intro h
        exact hXnot (pathNodes_sub_targets c s q 0 0 c.tablesDepth hrows
          (le_of_lt hqlen) _ h)
      have hpathF : pathTo c (clearFrame c s ((scanRoot c s tp pf).maxFrame + 1)
          isLeaf) 0 q = some pf := by
        rcases Bool.eq_false_or_eq_true isLeaf with hb | hb
        · rw [hb, clearFrame_leaf]
          exact hpath
        · rw [hb]
          exact (pathTo_frame_preserved c s _ ((scanRoot c s tp pf).maxFrame + 1)
            (fun a ha => clearFrame_agree c _ _ false a ha) q 0 pf hrows hpath
            (by omega) hXnp).1
      have hreadF : ∀ a, (∀ i < c.PAGE_SIZE,
          a ≠ phys c ((scanRoot c s tp pf).maxFrame + 1) i) →
          PMread (clearFrame c s ((scanRoot c s tp pf).maxFrame + 1) isLeaf) a
            = PMread s a := by
        intro a hXa
        rcases Bool.eq_false_or_eq_true isLeaf with hb | hb
        · rw [hb, clearFrame_leaf]
        · rw [hb, clearFrame_agree c _ _ false a hXa]
      have hNFpos : (0 : Int) < (c.numFrames : Int) := by
        have h3 := hOK.2.2.1
        have : 0 < c.numFrames := by omega
        exact_mod_cast this
      have hcellsF : cellsOK c (clearFrame c s ((scanRoot c s tp pf).maxFrame + 1)
          isLeaf) := by
        intro tb htb i hi
        by_cases hXa : ∀ j < c.PAGE_SIZE,
            phys c tb i ≠ phys c ((scanRoot c s tp pf).maxFrame + 1) j
        · have htbs : tb ∈ tablesOf c s := by
            unfold tablesOf rootEdges at htb ⊢
            rcases List.mem_cons.1 htb with h | h
            · rw [h]
              exact List.mem_cons_self _ _
            · refine List.mem_cons_of_mem _ ?_
              rw [hedf] at h
              exact h
          rw [hreadF _ hXa]
          exact hcells tb htbs i hi
        · push_neg at hXa
          obtain ⟨j, hj, hja⟩ := hXa
          have htbX : tb = (scanRoot c s tp pf).maxFrame + 1 := by
            by_contra hne
            exact phys_ne c hne hi hj hja
          exfalso
          unfold tablesOf rootEdges at htb
          rcases List.mem_cons.1 htb with h | h
          · rw [htbX] at h
            cases h
          · apply hXnot
            rw [← htbX]
            rw [hedf] at h
            exact tableChildren_sub_targets.subset h
      have hmissF : PMread (clearFrame c s ((scanRoot c s tp pf).maxFrame + 1)
          isLeaf) (phys c pf row) = 0 := by
        rw [hreadF _ (fun i hi => phys_ne c hpfX hrow hi)]
        exact hmiss
      have hX8 : (scanRoot c s tp pf).maxFrame + 1 = 1 ∨
          (scanRoot c s tp pf).maxFrame + 1 - 1 ∈ targetsOf (rootEdges c s) := by
        rcases Nat.eq_zero_or_pos ((scanRoot c s tp pf).maxFrame) with h | h
        · left
          omega
        · right
          have hsimp : (scanRoot c s tp pf).maxFrame + 1 - 1
              = (scanRoot c s tp pf).maxFrame := by omega
          rw [hsimp]
          rcases foldl_max_attained (targetsOf (rootEdges c s)) 0 with h3 | h3
          · rw [← hM] at h3
            omega
          · rw [← hM] at h3
            exact h3
      rw [← hX, ← hsA]
      refine ⟨GoodS_clearFrame hG _ _, by omega, h2, ?_, ?_, ?_, ?_, Or.inr hX8,
        hcellsF, hpathF, hmissF, ?_⟩
      · rw [htargF]
        intro h
        rcases List.mem_cons.1 h with h | h
        · omega
        · exact hXnot h
      · rw [htargF]
        exact hND
      · intro t ht
        rw [htargF] at ht
        have := htarle t ht
        exact ⟨ht, by omega⟩
      · intro t ht _
        rw [htargF]
        exact ht
      · intro hb i hi
        rw [hb]
        exact clearFrame_table_zero c _ _ i hi
    · -- eviction
      have hneleaf : leafEdges c s ≠ [] :=
        victim_exists c s hOK pf tp hND hcontig hcells hc h2
      have hvic : victimOf (scanRoot c s tp pf)
          = (leafEdges c s).foldl (vstep c tp) (victimOf {}) := by
        unfold scanRoot leafEdges rootEdges
        exact scan_victimOf c s tp pf c.tablesDepth 0 0 {}
      rcases foldl_vstep_spec c tp (leafEdges c s) (victimOf {}) with
        ⟨hle, _⟩ | ⟨l₁, e, l₂, hsplit, _, hbef, haft, heq⟩
      · obtain ⟨e0, he0⟩ := List.exists_mem_of_ne_nil (leafEdges c s) hneleaf
        have h0d : 0 < distTo c tp e0 :=
          cyclicDistance_pos c (leafEdges_pre_lt c s hDpos e0 he0) htp (hpages e0 he0)
        have hcon : distTo c tp e0 ≤ 0 := hle e0 he0
        omega
      · have hv : victimOf (scanRoot c s tp pf)
            = (e.child, e.parent, e.row, e.pre, distTo c tp e) := hvic.trans heq
        have hVf : (scanRoot c s tp pf).victimFrame = e.child :=
          congrArg (fun x => x.1) hv
        have hVparent : (scanRoot c s tp pf).victimParent = e.parent :=
          congrArg (fun x => x.2.1) hv
        have hVrow : (scanRoot c s tp pf).victimRowInParent = e.row :=
          congrArg (fun x => x.2.2.1) hv
        have hVp : (scanRoot c s tp pf).victimPage = e.pre :=
          congrArg (fun x => x.2.2.2.1) hv
        have heLf : e ∈ leafEdges c s := by
          rw [hsplit]
          exact List.mem_append_right _ (List.mem_cons_self _ _)
        have he : e ∈ rootEdges c s := List.mem_of_mem_filter heLf
        have heleaf : e.leaf = true := List.of_mem_filter heLf
        have hXmem : e.child ∈ targetsOf (rootEdges c s) := List.mem_map.2 ⟨e, he, rfl⟩
        have hV0 : e.child ≠ 0 := fun h => h0nt (h ▸ hXmem)
        have hXpf : e.child ≠ pf := by
          rcases q with _ | ⟨r0, q2⟩
          · intro h
            exact hV0 (h.trans (Option.some.inj hpath).symm)
          · obtain ⟨epf, hepf, hepfc, _, _, hepfl⟩ :=
              path_to_edge c s (r0 :: q2) 0 0 c.tablesDepth hrows (by simp)
                (le_of_lt hqlen) pf hpath
            intro h
            have hee : epf = e := List.inj_on_of_nodup_map hndT hepf he
              (by rw [hepfc, ← h])
            have := hepfl hqlen
            rw [hee, heleaf] at this
            cases this
        have halloc := allocateFrame_evict_case c s pf row tp isLeaf hng h2
        rw [halloc] at hXA
        injection hXA with hX hsA
        have hag : ∀ a, PMread (PMevict c s e.child e.pre) a = PMread s a :=
          fun a => rfl
        have hedse := edges_ext c s (PMevict c s e.child e.pre) hag
        have hG_se : GoodS (PMevict c s e.child e.pre) := GoodS_PMevict hG _ hV0
        have hcells_se : cellsOK c (PMevict c s e.child e.pre) := by
          unfold cellsOK tablesOf rootEdges
          rw [hedse]
          exact hcells
        have hND_se : treeUniq c (PMevict c s e.child e.pre) := by
          unfold treeUniq rootEdges
          rw [hedse]
          exact hND
        have hpath_se : pathTo c (PMevict c s e.child e.pre) 0 q = some pf := by
          rw [pathTo_ext c s _ hag]
          exact hpath
        have he_se : e ∈ rootEdges c (PMevict c s e.child e.pre) := by
          unfold rootEdges
          rw [hedse]
          exact he
        have hcase_se : AllZeroF c (PMevict c s e.child e.pre) e.child
            ∨ e.leaf = true := Or.inr heleaf
        obtain ⟨p1, p2, p3, p4, p5, p6, p7, p8, p9, p10, p11, p12⟩ :=
          prune_clear_spec c (PMevict c s e.child e.pre) hG_se hcells_se hND_se
            pf row q hrows hqlen hpath_se hrow hmiss e he_se isLeaf hcase_se hXpf
        have htarg_se : targetsOf (rootEdges c (PMevict c s e.child e.pre))
            = targetsOf (rootEdges c s) := by
          unfold rootEdges
          rw [hedse]
        have hstate : clearFrame c (PMwrite (PMevict c s
            (scanRoot c s tp pf).victimFrame (scanRoot c s tp pf).victimPage)
            (phys c (scanRoot c s tp pf).victimParent
              (scanRoot c s tp pf).victimRowInParent) 0)
            (scanRoot c s tp pf).victimFrame isLeaf
            = pruneClear c (PMevict c s e.child e.pre) e isLeaf := by
          unfold pruneClear
          rw [hVf, hVparent, hVrow, hVp]
        have hXX : X = e.child := by
          rw [← hX, hVf]
        have hsAX : sA = pruneClear c (PMevict c s e.child e.pre) e isLeaf :=
          hsA.symm.trans hstate
        subst hXX hsAX
        refine ⟨p1, p2, p3, p4, p5, ?_, ?_, Or.inl hXmem, p9, p10, p11, p12⟩
        · intro t ht
          obtain ⟨ha, hb⟩ := p6 t ht
          rw [htarg_se] at ha
          exact ⟨ha, hb⟩
        · intro t ht htne
          apply p7 t _ htne
          rw [htarg_se]
          exact ht
  · -- reuse an empty table
    obtain ⟨hEf, hEor⟩ := hAcons E0 tl hc
    have hE0mem : E0 ∈ candsIn c s pf c.tablesDepth 0 := by
      rw [show candsIn c s pf c.tablesDepth 0 = E0 :: tl from hc]
      exact List.mem_cons_self _ _
    have hfacts := candsIn_mem c s pf c.tablesDepth 0 E0 hE0mem
    have hE0zero : AllZeroF c s E0 := hfacts.1
    have hE0z : E0 ≠ 0 := hfacts.2.1
    have hE0pf : E0 ≠ pf := hfacts.2.2.1
    have hE0t : E0 ∈ targetsOf (rootEdges c s) := by
      rcases hfacts.2.2.2 0 with h | h
      · exact absurd h hE0z
      · exact h
    have hE0MAX : E0 ≠ U64MAX := fun hh => hNM (hh ▸ hE0t)
    rcases hEor with ⟨hE00, _⟩ | ⟨e, he, heleaf, hechild, hEP, hER⟩
    · exact absurd hE00 hE0z
    have hsfE : (scanRoot c s tp pf).emptyFrame = E0 := hEf
    have hEPs : (scanRoot c s tp pf).emptyParent = e.parent := hEP
    have hERs : (scanRoot c s tp pf).emptyRowInParent = e.row := hER
    have halloc := allocateFrame_reuse_case c s pf row tp isLeaf
      ⟨by rw [hsfE]; exact hE0MAX, by rw [hsfE]; exact hE0pf⟩
    rw [halloc] at hXA
    injection hXA with hX hsA
    have hstate : clearFrame c (PMwrite s (phys c (scanRoot c s tp pf).emptyParent
        (scanRoot c s tp pf).emptyRowInParent) 0) (scanRoot c s tp pf).emptyFrame
        isLeaf = pruneClear c s e isLeaf := by
      unfold pruneClear
      rw [hEPs, hERs, hsfE, ← hechild]
    have hXX : X = e.child := by
      rw [← hX, hsfE, ← hechild]
    have hsAX : sA = pruneClear c s e isLeaf := hsA.symm.trans hstate
    subst hXX hsAX
    have hcase : AllZeroF c s e.child ∨ e.leaf = true := by
      left
      rw [hechild]
      exact hE0zero
    have hXpf : e.child ≠ pf := by
      rw [hechild]
      exact hE0pf
    obtain ⟨p1, p2, p3, p4, p5, p6, p7, p8, p9, p10, p11, p12⟩ :=
      prune_clear_spec c s hG hcells hND pf row q hrows hqlen hpath hrow hmiss
        e he isLeaf hcase hXpf
    exact ⟨p1, p2, p3, p4, p5, p6, p7, Or.inl p8, p9, p10, p11, p12⟩

/-! ## The walker: one level of `walk` -/

theorem walkAux_unfold (c : Cfg) (va : Nat) (create : Bool)
    (rem level frame : Nat) (s : VMState) :
    walkAux c va create (rem + 1) level frame s =
      (if PMread s (phys c frame (indexAtLevel c va level)) = 0 then
        if create then
          walkAux c va create rem (level + 1)
            (allocateFrame c s frame (indexAtLevel c va level)
              (va >>> c.offsetWidth) (level + 1 == c.tablesDepth)).1
            (PMwrite
              (if (level + 1 == c.tablesDepth : Bool) then
                PMrestore c (allocateFrame c s frame (indexAtLevel c va level)
                  (va >>> c.offsetWidth) (level + 1 == c.tablesDepth)).2
                  (allocateFrame c s frame (indexAtLevel c va level)
                    (va >>> c.offsetWidth) (level + 1 == c.tablesDepth)).1
                  (va >>> c.offsetWidth)
              else
                clearFrame c (allocateFrame c s frame (indexAtLevel c va level)
                  (va >>> c.offsetWidth) (level + 1 == c.tablesDepth)).2
                  (allocateFrame c s frame (indexAtLevel c va level)
                    (va >>> c.offsetWidth) (level + 1 == c.tablesDepth)).1 false)
              (phys c frame (indexAtLevel c va level))
              ((allocateFrame c s frame (indexAtLevel c va level)
                (va >>> c.offsetWidth) (level + 1 == c.tablesDepth)).1 : Int))
        else (none, s)
      else walkAux c va create rem (level + 1)
        (toU64 (PMread s (phys c frame (indexAtLevel c va level)))) s) := by
  rw [walkAux]

theorem indexAtLevel_lt (c : Cfg) (va level : Nat) :
    indexAtLevel c va level < c.PAGE_SIZE := by
  unfold indexAtLevel
  exact Nat.mod_lt _ (PAGE_SIZE_pos c)

theorem page_of_va_lt (c : Cfg) {va : Nat} (hva : va < c.VIRTUAL_MEMORY_SIZE) :
    va >>> c.offsetWidth < c.NUM_PAGES := by
  rw [Nat.shiftRight_eq_div_pow]
  have hP : 0 < 2 ^ c.offsetWidth := Nat.pos_pow_of_pos _ (by norm_num)
  rw [Nat.div_lt_iff_lt_mul hP]
  unfold Cfg.VIRTUAL_MEMORY_SIZE Cfg.PAGE_SIZE at hva
  exact hva

/-- Linking the allocated frame into the parent entry: uniqueness and cell
bounds survive, the targets gain exactly the new frame, and the walker's
path now extends to it. -/
theorem link_spec (c : Cfg) (sA : VMState) (hOK : CfgOK c)
    (pf row X tp : Nat) (isLeaf : Bool) (q : List Nat)
    (p1 : GoodS sA) (p2 : X ≠ 0) (p3 : X < c.numFrames)
    (p4 : X ∉ 0 :: targetsOf (rootEdges c sA))
    (p5 : (0 :: targetsOf (rootEdges c sA)).Nodup)
    (p9 : cellsOK c sA)
    (p10 : pathTo c sA 0 q = some pf)
    (p11 : PMread sA (phys c pf row) = 0)
    (hrows : RowsOK c q) (hrow : row < c.PAGE_SIZE)
    (hqlen : q.length < c.tablesDepth)
    (hleaf_iff : isLeaf = true ↔ q.length + 1 = c.tablesDepth)
    (s2 : VMState)
    (hs2 : s2 = if isLeaf then PMrestore c sA X tp else clearFrame c sA X false)
    (s3 : VMState) (hs3 : s3 = PMwrite s2 (phys c pf row) (X : Int)) :
    GoodS s3 ∧ cellsOK c s3 ∧
    (0 :: targetsOf (rootEdges c s3)).Nodup ∧
    (∀ t ∈ targetsOf (rootEdges c s3), t = X ∨ t ∈ targetsOf (rootEdges c sA)) ∧
    (∀ t ∈ targetsOf (rootEdges c sA), t ∈ targetsOf (rootEdges c s3)) ∧
    X ∈ targetsOf (rootEdges c s3) ∧
    pathTo c s3 0 (q ++ [row]) = some X := by
  have hP := PAGE_SIZE_pos c
  have hX31 : X < 2 ^ 31 := by
    have := hOK.2.2.2
    omega
  have hX0c : (0 : Nat) ≠ X := fun h => p2 h.symm
  have hXnt : X ∉ targetsOf (rootEdges c sA) := fun h => p4 (List.mem_cons_of_mem _ h)
  have hpfX : pf ≠ X := by
    rcases q with _ | ⟨r0, q2⟩
    · have hpf0 : 0 = pf := Option.some.inj p10
      intro h
      exact hX0c (hpf0.trans h)
    · intro h
      apply hXnt
      rw [← h]
      exact pathTo_mem_targets c sA hrows (by simp) (le_of_lt hqlen) p10
  have hs2agree : ∀ a, (∀ i < c.PAGE_SIZE, a ≠ phys c X i) →
      PMread s2 a = PMread sA a := by
    intro a ha
    rcases Bool.eq_false_or_eq_true isLeaf with hb | hb
    · rw [hs2, hb, if_pos rfl]
      exact PMrestore_agree c sA X tp a ha
    · rw [hs2, hb, if_neg Bool.false_ne_true]
      exact clearFrame_agree c sA X false a ha
  have hs2zero : isLeaf = false → ∀ i < c.PAGE_SIZE,
      PMread s2 (phys c X i) = 0 := by
    intro hb i hi
    rw [hs2, hb, if_neg Bool.false_ne_true]
    exact clearFrame_table_zero c sA X i hi
  have hG2 : GoodS s2 := by
    rcases Bool.eq_false_or_eq_true isLeaf with hb | hb
    · rw [hs2, hb, if_pos rfl]
      exact GoodS_PMrestore p1 _ _
    · rw [hs2, hb, if_neg Bool.false_ne_true]
      exact GoodS_clearFrame p1 _ _
  have hed2 : edges c s2 c.tablesDepth 0 0 = edges c sA c.tablesDepth 0 0 :=
    edges_congr_frame c sA s2 X hs2agree c.tablesDepth 0 0 hX0c
      (fun g hg hge => hXnt (hge ▸ tableChildren_sub_targets.subset hg))
  have hXpn : X ∉ pathNodes c sA 0 q := fun h =>
    hXnt (pathNodes_sub_targets c sA q 0 0 c.tablesDepth hrows (le_of_lt hqlen) _ h)
  obtain ⟨hpath2, hnodes2⟩ := pathTo_frame_preserved c sA s2 X hs2agree q 0 pf
    hrows p10 hX0c hXpn
  have hmiss2 : PMread s2 (phys c pf row) = 0 := by
    rw [hs2agree _ (fun i hi => phys_ne c hpfX hrow hi)]
    exact p11
  have hagree3 : ∀ a, a ≠ phys c pf row → PMread s3 a = PMread s2 a := by
    intro a ha
    rw [hs3, PMread_PMwrite, if_neg ha]
  have hnz3 : PMread s3 (phys c pf row) ≠ 0 := by
    rw [hs3, PMread_PMwrite, if_pos rfl]
    exact wrapWord_nat_ne_zero hX31 p2
  have hXeq3 : toU64 (PMread s3 (phys c pf row)) = X := by
    rw [hs3, PMread_PMwrite, if_pos rfl]
    exact toU64_wrapWord_nat hX31
  have hXsub : (∀ i < c.PAGE_SIZE, PMread s3 (phys c X i) = 0)
      ∨ c.tablesDepth - q.length = 1 := by
    rcases Bool.eq_false_or_eq_true isLeaf with hb | hb
    · right
      have := hleaf_iff.1 hb
      omega
    · left
      intro i hi
      rw [hagree3 _ (phys_ne c (fun h => hpfX h.symm) hi hrow)]
      exact hs2zero hb i hi
  have hnd2 : (0 :: targetsOf (edges c s2 c.tablesDepth 0 0)).Nodup := by
    rw [hed2]
    exact p5
  have hXnot2 : X ∉ 0 :: targetsOf (edges c s2 c.tablesDepth 0 0) := by
    rw [hed2]
    exact p4
  have hgraft := graft_spec c s2 s3 pf row X hrow hmiss2 hagree3 hnz3 hXeq3
    q c.tablesDepth 0 0 (c.tablesDepth - q.length) hrows hpath2 (by omega)
    (by omega) hXsub hnd2 hXnot2
  have hram2 : RamOK s2 := hG2.1
  have hpath3 : pathTo c s3 0 q = some pf := by
    rw [hs3]
    refine (pathTo_write_preserved c s2 pf row (X : Int) q 0 pf hpath2 ?_).1
    rw [hmiss2]
    have h0 : toU64 0 = 0 := by decide
    rw [h0]
    exact pathNodes_nonzero c s2 hram2 q 0
  have hsnoc := pathTo_snoc c s3 q 0 pf row hpath3 hnz3
  rw [hXeq3] at hsnoc
  have hNFpos : (0 : Int) < (c.numFrames : Int) := by
    have h3 := hOK.2.2.1
    have : 0 < c.numFrames := by omega
    exact_mod_cast this
  have hcells3 : cellsOK c s3 := by
    intro tb htb i hi
    by_cases hlink : phys c tb i = phys c pf row
    · rw [hs3, PMread_PMwrite, if_pos hlink,
        wrapWord_eq_self (by omega) (by omega)]
      constructor
      · exact_mod_cast Nat.zero_le X
      · exact_mod_cast p3
    · rw [hs3, PMread_PMwrite, if_neg hlink]
      by_cases hXr : ∀ j < c.PAGE_SIZE, phys c tb i ≠ phys c X j
      · rw [hs2agree _ hXr]
        have htbs : tb ∈ tablesOf c sA := by
          unfold tablesOf rootEdges at htb ⊢
          rcases List.mem_cons.1 htb with h | h
          · rw [h]
            exact List.mem_cons_self _ _
          · refine List.mem_cons_of_mem _ ?_
            rcases hgraft.2.2.2.2 tb h with ⟨hX', _⟩ | h2
            · exact absurd (by rw [hX']) (hXr i hi)
            · rw [hed2] at h2
              exact h2
        exact p9 tb htbs i hi
      · push_neg at hXr
        obtain ⟨j, hj, hja⟩ := hXr
        have htbX : tb = X := by
          by_contra hne
          exact phys_ne c hne hi hj hja
        unfold tablesOf rootEdges at htb
        rcases List.mem_cons.1 htb with h | h
        · exact absurd (by rw [← htbX]; exact h) p2
        · rcases hgraft.2.2.2.2 tb h with ⟨hX', hrem2⟩ | h2
          · have hbF : isLeaf = false := by
              rcases Bool.eq_false_or_eq_true isLeaf with hb | hb
              · exfalso
                have := hleaf_iff.1 hb
                omega
              · exact hb
            rw [htbX, hs2zero hbF i hi]
            exact ⟨le_refl 0, hNFpos⟩
          · exfalso
            apply hXnt
            rw [hed2] at h2
            have := tableChildren_sub_targets.subset h2
            rw [htbX] at this
            exact this
  refine ⟨by rw [hs3]; exact GoodS_PMwrite hG2 _ _, hcells3, hgraft.1, ?_, ?_,
    hgraft.2.2.2.1, hsnoc⟩
  · intro t ht
    rcases hgraft.2.1 t ht with h | h
    · exact Or.inl h
    · right
      show t ∈ targetsOf (edges c sA c.tablesDepth 0 0)
      rw [← hed2]
      exact h
  · intro t ht
    apply hgraft.2.2.1
    rw [hed2]
    exact ht

/-- The translation walker preserves well-formedness (uniqueness, cell
bounds, contiguity) and always resolves to a frame reached by the page's
digit path. -/
theorem walkAux_spec (c : Cfg) (hOK : CfgOK c) (va : Nat)
    (hva : va < c.VIRTUAL_MEMORY_SIZE) :
    ∀ (rem : Nat), ∀ (level f : Nat) (s : VMState),
      rem + level = c.tablesDepth →
      GoodS s → cellsOK c s → treeUniq c s → CONTIG c s →
      pathTo c s 0 ((List.range level).map (indexAtLevel c va)) = some f →
      GoodS (walkAux c va true rem level f s).2 ∧
      cellsOK c (walkAux c va true rem level f s).2 ∧
      treeUniq c (walkAux c va true rem level f s).2 ∧
      CONTIG c (walkAux c va true rem level f s).2 ∧
      ∃ F, (walkAux c va true rem level f s).1 = some F ∧
        pathTo c (walkAux c va true rem level f s).2 0
          ((List.range c.tablesDepth).map (indexAtLevel c va)) = some F := by
  intro rem
  induction rem with
  | zero =>
    intro level f s hlen hG hcells hND hcontig hpath
    refine ⟨hG, hcells, hND, hcontig, f, rfl, ?_⟩
    have hl : level = c.tablesDepth := by omega
    rw [← hl]
    exact hpath
  | succ rem ih =>
    intro level f s hlen hG hcells hND hcontig hpath
    have hrow := indexAtLevel_lt c va level
    have hlev : level < c.tablesDepth := by omega
    have hqlen2 : ((List.range level).map (indexAtLevel c va)).length
        < c.tablesDepth := by
      rw [List.length_map, List.length_range]
      exact hlev
    have hrowsq : RowsOK c ((List.range level).map (indexAtLevel c va)) := by
      intro r hr
      rcases List.mem_map.1 hr with ⟨j, _, rfl⟩
      exact indexAtLevel_lt c va j
    have hqsucc : (List.range (level + 1)).map (indexAtLevel c va)
        = (List.range level).map (indexAtLevel c va)
          ++ [indexAtLevel c va level] := by
      rw [List.range_succ, List.map_append, List.map_cons, List.map_nil]
    rw [walkAux_unfold]
    by_cases hz : PMread s (phys c f (indexAtLevel c va level)) = 0
    · rw [if_pos hz, if_pos rfl]
      have htp := page_of_va_lt c hva
      have hpages := no_tp_leaf c s (by omega) va level f hlev hpath hz
      rcases hXA : allocateFrame c s f (indexAtLevel c va level)
          (va >>> c.offsetWidth) (level + 1 == c.tablesDepth) with ⟨X, sA⟩
      obtain ⟨p1, p2, p3, p4, p5, p6, p7, p8, p9, p10, p11, p12⟩ :=
        alloc_spec c s hOK (va >>> c.offsetWidth) f (indexAtLevel c va level)
          (level + 1 == c.tablesDepth) _ hG hcells hND hcontig hrowsq hqlen2 hpath
          hrow hz htp hpages X sA hXA
      dsimp only
      have hiff : ((level + 1 == c.tablesDepth) = true)
          ↔ ((List.range level).map (indexAtLevel c va)).length + 1
              = c.tablesDepth := by
        rw [List.length_map, List.length_range]
        exact beq_iff_eq
      obtain ⟨l1, l2, l3, l4, l5, l6, l7⟩ := link_spec c sA hOK f
        (indexAtLevel c va level) X (va >>> c.offsetWidth)
        (level + 1 == c.tablesDepth) ((List.range level).map (indexAtLevel c va))
        p1 p2 p3 p4 p5 p9 p10 p11 hrowsq hrow hqlen2 hiff _ rfl _ rfl
      have hup : ∀ u ∈ targetsOf (rootEdges c s),
          u ∈ targetsOf (rootEdges c (PMwrite
            (if (level + 1 == c.tablesDepth : Bool) then
              PMrestore c sA X (va >>> c.offsetWidth)
            else clearFrame c sA X false)
            (phys c f (indexAtLevel c va level)) (X : Int))) := by
        intro u hu
        by_cases huX : u = X
        · rw [huX]
          exact l6
        · exact l5 _ (p7 u hu huX)
      have hcontig3 : CONTIG c (PMwrite
          (if (level + 1 == c.tablesDepth : Bool) then
            PMrestore c sA X (va >>> c.offsetWidth)
          else clearFrame c sA X false)
          (phys c f (indexAtLevel c va level)) (X : Int)) := by
        intro t ht j hj1 hj2
        rcases l4 t ht with rfl | htA
        · rcases p8 with hXs | hX1 | hXm1
          · exact hup j (hcontig _ hXs j hj1 hj2)
          · have hjt : j = t := by omega
            rw [hjt]
            exact ht
          · by_cases hjX : j = t
            · rw [hjX]
              exact ht
            · have hj2b : j ≤ t - 1 := by omega
              exact hup j (hcontig _ hXm1 j hj1 hj2b)
        · have hts := (p6 t htA).1
          exact hup j (hcontig t hts j hj1 hj2)
      have hpath3 : pathTo c (PMwrite
          (if (level + 1 == c.tablesDepth : Bool) then
            PMrestore c sA X (va >>> c.offsetWidth)
          else clearFrame c sA X false)
          (phys c f (indexAtLevel c va level)) (X : Int)) 0
          ((List.range (level + 1)).map (indexAtLevel c va)) = some X := by
        rw [hqsucc]
        exact l7
      exact ih (level + 1) X _ (by omega) l1 l2 l3 hcontig3 hpath3
    · rw [if_neg hz]
      have hpath2 : pathTo c s 0 ((List.range (level + 1)).map (indexAtLevel c va))
          = some (toU64 (PMread s (phys c f (indexAtLevel c va level)))) := by
        rw [hqsucc]
        exact pathTo_snoc c s _ 0 f _ hpath hz
      exact ih (level + 1) _ s (by omega) hG hcells hND hcontig hpath2

/-- The full walk from the root, with creation: invariants survive and the
result is the frame at the page's digit path. -/
theorem walk_spec (c : Cfg) (hOK : CfgOK c) (va : Nat)
    (hva : va < c.VIRTUAL_MEMORY_SIZE) (s : VMState)
    (hG : GoodS s) (hcells : cellsOK c s) (hND : treeUniq c s)
    (hcontig : CONTIG c s) :
    GoodS (walk c s va true).2 ∧ cellsOK c (walk c s va true).2 ∧
    treeUniq c (walk c s va true).2 ∧ CONTIG c (walk c s va true).2 ∧
    ∃ F, (walk c s va true).1 = some F ∧
      pathTo c (walk c s va true).2 0
        ((List.range c.tablesDepth).map (indexAtLevel c va)) = some F := by
  unfold walk
  exact walkAux_spec c hOK va hva c.tablesDepth 0 0 s (by omega) hG hcells hND
    hcontig rfl

/-- Writing a word into the data frame a full walk resolved to leaves the
page-table tree (edges, uniqueness, bounds, contiguity) untouched. -/
theorem leaf_write_pres (c : Cfg) (hOK : CfgOK c) (s' : VMState)
    (h : StateInv c s') (va F : Nat)
    (hpath : pathTo c s' 0 ((List.range c.tablesDepth).map (indexAtLevel c va))
      = some F)
    (off : Nat) (hoff : off < c.PAGE_SIZE) (v : Int) :
    StateInv c (PMwrite s' (phys c F off) v) := by
  obtain ⟨hG, hcells, hND, hcontig⟩ := h
  have hD : 1 ≤ c.tablesDepth := by
    have := hOK.2.1
    omega
  have hndT : (targetsOf (rootEdges c s')).Nodup := (List.nodup_cons.1 hND).2
  have h0nt : 0 ∉ targetsOf (rootEdges c s') := (List.nodup_cons.1 hND).1
  have hrowsq : RowsOK c ((List.range c.tablesDepth).map (indexAtLevel c va)) := by
    intro r hr
    rcases List.mem_map.1 hr with ⟨j, _, rfl⟩
    exact indexAtLevel_lt c va j
  have hlen : ((List.range c.tablesDepth).map (indexAtLevel c va)).length
      = c.tablesDepth := by
    rw [List.length_map, List.length_range]
  obtain ⟨e, he, hec, _, hel, _⟩ := path_to_edge c s' _ 0 0 c.tablesDepth hrowsq
    (by omega) (by omega) F hpath
  have heleaf : e.leaf = true := hel hlen
  have hFt : F ∈ targetsOf (rootEdges c s') := List.mem_map.2 ⟨e, he, hec⟩
  have hF0 : F ≠ 0 := fun hh => h0nt (hh ▸ hFt)
  have hFnt : ∀ g ∈ tableChildren (edges c s' c.tablesDepth 0 0), g ≠ F := by
    intro g hg hgF
    rcases mem_tableChildren.1 hg with ⟨e2, he2, he2l, he2c⟩
    have he2e : e2 = e := List.inj_on_of_nodup_map hndT he2 he
      (by rw [he2c, hgF, hec])
    rw [he2e, heleaf] at he2l
    cases he2l
  have hagree : ∀ a, (∀ i < c.PAGE_SIZE, a ≠ phys c F i) →
      PMread (PMwrite s' (phys c F off) v) a = PMread s' a := by
    intro a ha
    rw [PMread_PMwrite, if_neg (ha off hoff)]
  have hed : edges c (PMwrite s' (phys c F off) v) c.tablesDepth 0 0
      = edges c s' c.tablesDepth 0 0 :=
    edges_congr_frame c s' _ F hagree c.tablesDepth 0 0 (fun hh => hF0 hh.symm) hFnt
  refine ⟨GoodS_PMwrite hG _ _, ?_, ?_, ?_⟩
  · intro tb htb i hi
    have htbs : tb ∈ tablesOf c s' := by
      unfold tablesOf rootEdges at htb ⊢
      rcases List.mem_cons.1 htb with hh | hh
      · rw [hh]
        exact List.mem_cons_self _ _
      · rw [hed] at hh
        exact List.mem_cons_of_mem _ hh
    have htbF : tb ≠ F := by
      intro hh
      unfold tablesOf rootEdges at htbs
      rcases List.mem_cons.1 htbs with h2 | h2
      · exact hF0 (hh.symm.trans h2)
      · exact hFnt tb h2 hh
    rw [hagree _ (fun j hj => phys_ne c htbF hi hj)]
    exact hcells tb htbs i hi
  · unfold treeUniq rootEdges
    rw [hed]
    exact hND
  · intro t ht j hj1 hj2
    have ht2 : t ∈ targetsOf (edges c s' c.tablesDepth 0 0) := by
      rw [← hed]
      exact ht
    have hj := hcontig t ht2 j hj1 hj2
    show j ∈ targetsOf (edges c (PMwrite s' (phys c F off) v) c.tablesDepth 0 0)
    rw [hed]
    exact hj

theorem initial_read_zero (c : Cfg) : ∀ a, PMread (initialState c) a = 0 := by
  intro a
  unfold initialState VMinitialize clearFrame
  rw [if_neg Bool.false_ne_true, foldl_write0_read]
  split
  · rfl
  · rfl

theorem Inv_initialState (c : Cfg) (hOK : CfgOK c) : StateInv c (initialState c) := by
  have hz : ∀ i < c.PAGE_SIZE, PMread (initialState c) (phys c 0 i) = 0 :=
    fun i _ => initial_read_zero c _
  have hed : edges c (initialState c) c.tablesDepth 0 0 = [] :=
    edges_allzero c (initialState c) 0 hz c.tablesDepth 0
  refine ⟨GoodS_initialState c, ?_, ?_, ?_⟩
  · intro tb htb i hi
    rw [initial_read_zero]
    constructor
    · exact le_refl 0
    · have hpos : 0 < c.numFrames := by
        have := hOK.2.2.1
        omega
      exact_mod_cast hpos
  · unfold treeUniq rootEdges
    rw [hed]
    exact List.nodup_cons.2 ⟨List.not_mem_nil 0, List.nodup_nil⟩
  · intro t ht j hj1 hj2
    have ht2 : t ∈ targetsOf ([] : List Edge) := by
      rw [← hed]
      exact ht
    simp [targetsOf] at ht2

theorem Inv_VMread (c : Cfg) (hOK : CfgOK c) (s : VMState) (va : Nat)
    (h : StateInv c s) : StateInv c (VMread c s va).2 := by
  unfold VMread
  split
  · exact h
  · next hlt =>
    have hva : va < c.VIRTUAL_MEMORY_SIZE := by omega
    obtain ⟨g1, g2, g3, g4, _⟩ :=
      walk_spec c hOK va hva s h.1 h.2.1 h.2.2.1 h.2.2.2
    exact ⟨g1, g2, g3, g4⟩

theorem Inv_VMwrite (c : Cfg) (hOK : CfgOK c) (s : VMState) (va : Nat) (v : Int)
    (h : StateInv c s) : StateInv c (VMwrite c s va v).2 := by
  unfold VMwrite
  split
  · exact h
  · next hlt =>
    have hva : va < c.VIRTUAL_MEMORY_SIZE := by omega
    obtain ⟨g1, g2, g3, g4, F, hF1, hF2⟩ :=
      walk_spec c hOK va hva s h.1 h.2.1 h.2.2.1 h.2.2.2
    show StateInv c (PMwrite (walk c s va true).2
      (phys c ((walk c s va true).1.getD 0) (offsetOf c va)) v)
    rw [hF1]
    have hget : (some F).getD 0 = F := rfl
    rw [hget]
    exact leaf_write_pres c hOK (walk c s va true).2 ⟨g1, g2, g3, g4⟩ va F hF2
      (offsetOf c va) (Nat.mod_lt _ (PAGE_SIZE_pos c)) v

theorem Inv_applyOp (c : Cfg) (hOK : CfgOK c) (s : VMState) (h : StateInv c s) :
    ∀ op, StateInv c (applyOp c s op)
  | .rd va => Inv_VMread c hOK s va h
  | .wr va v => Inv_VMwrite c hOK s va v h

theorem Inv_runOps (c : Cfg) (hOK : CfgOK c) :
    ∀ (ops : List Op) (s : VMState), StateInv c s → StateInv c (runOps c s ops) := by
  intro ops
  induction ops with
  | nil => exact fun s h => h
  | cons op t ih =>
    intro s h
    exact ih _ (Inv_applyOp c hOK s h op)

/-- C6: in every state reachable from the initialized state by
`VMread`/`VMwrite` operations, no two table entries anywhere in the
page-table tree hold the same nonzero frame index: the root and all entry
targets are pairwise distinct, and any two live entries referencing the
same frame are the same entry — the detach-before-reuse and
evict-then-unlink steps of the allocator and the entry write in the walker
all preserve this. -/
theorem C6_uniqueness (c : Cfg) (hOK : CfgOK c) (ops : List Op) :
    treeUniq c (runOps c (initialState c) ops) ∧
    ∀ e1 ∈ rootEdges c (runOps c (initialState c) ops),
      ∀ e2 ∈ rootEdges c (runOps c (initialState c) ops),
        e1.child = e2.child → e1 = e2 := by
  have h := Inv_runOps c hOK ops (initialState c) (Inv_initialState c hOK)
  refine ⟨h.2.2.1, ?_⟩
  intro e1 he1 e2 he2 hc
  exact List.inj_on_of_nodup_map (List.nodup_cons.1 h.2.2.1).2 he1 he2 hc

/-- Witness for C6: the reference configuration is realizable, and after
three writes (which exercise allocation and eviction) the reached tree has
pairwise-distinct frame references. -/
theorem C6_uniqueness_witness :
    CfgOK testCfg ∧
      (treeUniq testCfg (runOps testCfg (initialState testCfg)
          [Op.wr 0 41, Op.wr 6 42, Op.wr 2 43]) ∧
        ∀ e1 ∈ rootEdges testCfg (runOps testCfg (initialState testCfg)
            [Op.wr 0 41, Op.wr 6 42, Op.wr 2 43]),
          ∀ e2 ∈ rootEdges testCfg (runOps testCfg (initialState testCfg)
              [Op.wr 0 41, Op.wr 6 42, Op.wr 2 43]),
            e1.child = e2.child → e1 = e2) :=
  ⟨by decide, C6_uniqueness testCfg (by decide) [Op.wr 0 41, Op.wr 6 42, Op.wr 2 43]⟩

/-! ## The page-mapping bridge: leaf edges and the digit path -/

theorem digitsVal_digits (c : Cfg) :
    ∀ (n p : Nat), digitsVal c 0 ((List.range n).map
      (fun j => p / c.PAGE_SIZE ^ (n - 1 - j) % c.PAGE_SIZE))
      = p % c.PAGE_SIZE ^ n := by
  intro n
  induction n with
  | zero =>
    intro p
    rw [pow_zero, Nat.mod_one]
    rfl
  | succ n ih =>
    intro p
    rw [List.range_succ_eq_map, List.map_cons, List.map_map, digitsVal_cons]
    have htail : (List.range n).map ((fun j => p / c.PAGE_SIZE ^ (n + 1 - 1 - j)
        % c.PAGE_SIZE) ∘ Nat.succ)
        = (List.range n).map (fun j => p / c.PAGE_SIZE ^ (n - 1 - j)
            % c.PAGE_SIZE) := by
      refine List.map_congr_left ?_
      intro j hj
      simp only [Function.comp_apply, Nat.succ_eq_add_one]
      have hexp : n + 1 - 1 - (j + 1) = n - 1 - j := by omega
      rw [hexp]
    rw [htail, ih, List.length_map, List.length_range]
    have hhead : n + 1 - 1 - 0 = n := by omega
    rw [hhead, pow_succ, Nat.mod_mul]
    ring

theorem digitsVal_pageDigits (c : Cfg) {p : Nat} (hp : p < c.NUM_PAGES) :
    digitsVal c 0 (pageDigits c p) = p := by
  unfold pageDigits
  rw [digitsVal_digits]
  apply Nat.mod_eq_of_lt
  have hpow : c.PAGE_SIZE ^ c.tablesDepth = c.NUM_PAGES := by
    unfold Cfg.PAGE_SIZE Cfg.NUM_PAGES
    rw [← pow_mul]
  omega

theorem pageDigits_walker (c : Cfg) (va : Nat) :
    pageDigits c (va >>> c.offsetWidth)
      = (List.range c.tablesDepth).map (indexAtLevel c va) := by
  unfold pageDigits
  exact (List.map_congr_left (fun j _ => indexAtLevel_eq c va j)).symm

theorem pageDigits_rows (c : Cfg) (p : Nat) : RowsOK c (pageDigits c p) := by
  intro r hr
  rcases List.mem_map.1 hr with ⟨j, _, rfl⟩
  exact Nat.mod_lt _ (PAGE_SIZE_pos c)

theorem pageDigits_length (c : Cfg) (p : Nat) :
    (pageDigits c p).length = c.tablesDepth := by
  unfold pageDigits
  rw [List.length_map, List.length_range]

/-- A mapped leaf edge serves exactly its accumulated page number. -/
theorem leafOf_of_leafEdge (c : Cfg) (s : VMState) (hD : 1 ≤ c.tablesDepth)
    {e : Edge} (he : e ∈ leafEdges c s) :
    leafOf c s e.pre = some e.child := by
  have heR : e ∈ rootEdges c s := List.mem_of_mem_filter he
  have hleaf : e.leaf = true := List.of_mem_filter he
  obtain ⟨q, hrows, hpath, hpre, hlen, _⟩ := edge_path c s c.tablesDepth 0 0 hD e heR
  have hlenq := hlen hleaf
  have hq := digits_eq c q hrows
  rw [hlenq, ← hpre] at hq
  unfold leafOf pageDigits
  rw [← hq]
  exact hpath

/-- A resolvable digit path comes from a leaf edge with that page number. -/
theorem leafEdge_of_leafOf (c : Cfg) (s : VMState) (hD : 1 ≤ c.tablesDepth)
    {p F : Nat} (hp : p < c.NUM_PAGES) (h : leafOf c s p = some F) :
    ∃ e ∈ leafEdges c s, e.pre = p ∧ e.child = F := by
  unfold leafOf at h
  have hrows := pageDigits_rows c p
  have hlen := pageDigits_length c p
  obtain ⟨e, he, hec, hepre, hel, _⟩ := path_to_edge c s (pageDigits c p) 0 0
    c.tablesDepth hrows (by omega) (by omega) F h
  refine ⟨e, List.mem_filter.2 ⟨he, hel hlen⟩, ?_, hec⟩
  rw [hepre]
  exact digitsVal_pageDigits c hp

/-- On a duplicate-free tree, a page is served by at most one leaf. -/
theorem leafEdge_pre_inj (c : Cfg) (s : VMState) (hD : 1 ≤ c.tablesDepth)
    (hND : treeUniq c s) {e1 e2 : Edge} (h1 : e1 ∈ leafEdges c s)
    (h2 : e2 ∈ leafEdges c s) (hpre : e1.pre = e2.pre) : e1 = e2 := by
  have hc1 := leafOf_of_leafEdge c s hD h1
  have hc2 := leafOf_of_leafEdge c s hD h2
  rw [hpre] at hc1
  have hcc : e1.child = e2.child := Option.some.inj (hc1.symm.trans hc2)
  exact List.inj_on_of_nodup_map (List.nodup_cons.1 hND).2
    (List.mem_of_mem_filter h1) (List.mem_of_mem_filter h2) hcc

/-! ## Path monotonicity and further preservation tools -/

/-- A path alive after a zero write was already alive with the same result. -/
theorem pathTo_write0_mono (c : Cfg) (s : VMState) (a : Nat) :
    ∀ (q : List Nat) (f F : Nat),
      pathTo c (PMwrite s a 0) f q = some F → pathTo c s f q = some F := by
  intro q
  induction q with
  | nil => exact fun f F h => h
  | cons r0 q2 ih =>
    intro f F h
    rw [pathTo_cons] at h ⊢
    by_cases hz : PMread (PMwrite s a 0) (phys c f r0) = 0
    · rw [if_pos hz] at h
      cases h
    · rw [if_neg hz] at h
      have haddr : phys c f r0 ≠ a := by
        intro hh
        apply hz
        rw [PMread_PMwrite, if_pos hh]
        exact wrapWord_zero
      have hval : PMread (PMwrite s a 0) (phys c f r0) = PMread s (phys c f r0) := by
        rw [PMread_PMwrite, if_neg haddr]
      rw [hval] at h hz
      rw [if_neg hz]
      exact ih _ _ h

/-- A dead path stays dead under writes confined to a frame it avoids. -/
theorem pathTo_frame_none (c : Cfg) (s s2 : VMState) (W : Nat)
    (hagree : ∀ a, (∀ i < c.PAGE_SIZE, a ≠ phys c W i) → PMread s2 a = PMread s a) :
    ∀ (q : List Nat) (f : Nat), RowsOK c q → f ≠ W → W ∉ pathNodes c s f q →
      pathTo c s f q = none → pathTo c s2 f q = none := by
  intro q
  induction q with
  | nil => exact fun f _ _ _ h => Option.noConfusion h
  | cons r0 q2 ih =>
    intro f hrows hfW hnot h
    have hr0 : r0 < c.PAGE_SIZE := hrows r0 (List.mem_cons_self _ _)
    have hcell : PMread s2 (phys c f r0) = PMread s (phys c f r0) :=
      hagree _ (fun i hi => phys_ne c hfW hr0 hi)
    rw [pathTo_cons] at h ⊢
    rw [hcell]
    by_cases hz : PMread s (phys c f r0) = 0
    · rw [if_pos hz]
    · rw [if_neg hz] at h ⊢
      rw [pathNodes_cons, if_neg hz] at hnot
      exact ih _ (fun x hx => hrows x (List.mem_cons_of_mem _ hx))
        (fun hh => hnot (by rw [← hh]; exact List.mem_cons_self _ _))
        (fun hh => hnot (List.mem_cons_of_mem _ hh)) h

/-- Every visited node is the result of a nonempty prefix of the path. -/
theorem pathNodes_prefix (c : Cfg) (s : VMState) :
    ∀ (q : List Nat) (f g : Nat), g ∈ pathNodes c s f q →
      ∃ q1 q2, q = q1 ++ q2 ∧ 1 ≤ q1.length ∧ pathTo c s f q1 = some g := by
  intro q
  induction q with
  | nil => exact fun f g h => absurd h (List.not_mem_nil g)
  | cons r0 q2 ih =>
    intro f g h
    rw [pathNodes_cons] at h
    by_cases hz : PMread s (phys c f r0) = 0
    · rw [if_pos hz] at h
      exact absurd h (List.not_mem_nil g)
    · rw [if_neg hz] at h
      rcases List.mem_cons.1 h with h1 | h1
      · refine ⟨[r0], q2, rfl, by simp, ?_⟩
        rw [pathTo_cons, if_neg hz, h1]
        rfl
      · obtain ⟨q1, q2b, heq, hlen, hpath⟩ := ih _ g h1
        refine ⟨r0 :: q1, q2b, by rw [heq]; rfl, by simp, ?_⟩
        rw [pathTo_cons, if_neg hz]
        exact hpath

theorem pathNodes_ext (c : Cfg) (s s2 : VMState)
    (hagree : ∀ a, PMread s2 a = PMread s a) :
    ∀ (q : List Nat) (f : Nat), pathNodes c s2 f q = pathNodes c s f q := by
  intro q
  induction q with
  | nil => intro f; rfl
  | cons r0 q2 ih =>
    intro f
    rw [pathNodes_cons, pathNodes_cons, hagree, ih]

/-! ## Content-tracking helpers -/

theorem clearFrame_swap (c : Cfg) (s : VMState) (f : Nat) (b : Bool) :
    (clearFrame c s f b).swap = s.swap := by
  unfold clearFrame
  split
  · rfl
  · suffices hgen : ∀ (l : List Nat) (t : VMState),
        (l.foldl (fun st i => PMwrite st (phys c f i) 0) t).swap = t.swap by
      exact hgen _ s
    intro l
    induction l with
    | nil => exact fun t => rfl
    | cons i tl ih =>
      intro t
      rw [List.foldl_cons, ih]
      rfl

/-- A page unmapped in a state stays unmapped in any state whose live tree
is a sub-listing. -/
theorem leafOf_none_of_sublist (c : Cfg) (s s' : VMState) (hD : 1 ≤ c.tablesDepth)
    {p : Nat} (hp : p < c.NUM_PAGES)
    (hsub : (rootEdges c s').Sublist (rootEdges c s))
    (hnone : leafOf c s p = none) : leafOf c s' p = none := by
  rcases hres : leafOf c s' p with _ | F2
  · rfl
  · exfalso
    obtain ⟨e2, he2, hpre2, _⟩ := leafEdge_of_leafOf c s' hD hp hres
    have he2s : e2 ∈ leafEdges c s := by
      have hm := List.mem_of_mem_filter he2
      have hl := List.of_mem_filter he2
      exact List.mem_filter.2 ⟨hsub.subset hm, hl⟩
    have hmm := leafOf_of_leafEdge c s hD he2s
    rw [hpre2, hnone] at hmm
    cases hmm

/-- An all-zero frame is never an intermediate or distinct final node of a
successful path. -/
theorem notin_pathNodes_of_allzero (c : Cfg) (s : VMState) {g F : Nat}
    (hz : AllZeroF c s g) {qq : List Nat} {f : Nat} (hrows : RowsOK c qq)
    (hsucc : pathTo c s f qq = some F) (hgF : g ≠ F) :
    g ∉ pathNodes c s f qq := by
  intro hmem
  obtain ⟨q1, q2, heq, hlen1, hp1⟩ := pathNodes_prefix c s qq f g hmem
  subst heq
  rcases q2 with _ | ⟨r1, q3⟩
  · rw [List.append_nil] at hsucc
    exact hgF (Option.some.inj (hp1.symm.trans hsucc))
  · rw [pathTo_append_some c s q1 (r1 :: q3) f g hp1, pathTo_cons,
      if_pos (hz r1 (hrows r1 (List.mem_append_right _
        (List.mem_cons_self _ _))))] at hsucc
    cases hsucc

/-- A frame referenced by no inner-level entry is never an intermediate or
distinct final node of a successful path from the root. -/
theorem notin_pathNodes_of_nonleaf_free (c : Cfg) (s : VMState) {g F : Nat}
    (hnl : ∀ e ∈ rootEdges c s, e.leaf = false → e.child ≠ g)
    {qq : List Nat} (hrows : RowsOK c qq) (hqle : qq.length ≤ c.tablesDepth)
    (hsucc : pathTo c s 0 qq = some F) (hgF : g ≠ F) :
    g ∉ pathNodes c s 0 qq := by
  intro hmem
  obtain ⟨q1, q2, heq, hlen1, hp1⟩ := pathNodes_prefix c s qq 0 g hmem
  subst heq
  rcases q2 with _ | ⟨r1, q3⟩
  · rw [List.append_nil] at hsucc
    exact hgF (Option.some.inj (hp1.symm.trans hsucc))
  · have hlt : q1.length < c.tablesDepth := by
      simp only [List.length_append, List.length_cons] at hqle
      omega
    obtain ⟨e, he, hec, _, _, hel⟩ := path_to_edge c s q1 0 0 c.tablesDepth
      (fun x hx => hrows x (List.mem_append_left _ hx)) hlen1 (le_of_lt hlt) g hp1
    exact hnl e he (hel hlt) hec

/-- Content across the prune-and-clear step: every page keeps its mapping
and value except the detached frame's own page, which becomes unmapped
with its (caller-supplied) swap image taking over. -/
theorem prune_clear_content (c : Cfg) (s : VMState) (hND : treeUniq c s)
    (e : Edge) (he : e ∈ rootEdges c s) (isLeaf : Bool)
    (hcase : AllZeroF c s e.child ∨ e.leaf = true)
    (hD : 1 ≤ c.tablesDepth)
    (p : Nat) (hp : p < c.NUM_PAGES) (r : Nat) (hr : r < c.PAGE_SIZE)
    (hswap : leafOf c s p = some e.child →
      s.swap p r = PMread s (phys c e.child r)) :
    content c (pruneClear c s e isLeaf) p r = content c s p r ∧
    (leafOf c (pruneClear c s e isLeaf) p = none ∨
      ∃ F, leafOf c (pruneClear c s e isLeaf) p = some F ∧
        leafOf c s p = some F) := by
  have hND' : (0 :: targetsOf (edges c s c.tablesDepth 0 0)).Nodup := hND
  have hndT : (targetsOf (rootEdges c s)).Nodup := (List.nodup_cons.1 hND).2
  have h0nt : 0 ∉ targetsOf (rootEdges c s) := (List.nodup_cons.1 hND).1
  have hndT' : (targetsOf (edges c s c.tablesDepth 0 0)).Nodup := hndT
  have hrowe : e.row < c.PAGE_SIZE := edges_row_lt c s c.tablesDepth 0 0 e he
  have hXmem : e.child ∈ targetsOf (rootEdges c s) := List.mem_map.2 ⟨e, he, rfl⟩
  have hX0 : e.child ≠ 0 := fun h => h0nt (h ▸ hXmem)
  have hcell := edges_cell_spec c s c.tablesDepth 0 0 e he
  have hnz : PMread s (phys c e.parent e.row) ≠ 0 := hcell.1
  have hXeq : toU64 (PMread s (phys c e.parent e.row)) = e.child := hcell.2
  have hsubl : (edges c (PMwrite s (phys c e.parent e.row) 0)
      c.tablesDepth 0 0).Sublist (edges c s c.tablesDepth 0 0) :=
    prune_sublist c s e.parent e.row hrowe _ 0 0
  have hXout : e.child ∉ targetsOf (edges c (PMwrite s (phys c e.parent e.row) 0)
      c.tablesDepth 0 0) := prune_removes_unique c s hndT' he hrowe
  have hedc : edges c (pruneClear c s e isLeaf) c.tablesDepth 0 0
      = edges c (PMwrite s (phys c e.parent e.row) 0) c.tablesDepth 0 0 := by
    unfold pruneClear
    rcases Bool.eq_false_or_eq_true isLeaf with hb | hb
    · rw [hb, clearFrame_leaf]
    · rw [hb]
      refine edges_congr_frame c (PMwrite s (phys c e.parent e.row) 0) _ e.child
        (fun a ha => clearFrame_agree c _ e.child false a ha) c.tablesDepth 0 0
        (fun h => hX0 h.symm) ?_
      intro g hg hge
      apply hXout
      rw [← hge]
      exact tableChildren_sub_targets.subset hg
  have hsubA : (rootEdges c (pruneClear c s e isLeaf)).Sublist (rootEdges c s) := by
    unfold rootEdges
    rw [hedc]
    exact hsubl
  have hreadA : ∀ a, (∀ i < c.PAGE_SIZE, a ≠ phys c e.child i) →
      a ≠ phys c e.parent e.row →
      PMread (pruneClear c s e isLeaf) a = PMread s a := by
    intro a hXa hpa
    unfold pruneClear
    have h2 : PMread (PMwrite s (phys c e.parent e.row) 0) a = PMread s a := by
      rw [PMread_PMwrite, if_neg hpa]
    rcases Bool.eq_false_or_eq_true isLeaf with hb | hb
    · rw [hb, clearFrame_leaf]
      exact h2
    · rw [hb, clearFrame_agree c _ e.child false a hXa]
      exact h2
  have hswapA : (pruneClear c s e isLeaf).swap = s.swap := by
    unfold pruneClear
    rw [clearFrame_swap]
    rfl
  rcases hps : leafOf c s p with _ | F
  · have hnoneA := leafOf_none_of_sublist c s (pruneClear c s e isLeaf) hD hp
      hsubA hps
    refine ⟨?_, Or.inl hnoneA⟩
    have hlhs : content c (pruneClear c s e isLeaf) p r
        = (pruneClear c s e isLeaf).swap p r := by
      unfold content
      rw [hnoneA]
    have hrhs : content c s p r = s.swap p r := by
      unfold content
      rw [hps]
    rw [hlhs, hrhs, hswapA]
  · have hps' : pathTo c s 0 (pageDigits c p) = some F := hps
    by_cases hFX : F = e.child
    · subst hFX
      have hspnone : pathTo c (PMwrite s (phys c e.parent e.row) 0) 0
          (pageDigits c p) = none := by
        rcases hres : pathTo c (PMwrite s (phys c e.parent e.row) 0) 0
            (pageDigits c p) with _ | F2
        · rfl
        · exfalso
          have holdp := pathTo_write0_mono c s _ (pageDigits c p) 0 F2 hres
          have hF2 : F2 = e.child := Option.some.inj (holdp.symm.trans hps')
          have hmem2 : F2 ∈ targetsOf (edges c
              (PMwrite s (phys c e.parent e.row) 0) c.tablesDepth 0 0) :=
            pathTo_mem_targets c _ (pageDigits_rows c p)
              (by rw [pageDigits_length]; omega)
              (by rw [pageDigits_length]) hres
          rw [hF2] at hmem2
          exact hXout hmem2
      have hnoneA : leafOf c (pruneClear c s e isLeaf) p = none := by
        refine leafOf_none_of_sublist c (PMwrite s (phys c e.parent e.row) 0)
          (pruneClear c s e isLeaf) hD hp ?_ hspnone
        unfold rootEdges
        rw [hedc]
      refine ⟨?_, Or.inl hnoneA⟩
      have hsw := hswap hps
      have hlhs : content c (pruneClear c s e isLeaf) p r
          = (pruneClear c s e isLeaf).swap p r := by
        unfold content
        rw [hnoneA]
      have hrhs : content c s p r = s.ram (phys c e.child r) := by
        unfold content
        rw [hps]
      rw [hlhs, hrhs, hswapA, hsw]
      rfl
    · have hFne : e.child ≠ F := fun hh => hFX hh.symm
      have hXnp : e.child ∉ pathNodes c s 0 (pageDigits c p) := by
        rcases hcase with hAZ | hleaf
        · exact notin_pathNodes_of_allzero c s hAZ (pageDigits_rows c p) hps' hFne
        · refine notin_pathNodes_of_nonleaf_free c s ?_ (pageDigits_rows c p)
            (by rw [pageDigits_length]) hps' hFne
          intro e2 he2 hl2 hc2
          have he2e : e2 = e := List.inj_on_of_nodup_map hndT he2 he hc2
          rw [he2e, hleaf] at hl2
          cases hl2
      obtain ⟨hpathsp, hnodessp⟩ := pathTo_write_preserved c s e.parent e.row 0
        (pageDigits c p) 0 F hps' (by rw [hXeq]; exact hXnp)
      have hpathA : pathTo c (pruneClear c s e isLeaf) 0 (pageDigits c p)
          = some F := by
        unfold pruneClear
        rcases Bool.eq_false_or_eq_true isLeaf with hb | hb
        · rw [hb, clearFrame_leaf]
          exact hpathsp
        · rw [hb]
          exact (pathTo_frame_preserved c _ _ e.child
            (fun a ha => clearFrame_agree c _ e.child false a ha)
            (pageDigits c p) 0 F (pageDigits_rows c p) hpathsp
            (fun h => hX0 h.symm) (by rw [hnodessp]; exact hXnp)).1
      obtain ⟨eF, heF, hpreF, hcF⟩ := leafEdge_of_leafOf c s hD hp hps
      have heFR : eF ∈ rootEdges c s := List.mem_of_mem_filter heF
      have heFl : eF.leaf = true := List.of_mem_filter heF
      have hFpar : F ≠ e.parent := by
        intro hh
        rcases edges_parent_tables c s c.tablesDepth 0 0 e he with h2 | h2
        · apply h0nt
          rw [← h2, ← hh]
          exact List.mem_map.2 ⟨eF, heFR, hcF⟩
        · rcases mem_tableChildren.1 h2 with ⟨e3, he3, hl3, hc3⟩
          have he3F : e3 = eF := List.inj_on_of_nodup_map hndT he3 heFR
            (by rw [hc3, ← hh, hcF])
          rw [he3F, heFl] at hl3
          cases hl3
      have hramF : PMread (pruneClear c s e isLeaf) (phys c F r)
          = PMread s (phys c F r) := by
        refine hreadA _ (fun i hi => phys_ne c hFX hr hi) ?_
        exact phys_ne c hFpar hr hrowe
      refine ⟨?_, Or.inr ⟨F, show leafOf c (pruneClear c s e isLeaf) p = some F
        from hpathA, rfl⟩⟩
      have hlhs : content c (pruneClear c s e isLeaf) p r
          = (pruneClear c s e isLeaf).ram (phys c F r) := by
        unfold content
        rw [show leafOf c (pruneClear c s e isLeaf) p = some F from hpathA]
      have hrhs : content c s p r = s.ram (phys c F r) := by
        unfold content
        rw [hps]
      rw [hlhs, hrhs]
      exact hramF

/-- Content across one `allocateFrame` call at a translation miss: every
page keeps its content, and every mapping either survives unchanged or is
dropped (the evicted page, whose swap image took its value over). -/
theorem alloc_content (c : Cfg) (s : VMState) (hOK : CfgOK c)
    (tp pf row : Nat) (isLeaf : Bool) (q : List Nat)
    (hG : GoodS s) (hcells : cellsOK c s) (hND : treeUniq c s)
    (hcontig : CONTIG c s)
    (hrows : RowsOK c q) (hqlen : q.length < c.tablesDepth)
    (hpath : pathTo c s 0 q = some pf)
    (hrow : row < c.PAGE_SIZE)
    (hmiss : PMread s (phys c pf row) = 0)
    (htp : tp < c.NUM_PAGES)
    (hpages : ∀ e ∈ leafEdges c s, e.pre ≠ tp)
    (X : Nat) (sA : VMState)
    (hXA : allocateFrame c s pf row tp isLeaf = (X, sA))
    (p : Nat) (hp : p < c.NUM_PAGES) (r : Nat) (hr : r < c.PAGE_SIZE) :
    content c sA p r = content c s p r ∧
    (leafOf c sA p = none ∨
      ∃ F, leafOf c sA p = some F ∧ leafOf c s p = some F) := by
  have hDpos : 1 ≤ c.tablesDepth := by omega
  have hndT : (targetsOf (rootEdges c s)).Nodup := (List.nodup_cons.1 hND).2
  have h0nt : 0 ∉ targetsOf (rootEdges c s) := (List.nodup_cons.1 hND).1
  have hNM : U64MAX ∉ targetsOf (rootEdges c s) := by
    intro h
    have h1 := target_lt_NF c s hcells _ h
    have h2 := hOK.2.2.2
    unfold U64MAX at h1
    omega
  have hspec := scan_empty_spec c s tp pf c.tablesDepth 0 0 {} hND hNM (by decide)
  unfold EmptySpec at hspec
  obtain ⟨hA, _, _⟩ := hspec
  obtain ⟨hAnil, hAcons⟩ := hA rfl
  rcases hc : cands c s pf with _ | ⟨E0, tl⟩
  · -- fresh or evict
    have hsf : (scanRoot c s tp pf).emptyFrame = U64MAX :=
      congrArg (fun x => x.1) (hAnil hc)
    have hng : ¬((scanRoot c s tp pf).emptyFrame ≠ U64MAX ∧
        (scanRoot c s tp pf).emptyFrame ≠ pf) := fun h => h.1 hsf
    have hM : (scanRoot c s tp pf).maxFrame
        = (targetsOf (rootEdges c s)).foldl max 0 := by
      unfold scanRoot rootEdges
      exact scan_maxFrame c s tp pf c.tablesDepth 0 0 {}
    have htarle : ∀ t ∈ targetsOf (rootEdges c s),
        t ≤ (scanRoot c s tp pf).maxFrame := by
      intro t ht
      rw [hM]
      exact mem_le_foldl_max ht 0
    by_cases h2 : (scanRoot c s tp pf).maxFrame + 1 < c.numFrames
    · -- fresh: the cleared frame is outside the tree
      have halloc := allocateFrame_fresh_case c s pf row tp isLeaf hng h2
      rw [halloc] at hXA
      injection hXA with hX hsA
      have hXnot : (scanRoot c s tp pf).maxFrame + 1
          ∉ targetsOf (rootEdges c s) := by
        intro h
        have := htarle _ h
        omega
      have hedf : edges c (clearFrame c s ((scanRoot c s tp pf).maxFrame + 1)
          isLeaf) c.tablesDepth 0 0 = edges c s c.tablesDepth 0 0 := by
        rcases Bool.eq_false_or_eq_true isLeaf with hb | hb
        · rw [hb, clearFrame_leaf]
        · rw [hb]
          refine edges_congr_frame c s _ ((scanRoot c s tp pf).maxFrame + 1)
            (fun a ha => clearFrame_agree c _ _ false a ha) c.tablesDepth 0 0
            (by omega) ?_
          intro g hg hge
          exact hXnot (hge ▸ tableChildren_sub_targets.subset hg)
      have hreadF : ∀ a, (∀ i < c.PAGE_SIZE,
          a ≠ phys c ((scanRoot c s tp pf).maxFrame + 1) i) →
          PMread (clearFrame c s ((scanRoot c s tp pf).maxFrame + 1) isLeaf) a
            = PMread s a := by
        intro a hXa
        rcases Bool.eq_false_or_eq_true isLeaf with hb | hb
        · rw [hb, clearFrame_leaf]
        · rw [hb, clearFrame_agree c _ _ false a hXa]
      have hswapF : (clearFrame c s ((scanRoot c s tp pf).maxFrame + 1)
          isLeaf).swap = s.swap := clearFrame_swap c s _ isLeaf
      rw [← hsA]
      rcases hps : leafOf c s p with _ | F
      · have hnoneA := leafOf_none_of_sublist c s _ hDpos hp
          (by unfold rootEdges; rw [hedf]) hps
        refine ⟨?_, Or.inl hnoneA⟩
        have hlhs : content c (clearFrame c s ((scanRoot c s tp pf).maxFrame + 1)
            isLeaf) p r = (clearFrame c s ((scanRoot c s tp pf).maxFrame + 1)
            isLeaf).swap p r := by
          unfold content
          rw [hnoneA]
        have hrhs : content c s p r = s.swap p r := by
          unfold content
          rw [hps]
        rw [hlhs, hrhs, hswapF]
      · have hps' : pathTo c s 0 (pageDigits c p) = some F := hps
        have hFt : F ∈ targetsOf (rootEdges c s) :=
          pathTo_mem_targets c s (pageDigits_rows c p)
            (by rw [pageDigits_length]; omega) (by rw [pageDigits_length]) hps'
        have hFX : F ≠ (scanRoot c s tp pf).maxFrame + 1 := by
          have := htarle _ hFt
          omega
        have hXnp : (scanRoot c s tp pf).maxFrame + 1
            ∉ pathNodes c s 0 (pageDigits c p) := by
          intro h
          exact hXnot (pathNodes_sub_targets c s (pageDigits c p) 0 0
            c.tablesDepth (pageDigits_rows c p) (by rw [pageDigits_length]) _ h)
        have hpathA : pathTo c (clearFrame c s ((scanRoot c s tp pf).maxFrame + 1)
            isLeaf) 0 (pageDigits c p) = some F := by
          rcases Bool.eq_false_or_eq_true isLeaf with hb | hb
          · rw [hb, clearFrame_leaf]
            exact hps'
          · rw [hb]
            exact (pathTo_frame_preserved c s _ _
              (fun a ha => clearFrame_agree c _ _ false a ha)
              (pageDigits c p) 0 F (pageDigits_rows c p) hps' (by omega) hXnp).1
        refine ⟨?_, Or.inr ⟨F, hpathA, rfl⟩⟩
        have hlhs : content c (clearFrame c s ((scanRoot c s tp pf).maxFrame + 1)
            isLeaf) p r = (clearFrame c s ((scanRoot c s tp pf).maxFrame + 1)
            isLeaf).ram (phys c F r) := by
          unfold content
          rw [show leafOf c (clearFrame c s ((scanRoot c s tp pf).maxFrame + 1)
            isLeaf) p = some F from hpathA]
        have hrhs : content c s p r = s.ram (phys c F r) := by
          unfold content
          rw [hps]
        rw [hlhs, hrhs]
        exact hreadF _ (fun i hi => phys_ne c hFX hr hi)
    · -- eviction
      have hneleaf : leafEdges c s ≠ [] :=
        victim_exists c s hOK pf tp hND hcontig hcells hc h2
      have hvic : victimOf (scanRoot c s tp pf)
          = (leafEdges c s).foldl (vstep c tp) (victimOf {}) := by
        unfold scanRoot leafEdges rootEdges
        exact scan_victimOf c s tp pf c.tablesDepth 0 0 {}
      rcases foldl_vstep_spec c tp (leafEdges c s) (victimOf {}) with
        ⟨hle, _⟩ | ⟨l₁, e, l₂, hsplit, _, hbef, haft, heq⟩
      · obtain ⟨e0, he0⟩ := List.exists_mem_of_ne_nil (leafEdges c s) hneleaf
        have h0d : 0 < distTo c tp e0 :=
          cyclicDistance_pos c (leafEdges_pre_lt c s hDpos e0 he0) htp (hpages e0 he0)
        have hcon : distTo c tp e0 ≤ 0 := hle e0 he0
        omega
      · have hv : victimOf (scanRoot c s tp pf)
            = (e.child, e.parent, e.row, e.pre, distTo c tp e) := hvic.trans heq
        have hVf : (scanRoot c s tp pf).victimFrame = e.child :=
          congrArg (fun x => x.1) hv
        have hVparent : (scanRoot c s tp pf).victimParent = e.parent :=
          congrArg (fun x => x.2.1) hv
        have hVrow : (scanRoot c s tp pf).victimRowInParent = e.row :=
          congrArg (fun x => x.2.2.1) hv
        have hVp : (scanRoot c s tp pf).victimPage = e.pre :=
          congrArg (fun x => x.2.2.2.1) hv
        have heLf : e ∈ leafEdges c s := by
          rw [hsplit]
          exact List.mem_append_right _ (List.mem_cons_self _ _)
        have he : e ∈ rootEdges c s := List.mem_of_mem_filter heLf
        have heleaf : e.leaf = true := List.of_mem_filter heLf
        have halloc := allocateFrame_evict_case c s pf row tp isLeaf hng h2
        rw [halloc] at hXA
        injection hXA with hX hsA
        have hag : ∀ a, PMread (PMevict c s e.child e.pre) a = PMread s a :=
          fun a => rfl
        have hedse := edges_ext c s (PMevict c s e.child e.pre) hag
        have hND_se : treeUniq c (PMevict c s e.child e.pre) := by
          unfold treeUniq rootEdges
          rw [hedse]
          exact hND
        have he_se : e ∈ rootEdges c (PMevict c s e.child e.pre) := by
          unfold rootEdges
          rw [hedse]
          exact he
        have hleafse : ∀ p2, leafOf c (PMevict c s e.child e.pre) p2
            = leafOf c s p2 := by
          intro p2
          unfold leafOf
          rw [pathTo_ext c s _ hag]
        have hvpmap : leafOf c s e.pre = some e.child :=
          leafOf_of_leafEdge c s hDpos heLf
        have hswapE : leafOf c (PMevict c s e.child e.pre) p = some e.child →
            (PMevict c s e.child e.pre).swap p r
              = PMread (PMevict c s e.child e.pre) (phys c e.child r) := by
          intro hmap
          rw [hleafse p] at hmap
          obtain ⟨eL, heL, hpreL, hcL⟩ := leafEdge_of_leafOf c s hDpos hp hmap
          have heLe : eL = e := List.inj_on_of_nodup_map hndT
            (List.mem_of_mem_filter heL) he (by rw [hcL])
          have hpvp : p = e.pre := by
            rw [← hpreL, heLe]
          have hse : (PMevict c s e.child e.pre).swap p
              = fun r2 => s.ram (e.child * c.PAGE_SIZE + r2) := by
            unfold PMevict
            dsimp only
            rw [if_pos hpvp]
          rw [hse]
          rfl
        have hcontse : content c (PMevict c s e.child e.pre) p r
            = content c s p r := by
          rcases hq2 : leafOf c s p with _ | F
          · have hpvp : p ≠ e.pre := by
              intro hh
              rw [hh, hvpmap] at hq2
              cases hq2
            have hsw : (PMevict c s e.child e.pre).swap p = s.swap p := by
              unfold PMevict
              dsimp only
              rw [if_neg hpvp]
            have h1 : content c (PMevict c s e.child e.pre) p r
                = (PMevict c s e.child e.pre).swap p r := by
              unfold content
              rw [hleafse p, hq2]
            have h3 : content c s p r = s.swap p r := by
              unfold content
              rw [hq2]
            rw [h1, h3, hsw]
          · have h1 : content c (PMevict c s e.child e.pre) p r
                = (PMevict c s e.child e.pre).ram (phys c F r) := by
              unfold content
              rw [hleafse p, hq2]
            have h3 : content c s p r = s.ram (phys c F r) := by
              unfold content
              rw [hq2]
            rw [h1, h3]
            rfl
        have hpcc := prune_clear_content c (PMevict c s e.child e.pre) hND_se
          e he_se isLeaf (Or.inr heleaf) hDpos p hp r hr hswapE
        have hstate : clearFrame c (PMwrite (PMevict c s
            (scanRoot c s tp pf).victimFrame (scanRoot c s tp pf).victimPage)
            (phys c (scanRoot c s tp pf).victimParent
              (scanRoot c s tp pf).victimRowInParent) 0)
            (scanRoot c s tp pf).victimFrame isLeaf
            = pruneClear c (PMevict c s e.child e.pre) e isLeaf := by
          unfold pruneClear
          rw [hVf, hVparent, hVrow, hVp]
        rw [← hsA, hstate]
        refine ⟨hpcc.1.trans hcontse, ?_⟩
        rcases hpcc.2 with h | ⟨F, hF1, hF2⟩
        · exact Or.inl h
        · rw [hleafse p] at hF2
          exact Or.inr ⟨F, hF1, hF2⟩
  · -- reuse an empty table
    obtain ⟨hEf, hEor⟩ := hAcons E0 tl hc
    have hE0mem : E0 ∈ candsIn c s pf c.tablesDepth 0 := by
      rw [show candsIn c s pf c.tablesDepth 0 = E0 :: tl from hc]
      exact List.mem_cons_self _ _
    have hfacts := candsIn_mem c s pf c.tablesDepth 0 E0 hE0mem
    have hE0zero : AllZeroF c s E0 := hfacts.1
    have hE0z : E0 ≠ 0 := hfacts.2.1
    have hE0pf : E0 ≠ pf := hfacts.2.2.1
    have hE0t : E0 ∈ targetsOf (rootEdges c s) := by
      rcases hfacts.2.2.2 0 with h | h
      · exact absurd h hE0z
      · exact h
    have hE0MAX : E0 ≠ U64MAX := fun hh => hNM (hh ▸ hE0t)
    rcases hEor with ⟨hE00, _⟩ | ⟨e, he, heleaf, hechild, hEP, hER⟩
    · exact absurd hE00 hE0z
    have hsfE : (scanRoot c s tp pf).emptyFrame = E0 := hEf
    have hEPs : (scanRoot c s tp pf).emptyParent = e.parent := hEP
    have hERs : (scanRoot c s tp pf).emptyRowInParent = e.row := hER
    have halloc := allocateFrame_reuse_case c s pf row tp isLeaf
      ⟨by rw [hsfE]; exact hE0MAX, by rw [hsfE]; exact hE0pf⟩
    rw [halloc] at hXA
    injection hXA with hX hsA
    have hstate : clearFrame c (PMwrite s (phys c (scanRoot c s tp pf).emptyParent
        (scanRoot c s tp pf).emptyRowInParent) 0) (scanRoot c s tp pf).emptyFrame
        isLeaf = pruneClear c s e isLeaf := by
      unfold pruneClear
      rw [hEPs, hERs, hsfE, ← hechild]
    have hswapR : leafOf c s p = some e.child →
        s.swap p r = PMread s (phys c e.child r) := by
      intro hcontra
      exfalso
      obtain ⟨eL, heL, _, hcL⟩ := leafEdge_of_leafOf c s hDpos hp hcontra
      have heLe : eL = e := List.inj_on_of_nodup_map hndT
        (List.mem_of_mem_filter heL) he (by rw [hcL])
      have hLl := List.of_mem_filter heL
      rw [heLe, heleaf] at hLl
      cases hLl
    have hcase : AllZeroF c s e.child ∨ e.leaf = true := by
      left
      rw [hechild]
      exact hE0zero
    rw [← hsA, hstate]
    exact prune_clear_content c s hND e he isLeaf hcase hDpos p hp r hr hswapR


theorem PMrestore_read_in (c : Cfg) (s : VMState) (f p r : Nat)
    (hr : r < c.PAGE_SIZE) :
    PMread (PMrestore c s f p) (phys c f r) = s.swap p r := by
  unfold PMrestore PMread phys
  dsimp only
  rw [if_pos ⟨Nat.le_add_right _ _, by omega⟩]
  congr 1
  omega

/-- Content across the restore-or-clear and link step: every page keeps
its logical content, including the faulting page (unmapped before the
link), which is served afterwards by the linked frame holding its swap
image. -/
theorem link_content (c : Cfg) (sA : VMState) (hOK : CfgOK c)
    (pf row X tp : Nat) (isLeaf : Bool) (q : List Nat)
    (p1 : GoodS sA) (p2 : X ≠ 0) (p3 : X < c.numFrames)
    (p4 : X ∉ 0 :: targetsOf (rootEdges c sA))
    (p5 : (0 :: targetsOf (rootEdges c sA)).Nodup)
    (p9 : cellsOK c sA)
    (p10 : pathTo c sA 0 q = some pf)
    (p11 : PMread sA (phys c pf row) = 0)
    (hrows : RowsOK c q) (hrow : row < c.PAGE_SIZE)
    (hqlen : q.length < c.tablesDepth)
    (hleaf_iff : isLeaf = true ↔ q.length + 1 = c.tablesDepth)
    (hfull : isLeaf = true → q ++ [row] = pageDigits c tp)
    (htp : tp < c.NUM_PAGES)
    (s2 : VMState)
    (hs2 : s2 = if isLeaf then PMrestore c sA X tp else clearFrame c sA X false)
    (s3 : VMState) (hs3 : s3 = PMwrite s2 (phys c pf row) (X : Int))
    (p : Nat) (hp : p < c.NUM_PAGES) (r : Nat) (hr : r < c.PAGE_SIZE) :
    content c s3 p r = content c sA p r := by
  have hP := PAGE_SIZE_pos c
  have hDpos : 1 ≤ c.tablesDepth := by omega
  have hX31 : X < 2 ^ 31 := by
    have := hOK.2.2.2
    omega
  have hX0c : (0 : Nat) ≠ X := fun h => p2 h.symm
  have hXnt : X ∉ targetsOf (rootEdges c sA) := fun h => p4 (List.mem_cons_of_mem _ h)
  have hpfX : pf ≠ X := by
    rcases q with _ | ⟨r0, q2⟩
    · have hpf0 : 0 = pf := Option.some.inj p10
      intro h
      exact hX0c (hpf0.trans h)
    · intro h
      apply hXnt
      rw [← h]
      exact pathTo_mem_targets c sA hrows (by simp) (le_of_lt hqlen) p10
  have hs2agree : ∀ a, (∀ i < c.PAGE_SIZE, a ≠ phys c X i) →
      PMread s2 a = PMread sA a := by
    intro a ha
    rcases Bool.eq_false_or_eq_true isLeaf with hb | hb
    · rw [hs2, hb, if_pos rfl]
      exact PMrestore_agree c sA X tp a ha
    · rw [hs2, hb, if_neg Bool.false_ne_true]
      exact clearFrame_agree c sA X false a ha
  have hs2zero : isLeaf = false → ∀ i < c.PAGE_SIZE,
      PMread s2 (phys c X i) = 0 := by
    intro hb i hi
    rw [hs2, hb, if_neg Bool.false_ne_true]
    exact clearFrame_table_zero c sA X i hi
  have hG2 : GoodS s2 := by
    rcases Bool.eq_false_or_eq_true isLeaf with hb | hb
    · rw [hs2, hb, if_pos rfl]
      exact GoodS_PMrestore p1 _ _
    · rw [hs2, hb, if_neg Bool.false_ne_true]
      exact GoodS_clearFrame p1 _ _
  have hed2 : edges c s2 c.tablesDepth 0 0 = edges c sA c.tablesDepth 0 0 :=
    edges_congr_frame c sA s2 X hs2agree c.tablesDepth 0 0 hX0c
      (fun g hg hge => hXnt (hge ▸ tableChildren_sub_targets.subset hg))
  have hedR : rootEdges c s2 = rootEdges c sA := hed2
  have hswap2 : s2.swap = sA.swap := by
    rcases Bool.eq_false_or_eq_true isLeaf with hb | hb
    · rw [hs2, hb, if_pos rfl]
      rfl
    · rw [hs2, hb, if_neg Bool.false_ne_true]
      exact clearFrame_swap c sA X false
  have hswap3 : s3.swap = sA.swap := by
    rw [hs3]
    exact hswap2
  have hmiss2 : PMread s2 (phys c pf row) = 0 := by
    rw [hs2agree _ (fun i hi => phys_ne c hpfX hrow hi)]
    exact p11
  have hagree3 : ∀ a, a ≠ phys c pf row → PMread s3 a = PMread s2 a := by
    intro a ha
    rw [hs3, PMread_PMwrite, if_neg ha]
  have hXeq3 : toU64 (PMread s3 (phys c pf row)) = X := by
    rw [hs3, PMread_PMwrite, if_pos rfl]
    exact toU64_wrapWord_nat hX31
  have hlink := link_spec c sA hOK pf row X tp isLeaf q p1 p2 p3 p4 p5 p9 p10
    p11 hrows hrow hqlen hleaf_iff s2 hs2 s3 hs3
  have hndT3 : (0 :: targetsOf (rootEdges c s3)).Nodup := hlink.2.2.1
  have hpathQR : pathTo c s3 0 (q ++ [row]) = some X := hlink.2.2.2.2.2.2
  have hrowsQR : RowsOK c (q ++ [row]) := by
    intro x hx
    rcases List.mem_append.1 hx with h | h
    · exact hrows x h
    · rw [List.mem_singleton.1 h]
      exact hrow
  rcases hps : leafOf c sA p with _ | F
  · -- p unmapped before the link
    have hcA : content c sA p r = sA.swap p r := by
      unfold content
      rw [hps]
    by_cases hcase : p = tp ∧ isLeaf = true
    · -- the faulting page, now restored from swap
      obtain ⟨hpeq, hb⟩ := hcase
      subst hpeq
      have hlf3 : leafOf c s3 p = some X := by
        unfold leafOf
        rw [← hfull hb]
        exact hpathQR
      have hl : content c s3 p r = s3.ram (phys c X r) := by
        unfold content
        rw [hlf3]
      rw [hl, hcA]
      have h1 : PMread s3 (phys c X r) = PMread s2 (phys c X r) :=
        hagree3 _ (phys_ne c (fun h => hpfX h.symm) hr hrow)
      have h2 : PMread s2 (phys c X r) = sA.swap p r := by
        rw [hs2, hb, if_pos rfl]
        exact PMrestore_read_in c sA X p r hr
      exact h1.trans h2
    · -- p stays unmapped and keeps its swap image
      suffices hnone3 : leafOf c s3 p = none by
        have hl : content c s3 p r = s3.swap p r := by
          unfold content
          rw [hnone3]
        rw [hl, hcA, hswap3]
      rcases hres : leafOf c s3 p with _ | F3
      · rfl
      · exfalso
        have hres' : pathTo c s3 0 (pageDigits c p) = some F3 := hres
        by_cases hF3X : F3 = X
        · rcases Bool.eq_false_or_eq_true isLeaf with hb | hb
          · -- the freshly restored leaf serves only the faulting page
            have hptp : p ≠ tp := fun h => hcase ⟨h, hb⟩
            have hresLX : leafOf c s3 p = some X := by
              rw [hres, hF3X]
            have htpX : leafOf c s3 tp = some X := by
              unfold leafOf
              rw [← hfull hb]
              exact hpathQR
            obtain ⟨ep, hep, hprep, hchp⟩ := leafEdge_of_leafOf c s3 hDpos hp hresLX
            obtain ⟨et, het, hpret, hchet⟩ := leafEdge_of_leafOf c s3 hDpos htp htpX
            have heq : ep = et := List.inj_on_of_nodup_map
              (List.nodup_cons.1 hndT3).2 (List.mem_of_mem_filter hep)
              (List.mem_of_mem_filter het) (by rw [hchp, hchet])
            apply hptp
            rw [← hprep, ← hpret, heq]
          · -- a full path cannot end at the just-linked table frame
            have hlt4 : (q ++ [row]).length < c.tablesDepth := by
              simp only [List.length_append, List.length_singleton]
              have hne : ¬(q.length + 1 = c.tablesDepth) := by
                intro h
                have ht := hleaf_iff.2 h
                rw [hb] at ht
                exact absurd ht (by decide)
              omega
            obtain ⟨e3, he3, hc3, _, hel3, _⟩ := path_to_edge c s3
              (pageDigits c p) 0 0 c.tablesDepth (pageDigits_rows c p)
              (by rw [pageDigits_length]; omega) (by rw [pageDigits_length])
              F3 hres'
            obtain ⟨e4, he4, hc4, _, _, hnl4⟩ := path_to_edge c s3
              (q ++ [row]) 0 0 c.tablesDepth hrowsQR (by simp)
              (le_of_lt hlt4) X hpathQR
            have hl3 : e3.leaf = true := hel3 (pageDigits_length c p)
            have hl4 : e4.leaf = false := hnl4 hlt4
            have heq : e3 = e4 := List.inj_on_of_nodup_map
              (List.nodup_cons.1 hndT3).2 he3 he4 (by rw [hc3, hc4, hF3X])
            rw [heq, hl4] at hl3
            exact absurd hl3 (by decide)
        · -- a survivor path avoids the linked frame, so undoing the link
          -- keeps it alive, back into the pre-link tree
          have hXpn3 : X ∉ pathNodes c s3 0 (pageDigits c p) := by
            rcases Bool.eq_false_or_eq_true isLeaf with hb | hb
            · have hlenD : (q ++ [row]).length = c.tablesDepth := by
                simp only [List.length_append, List.length_singleton]
                have := hleaf_iff.1 hb
                omega
              obtain ⟨e4, he4, hc4, _, hel4, _⟩ := path_to_edge c s3
                (q ++ [row]) 0 0 c.tablesDepth hrowsQR (by simp)
                (le_of_eq hlenD) X hpathQR
              have hl4 : e4.leaf = true := hel4 hlenD
              refine notin_pathNodes_of_nonleaf_free c s3 ?_
                (pageDigits_rows c p) (le_of_eq (pageDigits_length c p))
                hres' (fun h => hF3X h.symm)
              intro e2 he2 hl2 hc2
              have heq : e2 = e4 := List.inj_on_of_nodup_map
                (List.nodup_cons.1 hndT3).2 he2 he4 (by rw [hc2, hc4])
              rw [heq, hl4] at hl2
              exact absurd hl2 (by decide)
            · have hz3 : AllZeroF c s3 X := by
                intro i hi
                rw [hagree3 _ (phys_ne c (fun h => hpfX h.symm) hi hrow)]
                exact hs2zero hb i hi
              exact notin_pathNodes_of_allzero c s3 hz3 (pageDigits_rows c p)
                hres' (fun h => hF3X h.symm)
          have hback : ∀ a, PMread (PMwrite s3 (phys c pf row) 0) a
              = PMread s2 a := by
            intro a
            rw [PMread_PMwrite]
            by_cases ha : a = phys c pf row
            · rw [if_pos ha, ha, hmiss2]
              exact wrapWord_zero
            · rw [if_neg ha]
              exact hagree3 a ha
          have h2w := (pathTo_write_preserved c s3 pf row 0 (pageDigits c p)
            0 F3 hres' (by rw [hXeq3]; exact hXpn3)).1
          have h2s : pathTo c s2 0 (pageDigits c p) = some F3 :=
            (pathTo_ext c s2 (PMwrite s3 (phys c pf row) 0) hback
              (pageDigits c p) 0).symm.trans h2w
          obtain ⟨e2, he2, hpre2, _⟩ := leafEdge_of_leafOf c s2 hDpos hp h2s
          have he2A : e2 ∈ leafEdges c sA := by
            have hfilter : leafEdges c s2 = leafEdges c sA := by
              unfold leafEdges
              rw [hedR]
            rw [← hfilter]
            exact he2
          have hmm := leafOf_of_leafEdge c sA hDpos he2A
          rw [hpre2, hps] at hmm
          cases hmm
  · -- p mapped before the link keeps its frame and its word
    have hpathF : pathTo c sA 0 (pageDigits c p) = some F := hps
    obtain ⟨eF, heF, hpreF, hchF⟩ := leafEdge_of_leafOf c sA hDpos hp hps
    have hFT : F ∈ targetsOf (rootEdges c sA) := by
      rw [← hchF]
      exact List.mem_map_of_mem Edge.child (List.mem_of_mem_filter heF)
    have hF0 : F ≠ 0 := fun h => (List.nodup_cons.1 p5).1 (h ▸ hFT)
    have hFX : F ≠ X := fun h => hXnt (h ▸ hFT)
    have hFpf : F ≠ pf := by
      rcases q with _ | ⟨r0, q2⟩
      · have hpf0 : 0 = pf := Option.some.inj p10
        rw [← hpf0]
        exact hF0
      · intro h
        obtain ⟨epf, hepf, hcpf, _, _, hnlpf⟩ := path_to_edge c sA (r0 :: q2)
          0 0 c.tablesDepth hrows (by simp) (le_of_lt hqlen) pf p10
        have hlpf : epf.leaf = false := hnlpf hqlen
        have hleF : eF.leaf = true := List.of_mem_filter heF
        have heq : epf = eF := List.inj_on_of_nodup_map
          (List.nodup_cons.1 p5).2 hepf (List.mem_of_mem_filter heF)
          (by rw [hcpf, hchF]; exact h.symm)
        rw [heq, hleF] at hlpf
        exact absurd hlpf (by decide)
    have hXpnP : X ∉ pathNodes c sA 0 (pageDigits c p) := fun h =>
      hXnt (pathNodes_sub_targets c sA (pageDigits c p) 0 0 c.tablesDepth
        (pageDigits_rows c p) (le_of_eq (pageDigits_length c p)) _ h)
    obtain ⟨hpathF2, _⟩ := pathTo_frame_preserved c sA s2 X hs2agree
      (pageDigits c p) 0 F (pageDigits_rows c p) hpathF hX0c hXpnP
    have hpathF3 : pathTo c s3 0 (pageDigits c p) = some F := by
      rw [hs3]
      refine (pathTo_write_preserved c s2 pf row (X : Int) (pageDigits c p)
        0 F hpathF2 ?_).1
      rw [hmiss2]
      have h0 : toU64 0 = 0 := by decide
      rw [h0]
      exact pathNodes_nonzero c s2 hG2.1 (pageDigits c p) 0
    have hlf3 : leafOf c s3 p = some F := hpathF3
    have hl : content c s3 p r = s3.ram (phys c F r) := by
      unfold content
      rw [hlf3]
    have hrA : content c sA p r = sA.ram (phys c F r) := by
      unfold content
      rw [hps]
    rw [hl, hrA]
    have h1 : PMread s3 (phys c F r) = PMread s2 (phys c F r) :=
      hagree3 _ (phys_ne c hFpf hr hrow)
    have h2 : PMread s2 (phys c F r) = PMread sA (phys c F r) :=
      hs2agree _ (fun i hi => phys_ne c hFX hr hi)
    exact h1.trans h2

/-- The translation walk, even when it allocates, reuses, evicts, restores
and links frames, preserves the logical content of every page. -/
theorem walkAux_content (c : Cfg) (hOK : CfgOK c) (va : Nat)
    (hva : va < c.VIRTUAL_MEMORY_SIZE) (p : Nat) (hp : p < c.NUM_PAGES)
    (r : Nat) (hr : r < c.PAGE_SIZE) :
    ∀ (rem : Nat), ∀ (level f : Nat) (s : VMState),
      rem + level = c.tablesDepth →
      GoodS s → cellsOK c s → treeUniq c s → CONTIG c s →
      pathTo c s 0 ((List.range level).map (indexAtLevel c va)) = some f →
      content c (walkAux c va true rem level f s).2 p r = content c s p r := by
  intro rem
  induction rem with
  | zero =>
    intro level f s hlen hG hcells hND hcontig hpath
    rfl
  | succ rem ih =>
    intro level f s hlen hG hcells hND hcontig hpath
    have hrow := indexAtLevel_lt c va level
    have hlev : level < c.tablesDepth := by omega
    have hqlen2 : ((List.range level).map (indexAtLevel c va)).length
        < c.tablesDepth := by
      rw [List.length_map, List.length_range]
      exact hlev
    have hrowsq : RowsOK c ((List.range level).map (indexAtLevel c va)) := by
      intro x hx
      rcases List.mem_map.1 hx with ⟨j, _, rfl⟩
      exact indexAtLevel_lt c va j
    have hqsucc : (List.range (level + 1)).map (indexAtLevel c va)
        = (List.range level).map (indexAtLevel c va)
          ++ [indexAtLevel c va level] := by
      rw [List.range_succ, List.map_append, List.map_cons, List.map_nil]
    rw [walkAux_unfold]
    by_cases hz : PMread s (phys c f (indexAtLevel c va level)) = 0
    · rw [if_pos hz, if_pos rfl]
      have htpva := page_of_va_lt c hva
      have hpages := no_tp_leaf c s (by omega) va level f hlev hpath hz
      rcases hXA : allocateFrame c s f (indexAtLevel c va level)
          (va >>> c.offsetWidth) (level + 1 == c.tablesDepth) with ⟨X, sA⟩
      obtain ⟨p1, p2, p3, p4, p5, p6, p7, p8, p9, p10, p11, p12⟩ :=
        alloc_spec c s hOK (va >>> c.offsetWidth) f (indexAtLevel c va level)
          (level + 1 == c.tablesDepth) _ hG hcells hND hcontig hrowsq hqlen2 hpath
          hrow hz htpva hpages X sA hXA
      have hcA := (alloc_content c s hOK (va >>> c.offsetWidth) f
        (indexAtLevel c va level) (level + 1 == c.tablesDepth) _ hG hcells hND
        hcontig hrowsq hqlen2 hpath hrow hz htpva hpages X sA hXA p hp r hr).1
      dsimp only
      have hiff : ((level + 1 == c.tablesDepth) = true)
          ↔ ((List.range level).map (indexAtLevel c va)).length + 1
              = c.tablesDepth := by
        rw [List.length_map, List.length_range]
        exact beq_iff_eq
      have hfull : (level + 1 == c.tablesDepth) = true →
          (List.range level).map (indexAtLevel c va)
              ++ [indexAtLevel c va level]
            = pageDigits c (va >>> c.offsetWidth) := by
        intro hb
        rw [pageDigits_walker, ← hqsucc]
        have hD1 : level + 1 = c.tablesDepth := beq_iff_eq.1 hb
        rw [hD1]
      obtain ⟨l1, l2, l3, l4, l5, l6, l7⟩ := link_spec c sA hOK f
        (indexAtLevel c va level) X (va >>> c.offsetWidth)
        (level + 1 == c.tablesDepth) ((List.range level).map (indexAtLevel c va))
        p1 p2 p3 p4 p5 p9 p10 p11 hrowsq hrow hqlen2 hiff _ rfl _ rfl
      have hcL := link_content c sA hOK f (indexAtLevel c va level) X
        (va >>> c.offsetWidth) (level + 1 == c.tablesDepth)
        ((List.range level).map (indexAtLevel c va))
        p1 p2 p3 p4 p5 p9 p10 p11 hrowsq hrow hqlen2 hiff hfull htpva
        _ rfl _ rfl p hp r hr
      have hup : ∀ u ∈ targetsOf (rootEdges c s),
          u ∈ targetsOf (rootEdges c (PMwrite
            (if (level + 1 == c.tablesDepth : Bool) then
              PMrestore c sA X (va >>> c.offsetWidth)
            else clearFrame c sA X false)
            (phys c f (indexAtLevel c va level)) (X : Int))) := by
        intro u hu
        by_cases huX : u = X
        · rw [huX]
          exact l6
        · exact l5 _ (p7 u hu huX)
      have hcontig3 : CONTIG c (PMwrite
          (if (level + 1 == c.tablesDepth : Bool) then
            PMrestore c sA X (va >>> c.offsetWidth)
          else clearFrame c sA X false)
          (phys c f (indexAtLevel c va level)) (X : Int)) := by
        intro t ht j hj1 hj2
        rcases l4 t ht with rfl | htA
        · rcases p8 with hXs | hX1 | hXm1
          · exact hup j (hcontig _ hXs j hj1 hj2)
          · have hjt : j = t := by omega
            rw [hjt]
            exact ht
          · by_cases hjX : j = t
            · rw [hjX]
              exact ht
            · have hj2b : j ≤ t - 1 := by omega
              exact hup j (hcontig _ hXm1 j hj1 hj2b)
        · have hts := (p6 t htA).1
          exact hup j (hcontig t hts j hj1 hj2)
      have hpath3 : pathTo c (PMwrite
          (if (level + 1 == c.tablesDepth : Bool) then
            PMrestore c sA X (va >>> c.offsetWidth)
          else clearFrame c sA X false)
          (phys c f (indexAtLevel c va level)) (X : Int)) 0
          ((List.range (level + 1)).map (indexAtLevel c va)) = some X := by
        rw [hqsucc]
        exact l7
      have hrec := ih (level + 1) X _ (by omega) l1 l2 l3 hcontig3 hpath3
      rw [hrec, hcL, hcA]
    · rw [if_neg hz]
      have hpath2 : pathTo c s 0 ((List.range (level + 1)).map (indexAtLevel c va))
          = some (toU64 (PMread s (phys c f (indexAtLevel c va level)))) := by
        rw [hqsucc]
        exact pathTo_snoc c s _ 0 f _ hpath hz
      exact ih (level + 1) _ s (by omega) hG hcells hND hcontig hpath2

/-- The full creating walk preserves every page's logical content. -/
theorem walk_content (c : Cfg) (hOK : CfgOK c) (va : Nat)
    (hva : va < c.VIRTUAL_MEMORY_SIZE) (s : VMState)
    (hG : GoodS s) (hcells : cellsOK c s) (hND : treeUniq c s)
    (hcontig : CONTIG c s) (p : Nat) (hp : p < c.NUM_PAGES)
    (r : Nat) (hr : r < c.PAGE_SIZE) :
    content c (walk c s va true).2 p r = content c s p r := by
  unfold walk
  exact walkAux_content c hOK va hva p hp r hr c.tablesDepth 0 0 s (by omega)
    hG hcells hND hcontig rfl

/-- Writing a word into a full walk's resolved data frame preserves the
content of every other page. -/
theorem leaf_write_content (c : Cfg) (hOK : CfgOK c) (s' : VMState)
    (h : StateInv c s') (va F : Nat)
    (hva : va < c.VIRTUAL_MEMORY_SIZE)
    (hpath : pathTo c s' 0 ((List.range c.tablesDepth).map (indexAtLevel c va))
      = some F)
    (off : Nat) (hoff : off < c.PAGE_SIZE) (v : Int)
    (p : Nat) (hp : p < c.NUM_PAGES) (hpva : p ≠ va >>> c.offsetWidth)
    (r : Nat) (hr : r < c.PAGE_SIZE) :
    content c (PMwrite s' (phys c F off) v) p r = content c s' p r := by
  obtain ⟨hG, hcells, hND, hcontig⟩ := h
  have hD : 1 ≤ c.tablesDepth := by
    have := hOK.2.1
    omega
  have hndT : (targetsOf (rootEdges c s')).Nodup := (List.nodup_cons.1 hND).2
  have h0nt : 0 ∉ targetsOf (rootEdges c s') := (List.nodup_cons.1 hND).1
  have hpva2 : va >>> c.offsetWidth < c.NUM_PAGES := page_of_va_lt c hva
  have hlfva : leafOf c s' (va >>> c.offsetWidth) = some F := by
    unfold leafOf
    rw [pageDigits_walker]
    exact hpath
  obtain ⟨eF, heF, hpreF, hchF⟩ := leafEdge_of_leafOf c s' hD hpva2 hlfva
  have heleaf : eF.leaf = true := List.of_mem_filter heF
  have hFt : F ∈ targetsOf (rootEdges c s') := by
    rw [← hchF]
    exact List.mem_map_of_mem Edge.child (List.mem_of_mem_filter heF)
  have hF0 : F ≠ 0 := fun hh => h0nt (hh ▸ hFt)
  have hFnt : ∀ g ∈ tableChildren (edges c s' c.tablesDepth 0 0), g ≠ F := by
    intro g hg hgF
    rcases mem_tableChildren.1 hg with ⟨e2, he2, he2l, he2c⟩
    have he2e : e2 = eF := List.inj_on_of_nodup_map hndT he2
      (List.mem_of_mem_filter heF) (by rw [he2c, hgF, hchF])
    rw [he2e, heleaf] at he2l
    cases he2l
  have hagree : ∀ a, (∀ i < c.PAGE_SIZE, a ≠ phys c F i) →
      PMread (PMwrite s' (phys c F off) v) a = PMread s' a := by
    intro a ha
    rw [PMread_PMwrite, if_neg (ha off hoff)]
  have hed : edges c (PMwrite s' (phys c F off) v) c.tablesDepth 0 0
      = edges c s' c.tablesDepth 0 0 :=
    edges_congr_frame c s' _ F hagree c.tablesDepth 0 0 (fun hh => hF0 hh.symm) hFnt
  have hedR : rootEdges c (PMwrite s' (phys c F off) v) = rootEdges c s' := hed
  have hswapW : (PMwrite s' (phys c F off) v).swap = s'.swap := rfl
  rcases hps : leafOf c s' p with _ | Fp
  · have hnoneW : leafOf c (PMwrite s' (phys c F off) v) p = none :=
      leafOf_none_of_sublist c s' _ hD hp (by rw [hedR]) hps
    have hl : content c (PMwrite s' (phys c F off) v) p r
        = (PMwrite s' (phys c F off) v).swap p r := by
      unfold content
      rw [hnoneW]
    have hrA : content c s' p r = s'.swap p r := by
      unfold content
      rw [hps]
    rw [hl, hrA, hswapW]
  · obtain ⟨ep, hep, hprep, hchp⟩ := leafEdge_of_leafOf c s' hD hp hps
    have hepW : ep ∈ leafEdges c (PMwrite s' (phys c F off) v) := by
      have hfilter : leafEdges c (PMwrite s' (phys c F off) v) = leafEdges c s' := by
        unfold leafEdges
        rw [hedR]
      rw [hfilter]
      exact hep
    have hlfW := leafOf_of_leafEdge c _ hD hepW
    rw [hprep, hchp] at hlfW
    have hFpF : Fp ≠ F := by
      intro hh
      apply hpva
      have hee : ep = eF := List.inj_on_of_nodup_map hndT
        (List.mem_of_mem_filter hep) (List.mem_of_mem_filter heF)
        (by rw [hchp, hchF]; exact hh)
      rw [← hprep, ← hpreF, hee]
    have hl : content c (PMwrite s' (phys c F off) v) p r
        = (PMwrite s' (phys c F off) v).ram (phys c Fp r) := by
      unfold content
      rw [hlfW]
    have hrA : content c s' p r = s'.ram (phys c Fp r) := by
      unfold content
      rw [hps]
    rw [hl, hrA]
    exact hagree _ (fun i hi => phys_ne c hFpF hr hi)

/-- After storing through the walk's resolved data frame, that frame still
serves the written page. -/
theorem leaf_write_self (c : Cfg) (hOK : CfgOK c) (s' : VMState)
    (h : StateInv c s') (va F : Nat)
    (hva : va < c.VIRTUAL_MEMORY_SIZE)
    (hpath : pathTo c s' 0 ((List.range c.tablesDepth).map (indexAtLevel c va))
      = some F)
    (off : Nat) (hoff : off < c.PAGE_SIZE) (v : Int) :
    leafOf c (PMwrite s' (phys c F off) v) (va >>> c.offsetWidth) = some F := by
  obtain ⟨hG, hcells, hND, hcontig⟩ := h
  have hD : 1 ≤ c.tablesDepth := by
    have := hOK.2.1
    omega
  have hndT : (targetsOf (rootEdges c s')).Nodup := (List.nodup_cons.1 hND).2
  have h0nt : 0 ∉ targetsOf (rootEdges c s') := (List.nodup_cons.1 hND).1
  have hpva2 : va >>> c.offsetWidth < c.NUM_PAGES := page_of_va_lt c hva
  have hlfva : leafOf c s' (va >>> c.offsetWidth) = some F := by
    unfold leafOf
    rw [pageDigits_walker]
    exact hpath
  obtain ⟨eF, heF, hpreF, hchF⟩ := leafEdge_of_leafOf c s' hD hpva2 hlfva
  have heleaf : eF.leaf = true := List.of_mem_filter heF
  have hFt : F ∈ targetsOf (rootEdges c s') := by
    rw [← hchF]
    exact List.mem_map_of_mem Edge.child (List.mem_of_mem_filter heF)
  have hF0 : F ≠ 0 := fun hh => h0nt (hh ▸ hFt)
  have hFnt : ∀ g ∈ tableChildren (edges c s' c.tablesDepth 0 0), g ≠ F := by
    intro g hg hgF
    rcases mem_tableChildren.1 hg with ⟨e2, he2, he2l, he2c⟩
    have he2e : e2 = eF := List.inj_on_of_nodup_map hndT he2
      (List.mem_of_mem_filter heF) (by rw [he2c, hgF, hchF])
    rw [he2e, heleaf] at he2l
    cases he2l
  have hagree : ∀ a, (∀ i < c.PAGE_SIZE, a ≠ phys c F i) →
      PMread (PMwrite s' (phys c F off) v) a = PMread s' a := by
    intro a ha
    rw [PMread_PMwrite, if_neg (ha off hoff)]
  have hed : edges c (PMwrite s' (phys c F off) v) c.tablesDepth 0 0
      = edges c s' c.tablesDepth 0 0 :=
    edges_congr_frame c s' _ F hagree c.tablesDepth 0 0 (fun hh => hF0 hh.symm) hFnt
  have hedR : rootEdges c (PMwrite s' (phys c F off) v) = rootEdges c s' := hed
  have heFW : eF ∈ leafEdges c (PMwrite s' (phys c F off) v) := by
    have hfilter : leafEdges c (PMwrite s' (phys c F off) v) = leafEdges c s' := by
      unfold leafEdges
      rw [hedR]
    rw [hfilter]
    exact heF
  have hlfW := leafOf_of_leafEdge c _ hD heFW
  rw [hpreF, hchF] at hlfW
  exact hlfW

/-- `VMread` preserves the logical content of every page. -/
theorem VMread_content (c : Cfg) (hOK : CfgOK c) (s : VMState) (va : Nat)
    (h : StateInv c s) (p : Nat) (hp : p < c.NUM_PAGES)
    (r : Nat) (hr : r < c.PAGE_SIZE) :
    content c (VMread c s va).2 p r = content c s p r := by
  unfold VMread
  by_cases hva : va ≥ c.VIRTUAL_MEMORY_SIZE
  · rw [if_pos hva]
  · rw [if_neg hva]
    exact walk_content c hOK va (by omega) s h.1 h.2.1 h.2.2.1 h.2.2.2 p hp r hr

/-- `VMwrite` preserves the logical content of every page other than the
one it writes. -/
theorem VMwrite_content (c : Cfg) (hOK : CfgOK c) (s : VMState) (va : Nat)
    (v : Int) (h : StateInv c s) (p : Nat) (hp : p < c.NUM_PAGES)
    (hpva : p ≠ va >>> c.offsetWidth)
    (r : Nat) (hr : r < c.PAGE_SIZE) :
    content c (VMwrite c s va v).2 p r = content c s p r := by
  unfold VMwrite
  by_cases hva : va ≥ c.VIRTUAL_MEMORY_SIZE
  · rw [if_pos hva]
  · rw [if_neg hva]
    dsimp only
    obtain ⟨hG, hcells, hND, hcontig⟩ := h
    obtain ⟨hG2, hcells2, hND2, hcontig2, F, hF1, hF2⟩ :=
      walk_spec c hOK va (by omega) s hG hcells hND hcontig
    have hw : (walk c s va true).1.getD 0 = F := by
      rw [hF1]
      rfl
    rw [hw]
    have hLW := leaf_write_content c hOK (walk c s va true).2
      ⟨hG2, hcells2, hND2, hcontig2⟩ va F (by omega) hF2 (offsetOf c va)
      (Nat.mod_lt _ (PAGE_SIZE_pos c)) v p hp hpva r hr
    rw [hLW]
    exact walk_content c hOK va (by omega) s hG hcells hND hcontig p hp r hr

/-- A sequence of operations that never touches page `p` preserves the
logical content of `p`. -/
theorem runOps_content (c : Cfg) (hOK : CfgOK c) (p : Nat)
    (hp : p < c.NUM_PAGES) (r : Nat) (hr : r < c.PAGE_SIZE) :
    ∀ (ops : List Op) (s : VMState), StateInv c s →
      (∀ op ∈ ops, opVA op >>> c.offsetWidth ≠ p) →
      content c (runOps c s ops) p r = content c s p r := by
  intro ops
  induction ops with
  | nil => exact fun s _ _ => rfl
  | cons op rest ih =>
    intro s hInv hops
    have hstep : runOps c s (op :: rest) = runOps c (applyOp c s op) rest := rfl
    rw [hstep, ih (applyOp c s op) (Inv_applyOp c hOK s hInv op)
      (fun o ho => hops o (List.mem_cons_of_mem _ ho))]
    rcases op with va | ⟨va, v⟩
    · exact VMread_content c hOK s va hInv p hp r hr
    · refine VMwrite_content c hOK s va v hInv p hp ?_ r hr
      intro hh
      exact hops (Op.wr va v) (List.mem_cons_self _ _) hh.symm

/-- A `VMread` at an in-range address returns success and the page's
logical content at the address's offset. -/
theorem VMread_hit (c : Cfg) (hOK : CfgOK c) (s : VMState) (va : Nat)
    (hva : va < c.VIRTUAL_MEMORY_SIZE) (h : StateInv c s) (v : Int)
    (hc : content c s (va >>> c.offsetWidth) (offsetOf c va) = v) :
    (VMread c s va).1.1 = 1 ∧ (VMread c s va).1.2 = some v := by
  obtain ⟨hG, hcells, hND, hcontig⟩ := h
  obtain ⟨hG2, hcells2, hND2, hcontig2, F, hF1, hF2⟩ :=
    walk_spec c hOK va hva s hG hcells hND hcontig
  have hoff : offsetOf c va < c.PAGE_SIZE := Nat.mod_lt _ (PAGE_SIZE_pos c)
  have hpg : va >>> c.offsetWidth < c.NUM_PAGES := page_of_va_lt c hva
  have hnge : ¬(va ≥ c.VIRTUAL_MEMORY_SIZE) := by omega
  have hlfR : leafOf c (walk c s va true).2 (va >>> c.offsetWidth) = some F := by
    unfold leafOf
    rw [pageDigits_walker]
    exact hF2
  have hcR : content c (walk c s va true).2 (va >>> c.offsetWidth)
      (offsetOf c va)
      = PMread (walk c s va true).2 (phys c F (offsetOf c va)) := by
    unfold content
    rw [hlfR]
    rfl
  have hval : PMread (walk c s va true).2 (phys c F (offsetOf c va)) = v := by
    rw [← hcR,
      walk_content c hOK va hva s hG hcells hND hcontig _ hpg _ hoff]
    exact hc
  constructor
  · unfold VMread
    rw [if_neg hnge]
  · unfold VMread
    rw [if_neg hnge]
    show some (PMread (walk c s va true).2
      (phys c ((walk c s va true).1.getD 0) (offsetOf c va))) = some v
    rw [hF1]
    have hget : (some F).getD 0 = F := rfl
    rw [hget, hval]

/-- C1: Round trip — for every virtual address `a < VIRTUAL_MEMORY_SIZE`
and every word value `v`, starting from the initialized state,
`VMwrite(a, v)` followed by `VMread(a, &out)` sets `out` to `v` and both
calls return 1, even when the two calls are separated by in-range
`VMread`/`VMwrite` operations on addresses of other virtual pages that may
force eviction of `a`'s page and its later restoration. -/
theorem C1_round_trip (c : Cfg) (hOK : CfgOK c) (va : Nat)
    (hva : va < c.VIRTUAL_MEMORY_SIZE) (v : Int)
    (hv1 : -(2 ^ 31) ≤ v) (hv2 : v < 2 ^ 31)
    (mid : List Op)
    (hmid : ∀ op ∈ mid, opVA op < c.VIRTUAL_MEMORY_SIZE ∧
      opVA op >>> c.offsetWidth ≠ va >>> c.offsetWidth) :
    (VMwrite c (initialState c) va v).1 = 1 ∧
    (VMread c (runOps c (VMwrite c (initialState c) va v).2 mid) va).1.1 = 1 ∧
    (VMread c (runOps c (VMwrite c (initialState c) va v).2 mid) va).1.2
      = some v := by
  have hP := PAGE_SIZE_pos c
  have hoff : offsetOf c va < c.PAGE_SIZE := Nat.mod_lt _ hP
  have hpg : va >>> c.offsetWidth < c.NUM_PAGES := page_of_va_lt c hva
  have hnge : ¬(va ≥ c.VIRTUAL_MEMORY_SIZE) := by omega
  obtain ⟨hG0, hcells0, hND0, hcontig0⟩ := Inv_initialState c hOK
  obtain ⟨hG1, hcells1, hND1, hcontig1, F, hF1, hF2⟩ :=
    walk_spec c hOK va hva (initialState c) hG0 hcells0 hND0 hcontig0
  have hret1 : (VMwrite c (initialState c) va v).1 = 1 := by
    unfold VMwrite
    rw [if_neg hnge]
  have hsW : (VMwrite c (initialState c) va v).2
      = PMwrite (walk c (initialState c) va true).2
          (phys c F (offsetOf c va)) v := by
    unfold VMwrite
    rw [if_neg hnge]
    show PMwrite (walk c (initialState c) va true).2
        (phys c ((walk c (initialState c) va true).1.getD 0) (offsetOf c va)) v
      = PMwrite (walk c (initialState c) va true).2
          (phys c F (offsetOf c va)) v
    rw [hF1]
    have hget : (some F).getD 0 = F := rfl
    rw [hget]
  have hlfW : leafOf c (VMwrite c (initialState c) va v).2
      (va >>> c.offsetWidth) = some F := by
    rw [hsW]
    exact leaf_write_self c hOK _ ⟨hG1, hcells1, hND1, hcontig1⟩ va F hva hF2
      (offsetOf c va) hoff v
  have hcW : content c (VMwrite c (initialState c) va v).2
      (va >>> c.offsetWidth) (offsetOf c va) = v := by
    have hl : content c (VMwrite c (initialState c) va v).2
        (va >>> c.offsetWidth) (offsetOf c va)
        = (VMwrite c (initialState c) va v).2.ram
            (phys c F (offsetOf c va)) := by
      unfold content
      rw [hlfW]
    rw [hl, hsW]
    show PMread (PMwrite (walk c (initialState c) va true).2
        (phys c F (offsetOf c va)) v) (phys c F (offsetOf c va)) = v
    rw [PMread_PMwrite, if_pos rfl]
    exact wrapWord_eq_self hv1 hv2
  have hInvW : StateInv c (VMwrite c (initialState c) va v).2 :=
    Inv_VMwrite c hOK (initialState c) va v (Inv_initialState c hOK)
  have hcM : content c (runOps c (VMwrite c (initialState c) va v).2 mid)
      (va >>> c.offsetWidth) (offsetOf c va) = v := by
    rw [runOps_content c hOK _ hpg _ hoff mid _ hInvW
      (fun op ho => (hmid op ho).2)]
    exact hcW
  have hInvM : StateInv c (runOps c (VMwrite c (initialState c) va v).2 mid) :=
    Inv_runOps c hOK mid _ hInvW
  obtain ⟨hr1, hr2⟩ := VMread_hit c hOK
    (runOps c (VMwrite c (initialState c) va v).2 mid) va hva hInvM v hcM
  exact ⟨hret1, hr1, hr2⟩

theorem C1_round_trip_witness :
    CfgOK testCfg ∧ (0 : Nat) < testCfg.VIRTUAL_MEMORY_SIZE ∧
    -(2 ^ 31) ≤ (41 : Int) ∧ (41 : Int) < 2 ^ 31 ∧
    (∀ op ∈ [Op.wr 6 42, Op.rd 6], opVA op < testCfg.VIRTUAL_MEMORY_SIZE ∧
      opVA op >>> testCfg.offsetWidth ≠ 0 >>> testCfg.offsetWidth) ∧
    ((VMwrite testCfg (initialState testCfg) 0 41).1 = 1 ∧
     (VMread testCfg (runOps testCfg
         (VMwrite testCfg (initialState testCfg) 0 41).2
         [Op.wr 6 42, Op.rd 6]) 0).1.1 = 1 ∧
     (VMread testCfg (runOps testCfg
         (VMwrite testCfg (initialState testCfg) 0 41).2
         [Op.wr 6 42, Op.rd 6]) 0).1.2 = some 41) :=
  ⟨by decide, by decide, by decide, by decide, by decide,
   C1_round_trip testCfg (by decide) 0 (by decide) 41 (by decide) (by decide)
     [Op.wr 6 42, Op.rd 6] (by decide)⟩

/-! ## Claim C8: clearing policy -/

/-- C8: on every priority path of every allocator call, a frame returned
for use as a table (`isLeaf = false`) has all `PAGE_SIZE` of its words
zero at return, while a frame returned for use as a leaf (`isLeaf = true`)
has all of its words left with exactly the values they had before the call
(the allocator writes nothing into it; its contents are populated by the
subsequent `PMrestore`).  The hypotheses are the reachable-state
invariants (uniqueness, cell bounds, contiguous frame usage) and the
call-site facts that the target page is a valid page number served by no
mapped leaf; the eviction path's victim is derived from these, so calls in
leaf-free states (which take the reuse or fresh path) are covered. -/
theorem C8_clearing_policy (c : Cfg) (s : VMState) (hOK : CfgOK c)
    (tp pf pr : Nat)
    (hND : treeUniq c s) (hcells : cellsOK c s) (hcontig : CONTIG c s)
    (htp : tp < c.NUM_PAGES)
    (hpages : ∀ e ∈ leafEdges c s, e.pre ≠ tp) :
    (∀ row < c.PAGE_SIZE,
      PMread (allocateFrame c s pf pr tp false).2
        (phys c (allocateFrame c s pf pr tp false).1 row) = 0) ∧
    (∀ row < c.PAGE_SIZE,
      PMread (allocateFrame c s pf pr tp true).2
        (phys c (allocateFrame c s pf pr tp true).1 row)
        = PMread s (phys c (allocateFrame c s pf pr tp true).1 row)) := by
  have hD : 1 ≤ c.tablesDepth := by
    have := hOK.2.1
    omega
  have hNM : U64MAX ∉ targetsOf (rootEdges c s) := by
    intro h
    have h1 := target_lt_NF c s hcells _ h
    have h2 := hOK.2.2.2
    unfold U64MAX at h1
    omega
  constructor
  · intro row hrow
    by_cases h1 : (scanRoot c s tp pf).emptyFrame ≠ U64MAX ∧ (scanRoot c s tp pf).emptyFrame ≠ pf
    · rw [allocateFrame_reuse_case c s pf pr tp false h1]
      exact clearFrame_table_zero c
        (PMwrite s (phys c (scanRoot c s tp pf).emptyParent (scanRoot c s tp pf).emptyRowInParent) 0)
        (scanRoot c s tp pf).emptyFrame row hrow
    · by_cases h2 : (scanRoot c s tp pf).maxFrame + 1 < c.numFrames
      · rw [allocateFrame_fresh_case c s pf pr tp false h1 h2]
        exact clearFrame_table_zero c s ((scanRoot c s tp pf).maxFrame + 1) row hrow
      · rw [allocateFrame_evict_case c s pf pr tp false h1 h2]
        exact clearFrame_table_zero c
          (PMwrite (PMevict c s (scanRoot c s tp pf).victimFrame (scanRoot c s tp pf).victimPage)
            (phys c (scanRoot c s tp pf).victimParent (scanRoot c s tp pf).victimRowInParent) 0)
          (scanRoot c s tp pf).victimFrame row hrow
  · have hF0 : (0 : Nat) ≠ U64MAX := by decide
    have hspec := scan_empty_spec c s tp pf c.tablesDepth 0 0 {} hND hNM hF0
    unfold EmptySpec at hspec
    obtain ⟨hA, _, _⟩ := hspec
    obtain ⟨hAnil, hAcons⟩ := hA rfl
    intro row hrow
    rcases hc : cands c s pf with _ | ⟨E0, tl⟩
    · -- no reuse candidate: a fresh frame or an eviction victim
      have hsf : (scanRoot c s tp pf).emptyFrame = U64MAX :=
        congrArg (fun x => x.1) (hAnil hc)
      have hng : ¬((scanRoot c s tp pf).emptyFrame ≠ U64MAX ∧
          (scanRoot c s tp pf).emptyFrame ≠ pf) := fun h => h.1 hsf
      by_cases h2 : (scanRoot c s tp pf).maxFrame + 1 < c.numFrames
      · rw [allocateFrame_fresh_case c s pf pr tp true hng h2]
        show PMread (clearFrame c s ((scanRoot c s tp pf).maxFrame + 1) true)
          (phys c ((scanRoot c s tp pf).maxFrame + 1) row)
          = PMread s (phys c ((scanRoot c s tp pf).maxFrame + 1) row)
        rw [clearFrame_leaf]
      · have hneleaf : leafEdges c s ≠ [] :=
          victim_exists c s hOK pf tp hND hcontig hcells hc h2
        rw [allocateFrame_evict_case c s pf pr tp true hng h2]
        have hvic : victimOf (scanRoot c s tp pf)
            = (leafEdges c s).foldl (vstep c tp) (victimOf {}) := by
          unfold scanRoot leafEdges rootEdges
          exact scan_victimOf c s tp pf c.tablesDepth 0 0 {}
        rcases foldl_vstep_spec c tp (leafEdges c s) (victimOf {}) with
          ⟨hle, _⟩ | ⟨l₁, e, l₂, hsplit, _, _, _, heq⟩
        · obtain ⟨e0, he0⟩ := List.exists_mem_of_ne_nil (leafEdges c s) hneleaf
          have h0 : 0 < distTo c tp e0 :=
            cyclicDistance_pos c (leafEdges_pre_lt c s hD e0 he0) htp (hpages e0 he0)
          have hcon : distTo c tp e0 ≤ 0 := hle e0 he0
          omega
        · have hv : victimOf (scanRoot c s tp pf)
              = (e.child, e.parent, e.row, e.pre, distTo c tp e) := hvic.trans heq
          have hvf : (scanRoot c s tp pf).victimFrame = e.child := congrArg (fun t => t.1) hv
          have hvp : (scanRoot c s tp pf).victimParent = e.parent := congrArg (fun t => t.2.1) hv
          have hvr : (scanRoot c s tp pf).victimRowInParent = e.row := congrArg (fun t => t.2.2.1) hv
          have heL : e ∈ leafEdges c s := by
            rw [hsplit]
            exact List.mem_append_right _ (List.mem_cons_self _ _)
          have heR : e ∈ rootEdges c s := List.mem_of_mem_filter heL
          have hself : e.parent ≠ e.child :=
            edges_no_self c s c.tablesDepth 0 0 hND e heR
          have herow : e.row < c.PAGE_SIZE := edges_row_lt c s c.tablesDepth 0 0 e heR
          show PMread (clearFrame c
              (PMwrite (PMevict c s (scanRoot c s tp pf).victimFrame (scanRoot c s tp pf).victimPage)
                (phys c (scanRoot c s tp pf).victimParent (scanRoot c s tp pf).victimRowInParent) 0)
              (scanRoot c s tp pf).victimFrame true)
            (phys c (scanRoot c s tp pf).victimFrame row) = PMread s (phys c (scanRoot c s tp pf).victimFrame row)
          rw [clearFrame_leaf, PMread_PMwrite]
          have hne2 : phys c (scanRoot c s tp pf).victimFrame row
              ≠ phys c (scanRoot c s tp pf).victimParent (scanRoot c s tp pf).victimRowInParent := by
            rw [hvf, hvp, hvr]
            exact phys_ne c (fun hh => hself hh.symm) hrow herow
          rw [if_neg hne2]
          rfl
    · -- reuse: the parent entry write may alias a word of the all-zero frame
      obtain ⟨hEf, _⟩ := hAcons E0 tl hc
      have hsf : (scanRoot c s tp pf).emptyFrame = E0 := hEf
      have hE0mem : E0 ∈ cands c s pf := by
        rw [hc]
        exact List.mem_cons_self _ _
      have hfacts := candsIn_mem c s pf c.tablesDepth 0 E0 hE0mem
      have hzero : AllZeroF c s E0 := hfacts.1
      have hE0z : E0 ≠ 0 := hfacts.2.1
      have hE0pf : E0 ≠ pf := hfacts.2.2.1
      have hE0t : E0 ∈ targetsOf (rootEdges c s) := by
        rcases hfacts.2.2.2 0 with h | h
        · exact absurd h hE0z
        · exact h
      have hE0MAX : E0 ≠ U64MAX := fun hh => hNM (hh ▸ hE0t)
      have h1 : (scanRoot c s tp pf).emptyFrame ≠ U64MAX ∧
          (scanRoot c s tp pf).emptyFrame ≠ pf :=
        ⟨by rw [hsf]; exact hE0MAX, by rw [hsf]; exact hE0pf⟩
      rw [allocateFrame_reuse_case c s pf pr tp true h1]
      show PMread (clearFrame c
          (PMwrite s (phys c (scanRoot c s tp pf).emptyParent (scanRoot c s tp pf).emptyRowInParent) 0)
          (scanRoot c s tp pf).emptyFrame true)
        (phys c (scanRoot c s tp pf).emptyFrame row) = PMread s (phys c (scanRoot c s tp pf).emptyFrame row)
      rw [clearFrame_leaf, PMread_PMwrite]
      by_cases hab : phys c (scanRoot c s tp pf).emptyFrame row
          = phys c (scanRoot c s tp pf).emptyParent (scanRoot c s tp pf).emptyRowInParent
      · rw [if_pos hab]
        have h0 : PMread s (phys c (scanRoot c s tp pf).emptyFrame row) = 0 := by
          rw [hsf]
          exact hzero row hrow
        rw [h0, wrapWord_zero]
      · rw [if_neg hab]

/-- Witness for C8 at the reference configuration and the reachable state
`witState`, parent frame `1`, target page `0`. -/
theorem C8_clearing_policy_witness :
    CfgOK testCfg ∧ treeUniq testCfg witState ∧ cellsOK testCfg witState ∧
    CONTIG testCfg witState ∧ 0 < testCfg.NUM_PAGES ∧
    (∀ e ∈ leafEdges testCfg witState, e.pre ≠ 0) ∧
    ((∀ row < testCfg.PAGE_SIZE,
      PMread (allocateFrame testCfg witState 1 0 0 false).2
        (phys testCfg (allocateFrame testCfg witState 1 0 0 false).1 row) = 0) ∧
    (∀ row < testCfg.PAGE_SIZE,
      PMread (allocateFrame testCfg witState 1 0 0 true).2
        (phys testCfg (allocateFrame testCfg witState 1 0 0 true).1 row)
        = PMread witState (phys testCfg (allocateFrame testCfg witState 1 0 0 true).1 row))) := by
  have hInv : StateInv testCfg witState :=
    Inv_runOps testCfg (by decide) [Op.wr 0 41, Op.wr 6 42, Op.wr 2 43]
      (initialState testCfg) (Inv_initialState testCfg (by decide))
  exact ⟨by decide, by decide, hInv.2.1, hInv.2.2.2, by decide, by decide,
    C8_clearing_policy testCfg witState (by decide) 0 1 0 (by decide) hInv.2.1
      hInv.2.2.2 (by decide) (by decide)⟩
